import Mathlib

/-!
# image_processor: bitmap codec and filters

A shallow embedding of `src/imageio/imageio.cpp` and `src/imagefilter/imagefilter.cpp`,
and the properties of the specification proved about it.

Conventions of the embedding:

* `int` / `int32_t` values are mathematical integers (`Int`); an arithmetic
  result that can leave the 32-bit range for an image the constructor can
  build goes through `wrap32` (two's complement wrap-around).  The index
  `y * width_ + x` of a position inside a valid image and the counters of the
  unit-stride loops stay in range and are left unwrapped.
* `float` values are rationals (`ℚ`), and the arithmetic on them has two
  readings.  In the exact reading, that of the claims on "channel arithmetic
  read as exact", the operations are those of `ℚ`, `0.299f` is `299/1000`, and
  so on; the filters under their plain names are in this reading.  In the
  float32 reading every operation on `float` rounds its exact result to the
  nearest `float` (`f32`: IEEE 754 binary32, round to nearest, ties to even,
  each operation on its own, as x86-64 evaluates it); the definitions `F32.…`
  are in this reading, and `F32.GaussianBlurFilter.Apply` takes from it the
  kernel size and the underflow of the divisor of the exponent.
* bytes are `Fin 256`; a file is a `List Byte`; a file that cannot be opened
  is `none`.
* `std::vector<Colour>` is `List Colour`; an out-of-range `operator[]`
  (undefined behaviour in C++) reads `Colour()` and writes nothing.
* objects that `Image::Read` declares without initialising them take their
  contents from a parameter `Uninit`.
* an exception is the `error` case of `Except Failure`.
* a `for` loop with unit stride is `forUp` / `forDown`; a loop whose stride is a
  run-time value carries fuel and returns `none` when the fuel runs out.
* `std::exp` and the constant `std::sqrt(two * M_PI)` of the Gaussian kernel are
  parameters of the embedding (`exp : ℚ → ℚ`, `sqrt_two_pi : ℚ`); the theorems
  that need it assume only that their values are positive.
-/

namespace ImageProcessor

/-! ## Machine integers and bytes -/

/-- Largest value of `int32_t`. -/
def INT32_MAX : Int := 2147483647

/-- The `int32_t` that a 32-bit two's complement machine stores for the
mathematical result `v`. -/
def wrap32 (v : Int) : Int := (v + 2147483648) % 4294967296 - 2147483648

/-- One byte of a file. -/
abbrev Byte := Fin 256

/-- The byte with value `n mod 256`. -/
def toByte (n : Nat) : Byte := ⟨n % 256, Nat.mod_lt n (by decide)⟩

/-- Memory image of an `int16_t`, little-endian. -/
def le16 (v : Int) : List Byte :=
  let u := (v % 65536).toNat
  [toByte u, toByte (u / 256)]

/-- Memory image of an `int32_t`, little-endian. -/
def le32 (v : Int) : List Byte :=
  let u := (v % 4294967296).toNat
  [toByte u, toByte (u / 256), toByte (u / 65536), toByte (u / 16777216)]

/-- The `int16_t` stored in two little-endian bytes. -/
def int16_of (b0 b1 : Byte) : Int :=
  let u : Int := (b0.val : Int) + 256 * (b1.val : Int)
  if u < 32768 then u else u - 65536

/-- The `int32_t` stored in four little-endian bytes. -/
def int32_of (b0 b1 b2 b3 : Byte) : Int :=
  wrap32 ((b0.val : Int) + 256 * (b1.val : Int) + 65536 * (b2.val : Int) + 16777216 * (b3.val : Int))

/-- Truncation toward zero of a float to an integer. -/
def trunc (v : ℚ) : Int := Int.tdiv v.num (v.den : Int)

/-- Conversion `static_cast<unsigned char>(v)` of a float: the fraction is
discarded (truncation toward zero); a value outside `[0, 255]` keeps its low
eight bits. -/
def uchar (v : ℚ) : Byte := toByte ((trunc v) % 256).toNat

/-! ## Loops -/

/-- Runs `body i`, `body (i+1)`, ... for `n` iterations. -/
def loopUp {σ : Type} (body : Int → σ → σ) : Int → Nat → σ → σ
  | _, 0, s => s
  | i, n + 1, s => loopUp body (i + 1) n (body i s)

/-- The loop `for (int i = lo; i < hi; ++i) body`. -/
def forUp {σ : Type} (lo hi : Int) (body : Int → σ → σ) (s : σ) : σ :=
  loopUp body lo (hi - lo).toNat s

/-- Runs `body i`, `body (i-1)`, ... for `n` iterations. -/
def loopDown {σ : Type} (body : Int → σ → σ) : Int → Nat → σ → σ
  | _, 0, s => s
  | i, n + 1, s => loopDown body (i - 1) n (body i s)

/-- The loop `for (int i = hi; i >= lo; --i) body`. -/
def forDown {σ : Type} (hi lo : Int) (body : Int → σ → σ) (s : σ) : σ :=
  loopDown body hi (hi - lo + 1).toNat s

/-- The loop `for (int i = start; i < hi; i += step) body`, whose body may
itself fail to finish; `none` when `fuel` iterations were not enough. -/
def forStep {σ : Type} (hi step : Int) (body : Int → σ → Option σ) : Nat → Int → σ → Option σ
  | 0, _, _ => none
  | fuel + 1, i, s =>
    if i < hi then
      match body i s with
      | none => none
      | some s1 => forStep hi step body fuel (wrap32 (i + step)) s1
    else some s

/-! ## Colour and Image (imageio.h) -/

/-- The errors a call can end with: the two `ImageException`s of
`image_exception.h` and the `std::length_error` of a `std::vector` asked for a
negative number of elements. -/
inductive Failure where
  | FileOpenException
  | InvalidBMPFormatException
  | length_error
  deriving DecidableEq

/-- One RGB sample, `struct Colour`. -/
structure Colour where
  red_ : ℚ
  green_ : ℚ
  blue_ : ℚ
  deriving DecidableEq

/-- Default constructor `Colour::Colour()`: black. -/
instance : Inhabited Colour := ⟨⟨0, 0, 0⟩⟩

/-- The raster, `class Image`. -/
structure Image where
  width_ : Int
  height_ : Int
  data_ : List Colour
  deriving DecidableEq

namespace Image

/-- Accessor `Image::GetWidth`. -/
def GetWidth (img : Image) : Int := img.width_

/-- Accessor `Image::GetHeight`. -/
def GetHeight (img : Image) : Int := img.height_

/-- Constructor `Image::Image(int width, int height)`: `width * height`
default colours; a negative product, converted to `size_t`, exceeds
`max_size()` and the vector constructor throws. -/
def new (width height : Int) : Except Failure Image :=
  let n := wrap32 (width * height)
  if n < 0 then .error .length_error
  else .ok { width_ := width, height_ := height, data_ := List.replicate n.toNat default }

/-- Reader `Image::GetColour`: `data_[y * width_ + x]`. -/
def GetColour (img : Image) (x y : Int) : Colour :=
  let i := y * img.width_ + x
  if 0 ≤ i then img.data_.getD i.toNat default else default

/-- Writer `Image::SetColour`: `data_[y * width_ + x] = colour`. -/
def SetColour (img : Image) (colour : Colour) (x y : Int) : Image :=
  let i := y * img.width_ + x
  if 0 ≤ i then { img with data_ := img.data_.set i.toNat colour } else img

/-- The invariant the constructor establishes: both dimensions are
non-negative `int32_t` values, their product is an `int`, and `data_` holds
exactly `width_ * height_` colours. -/
def Valid (img : Image) : Prop :=
  0 ≤ img.width_ ∧ 0 ≤ img.height_ ∧ img.width_ ≤ INT32_MAX ∧ img.height_ ≤ INT32_MAX ∧
    img.width_ * img.height_ ≤ INT32_MAX ∧ (img.data_.length : Int) = img.width_ * img.height_

instance (img : Image) : Decidable img.Valid := by
  unfold Valid; infer_instance

/-- Every channel of every stored colour lies in `[0, 1]`. -/
def InUnit (img : Image) : Prop :=
  ∀ c ∈ img.data_, (0 ≤ c.red_ ∧ c.red_ ≤ 1) ∧ (0 ≤ c.green_ ∧ c.green_ ≤ 1) ∧
    (0 ≤ c.blue_ ∧ c.blue_ ≤ 1)

instance (img : Image) : Decidable img.InUnit := by
  unfold InUnit; infer_instance

end Image

/-! ## The bitmap headers (imageio.cpp, packed) -/

/-- The 14-byte `struct FileHeader`. -/
structure FileHeader where
  signature0 : Byte := 66
  signature1 : Byte := 77
  file_size : Int
  reserved : Int := 0
  pixel_data_offset : Int

/-- The 40-byte `struct InfoHeader`. -/
structure InfoHeader where
  header_size : Int := 40
  width : Int
  height : Int
  planes : Int := 1
  bits_per_pixel : Int := 24
  compression : Int := 0
  image_size : Int := 0
  x_pixels_per_meter : Int := 0
  y_pixels_per_meter : Int := 0
  total_colors : Int := 0
  important_colors : Int := 0

/-- Value of `sizeof(FileHeader)`, the structure being packed. -/
def sizeof_FileHeader : Nat := 14

/-- Value of `sizeof(InfoHeader)`, the structure being packed. -/
def sizeof_InfoHeader : Nat := 40

/-- Memory image of a `FileHeader`. -/
def FileHeader.bytes (h : FileHeader) : List Byte :=
  [h.signature0, h.signature1] ++ le32 h.file_size ++ le32 h.reserved ++ le32 h.pixel_data_offset

/-- Memory image of an `InfoHeader`. -/
def InfoHeader.bytes (h : InfoHeader) : List Byte :=
  le32 h.header_size ++ le32 h.width ++ le32 h.height ++ le16 h.planes ++ le16 h.bits_per_pixel ++
    le32 h.compression ++ le32 h.image_size ++ le32 h.x_pixels_per_meter ++
    le32 h.y_pixels_per_meter ++ le32 h.total_colors ++ le32 h.important_colors

/-- The `FileHeader` whose memory image is `m`. -/
def FileHeader.ofBytes (m : List Byte) : FileHeader :=
  let b := fun i => m.getD i 0
  { signature0 := b 0, signature1 := b 1,
    file_size := int32_of (b 2) (b 3) (b 4) (b 5),
    reserved := int32_of (b 6) (b 7) (b 8) (b 9),
    pixel_data_offset := int32_of (b 10) (b 11) (b 12) (b 13) }

/-- The `InfoHeader` whose memory image is `m`. -/
def InfoHeader.ofBytes (m : List Byte) : InfoHeader :=
  let b := fun i => m.getD i 0
  let i32 := fun i => int32_of (b i) (b (i + 1)) (b (i + 2)) (b (i + 3))
  { header_size := i32 0, width := i32 4, height := i32 8,
    planes := int16_of (b 12) (b 13), bits_per_pixel := int16_of (b 14) (b 15),
    compression := i32 16, image_size := i32 20, x_pixels_per_meter := i32 24,
    y_pixels_per_meter := i32 28, total_colors := i32 32, important_colors := i32 36 }

/-! ## Export (imageio.cpp) -/

/-- The row padding `(4 - (width_ * 3) % 4) % 4`, with C++ `%`. -/
def padding_amount (width_ : Int) : Int :=
  Int.tmod (4 - Int.tmod (wrap32 (width_ * 3)) 4) 4

/-- The three bytes written for one pixel: blue, green, red. -/
def pixel_bytes (col : Colour) : List Byte :=
  [uchar (col.blue_ * 255), uchar (col.green_ * 255), uchar (col.red_ * 255)]

/-- Writer `Image::Export`: the bytes of the file written, or
`FileOpenException` when the file could not be opened. -/
def Image.Export (img : Image) (is_open : Bool) : Except Failure (List Byte) :=
  if !is_open then .error .FileOpenException
  else
    let padding := padding_amount img.width_
    let pixel_data_offset : Int := (sizeof_FileHeader + sizeof_InfoHeader : Nat)
    let file_size :=
      wrap32 (pixel_data_offset + wrap32 (wrap32 (wrap32 (img.width_ * 3) + padding) * img.height_))
    let file_header : FileHeader :=
      { file_size := file_size, pixel_data_offset := pixel_data_offset }
    let info_header : InfoHeader := { width := img.width_, height := img.height_ }
    let f : List Byte := file_header.bytes.take sizeof_FileHeader
    let f := f ++ info_header.bytes.take sizeof_InfoHeader
    let f := forDown (img.height_ - 1) 0 (fun y f =>
      let f := forUp 0 img.width_ (fun x f => f ++ pixel_bytes (img.GetColour x y)) f
      if padding > 0 then f ++ ([0, 0, 0] : List Byte).take padding.toNat else f) f
    .ok f

/-! ## Read (imageio.cpp) -/

/-- An input file stream: the bytes not yet consumed and the fail bit. -/
structure IStream where
  rest : List Byte
  fail : Bool

/-- The call `f.read(buf, n)`: the bytes available, at most `n`, overwrite the
start of `buf`; a short read sets the fail bit, and a failed stream reads
nothing. -/
def IStream.read (f : IStream) (buf : List Byte) (n : Nat) : List Byte × IStream :=
  if f.fail then (buf, f)
  else
    let got := f.rest.take n
    (got ++ buf.drop got.length, { rest := f.rest.drop n, fail := decide (got.length < n) })

/-- The call `f.seekg(off, std::ios::cur)` with `off ≥ 0`. -/
def IStream.seekg_cur (f : IStream) (off : Int) : IStream :=
  if f.fail then f else { f with rest := f.rest.drop off.toNat }

/-- The contents of the objects `Image::Read` declares without initialising
them: the header fields without a default member initialiser and the buffer
`colour[3]` of each loop iteration. -/
structure Uninit where
  file_size : Int
  pixel_data_offset : Int
  width : Int
  height : Int
  colour : Int → Int → List Byte

/-- The object `FileHeader file_header;` as `Image::Read` declares it: the
default member initialisers, the other fields indeterminate. -/
def Uninit.file_header (u : Uninit) : FileHeader :=
  { file_size := u.file_size, pixel_data_offset := u.pixel_data_offset }

/-- The object `InfoHeader info_header;` as `Image::Read` declares it: the
default member initialisers, width and height indeterminate. -/
def Uninit.info_header (u : Uninit) : InfoHeader :=
  { width := u.width, height := u.height }

/-- One iteration of the inner loop of `Image::Read`: three bytes are read
into `colour` and the pixel `(x, y)` is set from them. -/
def read_pixel (u : Uninit) (x y : Int) (s : IStream × Image) : IStream × Image :=
  let r := s.1.read ((u.colour x y).take 3) 3
  let colour := r.1
  let red := ((colour.getD 2 0).val : ℚ) / 255
  let green := ((colour.getD 1 0).val : ℚ) / 255
  let blue := ((colour.getD 0 0).val : ℚ) / 255
  (r.2, s.2.SetColour ⟨red, green, blue⟩ x y)

/-- One iteration of the outer loop of `Image::Read`: the pixels of row `y`,
then the padding is skipped. -/
def read_row (u : Uninit) (width_ padding y : Int) (s : IStream × Image) : IStream × Image :=
  let s := forUp 0 width_ (fun x s => read_pixel u x y s) s
  if padding > 0 then (s.1.seekg_cur padding, s.2) else s

/-- The part of `Image::Read` after the header checks: `data_.assign` and the
pixel loops, on the stream positioned behind the headers. -/
def read_pixels (u : Uninit) (width_ height_ : Int) (f : IStream) : Except Failure Image :=
  let n := wrap32 (width_ * height_)
  if n < 0 then .error .length_error
  else
    let img : Image :=
      { width_ := width_, height_ := height_, data_ := List.replicate n.toNat default }
    let padding := padding_amount width_
    let s := forDown (height_ - 1) 0 (fun y s => read_row u width_ padding y s) (f, img)
    .ok s.2

/-- Reader `Image::Read`: the raster decoded from the file `file` (`none`: the
file cannot be opened). -/
def Image.Read (u : Uninit) (file : Option (List Byte)) : Except Failure Image :=
  match file with
  | none => .error .FileOpenException
  | some bytes =>
    let f : IStream := { rest := bytes, fail := false }
    let file_header : FileHeader := u.file_header
    let r := f.read file_header.bytes sizeof_FileHeader
    let file_header := FileHeader.ofBytes r.1
    if file_header.signature0 ≠ 66 ∨ file_header.signature1 ≠ 77 then
      .error .InvalidBMPFormatException
    else
      let info_header : InfoHeader := u.info_header
      let r := r.2.read info_header.bytes sizeof_InfoHeader
      let info_header := InfoHeader.ofBytes r.1
      let bmp_form : Int := 24
      if info_header.bits_per_pixel ≠ bmp_form then .error .InvalidBMPFormatException
      else read_pixels u info_header.width info_header.height r.2

/-! ## Filters (imagefilter.cpp) -/

/-- Filter `CropFilter::Apply` of `CropFilter(width_, height_)`. -/
def CropFilter.Apply (width_ height_ : Int) (image : Image) : Except Failure Image :=
  let new_width := min width_ image.GetWidth
  let new_height := min height_ image.GetHeight
  match Image.new new_width new_height with
  | .error e => .error e
  | .ok cropped_image =>
    .ok (forUp 0 new_height (fun y cropped_image =>
      forUp 0 new_width (fun x cropped_image =>
        cropped_image.SetColour (image.GetColour x y) x y) cropped_image) cropped_image)

/-- The weighted sum `0.299 * red + 0.587 * green + 0.114 * blue`, in the
exact reading (`F32.gray_of` is the float32 reading). -/
def gray_of (pixel : Colour) : ℚ :=
  let grayscale_red : ℚ := 299 / 1000
  let grayscale_green : ℚ := 587 / 1000
  let grayscale_blue : ℚ := 114 / 1000
  grayscale_red * pixel.red_ + grayscale_green * pixel.green_ + grayscale_blue * pixel.blue_

/-- Filter `GrayscaleFilter::Apply`. -/
def GrayscaleFilter.Apply (image : Image) : Except Failure Image :=
  match Image.new image.GetWidth image.GetHeight with
  | .error e => .error e
  | .ok grayscale_image =>
    .ok (forUp 0 image.GetHeight (fun y grayscale_image =>
      forUp 0 image.GetWidth (fun x grayscale_image =>
        let pixel := image.GetColour x y
        let gray := gray_of pixel
        grayscale_image.SetColour ⟨gray, gray, gray⟩ x y) grayscale_image) grayscale_image)

/-- Filter `NegativeFilter::Apply`. -/
def NegativeFilter.Apply (image : Image) : Except Failure Image :=
  match Image.new image.GetWidth image.GetHeight with
  | .error e => .error e
  | .ok negative_image =>
    .ok (forUp 0 image.GetHeight (fun y negative_image =>
      forUp 0 image.GetWidth (fun x negative_image =>
        let pixel := image.GetColour x y
        negative_image.SetColour ⟨1 - pixel.red_, 1 - pixel.green_, 1 - pixel.blue_⟩ x y)
        negative_image) negative_image)

/-- The entry `mat[i][j]` of a matrix stored as a vector of rows. -/
def mat_at (mat : List (List ℚ)) (i j : Int) : ℚ :=
  (mat.getD i.toNat []).getD j.toNat 0

/-- The kernel `sharp_mat` of `SharpeningFilter::Apply`. -/
def sharp_mat : List (List ℚ) := [[0, -1, 0], [-1, 5, -1], [0, -1, 0]]

/-- The sums `sum_red`, `sum_green`, `sum_blue` that `SharpeningFilter::Apply`
accumulates at `(x, y)` before it clamps them, held as one `Colour`, in the
exact reading (`F32.sharp_sum` is the float32 reading). -/
def sharp_sum (image : Image) (x y : Int) : Colour :=
  forUp (-1) (1 + 1) (fun ky sum =>
    forUp (-1) (1 + 1) (fun kx sum =>
      let nx := x + kx
      let ny := y + ky
      if nx ≥ 0 ∧ nx < image.GetWidth ∧ ny ≥ 0 ∧ ny < image.GetHeight then
        let neighbour_colour := image.GetColour nx ny
        let kernel_value := mat_at sharp_mat (ky + 1) (kx + 1)
        { red_ := sum.red_ + kernel_value * neighbour_colour.red_,
          green_ := sum.green_ + kernel_value * neighbour_colour.green_,
          blue_ := sum.blue_ + kernel_value * neighbour_colour.blue_ }
      else
        let original_colour := image.GetColour x y
        let kernel_value := mat_at sharp_mat (ky + 1) (kx + 1)
        { red_ := sum.red_ + kernel_value * original_colour.red_,
          green_ := sum.green_ + kernel_value * original_colour.green_,
          blue_ := sum.blue_ + kernel_value * original_colour.blue_ }) sum) ⟨0, 0, 0⟩

/-- Filter `SharpeningFilter::Apply`. -/
def SharpeningFilter.Apply (image : Image) : Except Failure Image :=
  match Image.new image.GetWidth image.GetHeight with
  | .error e => .error e
  | .ok sharpened_image =>
    .ok (forUp 0 image.GetHeight (fun y sharpened_image =>
      forUp 0 image.GetWidth (fun x sharpened_image =>
        let sum := sharp_sum image x y
        sharpened_image.SetColour
          ⟨min 1 (max 0 sum.red_), min 1 (max 0 sum.green_), min 1 (max 0 sum.blue_)⟩
          x y) sharpened_image) sharpened_image)

/-- The kernel `edge_mat` of `EdgeDetectionFilter::Apply`. -/
def edge_mat : List (List ℚ) := [[0, -1, 0], [-1, 4, -1], [0, -1, 0]]

/-- The convolution sum `EdgeDetectionFilter::Apply` accumulates at `(x, y)`
over the grayscale image, in the exact reading (`F32.edge_sum` is the float32
reading). -/
def edge_sum (grayscale_image : Image) (x y : Int) : ℚ :=
  forUp (-1) (1 + 1) (fun ky sum =>
    forUp (-1) (1 + 1) (fun kx sum =>
      let nx := x + kx
      let ny := y + ky
      let inside : Bool := decide (nx ≥ 0 ∧ nx < grayscale_image.GetWidth ∧ ny ≥ 0 ∧
        ny < grayscale_image.GetHeight)
      let nx := if !inside then x else nx
      let ny := if !inside then y else ny
      let neighbour_colour := grayscale_image.GetColour nx ny
      let kernel_value := mat_at edge_mat (ky + 1) (kx + 1)
      sum + kernel_value * neighbour_colour.red_) sum) 0

/-- Filter `EdgeDetectionFilter::Apply` of `EdgeDetectionFilter(threshold_)`. -/
def EdgeDetectionFilter.Apply (threshold_ : ℚ) (image : Image) : Except Failure Image :=
  match GrayscaleFilter.Apply image with
  | .error e => .error e
  | .ok grayscale_image =>
    match Image.new grayscale_image.GetWidth grayscale_image.GetHeight with
    | .error e => .error e
    | .ok edge_image =>
      .ok (forUp 0 grayscale_image.GetHeight (fun y edge_image =>
        forUp 0 grayscale_image.GetWidth (fun x edge_image =>
          let sum := edge_sum grayscale_image x y
          let edge_colour : Colour := if sum > threshold_ then ⟨1, 1, 1⟩ else ⟨0, 0, 0⟩
          edge_image.SetColour edge_colour x y) edge_image) edge_image)

/-- The conversion `static_cast<int>(v)` of a `float`: the fraction is dropped.
A value outside the range of `int` (undefined behaviour in C++) gives
`INT_MIN`, which is what the conversion instruction of x86 delivers. -/
def static_cast_int (v : ℚ) : Int :=
  if -2147483648 ≤ trunc v ∧ trunc v ≤ 2147483647 then trunc v else -2147483648

/-- The element `v[i]` of a `std::vector<float>`. -/
def vec_at (v : List ℚ) (i : Int) : ℚ :=
  if 0 ≤ i then v.getD i.toNat 0 else 0

/-- The loop of `GaussianBlurFilter::Apply` that fills the kernel: the values
pushed, one for each `x` from `-kernel_size / 2` to `kernel_size / 2`, and
their `sum`, in the exact reading.  `exp` stands for `std::exp` and
`sqrt_two_pi` for `std::sqrt(two * M_PI)`. -/
def gaussian_fill (exp : ℚ → ℚ) (sqrt_two_pi sigma_ : ℚ) (kernel_size : Int) : List ℚ × ℚ :=
  forUp (Int.tdiv (-kernel_size) 2) (Int.tdiv kernel_size 2 + 1) (fun x s =>
    let two : ℚ := 2
    let value := exp (((wrap32 (-(wrap32 (x * x))) : Int) : ℚ) / (two * sigma_ * sigma_)) /
      (sqrt_two_pi * sigma_)
    (s.1 ++ [value], s.2 + value)) ([], 0)

/-- The kernel `gaussian_kernel` of `GaussianBlurFilter::Apply` after the loop
that divides every value by `sum`. -/
def gaussian_kernel (exp : ℚ → ℚ) (sqrt_two_pi sigma_ : ℚ) (kernel_size : Int) : List ℚ :=
  (gaussian_fill exp sqrt_two_pi sigma_ kernel_size).1.map (fun value =>
    value / (gaussian_fill exp sqrt_two_pi sigma_ kernel_size).2)

/-- The `kx` loop of the horizontal pass of `GaussianBlurFilter::Apply`:
`new_red`, `new_green`, `new_blue` at `(x, y)`, held as one `Colour`. -/
def blur_row (gaussian_kernel : List ℚ) (kernel_size : Int) (image : Image) (x y : Int) :
    Colour :=
  forUp (Int.tdiv (-kernel_size) 2) (Int.tdiv kernel_size 2 + 1) (fun kx new =>
    if wrap32 (x + kx) ≥ 0 ∧ wrap32 (x + kx) < image.GetWidth then
      let neighbour := image.GetColour (wrap32 (x + kx)) y
      let kernel_value := vec_at gaussian_kernel (kx + Int.tdiv kernel_size 2)
      { red_ := new.red_ + kernel_value * neighbour.red_,
        green_ := new.green_ + kernel_value * neighbour.green_,
        blue_ := new.blue_ + kernel_value * neighbour.blue_ }
    else new) ⟨0, 0, 0⟩

/-- The `ky` loop of the vertical pass of `GaussianBlurFilter::Apply`: it
reads `blurred_image`, the image the pass is writing. -/
def blur_column (gaussian_kernel : List ℚ) (kernel_size : Int) (image blurred_image : Image)
    (x y : Int) : Colour :=
  forUp (Int.tdiv (-kernel_size) 2) (Int.tdiv kernel_size 2 + 1) (fun ky new =>
    if wrap32 (y + ky) ≥ 0 ∧ wrap32 (y + ky) < image.GetHeight then
      let neighbour := blurred_image.GetColour x (wrap32 (y + ky))
      let kernel_value : ℚ :=
        if ky + Int.tdiv kernel_size 2 ≥ 0 ∧ ky + Int.tdiv kernel_size 2 < kernel_size then
          vec_at gaussian_kernel (ky + Int.tdiv kernel_size 2)
        else 0
      { red_ := new.red_ + kernel_value * neighbour.red_,
        green_ := new.green_ + kernel_value * neighbour.green_,
        blue_ := new.blue_ + kernel_value * neighbour.blue_ }
    else new) ⟨0, 0, 0⟩

/-- The horizontal pass of `GaussianBlurFilter::Apply`: it reads `image` and
writes `blurred_image`. -/
def blur_horizontal (gaussian_kernel : List ℚ) (kernel_size : Int) (image blurred_image : Image) :
    Image :=
  forUp 0 image.GetHeight (fun y blurred_image =>
    forUp 0 image.GetWidth (fun x blurred_image =>
      blurred_image.SetColour (blur_row gaussian_kernel kernel_size image x y) x y)
      blurred_image) blurred_image

/-- The vertical pass of `GaussianBlurFilter::Apply`: it reads and writes
`blurred_image`. -/
def blur_vertical (gaussian_kernel : List ℚ) (kernel_size : Int) (image blurred_image : Image) :
    Image :=
  forUp 0 image.GetHeight (fun y blurred_image =>
    forUp 0 image.GetWidth (fun x blurred_image =>
      blurred_image.SetColour
        (blur_column gaussian_kernel kernel_size image blurred_image x y) x y)
      blurred_image) blurred_image

/-- Filter `GaussianBlurFilter::Apply` of `GaussianBlurFilter(sigma_)` in the
exact reading: the kernel size is the conversion of the exact value of
`6 * sigma_ + 1` (`F32.GaussianBlurFilter.Apply` converts its float32 value).
`gaussian_kernel.reserve(kernel_size)` throws `std::length_error` for a
negative `kernel_size`. -/
def GaussianBlurFilter.Apply (exp : ℚ → ℚ) (sqrt_two_pi sigma_ : ℚ) (image : Image) :
    Except Failure Image :=
  match Image.new image.GetWidth image.GetHeight with
  | .error e => .error e
  | .ok blurred_image =>
    let kernel_size := static_cast_int (6 * sigma_ + 1)
    if kernel_size < 0 then .error .length_error
    else
      let kernel := gaussian_kernel exp sqrt_two_pi sigma_ kernel_size
      let blurred_image := blur_horizontal kernel kernel_size image blurred_image
      let blurred_image := blur_vertical kernel kernel_size image blurred_image
      .ok blurred_image

/-- The running sums of one block of `PixelationFilter::Apply`. -/
structure BlockSum where
  avg_red : ℚ
  avg_green : ℚ
  avg_blue : ℚ
  pixel_count : Int

/-- The first pair of `dy`/`dx` loops of `PixelationFilter::Apply`: the channel
sums and the number of the pixels of the block at `(x, y)` inside the image. -/
def block_sum (pixel_size : Int) (image : Image) (x y : Int) : BlockSum :=
  forUp 0 pixel_size (fun dy acc =>
    forUp 0 pixel_size (fun dx acc =>
      let nx := wrap32 (x + dx)
      let ny := wrap32 (y + dy)
      if nx < image.GetWidth ∧ ny < image.GetHeight then
        let pixel_colour := image.GetColour nx ny
        { avg_red := acc.avg_red + pixel_colour.red_,
          avg_green := acc.avg_green + pixel_colour.green_,
          avg_blue := acc.avg_blue + pixel_colour.blue_,
          pixel_count := wrap32 (acc.pixel_count + 1) }
      else acc) acc) ⟨0, 0, 0, 0⟩

/-- The second pair of `dy`/`dx` loops of `PixelationFilter::Apply`: the block
at `(x, y)` of `pixelated_image` is painted with `colour`. -/
def block_fill (pixel_size : Int) (image : Image) (colour : Colour) (x y : Int)
    (pixelated_image : Image) : Image :=
  forUp 0 pixel_size (fun dy pixelated_image =>
    forUp 0 pixel_size (fun dx pixelated_image =>
      let nx := wrap32 (x + dx)
      let ny := wrap32 (y + dy)
      if nx < image.GetWidth ∧ ny < image.GetHeight then
        pixelated_image.SetColour colour nx ny
      else pixelated_image) pixelated_image) pixelated_image

/-- Filter `PixelationFilter::Apply` of `PixelationFilter(pixel_size_)`; the
two outer loops advance by `pixel_size`, so the call gets `fuel` iterations
for each of them and is `none` when they do not end within that. -/
def PixelationFilter.Apply (pixel_size_ : Int) (fuel : Nat) (image : Image) :
    Option (Except Failure Image) :=
  match Image.new image.GetWidth image.GetHeight with
  | .error e => some (.error e)
  | .ok pixelated_image =>
    let pixel_size := pixel_size_
    let done := forStep image.GetHeight pixel_size (fun y pixelated_image =>
      forStep image.GetWidth pixel_size (fun x pixelated_image =>
        let acc := block_sum pixel_size image x y
        let avg_red := acc.avg_red / (acc.pixel_count : ℚ)
        let avg_green := acc.avg_green / (acc.pixel_count : ℚ)
        let avg_blue := acc.avg_blue / (acc.pixel_count : ℚ)
        some (block_fill pixel_size image ⟨avg_red, avg_green, avg_blue⟩ x y pixelated_image))
        fuel 0 pixelated_image) fuel 0 pixelated_image
    match done with
    | none => none
    | some pixelated_image => some (.ok pixelated_image)

/-! ## Reference definitions for the statements -/

deriving instance DecidableEq for Colour
deriving instance DecidableEq for Image
deriving instance DecidableEq for Except

/-- The image has dimensions `w × h` and stores exactly `w * h` colours. -/
def SizeOK (img : Image) (w h : Int) : Prop :=
  img.width_ = w ∧ img.height_ = h ∧ 0 ≤ w ∧ 0 ≤ h ∧ (img.data_.length : Int) = w * h

instance (img : Image) (w h : Int) : Decidable (SizeOK img w h) := by
  unfold SizeOK; infer_instance

/-- The bytes `Image::Export` writes for raster row `y`: the pixels from left
to right, then the padding. -/
def export_row (img : Image) (y : Int) : List Byte :=
  (List.range img.width_.toNat).flatMap (fun x => pixel_bytes (img.GetColour x y)) ++
    List.replicate (padding_amount img.width_).toNat 0

/-- The colour `Image::Read` builds from the three bytes at offset `o`. -/
def read_colour (bytes : List Byte) (o : Nat) : Colour :=
  ⟨((bytes.getD (o + 2) 0).val : ℚ) / 255, ((bytes.getD (o + 1) 0).val : ℚ) / 255,
    ((bytes.getD o 0).val : ℚ) / 255⟩

/-- The 54 header bytes of the file of a `w × h` raster, field by field. -/
def export_header (w h : Int) : List Byte :=
  [66, 77] ++ le32 (54 + (3 * w + padding_amount w) * h) ++ le32 0 ++ le32 54 ++
    le32 40 ++ le32 w ++ le32 h ++ le16 1 ++ le16 24 ++ le32 0 ++
    le32 0 ++ le32 0 ++ le32 0 ++ le32 0 ++ le32 0

/-- Number of bytes of one row of the file: three per pixel and the padding. -/
def row_size (w : Int) : Nat := 3 * w.toNat + (padding_amount w).toNat

/-- The 2×2 raster with pixels red, green (top row), blue, white (bottom row). -/
def sample_2x2 : Image :=
  { width_ := 2, height_ := 2, data_ := [⟨1, 0, 0⟩, ⟨0, 1, 0⟩, ⟨0, 0, 1⟩, ⟨1, 1, 1⟩] }

/-- A 3×2 raster with fractional channels. -/
def sample_3x2 : Image :=
  { width_ := 3, height_ := 2,
    data_ := [⟨1, 0, 0⟩, ⟨0, 1, 0⟩, ⟨0, 0, 1⟩, ⟨1, 1, 1⟩, ⟨1 / 2, 1 / 2, 0⟩, ⟨0, 0, 1 / 4⟩] }

/-- One choice of the indeterminate values of `Image::Read`: all zero. -/
def sample_uninit : Uninit :=
  { file_size := 0, pixel_data_offset := 0, width := 0, height := 0, colour := fun _ _ => [0, 0, 0] }

/-- A black raster one pixel wide and `2^30` pixels high. -/
def tall_raster : Image :=
  { width_ := 1, height_ := 1073741824, data_ := List.replicate 1073741824 default }

/-- The 54 header bytes of a 24-bit bitmap of width 65536 and height 32768. -/
def wide_header : List Byte :=
  [66, 77, 54, 0, 0, 128, 0, 0, 0, 0, 54, 0, 0, 0,
   40, 0, 0, 0, 0, 0, 1, 0, 0, 128, 0, 0, 1, 0, 24, 0,
   0, 0, 0, 0, 0, 0, 0, 0, 0, 0, 0, 0, 0, 0, 0, 0, 0, 0, 0, 0, 0, 0, 0, 0]

/-- A complete bitmap file of width 65536 and height 32768: the header and
`196608 * 32768` bytes of pixel data, all zero. -/
def wide_file : List Byte := wide_header ++ List.replicate 6442450944 0

/-- The file `Image::Export` writes for `sample_2x2`: the header, the bottom
row (blue, white) with two padding bytes, the top row (red, green) likewise. -/
def sample_file : List Byte :=
  [66, 77, 70, 0, 0, 0, 0, 0, 0, 0, 54, 0, 0, 0,
   40, 0, 0, 0, 2, 0, 0, 0, 2, 0, 0, 0, 1, 0, 24, 0,
   0, 0, 0, 0, 0, 0, 0, 0, 0, 0, 0, 0, 0, 0, 0, 0, 0, 0, 0, 0, 0, 0, 0, 0,
   255, 0, 0, 255, 255, 255, 0, 0,
   0, 0, 255, 0, 255, 0, 0, 0]

/-- The width field of the info header of a file: the `int32_t` at offset 18. -/
def header_width (b : List Byte) : Int :=
  int32_of (b.getD 18 0) (b.getD 19 0) (b.getD 20 0) (b.getD 21 0)

/-- The height field of the info header of a file: the `int32_t` at offset 22. -/
def header_height (b : List Byte) : Int :=
  int32_of (b.getD 22 0) (b.getD 23 0) (b.getD 24 0) (b.getD 25 0)

/-- The bits-per-pixel field of the info header of a file: the `int16_t` at offset 28. -/
def header_bpp (b : List Byte) : Int := int16_of (b.getD 28 0) (b.getD 29 0)

/-- The 32-bit little-endian field at offset `o` of a file, read unsigned. -/
def field_u32 (b : List Byte) (o : Nat) : Nat :=
  (b.getD o 0).val + 256 * (b.getD (o + 1) 0).val + 65536 * (b.getD (o + 2) 0).val +
    16777216 * (b.getD (o + 3) 0).val

/-- The file offset of the first byte of the pixel `(x, y)` of a `w × h` bitmap. -/
def pixel_offset (w h x y : Int) : Int :=
  54 + (h - 1 - y) * (3 * w + padding_amount w) + 3 * x

/-- The position the edge detector reads for the kernel offset `(kx, ky)` at
`(x, y)`: the neighbour when it is inside the image, the centre otherwise. -/
def edge_tap (R : Image) (x y kx ky : Int) : Int × Int :=
  if 0 ≤ x + kx ∧ x + kx < R.width_ ∧ 0 ≤ y + ky ∧ y + ky < R.height_ then (x + kx, y + ky)
  else (x, y)

/-- The kernel `K = [[0,-1,0],[-1,4,-1],[0,-1,0]]`, `K[i][j]`. -/
def edge_K (i j : Int) : ℚ := mat_at [[0, -1, 0], [-1, 4, -1], [0, -1, 0]] i j

/-- The grayscale value `0.299 R + 0.587 G + 0.114 B` of the pixel `(x, y)` of `R`. -/
def gray_at (R : Image) (p : Int × Int) : ℚ :=
  299 / 1000 * (R.GetColour p.1 p.2).red_ + 587 / 1000 * (R.GetColour p.1 p.2).green_ +
    114 / 1000 * (R.GetColour p.1 p.2).blue_

/-- The sum `s` of the edge detector as the specification states it: over
`kx, ky ∈ {-1, 0, 1}`, `K[ky+1][kx+1] * g(tap(kx, ky))`. -/
def edge_sum_spec (R : Image) (x y : Int) : ℚ :=
  (([-1, 0, 1] : List Int).map (fun ky =>
    (([-1, 0, 1] : List Int).map (fun kx =>
      edge_K (ky + 1) (kx + 1) * gray_at R (edge_tap R x y kx ky))).sum)).sum

/-! ## Reference definitions for the filters -/

/-- Every channel of every pixel is exactly `0` or exactly `1`. -/
def Image.Binary (img : Image) : Prop :=
  ∀ c ∈ img.data_, (c.red_ = 0 ∨ c.red_ = 1) ∧ (c.green_ = 0 ∨ c.green_ = 1) ∧
    (c.blue_ = 0 ∨ c.blue_ = 1)

instance (img : Image) : Decidable img.Binary := by
  unfold Image.Binary; infer_instance

/-- The state of a pass over the image that writes `g img x y` at `(x, y)`,
row by row, when the pass is about to write `(cx, cy)` and started from
`T0`: the positions not yet written hold what `T0` holds, and every written
position `(x, y)` holds `g img x y` for an image `img` that agrees with the
state on the positions written before `(x, y)` and with `T0` on the others. -/
def Traced (g : Image → Int → Int → Colour) (T0 : Image) (w h cx cy : Int) (t : Image) : Prop :=
  SizeOK t w h ∧
  (∀ x' y', 0 ≤ x' → x' < w → 0 ≤ y' → y' < h → ¬(y' < cy ∨ (y' = cy ∧ x' < cx)) →
    t.GetColour x' y' = T0.GetColour x' y') ∧
  (∀ x y, 0 ≤ x → x < w → 0 ≤ y → y < h → (y < cy ∨ (y = cy ∧ x < cx)) →
    ∃ img, SizeOK img w h ∧
      (∀ x' y', 0 ≤ x' → x' < w → 0 ≤ y' → y' < h → (y' < y ∨ (y' = y ∧ x' < x)) →
        img.GetColour x' y' = t.GetColour x' y') ∧
      (∀ x' y', 0 ≤ x' → x' < w → 0 ≤ y' → y' < h → ¬(y' < y ∨ (y' = y ∧ x' < x)) →
        img.GetColour x' y' = T0.GetColour x' y') ∧
      t.GetColour x y = g img x y)

/-- The position the sharpening filter reads for the kernel offset `(kx, ky)`
at `(x, y)`: the neighbour when it is inside the image, the centre otherwise. -/
def sharp_tap (R : Image) (x y kx ky : Int) : Int × Int :=
  if 0 ≤ x + kx ∧ x + kx < R.width_ ∧ 0 ≤ y + ky ∧ y + ky < R.height_ then (x + kx, y + ky)
  else (x, y)

/-- The kernel `K = [[0,-1,0],[-1,5,-1],[0,-1,0]]`, `K[i][j]`. -/
def sharp_K (i j : Int) : ℚ := mat_at [[0, -1, 0], [-1, 5, -1], [0, -1, 0]] i j

/-- The sum `s` of the sharpening filter for the channel `v` as the
specification states it: over `kx, ky ∈ {-1, 0, 1}`,
`K[ky+1][kx+1] * v(tap(kx, ky))`. -/
def sharp_sum_spec (R : Image) (v : Colour → ℚ) (x y : Int) : ℚ :=
  (([-1, 0, 1] : List Int).map (fun ky =>
    (([-1, 0, 1] : List Int).map (fun kx =>
      sharp_K (ky + 1) (kx + 1) *
        v (R.GetColour (sharp_tap R x y kx ky).1 (sharp_tap R x y kx ky).2))).sum)).sum

/-- The value the kernel loop pushes for the offset `x`, before the
normalisation. -/
def kernel_value (exp : ℚ → ℚ) (sqrt_two_pi sigma_ : ℚ) (x : Int) : ℚ :=
  exp (((wrap32 (-(wrap32 (x * x))) : Int) : ℚ) / (2 * sigma_ * sigma_)) / (sqrt_two_pi * sigma_)

/-- The taps of a kernel of size `k`: the offsets `-k/2, ..., k/2`. -/
def kernel_taps (k : Int) : List Int :=
  (List.range (2 * (k / 2).toNat + 1)).map (fun (j : Nat) => (j : Int) - k / 2)

/-- The weight `w[t]` the kernel holds for the tap `t`: its entry `t + k/2`. -/
def tap_weight (kernel : List ℚ) (k t : Int) : ℚ := vec_at kernel (t + k / 2)

/-- The channel `v` of the image `T` of the horizontal pass alone, as the
specification states it: the sum over the taps `kx` with
`0 ≤ x + kx < width` of `w[kx] * R(x + kx, y)`. -/
def blur_T (kernel : List ℚ) (k : Int) (R : Image) (v : Colour → ℚ) (x y : Int) : ℚ :=
  ((kernel_taps k).map (fun kx =>
    if 0 ≤ x + kx ∧ x + kx < R.width_ then tap_weight kernel k kx * v (R.GetColour (x + kx) y)
    else 0)).sum

/-- The channel `v` of the output of the blur as the specification states it:
the sum over the taps `ky` with `0 ≤ y + ky < height` of `w[ky] * T(x, y + ky)`. -/
def blur_spec (kernel : List ℚ) (k : Int) (R : Image) (v : Colour → ℚ) (x y : Int) : ℚ :=
  ((kernel_taps k).map (fun ky =>
    if 0 ≤ y + ky ∧ y + ky < R.height_ then tap_weight kernel k ky * blur_T kernel k R v x (y + ky)
    else 0)).sum

/-- The weight the vertical pass applies to the tap `ky`: `w[ky]` when
`ky + k/2 < k`, and `0` otherwise. -/
def vertical_weight (kernel : List ℚ) (k ky : Int) : ℚ :=
  if ky + k / 2 < k then tap_weight kernel k ky else 0

/-- The channel `v` of the pixel `(x, 0)` of the first row of the output of
the blur: the sum over the taps `ky` with `0 ≤ ky < height` of the weight of
the vertical pass times `T(x, ky)`. -/
def blur_first_row (kernel : List ℚ) (k : Int) (R : Image) (v : Colour → ℚ) (x : Int) : ℚ :=
  ((kernel_taps k).map (fun ky =>
    if 0 ≤ ky ∧ ky < R.height_ then vertical_weight kernel k ky * blur_T kernel k R v x ky
    else 0)).sum

/-- The 3×3 raster all of whose pixels are `(1, 1, 1)`. -/
def white_3x3 : Image := ⟨3, 3, List.replicate 9 ⟨1, 1, 1⟩⟩

/-- The raster of width 1 and height 2 whose pixels are `(1, 1, 1)`. -/
def white_1x2 : Image := ⟨1, 2, [⟨1, 1, 1⟩, ⟨1, 1, 1⟩]⟩

/-- The number of blocks of size `n` that cover `len` positions: `⌈len / n⌉`. -/
def blocks (n len : Int) : Int := (len + n - 1) / n

/-- The colour `PixelationFilter::Apply` paints the block at `(x, y)` with:
the channel sums of `block_sum` over its pixel count. -/
def block_colour (n : Int) (R : Image) (x y : Int) : Colour :=
  ⟨(block_sum n R x y).avg_red / ((block_sum n R x y).pixel_count : ℚ),
   (block_sum n R x y).avg_green / ((block_sum n R x y).pixel_count : ℚ),
   (block_sum n R x y).avg_blue / ((block_sum n R x y).pixel_count : ℚ)⟩

/-- The raster `PixelationFilter::Apply` builds when its loops end: the blocks
painted one after the other, row of blocks by row of blocks. -/
def pixelated (n : Int) (R : Image) : Image :=
  loopUp (fun j t =>
    loopUp (fun i t => block_fill n R (block_colour n R (n * i) (n * j)) (n * i) (n * j) t)
      0 (blocks n R.width_).toNat t)
    0 (blocks n R.height_).toNat
    ⟨R.width_, R.height_, List.replicate (R.width_ * R.height_).toNat default⟩

/-- The coordinates below `len` that lie in the block of `x`: the `x'` with
`0 ≤ x' < len` and `⌊x' / n⌋ = ⌊x / n⌋`, in increasing order. -/
def block_cells (len n x : Int) : List Int :=
  ((List.range len.toNat).map (fun (i : Nat) => (i : Int))).filter (fun x' => x' / n = x / n)

/-- The number `|B(x, y)|` of pixels of the block of `(x, y)` inside the raster. -/
def block_size (R : Image) (n x y : Int) : Nat :=
  (block_cells R.width_ n x).length * (block_cells R.height_ n y).length

/-- The arithmetic mean of the channel `v` of `R` over the block `B(x, y)`:
the pixels `(x', y')` of `R` with `⌊x'/n⌋ = ⌊x/n⌋` and `⌊y'/n⌋ = ⌊y/n⌋`. -/
def block_mean (R : Image) (n : Int) (v : Colour → ℚ) (x y : Int) : ℚ :=
  ((block_cells R.height_ n y).map (fun y' =>
    ((block_cells R.width_ n x).map (fun x' => v (R.GetColour x' y'))).sum)).sum /
    (block_size R n x y : ℚ)

/-- A black raster `2^30 + 1` pixels wide and one pixel high. -/
def wide_raster : Image :=
  { width_ := 1073741825, height_ := 1, data_ := List.replicate 1073741825 default }

/-- The raster of width 0 and height 0. -/
def empty_raster : Image := ⟨0, 0, []⟩

/-- The raster `out` has exactly the width and the height of `R`, and its data
length is their product. -/
def SameDims (out R : Image) : Prop :=
  out.width_ = R.width_ ∧ out.height_ = R.height_ ∧
    (out.data_.length : Int) = R.width_ * R.height_

/-- A function with positive values, to stand for `std::exp` where a concrete
one is needed. -/
def unit_exp : ℚ → ℚ := fun _ => 1

/-- The 3×3 raster whose centre is `(1, 1, 1)` and whose other eight pixels
are `(0, 0, 0)`. -/
def sample_dot : Image :=
  ⟨3, 3, [⟨0, 0, 0⟩, ⟨0, 0, 0⟩, ⟨0, 0, 0⟩,
          ⟨0, 0, 0⟩, ⟨1, 1, 1⟩, ⟨0, 0, 0⟩,
          ⟨0, 0, 0⟩, ⟨0, 0, 0⟩, ⟨0, 0, 0⟩]⟩

/-! ## Reference definitions for the kernel and the channel range -/

/-- Every channel of the colour lies in `[0, 1]`. -/
def Colour.InUnit (c : Colour) : Prop :=
  (0 ≤ c.red_ ∧ c.red_ ≤ 1) ∧ (0 ≤ c.green_ ∧ c.green_ ≤ 1) ∧ (0 ≤ c.blue_ ∧ c.blue_ ≤ 1)

/-- Every value `Image::Export` casts to a byte, a channel times 255, lies in
`[0, 255]`. -/
def Image.CastInRange (img : Image) : Prop :=
  ∀ c ∈ img.data_, (0 ≤ c.blue_ * 255 ∧ c.blue_ * 255 ≤ 255) ∧
    (0 ≤ c.green_ * 255 ∧ c.green_ * 255 ≤ 255) ∧ (0 ≤ c.red_ * 255 ∧ c.red_ * 255 ≤ 255)

/-- A valid raster whose channels all lie in `[0, 1]`, so that every value
`Image::Export` casts to a byte lies in `[0, 255]`. -/
def Image.InRange (img : Image) : Prop :=
  img.Valid ∧ img.InUnit ∧ img.CastInRange

/-- The value `exp(-x² / (2 σ²))` of the specification for the offset `x`. -/
def gauss_exp (exp : ℚ → ℚ) (sigma : ℚ) (x : Int) : ℚ :=
  exp (-((x : ℚ) ^ 2) / (2 * sigma ^ 2))

/-- A black raster one pixel wide and `2^30 + 1` pixels high. -/
def high_raster : Image :=
  { width_ := 1, height_ := 1073741825, data_ := List.replicate 1073741825 default }

/-! ## Single precision: the float32 reading of `float` -/

/-- The power `2^e` of two for an integer exponent `e`. -/
def pow2 (e : Int) : ℚ :=
  if 0 ≤ e then ((2 ^ e.toNat : Nat) : ℚ) else 1 / ((2 ^ (-e).toNat : Nat) : ℚ)

/-- The number of halvings that take `n` below 2, at most `fuel` of them. -/
def halvings : Nat → Nat → Nat
  | 0, _ => 0
  | fuel + 1, n => if 2 ≤ n then halvings fuel (n / 2) + 1 else 0

/-- The position of the leading bit of `n`: the `b` with `2^b ≤ n < 2^(b+1)`
for `n ≥ 1`. -/
def bit_length (n : Nat) : Nat := halvings n n

/-- The binary exponent of a value other than 0: the `e` with
`2^e ≤ |q| < 2^(e+1)`. -/
def exponent (q : ℚ) : Int :=
  let e : Int := (bit_length q.num.natAbs : Int) - (bit_length q.den : Int)
  if pow2 e ≤ |q| then e else e - 1

/-- Rounding to the nearest integer; of two integers equally near, to the even
one. -/
def round_even (q : ℚ) : Int :=
  let n := ⌊q⌋
  if q - n < 1 / 2 then n
  else if 1 / 2 < q - n then n + 1
  else if n % 2 = 0 then n else n + 1

/-- The `float` (IEEE 754 binary32) that the exact result `q` of an operation
is rounded to: round to nearest, ties to even, with a significand of 24 bits
and exponents from `-126` on, so that the values below `2^-126` are the
multiples of `2^-149` and a result of at most `2^-150` in size is `0`.  A
result beyond the largest `float` is not turned into an infinity; what the
theorems on every raster and every `sigma` take from `f32` holds with an
infinity as well (a kernel size outside `int`, a clamped channel, a pixel
that is black or white). -/
def f32 (q : ℚ) : ℚ :=
  if q = 0 then 0
  else
    let ulp := pow2 (max (exponent q) (-126) - 23)
    (round_even (q / ulp) : ℚ) * ulp

/-! ## The filters in the float32 reading

The definitions of this section follow the same source lines as their
namesakes above, with the result of every operation on `float` rounded by
`f32`, as x86-64 evaluates it (each product and each sum rounded on its own). -/

/-- The value `gray` of `GrayscaleFilter::Apply` in float32: the constants are
the floats `0.299f`, `0.587f`, `0.114f`, and each product and each sum is
rounded. -/
def F32.gray_of (pixel : Colour) : ℚ :=
  let grayscale_red : ℚ := f32 (299 / 1000)
  let grayscale_green : ℚ := f32 (587 / 1000)
  let grayscale_blue : ℚ := f32 (114 / 1000)
  f32 (f32 (f32 (grayscale_red * pixel.red_) + f32 (grayscale_green * pixel.green_)) +
    f32 (grayscale_blue * pixel.blue_))

/-- Filter `GrayscaleFilter::Apply` in float32. -/
def F32.GrayscaleFilter.Apply (image : Image) : Except Failure Image :=
  match Image.new image.GetWidth image.GetHeight with
  | .error e => .error e
  | .ok grayscale_image =>
    .ok (forUp 0 image.GetHeight (fun y grayscale_image =>
      forUp 0 image.GetWidth (fun x grayscale_image =>
        let pixel := image.GetColour x y
        let gray := F32.gray_of pixel
        grayscale_image.SetColour ⟨gray, gray, gray⟩ x y) grayscale_image) grayscale_image)

/-- The sums `sum_red`, `sum_green`, `sum_blue` of `SharpeningFilter::Apply` at
`(x, y)` in float32: `sum += kernel_value * channel` rounds the product and
then the sum. -/
def F32.sharp_sum (image : Image) (x y : Int) : Colour :=
  forUp (-1) (1 + 1) (fun ky sum =>
    forUp (-1) (1 + 1) (fun kx sum =>
      let nx := x + kx
      let ny := y + ky
      if nx ≥ 0 ∧ nx < image.GetWidth ∧ ny ≥ 0 ∧ ny < image.GetHeight then
        let neighbour_colour := image.GetColour nx ny
        let kernel_value := mat_at sharp_mat (ky + 1) (kx + 1)
        { red_ := f32 (sum.red_ + f32 (kernel_value * neighbour_colour.red_)),
          green_ := f32 (sum.green_ + f32 (kernel_value * neighbour_colour.green_)),
          blue_ := f32 (sum.blue_ + f32 (kernel_value * neighbour_colour.blue_)) }
      else
        let original_colour := image.GetColour x y
        let kernel_value := mat_at sharp_mat (ky + 1) (kx + 1)
        { red_ := f32 (sum.red_ + f32 (kernel_value * original_colour.red_)),
          green_ := f32 (sum.green_ + f32 (kernel_value * original_colour.green_)),
          blue_ := f32 (sum.blue_ + f32 (kernel_value * original_colour.blue_)) }) sum) ⟨0, 0, 0⟩

/-- Filter `SharpeningFilter::Apply` in float32. -/
def F32.SharpeningFilter.Apply (image : Image) : Except Failure Image :=
  match Image.new image.GetWidth image.GetHeight with
  | .error e => .error e
  | .ok sharpened_image =>
    .ok (forUp 0 image.GetHeight (fun y sharpened_image =>
      forUp 0 image.GetWidth (fun x sharpened_image =>
        let sum := F32.sharp_sum image x y
        sharpened_image.SetColour
          ⟨min 1 (max 0 sum.red_), min 1 (max 0 sum.green_), min 1 (max 0 sum.blue_)⟩
          x y) sharpened_image) sharpened_image)

/-- The convolution sum of `EdgeDetectionFilter::Apply` at `(x, y)` in float32. -/
def F32.edge_sum (grayscale_image : Image) (x y : Int) : ℚ :=
  forUp (-1) (1 + 1) (fun ky sum =>
    forUp (-1) (1 + 1) (fun kx sum =>
      let nx := x + kx
      let ny := y + ky
      let inside : Bool := decide (nx ≥ 0 ∧ nx < grayscale_image.GetWidth ∧ ny ≥ 0 ∧
        ny < grayscale_image.GetHeight)
      let nx := if !inside then x else nx
      let ny := if !inside then y else ny
      let neighbour_colour := grayscale_image.GetColour nx ny
      let kernel_value := mat_at edge_mat (ky + 1) (kx + 1)
      f32 (sum + f32 (kernel_value * neighbour_colour.red_))) sum) 0

/-- Filter `EdgeDetectionFilter::Apply` of `EdgeDetectionFilter(threshold_)` in
float32. -/
def F32.EdgeDetectionFilter.Apply (threshold_ : ℚ) (image : Image) : Except Failure Image :=
  match F32.GrayscaleFilter.Apply image with
  | .error e => .error e
  | .ok grayscale_image =>
    match Image.new grayscale_image.GetWidth grayscale_image.GetHeight with
    | .error e => .error e
    | .ok edge_image =>
      .ok (forUp 0 grayscale_image.GetHeight (fun y edge_image =>
        forUp 0 grayscale_image.GetWidth (fun x edge_image =>
          let sum := F32.edge_sum grayscale_image x y
          let edge_colour : Colour := if sum > threshold_ then ⟨1, 1, 1⟩ else ⟨0, 0, 0⟩
          edge_image.SetColour edge_colour x y) edge_image) edge_image)

/-- Filter `GaussianBlurFilter::Apply` of `GaussianBlurFilter(sigma_)` with the
two float32 computations that decide its course: the kernel size is the
conversion of the float `6 * sigma_ + 1` (the product rounded, then the sum),
and the divisor `two * sigma_ * sigma_` of the exponent is a float that is
`0.0f` when the product underflows.  With a divisor `0.0f` the weight of the
tap 0 is `exp(0/0)`, not a number, and so are the sum of the weights, every
normalised weight and every channel the passes write: the embedding has no
value for such a raster and the result is `none`, unless the raster has no
pixel.  Otherwise the weights and the sums of the two passes are read as
exact, as in `GaussianBlurFilter.Apply`. -/
def F32.GaussianBlurFilter.Apply (exp : ℚ → ℚ) (sqrt_two_pi sigma_ : ℚ) (image : Image) :
    Option (Except Failure Image) :=
  match Image.new image.GetWidth image.GetHeight with
  | .error e => some (.error e)
  | .ok blurred_image =>
    let kernel_size := static_cast_int (f32 (f32 (6 * sigma_) + 1))
    if kernel_size < 0 then some (.error .length_error)
    else
      let two : ℚ := 2
      if f32 (f32 (two * sigma_) * sigma_) = 0 then
        if 0 < image.GetWidth ∧ 0 < image.GetHeight then none else some (.ok blurred_image)
      else
        let kernel := gaussian_kernel exp sqrt_two_pi sigma_ kernel_size
        let blurred_image := blur_horizontal kernel kernel_size image blurred_image
        let blurred_image := blur_vertical kernel kernel_size image blurred_image
        some (.ok blurred_image)

/-! ## The sums of the 3×3 filters as the float32 arithmetic accumulates them -/

/-- The nine kernel offsets `(kx, ky)` in the order in which the loops of the
3×3 filters visit them: `ky = -1, 0, 1` and, for each, `kx = -1, 0, 1`. -/
def kernel_offsets : List (Int × Int) :=
  [(-1, -1), (0, -1), (1, -1), (-1, 0), (0, 0), (1, 0), (-1, 1), (0, 1), (1, 1)]

/-- The grayscale value of the pixel at `p` of `R` computed in float32:
`0.299f * red + 0.587f * green + 0.114f * blue` with every product and every
sum rounded. -/
def F32.gray_at (R : Image) (p : Int × Int) : ℚ :=
  f32 (f32 (f32 (f32 (299 / 1000) * (R.GetColour p.1 p.2).red_) +
      f32 (f32 (587 / 1000) * (R.GetColour p.1 p.2).green_)) +
    f32 (f32 (114 / 1000) * (R.GetColour p.1 p.2).blue_))

/-- The sum `s` of the edge detector accumulated in float32: starting from 0,
for each kernel offset in the order of the loops the product
`K[ky+1][kx+1] * g(tap(kx, ky))` is rounded, added, and the sum rounded. -/
def F32.edge_sum_spec (R : Image) (x y : Int) : ℚ :=
  kernel_offsets.foldl (fun s k =>
    f32 (s + f32 (edge_K (k.2 + 1) (k.1 + 1) * F32.gray_at R (edge_tap R x y k.1 k.2)))) 0

/-- The sum `s` of the sharpening filter for the channel `v` accumulated in
float32: starting from 0, for each kernel offset in the order of the loops the
product `K[ky+1][kx+1] * v(tap(kx, ky))` is rounded, added, and the sum
rounded. -/
def F32.sharp_sum_spec (R : Image) (v : Colour → ℚ) (x y : Int) : ℚ :=
  kernel_offsets.foldl (fun s k =>
    f32 (s + f32 (sharp_K (k.2 + 1) (k.1 + 1) *
      v (R.GetColour (sharp_tap R x y k.1 k.2).1 (sharp_tap R x y k.1 k.2).2)))) 0

/-- The raster of width 2 and height 1 with a red and a black pixel. -/
def red_black : Image := ⟨2, 1, [⟨1, 0, 0⟩, ⟨0, 0, 0⟩]⟩

/-- The raster of one pixel whose channels are the float nearest to `1/255`. -/
def faint_pixel : Image :=
  ⟨1, 1, [⟨8421505 / 2147483648, 8421505 / 2147483648, 8421505 / 2147483648⟩]⟩

/-! # Proofs -/

/-! ## Machine integers -/

theorem wrap32_of_range {v : Int} (h1 : -2147483648 ≤ v) (h2 : v ≤ 2147483647) : wrap32 v = v := by
  unfold wrap32; omega

theorem wrap32_emod4 (v : Int) : wrap32 v % 4 = v % 4 := by
  unfold wrap32; omega

theorem wrap32_emod (v : Int) : wrap32 v % 4294967296 = v % 4294967296 := by
  unfold wrap32; omega

theorem wrap32_range (v : Int) : -2147483648 ≤ wrap32 v ∧ wrap32 v ≤ 2147483647 := by
  unfold wrap32; omega

theorem tmod4_eq (a : Int) : Int.tmod a 4 = if 0 ≤ a then a % 4 else -((-a) % 4) := by
  split
  · next h => exact Int.tmod_eq_emod h (by decide)
  · next h =>
    have h2 : (-a).tmod 4 = (-a) % 4 := Int.tmod_eq_emod (by omega) (by decide)
    have h3 := Int.tmod_def a 4
    have h4 := Int.tmod_def (-a) 4
    rw [Int.neg_tdiv] at h4
    omega

/-- The padding is the usual `(4 - 3w mod 4) mod 4`, whether or not `width_ * 3` wraps. -/
theorem padding_amount_eq (w : Int) : padding_amount w = (4 - (3 * w) % 4) % 4 := by
  unfold padding_amount
  have h := wrap32_emod4 (w * 3)
  rw [tmod4_eq (wrap32 (w * 3))]
  split
  · rw [tmod4_eq]; split <;> omega
  · rw [tmod4_eq]; split <;> omega

theorem padding_amount_range (w : Int) : 0 ≤ padding_amount w ∧ padding_amount w ≤ 3 := by
  rw [padding_amount_eq]; omega

theorem padding_amount_row (w : Int) : (3 * w + padding_amount w) % 4 = 0 := by
  rw [padding_amount_eq]; omega

/-! ## Bytes -/

theorem toByte_val (n : Nat) : (toByte n).val = n % 256 := rfl

theorem le32_length (v : Int) : (le32 v).length = 4 := rfl

theorem le16_length (v : Int) : (le16 v).length = 2 := rfl

theorem int32_of_le32 (v : Int) :
    int32_of ((le32 v).getD 0 0) ((le32 v).getD 1 0) ((le32 v).getD 2 0) ((le32 v).getD 3 0)
      = wrap32 v := by
  simp only [le32, int32_of, List.getD_cons_zero, List.getD_cons_succ, toByte_val]
  unfold wrap32
  have h0 : 0 ≤ v % 4294967296 := Int.emod_nonneg _ (by decide)
  have h1 : v % 4294967296 < 4294967296 := Int.emod_lt_of_pos _ (by decide)
  generalize hu : (v % 4294967296).toNat = u
  have hu2 : (u : Int) = v % 4294967296 := by rw [← hu]; exact Int.toNat_of_nonneg h0
  push_cast
  omega

theorem int16_of_le16 (v : Int) (h1 : -32768 ≤ v) (h2 : v ≤ 32767) :
    int16_of ((le16 v).getD 0 0) ((le16 v).getD 1 0) = v := by
  simp only [le16, int16_of, List.getD_cons_zero, List.getD_cons_succ, toByte_val]
  have h0 : 0 ≤ v % 65536 := Int.emod_nonneg _ (by decide)
  generalize hu : (v % 65536).toNat = u
  have hu2 : (u : Int) = v % 65536 := by rw [← hu]; exact Int.toNat_of_nonneg h0
  push_cast
  split <;> omega

/-! ## Loops -/

/-- Invariant rule for `loopUp`: `P k` holds after `k` iterations. -/
theorem loopUp_inv {σ : Type} (P : Nat → σ → Prop) (body : Int → σ → σ) (n : Nat) :
    ∀ (i : Int) (s : σ), P 0 s →
      (∀ k t, k < n → P k t → P (k + 1) (body (i + k) t)) → P n (loopUp body i n s) := by
  induction n generalizing P with
  | zero => intro i s h0 _; exact h0
  | succ n ih =>
    intro i s h0 hstep
    show P (n + 1) (loopUp body (i + 1) n (body i s))
    apply ih (fun k t => P (k + 1) t) (i + 1) (body i s)
    · have := hstep 0 s (Nat.succ_pos n) h0
      simpa using this
    · intro k t hk hP
      have := hstep (k + 1) t (Nat.succ_lt_succ hk) hP
      have e : i + ((k + 1 : Nat) : Int) = i + 1 + (k : Int) := by push_cast; ring
      rw [e] at this
      exact this

/-- Invariant rule for `loopDown`: `P k` holds after `k` iterations. -/
theorem loopDown_inv {σ : Type} (P : Nat → σ → Prop) (body : Int → σ → σ) (n : Nat) :
    ∀ (i : Int) (s : σ), P 0 s →
      (∀ k t, k < n → P k t → P (k + 1) (body (i - k) t)) → P n (loopDown body i n s) := by
  induction n generalizing P with
  | zero => intro i s h0 _; exact h0
  | succ n ih =>
    intro i s h0 hstep
    show P (n + 1) (loopDown body (i - 1) n (body i s))
    apply ih (fun k t => P (k + 1) t) (i - 1) (body i s)
    · have := hstep 0 s (Nat.succ_pos n) h0
      simpa using this
    · intro k t hk hP
      have := hstep (k + 1) t (Nat.succ_lt_succ hk) hP
      have e : i - ((k + 1 : Nat) : Int) = i - 1 - (k : Int) := by push_cast; ring
      rw [e] at this
      exact this

/-- A loop that only appends writes the chunks in order. -/
theorem loopUp_append {α : Type} (g : Int → List α) (n : Nat) :
    ∀ (i : Int) (f : List α),
      loopUp (fun x f => f ++ g x) i n f = f ++ (List.range n).flatMap (fun k => g (i + k)) := by
  induction n with
  | zero => intro i f; simp [loopUp]
  | succ n ih =>
    intro i f
    show loopUp (fun x f => f ++ g x) (i + 1) n (f ++ g i) = _
    rw [ih, List.range_succ_eq_map, List.flatMap_cons, List.flatMap_map, List.append_assoc]
    congr 2
    · simp
    · congr 1; funext k; congr 1; push_cast; ring

theorem loopDown_append {α : Type} (g : Int → List α) (n : Nat) :
    ∀ (i : Int) (f : List α),
      loopDown (fun x f => f ++ g x) i n f = f ++ (List.range n).flatMap (fun k => g (i - k)) := by
  induction n with
  | zero => intro i f; simp [loopDown]
  | succ n ih =>
    intro i f
    show loopDown (fun x f => f ++ g x) (i - 1) n (f ++ g i) = _
    rw [ih, List.range_succ_eq_map, List.flatMap_cons, List.flatMap_map, List.append_assoc]
    congr 2
    · simp
    · congr 1; funext k; congr 1; push_cast; ring

/-- Length of a concatenation of `n` chunks of one size. -/
theorem length_flatMap_range {α : Type} (g : Nat → List α) (S : Nat) (n : Nat)
    (hlen : ∀ i, i < n → (g i).length = S) : ((List.range n).flatMap g).length = n * S := by
  induction n with
  | zero => simp
  | succ n ih =>
    rw [List.range_succ, List.flatMap_append, List.length_append, ih (fun i hi => hlen i (by omega))]
    simp [hlen n (Nat.lt_succ_self n)]
    ring

/-- Indexing into a concatenation of `n` chunks of one size. -/
theorem getD_flatMap_range {α : Type} (g : Nat → List α) (S : Nat) (d : α) (n : Nat)
    (hlen : ∀ i, i < n → (g i).length = S) (i c : Nat) (hi : i < n) (hc : c < S) :
    ((List.range n).flatMap g).getD (i * S + c) d = (g i).getD c d := by
  induction n with
  | zero => omega
  | succ n ih =>
    have hl := length_flatMap_range g S n (fun i hi => hlen i (by omega))
    rw [List.range_succ, List.flatMap_append]
    by_cases h : i < n
    · have hlt : i * S + c < n * S := by
        calc i * S + c < i * S + S := by omega
          _ = (i + 1) * S := by ring
          _ ≤ n * S := Nat.mul_le_mul_right S h
      rw [List.getD_append _ _ _ _ (by rw [hl]; exact hlt)]
      exact ih (fun i hi => hlen i (by omega)) h
    · have hin : i = n := by omega
      subst hin
      rw [List.getD_append_right _ _ _ _ (by rw [hl]; omega), hl]
      simp

/-! ## Pixel access -/

theorem index_range {w h x y : Int} (hx0 : 0 ≤ x) (hx : x < w) (hy0 : 0 ≤ y) (hy : y < h) :
    0 ≤ y * w + x ∧ y * w + x < w * h := by
  constructor
  · have := mul_nonneg hy0 (by omega : (0 : Int) ≤ w)
    omega
  · have h1 : (y + 1) * w ≤ h * w := mul_le_mul_of_nonneg_right (by omega) (by omega)
    have h2 : (y + 1) * w = y * w + w := by ring
    have h3 : h * w = w * h := by ring
    omega

theorem index_inj {w x y x' y' : Int} (hx0 : 0 ≤ x) (hx : x < w) (hx0' : 0 ≤ x') (hx' : x' < w)
    (he : y * w + x = y' * w + x') : x = x' ∧ y = y' := by
  have hw : 0 < w := by omega
  have e1 : (y * w + x) % w = x := by
    rw [Int.add_comm, Int.add_mul_emod_self]; exact Int.emod_eq_of_lt hx0 hx
  have e2 : (y' * w + x') % w = x' := by
    rw [Int.add_comm, Int.add_mul_emod_self]; exact Int.emod_eq_of_lt hx0' hx'
  have hxx : x = x' := by rw [← e1, ← e2, he]
  refine ⟨hxx, ?_⟩
  subst hxx
  have : y * w = y' * w := by omega
  exact Int.eq_of_mul_eq_mul_right (by omega) this

theorem SetColour_width (img : Image) (c : Colour) (x y : Int) :
    (img.SetColour c x y).width_ = img.width_ := by
  simp only [Image.SetColour]; split <;> rfl

theorem SetColour_height (img : Image) (c : Colour) (x y : Int) :
    (img.SetColour c x y).height_ = img.height_ := by
  simp only [Image.SetColour]; split <;> rfl

theorem SetColour_length (img : Image) (c : Colour) (x y : Int) :
    (img.SetColour c x y).data_.length = img.data_.length := by
  simp only [Image.SetColour]; split <;> simp

theorem SetColour_SizeOK {img : Image} {w h : Int} (hs : SizeOK img w h) (c : Colour) (x y : Int) :
    SizeOK (img.SetColour c x y) w h := by
  obtain ⟨h1, h2, h3, h4, h5⟩ := hs
  exact ⟨by rw [SetColour_width, h1], by rw [SetColour_height, h2], h3, h4,
    by rw [SetColour_length, h5]⟩

/-- Reading back after one write, both positions inside the image. -/
theorem GetColour_SetColour {img : Image} {w h : Int} (hs : SizeOK img w h) (c : Colour)
    {x y x' y' : Int} (hx0 : 0 ≤ x) (hx : x < w) (hy0 : 0 ≤ y) (hy : y < h)
    (hx0' : 0 ≤ x') (hx' : x' < w) (hy0' : 0 ≤ y') (_hy' : y' < h) :
    (img.SetColour c x y).GetColour x' y' = if x' = x ∧ y' = y then c else img.GetColour x' y' := by
  obtain ⟨h1, h2, h3, h4, h5⟩ := hs
  have r := index_range hx0 hx hy0 hy
  have hw' : 0 ≤ y' * w := mul_nonneg hy0' h3
  unfold Image.SetColour Image.GetColour
  simp only [h1]
  rw [if_pos r.1]
  simp only [if_pos (by omega : 0 ≤ y' * w + x')]
  rw [List.getD_eq_getElem?_getD, List.getElem?_set]
  by_cases he : x' = x ∧ y' = y
  · obtain ⟨e1, e2⟩ := he
    subst e1 e2
    have hlt : (y' * w + x').toNat < img.data_.length := by omega
    simp [hlt]
  · rw [if_neg he]
    have hne : (y * w + x).toNat ≠ (y' * w + x').toNat := by
      intro hcon
      have : y * w + x = y' * w + x' := by omega
      have := index_inj hx0 hx hx0' hx' this
      exact he ⟨this.1.symm, this.2.symm⟩
    rw [if_neg hne, List.getD_eq_getElem?_getD]

theorem new_ok {w h : Int} (hw : 0 ≤ w) (hh : 0 ≤ h) (hp : w * h ≤ INT32_MAX) :
    Image.new w h = .ok ⟨w, h, List.replicate (w * h).toNat default⟩ := by
  have h0 : 0 ≤ w * h := mul_nonneg hw hh
  unfold INT32_MAX at hp
  unfold Image.new
  simp only [wrap32_of_range (by omega : -2147483648 ≤ w * h) hp]
  rw [if_neg (by omega)]

theorem new_SizeOK {w h : Int} (hw : 0 ≤ w) (hh : 0 ≤ h) :
    SizeOK ⟨w, h, List.replicate (w * h).toNat default⟩ w h := by
  have h0 : 0 ≤ w * h := mul_nonneg hw hh
  refine ⟨rfl, rfl, hw, hh, ?_⟩
  simp only [List.length_replicate]
  omega

theorem GetColour_new {w h : Int} (x y : Int) :
    (⟨w, h, List.replicate (w * h).toNat default⟩ : Image).GetColour x y = default := by
  unfold Image.GetColour
  simp only
  split
  · rw [List.getD_eq_getElem?_getD, List.getElem?_replicate]
    split <;> rfl
  · rfl

theorem Valid.sizeOK {img : Image} (hv : img.Valid) : SizeOK img img.width_ img.height_ :=
  ⟨rfl, rfl, hv.1, hv.2.1, hv.2.2.2.2.2⟩

/-- Two images of one size with the same colour at every position are equal. -/
theorem Image.ext_pixels {a b : Image} {w h : Int} (ha : SizeOK a w h) (hb : SizeOK b w h)
    (hpix : ∀ x y, 0 ≤ x → x < w → 0 ≤ y → y < h → a.GetColour x y = b.GetColour x y) : a = b := by
  obtain ⟨a1, a2, a3, a4, a5⟩ := ha
  obtain ⟨b1, b2, _, _, b5⟩ := hb
  obtain ⟨aw, ah, ad⟩ := a
  obtain ⟨bw, bh, bd⟩ := b
  simp only at a1 a2 a5 b1 b2 b5
  subst a1 a2 b1 b2
  have hlen : ad.length = bd.length := by omega
  congr 1
  apply List.ext_getElem hlen
  intro n hn1 hn2
  have hn : (n : Int) < bw * bh := by omega
  have hwpos : 0 < bw := by
    by_cases h : 0 < bw
    · exact h
    · have : bw = 0 := by omega
      subst this; simp at hn; omega
  have hx := hpix ((n : Int) % bw) ((n : Int) / bw) (Int.emod_nonneg _ (by omega))
    (Int.emod_lt_of_pos _ hwpos) (Int.ediv_nonneg (by omega) (by omega))
    (by
      apply Int.ediv_lt_of_lt_mul hwpos
      rw [Int.mul_comm]; exact hn)
  unfold Image.GetColour at hx
  simp only at hx
  have hidx : (n : Int) / bw * bw + (n : Int) % bw = n := by
    rw [Int.mul_comm]; exact Int.ediv_add_emod _ _
  rw [hidx] at hx
  simp only [Int.toNat_ofNat, Int.ofNat_zero_le, if_true] at hx
  rw [List.getD_eq_getElem?_getD, List.getD_eq_getElem?_getD,
    List.getElem?_eq_getElem hn1, List.getElem?_eq_getElem hn2] at hx
  simpa using hx

/-- The nested loops that write `g x y` at every position of a fresh image. -/
theorem fill_spec (g : Int → Int → Colour) {img0 : Image} {w h : Int} (hs : SizeOK img0 w h) :
    SizeOK (forUp 0 h (fun y img => forUp 0 w (fun x img => img.SetColour (g x y) x y) img) img0)
        w h ∧
      ∀ x y, 0 ≤ x → x < w → 0 ≤ y → y < h →
        (forUp 0 h (fun y img => forUp 0 w (fun x img => img.SetColour (g x y) x y) img)
          img0).GetColour x y = g x y := by
  have hw0 : 0 ≤ w := hs.2.2.1
  have hh0 : 0 ≤ h := hs.2.2.2.1
  -- one row
  have row : ∀ (y : Int) (img : Image), 0 ≤ y → y < h → SizeOK img w h →
      SizeOK (forUp 0 w (fun x img => img.SetColour (g x y) x y) img) w h ∧
      ∀ x' y', 0 ≤ x' → x' < w → 0 ≤ y' → y' < h →
        (forUp 0 w (fun x img => img.SetColour (g x y) x y) img).GetColour x' y' =
          if y' = y then g x' y' else img.GetColour x' y' := by
    intro y img hy0 hy hsz
    have key := loopUp_inv (fun (k : Nat) (t : Image) => SizeOK t w h ∧
        ∀ x' y', 0 ≤ x' → x' < w → 0 ≤ y' → y' < h →
          t.GetColour x' y' = if y' = y ∧ x' < k then g x' y' else img.GetColour x' y')
      (fun x img => img.SetColour (g x y) x y) (w - 0).toNat 0 img
      ⟨hsz, by intro x' y' h1 _ _ _; rw [if_neg]; omega⟩
      (by
        intro k t hk ⟨ht, hpix⟩
        refine ⟨SetColour_SizeOK ht _ _ _, ?_⟩
        intro x' y' h1 h2 h3 h4
        rw [GetColour_SetColour ht _ (by omega) (by omega) hy0 hy h1 h2 h3 h4, hpix x' y' h1 h2 h3 h4]
        by_cases e : x' = 0 + (k : Int) ∧ y' = y
        · rw [if_pos e, if_pos ⟨e.2, by omega⟩, e.1, e.2]
        · rw [if_neg e]
          by_cases e2 : y' = y ∧ x' < (k : Int)
          · rw [if_pos e2, if_pos ⟨e2.1, by omega⟩]
          · rw [if_neg e2, if_neg]
            intro hcon
            rcases hcon with ⟨c1, c2⟩
            have : x' < (k : Int) ∨ x' = k := by omega
            rcases this with c | c
            · exact e2 ⟨c1, c⟩
            · exact e ⟨by omega, c1⟩)
    refine ⟨key.1, ?_⟩
    intro x' y' h1 h2 h3 h4
    have := key.2 x' y' h1 h2 h3 h4
    rw [forUp, this]
    by_cases e : y' = y
    · rw [if_pos e, if_pos ⟨e, by omega⟩]
    · rw [if_neg e, if_neg (fun hc => e hc.1)]
  have key := loopUp_inv (fun (k : Nat) (t : Image) => SizeOK t w h ∧
      ∀ x' y', 0 ≤ x' → x' < w → 0 ≤ y' → y' < h →
        t.GetColour x' y' = if y' < k then g x' y' else img0.GetColour x' y')
    (fun y img => forUp 0 w (fun x img => img.SetColour (g x y) x y) img) (h - 0).toNat 0 img0
    ⟨hs, by intro x' y' _ _ h3 _; rw [if_neg]; omega⟩
    (by
      intro k t hk ⟨ht, hpix⟩
      have r := row (0 + (k : Int)) t (by omega) (by omega) ht
      refine ⟨r.1, ?_⟩
      intro x' y' h1 h2 h3 h4
      show (forUp 0 w (fun x img => img.SetColour (g x (0 + (k : Int))) x (0 + (k : Int))) t).GetColour x' y' = _
      rw [r.2 x' y' h1 h2 h3 h4, hpix x' y' h1 h2 h3 h4]
      by_cases e : y' = 0 + (k : Int)
      · rw [if_pos e, if_pos (by omega)]
      · rw [if_neg e]
        by_cases e2 : y' < (k : Int)
        · rw [if_pos e2, if_pos (by omega)]
        · rw [if_neg e2, if_neg (by omega)])
  refine ⟨key.1, ?_⟩
  intro x y h1 h2 h3 h4
  have := key.2 x y h1 h2 h3 h4
  rw [forUp, this, if_pos (by omega)]

/-! ## Point filters -/

theorem Valid_of_SizeOK {img : Image} {w h : Int} (hs : SizeOK img w h) (hw : w ≤ INT32_MAX)
    (hh : h ≤ INT32_MAX) (hp : w * h ≤ INT32_MAX) : img.Valid := by
  obtain ⟨h1, h2, h3, h4, h5⟩ := hs
  unfold Image.Valid
  rw [h1, h2]
  exact ⟨h3, h4, hw, hh, hp, h5⟩

/-- What `CropFilter::Apply` returns. -/
theorem CropFilter_Apply_ok (R : Image) (hv : R.Valid) (w h : Int) (hw : 0 ≤ w) (hh : 0 ≤ h) :
    ∃ out, CropFilter.Apply w h R = .ok out ∧ SizeOK out (min w R.width_) (min h R.height_) ∧
      out.Valid ∧
      ∀ x y, 0 ≤ x → x < min w R.width_ → 0 ≤ y → y < min h R.height_ →
        out.GetColour x y = R.GetColour x y := by
  obtain ⟨v1, v2, v3, v4, v5, v6⟩ := hv
  have hw' : 0 ≤ min w R.width_ := le_min hw v1
  have hh' : 0 ≤ min h R.height_ := le_min hh v2
  have hp : min w R.width_ * min h R.height_ ≤ INT32_MAX := by
    calc min w R.width_ * min h R.height_ ≤ R.width_ * R.height_ :=
          mul_le_mul (min_le_right _ _) (min_le_right _ _) hh' v1
      _ ≤ INT32_MAX := v5
  have hf := fill_spec (fun x y => R.GetColour x y) (new_SizeOK hw' hh')
  refine ⟨_, ?_, hf.1, ?_, hf.2⟩
  · unfold CropFilter.Apply
    simp only [Image.GetWidth, Image.GetHeight, new_ok hw' hh' hp]
  · exact Valid_of_SizeOK hf.1 (le_trans (min_le_right _ _) v3) (le_trans (min_le_right _ _) v4) hp

/-- What `NegativeFilter::Apply` returns. -/
theorem NegativeFilter_Apply_ok (R : Image) (hv : R.Valid) :
    ∃ out, NegativeFilter.Apply R = .ok out ∧ SizeOK out R.width_ R.height_ ∧ out.Valid ∧
      ∀ x y, 0 ≤ x → x < R.width_ → 0 ≤ y → y < R.height_ →
        out.GetColour x y = ⟨1 - (R.GetColour x y).red_, 1 - (R.GetColour x y).green_,
          1 - (R.GetColour x y).blue_⟩ := by
  obtain ⟨v1, v2, v3, v4, v5, v6⟩ := hv
  have hf := fill_spec (fun x y => (⟨1 - (R.GetColour x y).red_, 1 - (R.GetColour x y).green_,
          1 - (R.GetColour x y).blue_⟩ : Colour)) (new_SizeOK v1 v2)
  refine ⟨_, ?_, hf.1, Valid_of_SizeOK hf.1 v3 v4 v5, hf.2⟩
  unfold NegativeFilter.Apply
  simp only [Image.GetWidth, Image.GetHeight, new_ok v1 v2 v5]

/-- What `GrayscaleFilter::Apply` returns. -/
theorem GrayscaleFilter_Apply_ok (R : Image) (hv : R.Valid) :
    ∃ out, GrayscaleFilter.Apply R = .ok out ∧ SizeOK out R.width_ R.height_ ∧ out.Valid ∧
      ∀ x y, 0 ≤ x → x < R.width_ → 0 ≤ y → y < R.height_ →
        out.GetColour x y = ⟨gray_of (R.GetColour x y), gray_of (R.GetColour x y),
          gray_of (R.GetColour x y)⟩ := by
  obtain ⟨v1, v2, v3, v4, v5, v6⟩ := hv
  have hf := fill_spec (fun x y => (⟨gray_of (R.GetColour x y), gray_of (R.GetColour x y),
          gray_of (R.GetColour x y)⟩ : Colour)) (new_SizeOK v1 v2)
  refine ⟨_, ?_, hf.1, Valid_of_SizeOK hf.1 v3 v4 v5, hf.2⟩
  unfold GrayscaleFilter.Apply
  simp only [Image.GetWidth, Image.GetHeight, new_ok v1 v2 v5]

theorem gray_of_gray (g : ℚ) : gray_of ⟨g, g, g⟩ = g := by
  unfold gray_of; ring

/-- The loops of `edge_sum` add the nine products the specification lists. -/
theorem edge_sum_eq (R G : Image) (hG : SizeOK G R.width_ R.height_)
    (hpix : ∀ x y, 0 ≤ x → x < R.width_ → 0 ≤ y → y < R.height_ →
      (G.GetColour x y).red_ = gray_at R (x, y))
    (x y : Int) (hx0 : 0 ≤ x) (hx : x < R.width_) (hy0 : 0 ≤ y) (hy : y < R.height_) :
    edge_sum G x y = edge_sum_spec R x y := by
  have tap : ∀ kx ky : Int,
      (G.GetColour
        (if (!decide (x + kx ≥ 0 ∧ x + kx < G.GetWidth ∧ y + ky ≥ 0 ∧ y + ky < G.GetHeight)) = true
          then x else x + kx)
        (if (!decide (x + kx ≥ 0 ∧ x + kx < G.GetWidth ∧ y + ky ≥ 0 ∧ y + ky < G.GetHeight)) = true
          then y else y + ky)).red_ = gray_at R (edge_tap R x y kx ky) := by
    intro kx ky
    unfold edge_tap
    simp only [Image.GetWidth, Image.GetHeight, hG.1, hG.2.1, ge_iff_le]
    by_cases hin : 0 ≤ x + kx ∧ x + kx < R.width_ ∧ 0 ≤ y + ky ∧ y + ky < R.height_
    · simp only [hin, and_self, decide_True, Bool.not_true, Bool.false_eq_true, if_false, if_true]
      exact hpix _ _ hin.1 hin.2.1 hin.2.2.1 hin.2.2.2
    · simp only [hin, decide_False, Bool.not_false, if_true, if_false]
      exact hpix _ _ hx0 hx hy0 hy
  unfold edge_sum edge_sum_spec
  have e3 : ((1 : Int) + 1 - -1).toNat = 3 := by decide
  simp only [forUp, e3, loopUp, tap]
  simp only [List.map_cons, List.map_nil, List.sum_cons, List.sum_nil, edge_K, edge_mat]
  norm_num
  ring

/-- What `EdgeDetectionFilter::Apply` returns. -/
theorem EdgeDetectionFilter_Apply_ok (t : ℚ) (R : Image) (hv : R.Valid) :
    ∃ out, EdgeDetectionFilter.Apply t R = .ok out ∧ SizeOK out R.width_ R.height_ ∧ out.Valid ∧
      ∀ x y, 0 ≤ x → x < R.width_ → 0 ≤ y → y < R.height_ →
        out.GetColour x y = if edge_sum_spec R x y > t then ⟨1, 1, 1⟩ else ⟨0, 0, 0⟩ := by
  obtain ⟨G, hG, hGs, _, hGp⟩ := GrayscaleFilter_Apply_ok R hv
  obtain ⟨v1, v2, v3, v4, v5, v6⟩ := hv
  have hf := fill_spec (fun x y =>
    (if edge_sum G x y > t then (⟨1, 1, 1⟩ : Colour) else ⟨0, 0, 0⟩)) (new_SizeOK v1 v2)
  refine ⟨_, ?_, hf.1, Valid_of_SizeOK hf.1 v3 v4 v5, ?_⟩
  · unfold EdgeDetectionFilter.Apply
    simp only [hG, Image.GetWidth, Image.GetHeight, hGs.1, hGs.2.1, new_ok v1 v2 v5]
  · intro x y h1 h2 h3 h4
    rw [hf.2 x y h1 h2 h3 h4]
    have hred : ∀ x y, 0 ≤ x → x < R.width_ → 0 ≤ y → y < R.height_ →
        (G.GetColour x y).red_ = gray_at R (x, y) := by
      intro x y a b c d
      rw [hGp x y a b c d]
      rfl
    simp only [edge_sum_eq R G hGs hred x y h1 h2 h3 h4]

/-! ## Pixelation with block size 1 -/

/-- A loop with stride 1 and a body that always finishes is `loopUp`, given
more fuel than iterations. -/
theorem forStep_one {σ : Type} (hi : Int) (body : Int → σ → Option σ) (body' : Int → σ → σ)
    (n : Nat) : ∀ (fuel : Nat) (i : Int) (s : σ), i + n = hi → hi ≤ INT32_MAX →
      -2147483648 ≤ i → n < fuel → (∀ j t, i ≤ j → j < hi → body j t = some (body' j t)) →
      forStep hi 1 body fuel i s = some (loopUp body' i n s) := by
  induction n with
  | zero =>
    intro fuel i s hi1 _ _ hf _
    obtain ⟨f, rfl⟩ : ∃ f, fuel = f + 1 := ⟨fuel - 1, by omega⟩
    simp only [forStep, loopUp]
    rw [if_neg (by omega)]
  | succ n ih =>
    intro fuel i s hi1 hmax hlo hf hb
    obtain ⟨f, rfl⟩ : ∃ f, fuel = f + 1 := ⟨fuel - 1, by omega⟩
    unfold INT32_MAX at hmax
    simp only [forStep, loopUp]
    rw [if_pos (by omega), hb i s (le_refl _) (by omega)]
    simp only
    rw [wrap32_of_range (by omega) (by omega)]
    exact ih f (i + 1) (body' i s) (by push_cast at hi1; omega) hmax (by omega) (by omega)
      (fun j t h1 h2 => hb j t (by omega) h2)

theorem block_sum_one (image : Image) (x y : Int) (hx0 : 0 ≤ x) (hx : x < image.width_)
    (hy0 : 0 ≤ y) (hy : y < image.height_) (hw : image.width_ ≤ INT32_MAX)
    (hh : image.height_ ≤ INT32_MAX) :
    block_sum 1 image x y = ⟨(image.GetColour x y).red_, (image.GetColour x y).green_,
      (image.GetColour x y).blue_, 1⟩ := by
  unfold INT32_MAX at hw hh
  have e1 : ((1 : Int) - 0).toNat = 1 := by decide
  have ex : wrap32 (x + 0) = x := by rw [Int.add_zero]; exact wrap32_of_range (by omega) (by omega)
  have ey : wrap32 (y + 0) = y := by rw [Int.add_zero]; exact wrap32_of_range (by omega) (by omega)
  have e2 : wrap32 1 = 1 := by decide
  unfold block_sum
  simp only [forUp, e1, loopUp, ex, ey, Image.GetWidth, Image.GetHeight, hx, hy, and_self, if_true,
    e2, zero_add]

theorem block_fill_one (image : Image) (c : Colour) (x y : Int) (img : Image) (hx0 : 0 ≤ x)
    (hx : x < image.width_) (hy0 : 0 ≤ y) (hy : y < image.height_) (hw : image.width_ ≤ INT32_MAX)
    (hh : image.height_ ≤ INT32_MAX) :
    block_fill 1 image c x y img = img.SetColour c x y := by
  unfold INT32_MAX at hw hh
  have e1 : ((1 : Int) - 0).toNat = 1 := by decide
  have ex : wrap32 (x + 0) = x := by rw [Int.add_zero]; exact wrap32_of_range (by omega) (by omega)
  have ey : wrap32 (y + 0) = y := by rw [Int.add_zero]; exact wrap32_of_range (by omega) (by omega)
  unfold block_fill
  simp only [forUp, e1, loopUp, ex, ey, Image.GetWidth, Image.GetHeight, hx, hy, and_self, if_true]

/-- With block size 1 and enough fuel the filter returns its input. -/
theorem PixelationFilter_Apply_one (R : Image) (hv : R.Valid) (fuel : Nat)
    (hfw : R.width_ < fuel) (hfh : R.height_ < fuel) :
    PixelationFilter.Apply 1 fuel R = some (.ok R) := by
  have hs := Valid.sizeOK hv
  obtain ⟨v1, v2, v3, v4, v5, v6⟩ := hv
  have hf := fill_spec (fun x y => R.GetColour x y) (new_SizeOK v1 v2)
  have inner : ∀ (y : Int) (img : Image), 0 ≤ y → y < R.height_ →
      forStep R.width_ 1 (fun x pixelated_image =>
        some (block_fill 1 R ⟨(block_sum 1 R x y).avg_red / ((block_sum 1 R x y).pixel_count : ℚ),
          (block_sum 1 R x y).avg_green / ((block_sum 1 R x y).pixel_count : ℚ),
          (block_sum 1 R x y).avg_blue / ((block_sum 1 R x y).pixel_count : ℚ)⟩ x y
          pixelated_image)) fuel 0 img =
      some (forUp 0 R.width_ (fun x img => img.SetColour (R.GetColour x y) x y) img) := by
    intro y img hy0 hy
    apply forStep_one R.width_ _ _ (R.width_ - 0).toNat fuel 0 img (by omega) v3 (by omega)
      (by omega)
    intro j t hj0 hj
    rw [block_sum_one R j y hj0 hj hy0 hy v3 v4, block_fill_one R _ j y t hj0 hj hy0 hy v3 v4]
    simp
  have outer : forStep R.height_ 1 (fun y pixelated_image =>
      forStep R.width_ 1 (fun x pixelated_image =>
        some (block_fill 1 R ⟨(block_sum 1 R x y).avg_red / ((block_sum 1 R x y).pixel_count : ℚ),
          (block_sum 1 R x y).avg_green / ((block_sum 1 R x y).pixel_count : ℚ),
          (block_sum 1 R x y).avg_blue / ((block_sum 1 R x y).pixel_count : ℚ)⟩ x y
          pixelated_image)) fuel 0 pixelated_image) fuel 0
        ⟨R.width_, R.height_, List.replicate (R.width_ * R.height_).toNat default⟩ =
      some (forUp 0 R.height_ (fun y img =>
        forUp 0 R.width_ (fun x img => img.SetColour (R.GetColour x y) x y) img)
        ⟨R.width_, R.height_, List.replicate (R.width_ * R.height_).toNat default⟩) := by
    apply forStep_one R.height_ _ _ (R.height_ - 0).toNat fuel 0 _ (by omega) v4 (by omega)
      (by omega)
    intro j t hj0 hj
    exact inner j t hj0 hj
  unfold PixelationFilter.Apply
  simp only [Image.GetWidth, Image.GetHeight, new_ok v1 v2 v5, outer]
  congr 2
  exact Image.ext_pixels hf.1 hs hf.2

/-! ## Export -/

theorem trunc_eq_floor {q : ℚ} (h : 0 ≤ q) : trunc q = ⌊q⌋ := by
  unfold trunc
  rw [Rat.floor_def]
  exact Int.tdiv_eq_ediv (Rat.num_nonneg.mpr h) (Int.ofNat_nonneg _)

theorem floor_unit_range {c : ℚ} (h0 : 0 ≤ c) (h1 : c ≤ 1) : 0 ≤ ⌊c * 255⌋ ∧ ⌊c * 255⌋ ≤ 255 := by
  constructor
  · exact Int.floor_nonneg.mpr (by positivity)
  · have : c * 255 ≤ ((255 : Int) : ℚ) := by push_cast; linarith
    have h2 := Int.floor_le_floor this
    rwa [Int.floor_intCast] at h2

/-- The byte written for a channel in `[0, 1]` is the truncation of `255 * c`. -/
theorem uchar_unit {c : ℚ} (h0 : 0 ≤ c) (h1 : c ≤ 1) :
    ((uchar (c * 255)).val : Int) = ⌊c * 255⌋ := by
  have hr := floor_unit_range h0 h1
  unfold uchar
  rw [trunc_eq_floor (by positivity), toByte_val]
  have : (⌊c * 255⌋ % 256) = ⌊c * 255⌋ := Int.emod_eq_of_lt hr.1 (by omega)
  rw [this]
  omega

theorem le32_congr {a b : Int} (h : a % 4294967296 = b % 4294967296) : le32 a = le32 b := by
  unfold le32; rw [h]

theorem file_size_emod (w h p : Int) :
    wrap32 (54 + wrap32 (wrap32 (wrap32 (w * 3) + p) * h)) % 4294967296 =
      (54 + (3 * w + p) * h) % 4294967296 := by
  have e : ∀ v, Int.ModEq 4294967296 (wrap32 v) v := wrap32_emod
  have h1 : Int.ModEq 4294967296 (wrap32 (w * 3) + p) (3 * w + p) := by
    have := (e (w * 3)).add (Int.ModEq.refl p)
    have e3 : w * 3 + p = 3 * w + p := by ring
    rwa [e3] at this
  have h2 : Int.ModEq 4294967296 (wrap32 (wrap32 (w * 3) + p) * h) ((3 * w + p) * h) :=
    ((e _).trans h1).mul (Int.ModEq.refl h)
  have h3 : Int.ModEq 4294967296 (54 + wrap32 (wrap32 (wrap32 (w * 3) + p) * h))
      (54 + (3 * w + p) * h) := (Int.ModEq.refl 54).add ((e _).trans h2)
  exact (e _).trans h3

theorem export_pad (p : Int) (h0 : 0 ≤ p) (h3 : p ≤ 3) (f : List Byte) :
    (if p > 0 then f ++ ([0, 0, 0] : List Byte).take p.toNat else f) =
      f ++ List.replicate p.toNat 0 := by
  have : p = 0 ∨ p = 1 ∨ p = 2 ∨ p = 3 := by omega
  rcases this with rfl | rfl | rfl | rfl
  · simp
  · rfl
  · rfl
  · rfl

/-- The file `Image::Export` writes: the header, then the rows from the last
to the first. -/
theorem Export_eq (img : Image) :
    img.Export true = .ok (export_header img.width_ img.height_ ++
      (List.range img.height_.toNat).flatMap (fun r => export_row img (img.height_ - 1 - r))) := by
  have hp := padding_amount_range img.width_
  have hbody : (fun (y : Int) (f : List Byte) =>
      (if padding_amount img.width_ > 0 then
        forUp 0 img.width_ (fun x f => f ++ pixel_bytes (img.GetColour x y)) f ++
          ([0, 0, 0] : List Byte).take (padding_amount img.width_).toNat
      else forUp 0 img.width_ (fun x f => f ++ pixel_bytes (img.GetColour x y)) f)) =
      fun y f => f ++ export_row img y := by
    funext y f
    rw [export_pad _ hp.1 hp.2, forUp, loopUp_append]
    unfold export_row
    simp only [Int.sub_zero, Int.zero_add, List.append_assoc]
  have hfs : le32 (wrap32 (54 + wrap32 (wrap32 (wrap32 (img.width_ * 3) + padding_amount img.width_)
      * img.height_))) = le32 (54 + (3 * img.width_ + padding_amount img.width_) * img.height_) :=
    le32_congr (file_size_emod _ _ _)
  have hn : (img.height_ - 1 - 0 + 1).toNat = img.height_.toNat := by
    congr 1; omega
  unfold Image.Export
  simp only [Bool.not_true, Bool.false_eq_true, if_false, hbody]
  rw [forDown, loopDown_append, hn]
  congr 2
  have e54 : (14 : Int) + 40 = 54 := rfl
  simp only [FileHeader.bytes, InfoHeader.bytes, sizeof_FileHeader, sizeof_InfoHeader, export_header,
    Nat.cast_add, Nat.cast_ofNat, e54, hfs]
  rfl

theorem export_header_length (w h : Int) : (export_header w h).length = 54 := by
  simp only [export_header, List.length_append, le32_length, le16_length, List.length_cons,
    List.length_nil]

theorem pixel_bytes_length (c : Colour) : (pixel_bytes c).length = 3 := rfl

theorem export_row_pixels_length (img : Image) (y : Int) :
    ((List.range img.width_.toNat).flatMap
      (fun x => pixel_bytes (img.GetColour x y))).length = img.width_.toNat * 3 :=
  length_flatMap_range _ 3 _ (fun _ _ => rfl)

theorem export_row_length (img : Image) (y : Int) :
    (export_row img y).length = row_size img.width_ := by
  unfold export_row row_size
  rw [List.length_append, export_row_pixels_length, List.length_replicate]
  omega

theorem export_body_length (img : Image) :
    ((List.range img.height_.toNat).flatMap
      (fun r => export_row img (img.height_ - 1 - r))).length =
      img.height_.toNat * row_size img.width_ :=
  length_flatMap_range _ _ _ (fun _ _ => export_row_length img _)

/-- The byte of channel `j` of the pixel in column `x` of the `r`-th row written. -/
theorem export_getD_pixel (img : Image) (r x j : Nat) (hr : r < img.height_.toNat)
    (hx : x < img.width_.toNat) (hj : j < 3) :
    (export_header img.width_ img.height_ ++ (List.range img.height_.toNat).flatMap
      (fun r => export_row img (img.height_ - 1 - r))).getD
        (54 + r * row_size img.width_ + 3 * x + j) 0 =
      (pixel_bytes (img.GetColour x (img.height_ - 1 - r))).getD j 0 := by
  have hrow : 3 * x + j < row_size img.width_ := by unfold row_size; omega
  rw [List.getD_append_right _ _ _ _ (by rw [export_header_length]; omega), export_header_length]
  have e : 54 + r * row_size img.width_ + 3 * x + j - 54 = r * row_size img.width_ + (3 * x + j) := by
    omega
  rw [e, getD_flatMap_range _ (row_size img.width_) 0 _ (fun _ _ => export_row_length img _) r _ hr
    hrow]
  unfold export_row
  rw [List.getD_append _ _ _ _ (by rw [export_row_pixels_length]; omega)]
  have e2 : 3 * x + j = x * 3 + j := by omega
  rw [e2, getD_flatMap_range (fun (x : Nat) => pixel_bytes (img.GetColour x (img.height_ - 1 - r)))
    3 0 _ (fun _ _ => pixel_bytes_length _) x j hx hj]

/-- The padding bytes of the `r`-th row written are zero. -/
theorem export_getD_pad (img : Image) (r k : Nat) (hr : r < img.height_.toNat)
    (hk : k < (padding_amount img.width_).toNat) :
    (export_header img.width_ img.height_ ++ (List.range img.height_.toNat).flatMap
      (fun r => export_row img (img.height_ - 1 - r))).getD
        (54 + r * row_size img.width_ + 3 * img.width_.toNat + k) 0 = 0 := by
  have hrow : 3 * img.width_.toNat + k < row_size img.width_ := by unfold row_size; omega
  rw [List.getD_append_right _ _ _ _ (by rw [export_header_length]; omega), export_header_length]
  have e : 54 + r * row_size img.width_ + 3 * img.width_.toNat + k - 54 =
      r * row_size img.width_ + (3 * img.width_.toNat + k) := by omega
  rw [e, getD_flatMap_range _ (row_size img.width_) 0 _ (fun _ _ => export_row_length img _) r _ hr
    hrow]
  unfold export_row
  rw [List.getD_append_right _ _ _ _ (by rw [export_row_pixels_length]; omega),
    export_row_pixels_length, List.getD_eq_getElem?_getD, List.getElem?_replicate]
  split <;> rfl

/-- A header byte of the file. -/
theorem export_getD_header (img : Image) (i : Nat) (hi : i < 54) :
    (export_header img.width_ img.height_ ++ (List.range img.height_.toNat).flatMap
      (fun r => export_row img (img.height_ - 1 - r))).getD i 0 =
      (export_header img.width_ img.height_).getD i 0 :=
  List.getD_append _ _ _ _ (by rw [export_header_length]; exact hi)

/-! ## Read -/

theorem getD_take {α : Type} (l : List α) (n i : Nat) (d : α) (h : i < n) :
    (l.take n).getD i d = l.getD i d := by
  rw [List.getD_eq_getElem?_getD, List.getD_eq_getElem?_getD, List.getElem?_take_of_lt h]

theorem getD_drop {α : Type} (l : List α) (k i : Nat) (d : α) :
    (l.drop k).getD i d = l.getD (k + i) d := by
  rw [List.getD_eq_getElem?_getD, List.getD_eq_getElem?_getD, List.getElem?_drop]

theorem read_colour_drop (B : List Byte) (k o : Nat) :
    read_colour (B.drop k) o = read_colour B (k + o) := by
  unfold read_colour
  rw [getD_drop, getD_drop, getD_drop]
  rfl

/-- A read that the stream can serve in full. -/
theorem read_full (f : IStream) (buf : List Byte) (n : Nat) (hf : f.fail = false)
    (hn : n ≤ f.rest.length) (hb : buf.length ≤ n) :
    f.read buf n = (f.rest.take n, ⟨f.rest.drop n, false⟩) := by
  unfold IStream.read
  have hl : (f.rest.take n).length = n := by rw [List.length_take]; omega
  rw [hf]
  simp only [Bool.false_eq_true, if_false, hl, Nat.lt_irrefl, decide_False]
  rw [List.drop_eq_nil_of_le hb, List.append_nil]

theorem read_pixel_eq (u : Uninit) (x y : Int) (R : List Byte) (img : Image) (hR : 3 ≤ R.length) :
    read_pixel u x y (⟨R, false⟩, img) = (⟨R.drop 3, false⟩, img.SetColour (read_colour R 0) x y) := by
  have hrd : (⟨R, false⟩ : IStream).read ((u.colour x y).take 3) 3 =
      (R.take 3, ⟨R.drop 3, false⟩) :=
    read_full _ _ 3 rfl hR (by rw [List.length_take]; omega)
  unfold read_pixel
  simp only [hrd]
  unfold read_colour
  rw [getD_take _ _ _ _ (by omega), getD_take _ _ _ _ (by omega), getD_take _ _ _ _ (by omega)]

/-- The pixels of one row of `Image::Read`: `w` pixels are taken from the stream. -/
theorem read_row_pixels (u : Uninit) (w h y : Int) (hy0 : 0 ≤ y) (hy : y < h) (R : List Byte)
    (hR : 3 * w.toNat ≤ R.length) (img0 : Image) (hs : SizeOK img0 w h) :
    ∃ img, forUp 0 w (fun x s => read_pixel u x y s) (⟨R, false⟩, img0) =
        (⟨R.drop (3 * w.toNat), false⟩, img) ∧ SizeOK img w h ∧
      ∀ x' y', 0 ≤ x' → x' < w → 0 ≤ y' → y' < h →
        img.GetColour x' y' = if y' = y then read_colour R (3 * x'.toNat)
          else img0.GetColour x' y' := by
  have hw0 : 0 ≤ w := hs.2.2.1
  have key := loopUp_inv (fun (k : Nat) (t : IStream × Image) =>
      t.1 = ⟨R.drop (3 * k), false⟩ ∧ SizeOK t.2 w h ∧
      ∀ x' y', 0 ≤ x' → x' < w → 0 ≤ y' → y' < h →
        t.2.GetColour x' y' = if y' = y ∧ x' < k then read_colour R (3 * x'.toNat)
          else img0.GetColour x' y')
    (fun x s => read_pixel u x y s) (w - 0).toNat 0 (⟨R, false⟩, img0)
    ⟨by simp, hs, by intro x' y' h1 _ _ _; rw [if_neg]; omega⟩
    (by
      intro k t hk ⟨ht1, ht, hpix⟩
      have ht' : t = (⟨R.drop (3 * k), false⟩, t.2) := Prod.ext ht1 rfl
      rw [ht']
      beta_reduce
      rw [read_pixel_eq u _ y _ _ (by rw [List.length_drop]; omega)]
      refine ⟨?_, SetColour_SizeOK ht _ _ _, ?_⟩
      · simp only [List.drop_drop]
        rfl
      · intro x' y' h1 h2 h3 h4
        rw [GetColour_SetColour ht _ (by omega) (by omega) hy0 hy h1 h2 h3 h4,
          hpix x' y' h1 h2 h3 h4]
        by_cases e : x' = 0 + (k : Int) ∧ y' = y
        · rw [if_pos e, if_pos ⟨e.2, by omega⟩]
          have ek : x'.toNat = k := by omega
          rw [ek, read_colour_drop]
          rfl
        · rw [if_neg e]
          by_cases e2 : y' = y ∧ x' < (k : Int)
          · rw [if_pos e2, if_pos ⟨e2.1, by omega⟩]
          · rw [if_neg e2, if_neg]
            intro hcon
            rcases hcon with ⟨c1, c2⟩
            have : x' < (k : Int) ∨ x' = k := by omega
            rcases this with c | c
            · exact e2 ⟨c1, c⟩
            · exact e ⟨by omega, c1⟩)
  obtain ⟨k1, k2, k3⟩ := key
  rw [Int.sub_zero] at k1 k2 k3
  rw [forUp, Int.sub_zero]
  refine ⟨_, Prod.ext k1 rfl, k2, ?_⟩
  intro x' y' h1 h2 h3 h4
  rw [k3 x' y' h1 h2 h3 h4]
  by_cases e : y' = y
  · rw [if_pos e, if_pos ⟨e, by omega⟩]
  · rw [if_neg e, if_neg (fun hc => e hc.1)]

theorem seek_pad (p : Int) (hp : 0 ≤ p) (R : List Byte) (img : Image) :
    (if p > 0 then ((⟨R, false⟩ : IStream).seekg_cur p, img) else (⟨R, false⟩, img)) =
      ((⟨R.drop p.toNat, false⟩ : IStream), img) := by
  by_cases h : p > 0
  · rw [if_pos h]; rfl
  · rw [if_neg h]
    have : p = 0 := by omega
    subst this
    rfl

/-- The row loop of `Image::Read`: `h` rows are taken from the stream, the
first one read being raster row `h - 1`. -/
theorem read_rows (u : Uninit) (w h : Int) (B : List Byte)
    (hB : h.toNat * row_size w ≤ B.length) (img0 : Image) (hs : SizeOK img0 w h) :
    ∃ img, forDown (h - 1) 0 (fun y s => read_row u w (padding_amount w) y s)
        (⟨B, false⟩, img0) = (⟨B.drop (h.toNat * row_size w), false⟩, img) ∧ SizeOK img w h ∧
      ∀ x' y', 0 ≤ x' → x' < w → 0 ≤ y' → y' < h →
        img.GetColour x' y' = read_colour B ((h - 1 - y').toNat * row_size w + 3 * x'.toNat) := by
  have hh0 : 0 ≤ h := hs.2.2.2.1
  have hp := padding_amount_range w
  have hn : (h - 1 - 0 + 1).toNat = h.toNat := by congr 1; omega
  have key := loopDown_inv (fun (k : Nat) (t : IStream × Image) =>
      t.1 = ⟨B.drop (k * row_size w), false⟩ ∧ SizeOK t.2 w h ∧
      ∀ x' y', 0 ≤ x' → x' < w → 0 ≤ y' → y' < h →
        t.2.GetColour x' y' = if h - k ≤ y' then
          read_colour B ((h - 1 - y').toNat * row_size w + 3 * x'.toNat)
          else img0.GetColour x' y')
    (fun y s => read_row u w (padding_amount w) y s)
    h.toNat (h - 1) (⟨B, false⟩, img0)
    ⟨by simp, hs, by intro x' y' _ _ _ h4; rw [if_neg]; omega⟩
    (by
      intro k t hk ⟨ht1, ht, hpix⟩
      have hy0 : 0 ≤ h - 1 - (k : Int) := by omega
      have hy : h - 1 - (k : Int) < h := by omega
      have hlen : 3 * w.toNat ≤ (B.drop (k * row_size w)).length := by
        have h1 : (k + 1) * row_size w ≤ h.toNat * row_size w := Nat.mul_le_mul_right _ hk
        have h2 : (k + 1) * row_size w = k * row_size w + row_size w := by ring
        have h3 : 3 * w.toNat ≤ row_size w := by unfold row_size; omega
        rw [List.length_drop]; omega
      obtain ⟨img', hrow, hsz, hrp⟩ := read_row_pixels u w h (h - 1 - k) hy0 hy
        (B.drop (k * row_size w)) hlen t.2 ht
      have ht' : t = (⟨B.drop (k * row_size w), false⟩, t.2) := Prod.ext ht1 rfl
      rw [ht']
      simp only [read_row, hrow]
      rw [seek_pad _ hp.1]
      refine ⟨?_, hsz, ?_⟩
      · simp only [List.drop_drop]
        congr 2
        unfold row_size; ring
      · intro x' y' h1 h2 h3 h4
        rw [hrp x' y' h1 h2 h3 h4, hpix x' y' h1 h2 h3 h4]
        by_cases e : y' = h - 1 - (k : Int)
        · rw [if_pos e, if_pos (by push_cast; omega), read_colour_drop]
          have : (h - 1 - y').toNat = k := by omega
          rw [this]
        · rw [if_neg e]
          by_cases e2 : h - (k : Int) ≤ y'
          · rw [if_pos e2, if_pos (by push_cast; omega)]
          · rw [if_neg e2, if_neg (by push_cast; omega)])
  obtain ⟨k1, k2, k3⟩ := key
  rw [forDown, hn]
  refine ⟨_, Prod.ext k1 rfl, k2, ?_⟩
  intro x' y' h1 h2 h3 h4
  rw [k3 x' y' h1 h2 h3 h4, if_pos (by omega)]

/-- The pixel stage of `Image::Read` on a stream that holds all the rows. -/
theorem read_pixels_ok (u : Uninit) (w h : Int) (hw : 0 ≤ w) (hh : 0 ≤ h)
    (hp : w * h ≤ INT32_MAX) (B : List Byte) (hB : h.toNat * row_size w ≤ B.length) :
    ∃ img, read_pixels u w h ⟨B, false⟩ = .ok img ∧ SizeOK img w h ∧
      ∀ x y, 0 ≤ x → x < w → 0 ≤ y → y < h →
        img.GetColour x y = read_colour B ((h - 1 - y).toNat * row_size w + 3 * x.toNat) := by
  have h0 : 0 ≤ w * h := mul_nonneg hw hh
  unfold INT32_MAX at hp
  obtain ⟨img, h1, h2, h3⟩ := read_rows u w h B hB _ (new_SizeOK hw hh)
  refine ⟨img, ?_, h2, h3⟩
  unfold read_pixels
  simp only [wrap32_of_range (by omega : -2147483648 ≤ w * h) hp]
  rw [if_neg (by omega), h1]

theorem FileHeader_bytes_length (h : FileHeader) : h.bytes.length = 14 := by
  simp only [FileHeader.bytes, List.length_append, le32_length, List.length_cons, List.length_nil]

theorem InfoHeader_bytes_length (h : InfoHeader) : h.bytes.length = 40 := by
  simp only [InfoHeader.bytes, List.length_append, le32_length, le16_length]

/-- A byte that a read did deliver. -/
theorem read_getD (b buf : List Byte) (n i : Nat) (hi : i < n) (hl : i < b.length) :
    ((⟨b, false⟩ : IStream).read buf n).1.getD i 0 = b.getD i 0 := by
  unfold IStream.read
  simp only [Bool.false_eq_true, if_false]
  rw [List.getD_append _ _ _ _ (by rw [List.length_take]; omega), getD_take _ _ _ _ hi]

/-- The steps of `Image::Read` on a file that was opened, one after the other. -/
theorem Read_unfold (u : Uninit) (b : List Byte) :
    Image.Read u (some b) =
      if ((⟨b, false⟩ : IStream).read u.file_header.bytes 14).1.getD 0 0 ≠ 66 ∨
          ((⟨b, false⟩ : IStream).read u.file_header.bytes 14).1.getD 1 0 ≠ 77 then
        .error .InvalidBMPFormatException
      else if (InfoHeader.ofBytes ((((⟨b, false⟩ : IStream).read u.file_header.bytes 14).2.read
            u.info_header.bytes 40).1)).bits_per_pixel ≠ 24
        then .error .InvalidBMPFormatException
      else read_pixels u
        (InfoHeader.ofBytes ((((⟨b, false⟩ : IStream).read u.file_header.bytes 14).2.read
            u.info_header.bytes 40).1)).width
        (InfoHeader.ofBytes ((((⟨b, false⟩ : IStream).read u.file_header.bytes 14).2.read
            u.info_header.bytes 40).1)).height
        (((⟨b, false⟩ : IStream).read u.file_header.bytes 14).2.read u.info_header.bytes 40).2 :=
  rfl

/-- The signature check of `Image::Read` on a file of at least two bytes. -/
theorem Read_bad_signature (u : Uninit) (b : List Byte) (hlen : 2 ≤ b.length)
    (hsig : b.getD 0 0 ≠ 66 ∨ b.getD 1 0 ≠ 77) :
    Image.Read u (some b) = .error .InvalidBMPFormatException := by
  rw [Read_unfold, read_getD b _ 14 0 (by omega) (by omega),
    read_getD b _ 14 1 (by omega) (by omega), if_pos hsig]

theorem InfoHeader_ofBytes_fields (m : List Byte) :
    (InfoHeader.ofBytes m).bits_per_pixel = int16_of (m.getD 14 0) (m.getD 15 0) ∧
    (InfoHeader.ofBytes m).width =
      int32_of (m.getD 4 0) (m.getD 5 0) (m.getD 6 0) (m.getD 7 0) ∧
    (InfoHeader.ofBytes m).height =
      int32_of (m.getD 8 0) (m.getD 9 0) (m.getD 10 0) (m.getD 11 0) := by
  simp only [InfoHeader.ofBytes, and_self]

/-- The two header reads and checks of `Image::Read` on a file of at least 54 bytes. -/
theorem Read_long (u : Uninit) (b : List Byte) (hlen : 54 ≤ b.length) :
    Image.Read u (some b) =
      if b.getD 0 0 ≠ 66 ∨ b.getD 1 0 ≠ 77 then .error .InvalidBMPFormatException
      else if header_bpp b ≠ 24 then .error .InvalidBMPFormatException
      else read_pixels u (header_width b) (header_height b) ⟨b.drop 54, false⟩ := by
  unfold header_bpp header_width header_height
  have r1 : (⟨b, false⟩ : IStream).read u.file_header.bytes 14 =
      (b.take 14, ⟨b.drop 14, false⟩) :=
    read_full _ _ 14 rfl (by show 14 ≤ b.length; omega) (by rw [FileHeader_bytes_length])
  have r2 : (⟨b.drop 14, false⟩ : IStream).read u.info_header.bytes 40 =
      ((b.drop 14).take 40, ⟨b.drop 54, false⟩) := by
    rw [read_full _ _ 40 rfl (by show 40 ≤ (b.drop 14).length; rw [List.length_drop]; omega)
        (by rw [InfoHeader_bytes_length])]
    simp only [List.drop_drop]
  have g : ∀ i, i < 40 → ((b.drop 14).take 40).getD i 0 = b.getD (14 + i) 0 := fun i hi => by
    rw [getD_take _ _ _ _ hi, getD_drop]
  obtain ⟨hb, hw, hh⟩ := InfoHeader_ofBytes_fields ((b.drop 14).take 40)
  rw [g 14 (by omega), g 15 (by omega)] at hb
  rw [g 4 (by omega), g 5 (by omega), g 6 (by omega), g 7 (by omega)] at hw
  rw [g 8 (by omega), g 9 (by omega), g 10 (by omega), g 11 (by omega)] at hh
  rw [Read_unfold]
  simp only [r1, r2, hb, hw, hh, getD_take b 14 0 0 (by omega), getD_take b 14 1 0 (by omega)]

/-- The empty file passes both header checks of `Image::Read`: the header
objects keep their default member initialisers. -/
theorem Read_empty (u : Uninit) :
    Image.Read u (some []) = read_pixels u (wrap32 u.width) (wrap32 u.height) ⟨[], true⟩ := by
  have r1 : ∀ buf : List Byte, (⟨[], false⟩ : IStream).read buf 14 = (buf, ⟨[], true⟩) := by
    intro buf; rfl
  have r2 : ∀ buf : List Byte, (⟨[], true⟩ : IStream).read buf 40 = (buf, ⟨[], true⟩) := by
    intro buf; rfl
  have s0 : u.file_header.bytes.getD 0 0 = 66 := rfl
  have s1 : u.file_header.bytes.getD 1 0 = 77 := rfl
  obtain ⟨hb, hw, hh⟩ := InfoHeader_ofBytes_fields u.info_header.bytes
  have hb' : (InfoHeader.ofBytes u.info_header.bytes).bits_per_pixel = 24 := by
    rw [hb]
    exact int16_of_le16 24 (by decide) (by decide)
  have hw' : (InfoHeader.ofBytes u.info_header.bytes).width = wrap32 u.width := by
    rw [hw]; exact int32_of_le32 u.width
  have hh' : (InfoHeader.ofBytes u.info_header.bytes).height = wrap32 u.height := by
    rw [hh]; exact int32_of_le32 u.height
  rw [Read_unfold]
  simp only [r1, r2, s0, s1, hb', hw', hh']
  simp

/-- The one-byte file `B` passes both header checks of `Image::Read` as well:
the second signature byte is the default member initialiser. -/
theorem Read_single_B (u : Uninit) :
    Image.Read u (some [66]) = read_pixels u (wrap32 u.width) (wrap32 u.height) ⟨[], true⟩ := by
  have r1 : ∀ buf : List Byte, (⟨[66], false⟩ : IStream).read buf 14 =
      ([66] ++ buf.drop 1, ⟨[], true⟩) := by
    intro buf
    simp [IStream.read]
  have r2 : ∀ buf : List Byte, (⟨[], true⟩ : IStream).read buf 40 = (buf, ⟨[], true⟩) := by
    intro buf; rfl
  have s0 : ([66] ++ u.file_header.bytes.drop 1).getD 0 0 = 66 := by
    simp only [List.singleton_append, List.getD_cons_zero]
  have s1 : ([66] ++ u.file_header.bytes.drop 1).getD 1 0 = 77 := by
    simp only [Uninit.file_header, FileHeader.bytes, List.cons_append, List.nil_append,
      List.drop_succ_cons, List.drop_zero, List.getD_cons_succ, List.getD_cons_zero]
  obtain ⟨hb, hw, hh⟩ := InfoHeader_ofBytes_fields u.info_header.bytes
  have hb' : (InfoHeader.ofBytes u.info_header.bytes).bits_per_pixel = 24 := by
    rw [hb]
    exact int16_of_le16 24 (by decide) (by decide)
  have hw' : (InfoHeader.ofBytes u.info_header.bytes).width = wrap32 u.width := by
    rw [hw]; exact int32_of_le32 u.width
  have hh' : (InfoHeader.ofBytes u.info_header.bytes).height = wrap32 u.height := by
    rw [hh]; exact int32_of_le32 u.height
  rw [Read_unfold]
  simp only [r1, r2, s0, s1, hb', hw', hh']
  simp

/-- The pixel stage of `Image::Read` never ends in `InvalidBMPFormatException`. -/
theorem read_pixels_ne_invalid (u : Uninit) (w h : Int) (f : IStream) :
    read_pixels u w h f ≠ .error .InvalidBMPFormatException := by
  unfold read_pixels
  simp only
  split
  · intro h; cases h
  · intro h; cases h

/-! ## The file as a whole -/

theorem row_size_cast (w : Int) (hw : 0 ≤ w) :
    ((row_size w : Nat) : Int) = 3 * w + padding_amount w := by
  have hp := padding_amount_range w
  unfold row_size
  push_cast
  rw [Int.toNat_of_nonneg hw, Int.toNat_of_nonneg hp.1]

/-- The file offset of the pixel `(x, y)`, as a natural number. -/
theorem offset_toNat (w h x y : Int) (hw : 0 ≤ w) (hx : 0 ≤ x) (hy : y < h) :
    (54 + (h - 1 - y) * (3 * w + padding_amount w) + 3 * x).toNat =
      54 + (h - 1 - y).toNat * row_size w + 3 * x.toNat := by
  have e : 54 + (h - 1 - y) * (3 * w + padding_amount w) + 3 * x =
      ((54 + (h - 1 - y).toNat * row_size w + 3 * x.toNat : Nat) : Int) := by
    push_cast
    rw [row_size_cast w hw, Int.toNat_of_nonneg hx, Int.toNat_of_nonneg (by omega)]
  rw [e, Int.toNat_natCast]

/-- The size of the file, as an integer. -/
theorem file_size_cast (w h : Int) (hw : 0 ≤ w) (hh : 0 ≤ h) :
    ((54 + h.toNat * row_size w : Nat) : Int) = 54 + (3 * w + padding_amount w) * h := by
  push_cast
  rw [row_size_cast w hw, Int.toNat_of_nonneg hh]
  ring

theorem body_getD_pixel (img : Image) (r x j : Nat) (hr : r < img.height_.toNat)
    (hx : x < img.width_.toNat) (hj : j < 3) :
    ((List.range img.height_.toNat).flatMap
      (fun r => export_row img (img.height_ - 1 - r))).getD
        (r * row_size img.width_ + 3 * x + j) 0 =
      (pixel_bytes (img.GetColour x (img.height_ - 1 - r))).getD j 0 := by
  have h := export_getD_pixel img r x j hr hx hj
  rw [List.getD_append_right _ _ _ _ (by rw [export_header_length]; omega),
    export_header_length] at h
  rw [← h]
  congr 1
  omega

/-- The bytes of the pixel `(x, y)` in the pixel data of the file. -/
theorem body_pixel (img : Image) (x y : Int) (hx0 : 0 ≤ x) (hx : x < img.width_) (hy0 : 0 ≤ y)
    (hy : y < img.height_) (j : Nat) (hj : j < 3) :
    ((List.range img.height_.toNat).flatMap
      (fun r => export_row img (img.height_ - 1 - r))).getD
        ((img.height_ - 1 - y).toNat * row_size img.width_ + 3 * x.toNat + j) 0 =
      (pixel_bytes (img.GetColour x y)).getD j 0 := by
  rw [body_getD_pixel img (img.height_ - 1 - y).toNat x.toNat j (by omega) (by omega) hj]
  have e1 : ((x.toNat : Nat) : Int) = x := Int.toNat_of_nonneg hx0
  have e2 : img.height_ - 1 - (((img.height_ - 1 - y).toNat : Nat) : Int) = y := by
    rw [Int.toNat_of_nonneg (by omega)]; omega
  rw [e1, e2]

theorem export_header_sig (w h : Int) :
    (export_header w h).getD 0 0 = 66 ∧ (export_header w h).getD 1 0 = 77 := ⟨rfl, rfl⟩

theorem export_header_fields (w h : Int) :
    (export_header w h).getD 18 0 = (le32 w).getD 0 0 ∧
    (export_header w h).getD 19 0 = (le32 w).getD 1 0 ∧
    (export_header w h).getD 20 0 = (le32 w).getD 2 0 ∧
    (export_header w h).getD 21 0 = (le32 w).getD 3 0 ∧
    (export_header w h).getD 22 0 = (le32 h).getD 0 0 ∧
    (export_header w h).getD 23 0 = (le32 h).getD 1 0 ∧
    (export_header w h).getD 24 0 = (le32 h).getD 2 0 ∧
    (export_header w h).getD 25 0 = (le32 h).getD 3 0 ∧
    (export_header w h).getD 28 0 = (le16 24).getD 0 0 ∧
    (export_header w h).getD 29 0 = (le16 24).getD 1 0 := by
  simp only [export_header, le32, le16, List.cons_append, List.nil_append, List.getD_cons_succ,
    List.getD_cons_zero, and_self]

/-- Colours of a valid image at positions inside it are stored colours. -/
theorem GetColour_mem {img : Image} {w h : Int} (hs : SizeOK img w h) (x y : Int) (hx0 : 0 ≤ x)
    (hx : x < w) (hy0 : 0 ≤ y) (hy : y < h) : img.GetColour x y ∈ img.data_ := by
  obtain ⟨h1, h2, h3, h4, h5⟩ := hs
  have r := index_range hx0 hx hy0 hy
  unfold Image.GetColour
  simp only [h1]
  rw [if_pos r.1]
  have hlt : (y * w + x).toNat < img.data_.length := by omega
  rw [List.getD_eq_getElem _ _ hlt]
  exact List.getElem_mem hlt

/-- Reading back what `Image::Export` wrote: the file is accepted and the
pixel `(x, y)` is rebuilt from the three bytes written for the pixel `(x, y)`. -/
theorem Read_Export (R : Image) (hv : R.Valid) (u : Uninit) :
    ∃ out, Image.Read u (some (export_header R.width_ R.height_ ++
        (List.range R.height_.toNat).flatMap (fun r => export_row R (R.height_ - 1 - r)))) =
          .ok out ∧ SizeOK out R.width_ R.height_ ∧
      ∀ x y, 0 ≤ x → x < R.width_ → 0 ≤ y → y < R.height_ →
        out.GetColour x y =
          ⟨(((pixel_bytes (R.GetColour x y)).getD 2 0).val : ℚ) / 255,
            (((pixel_bytes (R.GetColour x y)).getD 1 0).val : ℚ) / 255,
            (((pixel_bytes (R.GetColour x y)).getD 0 0).val : ℚ) / 255⟩ := by
  obtain ⟨v1, v2, v3, v4, v5, v6⟩ := hv
  unfold INT32_MAX at v3 v4
  have hlen := export_body_length R
  have hh := export_header_length R.width_ R.height_
  obtain ⟨s0, s1⟩ := export_header_sig R.width_ R.height_
  obtain ⟨f0, f1, f2, f3, f4, f5, f6, f7, f8, f9⟩ := export_header_fields R.width_ R.height_
  have hd : ∀ i, i < 54 → (export_header R.width_ R.height_ ++
      (List.range R.height_.toNat).flatMap (fun r => export_row R (R.height_ - 1 - r))).getD i 0 =
      (export_header R.width_ R.height_).getD i 0 :=
    fun i hi => export_getD_header R i hi
  have hdrop : (export_header R.width_ R.height_ ++
      (List.range R.height_.toNat).flatMap (fun r => export_row R (R.height_ - 1 - r))).drop 54 =
      (List.range R.height_.toNat).flatMap (fun r => export_row R (R.height_ - 1 - r)) := by
    rw [← hh, List.drop_left]
  obtain ⟨out, ho, hs, hp⟩ := read_pixels_ok u R.width_ R.height_ v1 v2 v5 _ (le_of_eq hlen.symm)
  refine ⟨out, ?_, hs, ?_⟩
  · rw [Read_long u _ (by rw [List.length_append, hh]; omega)]
    unfold header_bpp header_width header_height
    rw [hd 0 (by omega), hd 1 (by omega), hd 28 (by omega), hd 29 (by omega), hd 18 (by omega),
      hd 19 (by omega), hd 20 (by omega), hd 21 (by omega), hd 22 (by omega), hd 23 (by omega),
      hd 24 (by omega), hd 25 (by omega), s0, s1, f0, f1, f2, f3, f4, f5, f6, f7, f8, f9,
      int32_of_le32, int32_of_le32, int16_of_le16 24 (by decide) (by decide),
      wrap32_of_range (by omega) v3, wrap32_of_range (by omega) v4, hdrop, ho]
    simp
  · intro x y h1 h2 h3 h4
    rw [hp x y h1 h2 h3 h4]
    unfold read_colour
    have b0 := body_pixel R x y h1 h2 h3 h4 0 (by omega)
    have b1 := body_pixel R x y h1 h2 h3 h4 1 (by omega)
    have b2 := body_pixel R x y h1 h2 h3 h4 2 (by omega)
    rw [Nat.add_zero] at b0
    rw [b0, b1, b2]

/-! ## More facts about the codec, used by the claims -/

theorem le32_u32 (n : Nat) :
    ((le32 (n : Int)).getD 0 0).val + 256 * ((le32 (n : Int)).getD 1 0).val +
      65536 * ((le32 (n : Int)).getD 2 0).val + 16777216 * ((le32 (n : Int)).getD 3 0).val =
      n % 4294967296 := by
  simp only [le32, List.getD_cons_zero, List.getD_cons_succ, toByte_val]
  have h0 : (0 : Int) ≤ (n : Int) % 4294967296 := Int.emod_nonneg _ (by decide)
  generalize hu : ((n : Int) % 4294967296).toNat = u
  have hu2 : (u : Int) = (n : Int) % 4294967296 := by rw [← hu]; exact Int.toNat_of_nonneg h0
  omega

/-- The header `Image::Export` writes, with the constant fields spelled out. -/
theorem export_header_eq (w h : Int) (n : Nat) (hn : (n : Int) = 54 + (3 * w + padding_amount w) * h) :
    export_header w h = [66, 77] ++ le32 (n : Int) ++ [0, 0, 0, 0] ++ [54, 0, 0, 0] ++ [40, 0, 0, 0] ++
      le32 w ++ le32 h ++ [1, 0] ++ [24, 0] ++ List.replicate 24 0 := by
  have e0 : le32 0 = [0, 0, 0, 0] := by decide
  have e54 : le32 54 = [54, 0, 0, 0] := by decide
  have e40 : le32 40 = [40, 0, 0, 0] := by decide
  have e1 : le16 1 = [1, 0] := by decide
  have e24 : le16 24 = [24, 0] := by decide
  unfold export_header
  rw [hn, e0, e54, e40, e1, e24]
  simp only [List.replicate, List.append_assoc, List.cons_append, List.nil_append]

/-- The bytes written for a colour with channels in `[0, 1]`. -/
theorem pixel_bytes_unit (c : Colour) (hr : 0 ≤ c.red_ ∧ c.red_ ≤ 1)
    (hg : 0 ≤ c.green_ ∧ c.green_ ≤ 1) (hb : 0 ≤ c.blue_ ∧ c.blue_ ≤ 1) :
    ((((pixel_bytes c).getD 0 0).val : Int) = ⌊c.blue_ * 255⌋ ∧
      (((pixel_bytes c).getD 1 0).val : Int) = ⌊c.green_ * 255⌋ ∧
      (((pixel_bytes c).getD 2 0).val : Int) = ⌊c.red_ * 255⌋) :=
  ⟨uchar_unit hb.1 hb.2, uchar_unit hg.1 hg.2, uchar_unit hr.1 hr.2⟩

/-- Quantisation of a channel loses at most `1/255`. -/
theorem quantise_error (c : ℚ) (n : Nat) (hn : (n : Int) = ⌊c * 255⌋) :
    ((n : ℚ) / 255 = (⌊c * 255⌋ : ℚ) / 255) ∧ |(n : ℚ) / 255 - c| ≤ 1 / 255 := by
  have e : (n : ℚ) = ((⌊c * 255⌋ : Int) : ℚ) := by rw [← hn]; simp
  have h1 := Int.floor_le (c * 255)
  have h2 := Int.lt_floor_add_one (c * 255)
  refine ⟨by rw [e], ?_⟩
  rw [e, abs_le]
  constructor
  · have : c - 1 / 255 ≤ (⌊c * 255⌋ : ℚ) / 255 := by
      rw [le_div_iff₀ (by norm_num)]; linarith
    linarith
  · have : (⌊c * 255⌋ : ℚ) / 255 ≤ c := by
      rw [div_le_iff₀ (by norm_num)]; linarith
    linarith

/-- What `Image::Read` returns for a complete 24-bit file whose pixel count is an `int`. -/
theorem Read_file (u : Uninit) (b : List Byte) (h0 : b.getD 0 0 = 66) (h1 : b.getD 1 0 = 77)
    (hbpp : header_bpp b = 24) (hw : 0 ≤ header_width b) (hh : 0 ≤ header_height b)
    (hp : header_width b * header_height b ≤ INT32_MAX)
    (hlen : 54 + (3 * header_width b + padding_amount (header_width b)) * header_height b ≤
      (b.length : Int)) :
    ∃ img, Image.Read u (some b) = .ok img ∧ SizeOK img (header_width b) (header_height b) ∧
      ∀ x y, 0 ≤ x → x < header_width b → 0 ≤ y → y < header_height b →
        img.GetColour x y =
          read_colour b (pixel_offset (header_width b) (header_height b) x y).toNat := by
  have hl := file_size_cast (header_width b) (header_height b) hw hh
  have hlen' : 54 + (header_height b).toNat * row_size (header_width b) ≤ b.length := by omega
  obtain ⟨img, ho, hs, hpix⟩ := read_pixels_ok u (header_width b) (header_height b) hw hh hp
    (b.drop 54) (by rw [List.length_drop]; omega)
  refine ⟨img, ?_, hs, ?_⟩
  · have hl54 : 54 ≤ b.length := by omega
    have e1 : ¬((66 : Byte) ≠ 66 ∨ (77 : Byte) ≠ 77) := by decide
    have e2 : ¬((24 : Int) ≠ 24) := by decide
    rw [Read_long u b hl54, h0, h1, hbpp, if_neg e1, if_neg e2]
    exact ho
  · intro x y a1 a2 a3 a4
    rw [hpix x y a1 a2 a3 a4, read_colour_drop]
    unfold pixel_offset
    rw [offset_toNat _ _ _ _ hw a1 a4, Nat.add_assoc]

/-- The bits-per-pixel check of `Image::Read` on a file of at least 54 bytes
with signature "BM": the call fails with `InvalidBMPFormatException` exactly
when the field is not 24. -/
theorem Read_bpp_check (u : Uninit) (b : List Byte) (hlen : 54 ≤ b.length)
    (h0 : b.getD 0 0 = 66) (h1 : b.getD 1 0 = 77) :
    Image.Read u (some b) = .error .InvalidBMPFormatException ↔ header_bpp b ≠ 24 := by
  have e1 : ¬((66 : Byte) ≠ 66 ∨ (77 : Byte) ≠ 77) := by decide
  rw [Read_long u b hlen, h0, h1, if_neg e1]
  by_cases hb : header_bpp b ≠ 24
  · rw [if_pos hb]
    exact ⟨fun _ => hb, fun _ => rfl⟩
  · rw [if_neg hb]
    constructor
    · intro h
      exfalso
      unfold read_pixels at h
      simp only at h
      split at h <;> cases h
    · intro h; exact absurd h hb

/-! ## The claims -/

/-- C1: for every raster `R` (a valid `Image`) with width and height at least 1
and every channel in `[0, 1]`, `Image::Read` accepts the bytes `Image::Export`
wrote for `R`, returns a raster of exactly `R`'s width and height, and every
channel of every pixel `(x, y)` is `floor(255 * c) / 255`, at most `1/255` away
from the channel `c` of `R`. -/
theorem C1_read_export_roundtrip (R : Image) (hv : R.Valid) (_hw : 1 ≤ R.width_)
    (_hh : 1 ≤ R.height_) (hu : R.InUnit) (u : Uninit) :
    ∃ bytes out, R.Export true = .ok bytes ∧ Image.Read u (some bytes) = .ok out ∧
      out.width_ = R.width_ ∧ out.height_ = R.height_ ∧ out.Valid ∧
      ∀ x y, 0 ≤ x → x < R.width_ → 0 ≤ y → y < R.height_ →
        (((out.GetColour x y).red_ = (⌊(R.GetColour x y).red_ * 255⌋ : ℚ) / 255) ∧
          |(out.GetColour x y).red_ - (R.GetColour x y).red_| ≤ 1 / 255) ∧
        (((out.GetColour x y).green_ = (⌊(R.GetColour x y).green_ * 255⌋ : ℚ) / 255) ∧
          |(out.GetColour x y).green_ - (R.GetColour x y).green_| ≤ 1 / 255) ∧
        (((out.GetColour x y).blue_ = (⌊(R.GetColour x y).blue_ * 255⌋ : ℚ) / 255) ∧
          |(out.GetColour x y).blue_ - (R.GetColour x y).blue_| ≤ 1 / 255) := by
  obtain ⟨out, ho, hs, hp⟩ := Read_Export R hv u
  have hsz := Valid.sizeOK hv
  refine ⟨_, out, Export_eq R, ho, hs.1, hs.2.1,
    Valid_of_SizeOK hs hv.2.2.1 hv.2.2.2.1 hv.2.2.2.2.1, ?_⟩
  intro x y h1 h2 h3 h4
  obtain ⟨ur, ug, ub⟩ := hu _ (GetColour_mem hsz x y h1 h2 h3 h4)
  obtain ⟨pb, pg, pr⟩ := pixel_bytes_unit (R.GetColour x y) ur ug ub
  rw [hp x y h1 h2 h3 h4]
  exact ⟨quantise_error _ _ pr, quantise_error _ _ pg, quantise_error _ _ pb⟩

/-- Witness of C1 on the 3×2 sample raster. -/
theorem C1_read_export_roundtrip_witness :
    sample_3x2.Valid ∧ 1 ≤ sample_3x2.width_ ∧ 1 ≤ sample_3x2.height_ ∧ sample_3x2.InUnit ∧
    (∃ bytes out, sample_3x2.Export true = .ok bytes ∧ Image.Read sample_uninit (some bytes) = .ok out ∧
      out.width_ = sample_3x2.width_ ∧ out.height_ = sample_3x2.height_ ∧ out.Valid ∧
      ∀ x y, 0 ≤ x → x < sample_3x2.width_ → 0 ≤ y → y < sample_3x2.height_ →
        (((out.GetColour x y).red_ = (⌊(sample_3x2.GetColour x y).red_ * 255⌋ : ℚ) / 255) ∧
          |(out.GetColour x y).red_ - (sample_3x2.GetColour x y).red_| ≤ 1 / 255) ∧
        (((out.GetColour x y).green_ = (⌊(sample_3x2.GetColour x y).green_ * 255⌋ : ℚ) / 255) ∧
          |(out.GetColour x y).green_ - (sample_3x2.GetColour x y).green_| ≤ 1 / 255) ∧
        (((out.GetColour x y).blue_ = (⌊(sample_3x2.GetColour x y).blue_ * 255⌋ : ℚ) / 255) ∧
          |(out.GetColour x y).blue_ - (sample_3x2.GetColour x y).blue_| ≤ 1 / 255)) :=
  ⟨by decide, by decide, by decide, by simp [Image.InUnit, sample_3x2]; norm_num,
    C1_read_export_roundtrip sample_3x2 (by decide) (by decide) (by decide)
      (by simp [Image.InUnit, sample_3x2]; norm_num) sample_uninit⟩

/-- C2 (the code at the failing inputs): on the empty file and on the one-byte
file `B`, neither of which has the two-byte signature "BM", `Image::Read` does
not fail with `InvalidBMPFormatException`: the short read leaves the default
member initialisers `'B'`, `'M'` and 24 in the header objects, both checks
pass, and the call goes on with indeterminate dimensions. -/
theorem C2_short_file_not_rejected (u : Uninit) :
    Image.Read u (some []) ≠ .error .InvalidBMPFormatException ∧
      Image.Read u (some [66]) ≠ .error .InvalidBMPFormatException := by
  rw [Read_empty, Read_single_B]
  exact ⟨read_pixels_ne_invalid _ _ _ _, read_pixels_ne_invalid _ _ _ _⟩

/-- C3 (counterexample): for the valid raster of width 1 and height `2^30`,
`Image::Export` writes 4294967350 bytes, but the 32-bit `file_size` field of
the header (bytes 2..5) holds 54. -/
theorem C3_file_size_counterexample :
    tall_raster.Valid ∧ 0 ≤ tall_raster.width_ ∧ 0 ≤ tall_raster.height_ ∧
    ∃ bytes, tall_raster.Export true = .ok bytes ∧ bytes.length = 4294967350 ∧
      bytes.getD 2 0 = 54 ∧ bytes.getD 3 0 = 0 ∧ bytes.getD 4 0 = 0 ∧ bytes.getD 5 0 = 0 ∧
      field_u32 bytes 2 = 54 ∧ field_u32 bytes 2 ≠ bytes.length := by
  have hv : tall_raster.Valid := by
    unfold Image.Valid tall_raster INT32_MAX
    simp only [List.length_replicate]
    decide
  have hlen : (export_header tall_raster.width_ tall_raster.height_ ++
      (List.range tall_raster.height_.toNat).flatMap
        (fun r => export_row tall_raster (tall_raster.height_ - 1 - r))).length = 4294967350 := by
    rw [List.length_append, export_header_length, export_body_length]
    decide
  have hd := fun i hi => export_getD_header tall_raster i hi
  have h2 : (export_header tall_raster.width_ tall_raster.height_).getD 2 0 = 54 := by decide
  have h3 : (export_header tall_raster.width_ tall_raster.height_).getD 3 0 = 0 := by decide
  have h4 : (export_header tall_raster.width_ tall_raster.height_).getD 4 0 = 0 := by decide
  have h5 : (export_header tall_raster.width_ tall_raster.height_).getD 5 0 = 0 := by decide
  refine ⟨hv, by decide, by decide, _, Export_eq tall_raster, hlen, ?_, ?_, ?_, ?_, ?_, ?_⟩
  · rw [hd 2 (by omega), h2]
  · rw [hd 3 (by omega), h3]
  · rw [hd 4 (by omega), h4]
  · rw [hd 5 (by omega), h5]
  · unfold field_u32
    rw [hd 2 (by omega), hd 3 (by omega), hd 4 (by omega), hd 5 (by omega), h2, h3, h4, h5]
    decide
  · unfold field_u32
    rw [hd 2 (by omega), hd 3 (by omega), hd 4 (by omega), hd 5 (by omega), h2, h3, h4, h5, hlen]
    decide

/-- C3 (amended): for every raster of width `w` and height `h`, both
non-negative `int32_t` values, `Image::Export` writes exactly
`54 + (3w + p) * h` bytes, where `p = (4 - (3w mod 4)) mod 4` satisfies
`0 ≤ p ≤ 3` and `(3w + p) mod 4 = 0`; the first 54 bytes are, little-endian
and without gaps: 'B', 'M', `file_size` (32-bit, equal to the total number of
bytes written modulo `2^32`, hence to the total whenever that is below
`2^32`), reserved = 0, pixel_data_offset = 54, header_size = 40, width = `w`,
height = `h`, planes = 1 (16-bit), bits_per_pixel = 24 (16-bit),
compression = 0 and five further 32-bit zero fields. -/
theorem C3_export_size_and_header (R : Image) (hw0 : 0 ≤ R.width_) (hh0 : 0 ≤ R.height_)
    (hw : R.width_ ≤ INT32_MAX) (hh : R.height_ ≤ INT32_MAX) :
    ∃ bytes, R.Export true = .ok bytes ∧
      (bytes.length : Int) = 54 + (3 * R.width_ + padding_amount R.width_) * R.height_ ∧
      padding_amount R.width_ = (4 - (3 * R.width_) % 4) % 4 ∧
      0 ≤ padding_amount R.width_ ∧ padding_amount R.width_ ≤ 3 ∧
      (3 * R.width_ + padding_amount R.width_) % 4 = 0 ∧
      bytes.take 54 = [66, 77] ++ le32 (bytes.length : Int) ++ [0, 0, 0, 0] ++ [54, 0, 0, 0] ++
        [40, 0, 0, 0] ++ le32 R.width_ ++ le32 R.height_ ++ [1, 0] ++ [24, 0] ++
        List.replicate 24 0 ∧
      field_u32 bytes 2 = bytes.length % 4294967296 ∧
      (bytes.length < 4294967296 → field_u32 bytes 2 = bytes.length) ∧
      header_width bytes = R.width_ ∧ header_height bytes = R.height_ := by
  unfold INT32_MAX at hw hh
  have hpr := padding_amount_range R.width_
  have hcast := file_size_cast R.width_ R.height_ hw0 hh0
  have hlen : (export_header R.width_ R.height_ ++ (List.range R.height_.toNat).flatMap
      (fun r => export_row R (R.height_ - 1 - r))).length = 54 + R.height_.toNat * row_size R.width_ := by
    rw [List.length_append, export_header_length, export_body_length]
  have hd := fun i hi => export_getD_header R i hi
  have hhdr := export_header_eq R.width_ R.height_ _ hcast
  obtain ⟨f0, f1, f2, f3, f4, f5, f6, f7, _, _⟩ := export_header_fields R.width_ R.height_
  have hu32 : field_u32 (export_header R.width_ R.height_ ++ (List.range R.height_.toNat).flatMap
      (fun r => export_row R (R.height_ - 1 - r))) 2 =
      (54 + R.height_.toNat * row_size R.width_) % 4294967296 := by
    unfold field_u32
    rw [hd 2 (by omega), hd (2 + 1) (by omega), hd (2 + 2) (by omega), hd (2 + 3) (by omega), hhdr]
    exact le32_u32 _
  refine ⟨_, Export_eq R, ?_, padding_amount_eq _, hpr.1, hpr.2, padding_amount_row _, ?_, ?_, ?_,
    ?_, ?_⟩
  · rw [hlen]; exact hcast
  · rw [List.take_left' (export_header_length _ _), hlen]
    exact hhdr
  · rw [hlen]; exact hu32
  · rw [hlen]
    intro hlt
    rw [hu32, Nat.mod_eq_of_lt hlt]
  · unfold header_width
    rw [hd 18 (by omega), hd 19 (by omega), hd 20 (by omega), hd 21 (by omega), f0, f1, f2, f3,
      int32_of_le32, wrap32_of_range (by omega) hw]
  · unfold header_height
    rw [hd 22 (by omega), hd 23 (by omega), hd 24 (by omega), hd 25 (by omega), f4, f5, f6, f7,
      int32_of_le32, wrap32_of_range (by omega) hh]

/-- Witness of C3 (amended) on the 3×2 sample raster. -/
theorem C3_export_size_and_header_witness :
    0 ≤ sample_3x2.width_ ∧ 0 ≤ sample_3x2.height_ ∧ sample_3x2.width_ ≤ INT32_MAX ∧
    sample_3x2.height_ ≤ INT32_MAX ∧
    (∃ bytes, sample_3x2.Export true = .ok bytes ∧
      (bytes.length : Int) = 54 + (3 * sample_3x2.width_ + padding_amount sample_3x2.width_) * sample_3x2.height_ ∧
      padding_amount sample_3x2.width_ = (4 - (3 * sample_3x2.width_) % 4) % 4 ∧
      0 ≤ padding_amount sample_3x2.width_ ∧ padding_amount sample_3x2.width_ ≤ 3 ∧
      (3 * sample_3x2.width_ + padding_amount sample_3x2.width_) % 4 = 0 ∧
      bytes.take 54 = [66, 77] ++ le32 (bytes.length : Int) ++ [0, 0, 0, 0] ++ [54, 0, 0, 0] ++
        [40, 0, 0, 0] ++ le32 sample_3x2.width_ ++ le32 sample_3x2.height_ ++ [1, 0] ++ [24, 0] ++
        List.replicate 24 0 ∧
      field_u32 bytes 2 = bytes.length % 4294967296 ∧
      (bytes.length < 4294967296 → field_u32 bytes 2 = bytes.length) ∧
      header_width bytes = sample_3x2.width_ ∧ header_height bytes = sample_3x2.height_) :=
  ⟨by decide, by decide, by decide, by decide,
    C3_export_size_and_header sample_3x2 (by decide) (by decide) (by decide) (by decide)⟩

/-- C4: for every raster `R` (a valid `Image`) with all channels in `[0, 1]`
and every pixel position `0 ≤ x < w`, `0 ≤ y < h`, the three bytes of the
output of `Image::Export` at offset `54 + (h-1-y) * (3w + p) + 3x` are, in this
order, the truncations toward zero of `255 * blue`, `255 * green`,
`255 * red` of the pixel `(x, y)`, so raster row `h - 1` is written first and
row 0 last; and the `p` bytes that end each row are zero. -/
theorem C4_export_pixel_bytes (R : Image) (hv : R.Valid) (hu : R.InUnit) :
    ∃ bytes, R.Export true = .ok bytes ∧
      (∀ x y, 0 ≤ x → x < R.width_ → 0 ≤ y → y < R.height_ →
        ((bytes.getD (pixel_offset R.width_ R.height_ x y).toNat 0).val : Int) =
            trunc ((R.GetColour x y).blue_ * 255) ∧
        ((bytes.getD ((pixel_offset R.width_ R.height_ x y).toNat + 1) 0).val : Int) =
            trunc ((R.GetColour x y).green_ * 255) ∧
        ((bytes.getD ((pixel_offset R.width_ R.height_ x y).toNat + 2) 0).val : Int) =
            trunc ((R.GetColour x y).red_ * 255)) ∧
      (∀ y k, 0 ≤ y → y < R.height_ → 0 ≤ k → k < padding_amount R.width_ →
        bytes.getD (pixel_offset R.width_ R.height_ R.width_ y + k).toNat 0 = 0) := by
  have hsz := Valid.sizeOK hv
  have hw0 : 0 ≤ R.width_ := hv.1
  have hpr := padding_amount_range R.width_
  refine ⟨_, Export_eq R, ?_, ?_⟩
  · intro x y h1 h2 h3 h4
    obtain ⟨ur, ug, ub⟩ := hu _ (GetColour_mem hsz x y h1 h2 h3 h4)
    obtain ⟨pb, pg, pr⟩ := pixel_bytes_unit (R.GetColour x y) ur ug ub
    have ho : (pixel_offset R.width_ R.height_ x y).toNat =
        54 + (R.height_ - 1 - y).toNat * row_size R.width_ + 3 * x.toNat :=
      offset_toNat _ _ _ _ hw0 h1 h4
    have g := fun j hj => export_getD_pixel R (R.height_ - 1 - y).toNat x.toNat j
      (by omega) (by omega) hj
    have e1 : ((x.toNat : Nat) : Int) = x := Int.toNat_of_nonneg h1
    have e2 : R.height_ - 1 - (((R.height_ - 1 - y).toNat : Nat) : Int) = y := by
      rw [Int.toNat_of_nonneg (by omega)]; omega
    rw [e1, e2] at g
    have g0 := g 0 (by omega)
    rw [Nat.add_zero] at g0
    rw [ho, g0, g 1 (by omega), g 2 (by omega), trunc_eq_floor (mul_nonneg ub.1 (by norm_num)),
      trunc_eq_floor (mul_nonneg ug.1 (by norm_num)),
      trunc_eq_floor (mul_nonneg ur.1 (by norm_num))]
    exact ⟨pb, pg, pr⟩
  · intro y k h1 h2 h3 h4
    have ho : (pixel_offset R.width_ R.height_ R.width_ y + k).toNat =
        54 + (R.height_ - 1 - y).toNat * row_size R.width_ + 3 * R.width_.toNat + k.toNat := by
      have := offset_toNat R.width_ R.height_ R.width_ y hw0 hw0 h2
      unfold pixel_offset
      omega
    rw [ho]
    exact export_getD_pad R (R.height_ - 1 - y).toNat k.toNat (by omega) (by omega)

/-- Witness of C4 on the 3×2 sample raster. -/
theorem C4_export_pixel_bytes_witness :
    sample_3x2.Valid ∧ sample_3x2.InUnit ∧
    (∃ bytes, sample_3x2.Export true = .ok bytes ∧
      (∀ x y, 0 ≤ x → x < sample_3x2.width_ → 0 ≤ y → y < sample_3x2.height_ →
        ((bytes.getD (pixel_offset sample_3x2.width_ sample_3x2.height_ x y).toNat 0).val : Int) =
            trunc ((sample_3x2.GetColour x y).blue_ * 255) ∧
        ((bytes.getD ((pixel_offset sample_3x2.width_ sample_3x2.height_ x y).toNat + 1) 0).val : Int) =
            trunc ((sample_3x2.GetColour x y).green_ * 255) ∧
        ((bytes.getD ((pixel_offset sample_3x2.width_ sample_3x2.height_ x y).toNat + 2) 0).val : Int) =
            trunc ((sample_3x2.GetColour x y).red_ * 255)) ∧
      (∀ y k, 0 ≤ y → y < sample_3x2.height_ → 0 ≤ k → k < padding_amount sample_3x2.width_ →
        bytes.getD (pixel_offset sample_3x2.width_ sample_3x2.height_ sample_3x2.width_ y + k).toNat 0 = 0)) :=
  ⟨by decide, by simp [Image.InUnit, sample_3x2]; norm_num,
    C4_export_pixel_bytes sample_3x2 (by decide) (by simp [Image.InUnit, sample_3x2]; norm_num)⟩

/-- C5 (counterexample): the complete 24-bit file `wide_file` has signature
"BM", header width 65536 and height 32768 and all its `196608 * 32768` bytes of
pixel data, yet `Image::Read` yields no raster: `width_ * height_` is `2^31`,
not an `int`, and `data_.assign` ends in `std::length_error`. -/
theorem C5_read_overflow_counterexample :
    wide_file.getD 0 0 = 66 ∧ wide_file.getD 1 0 = 77 ∧ header_bpp wide_file = 24 ∧
    header_width wide_file = 65536 ∧ header_height wide_file = 32768 ∧
    54 + (3 * header_width wide_file + padding_amount (header_width wide_file)) *
      header_height wide_file ≤ (wide_file.length : Int) ∧
    ∀ u : Uninit, Image.Read u (some wide_file) = .error .length_error := by
  have hl : wide_header.length = 54 := by decide
  have hd : ∀ i, i < 54 → wide_file.getD i 0 = wide_header.getD i 0 := fun i hi =>
    List.getD_append _ _ _ _ (by rw [hl]; exact hi)
  have hlen : wide_file.length = 6442450998 := by
    unfold wide_file
    rw [List.length_append, List.length_replicate, hl]
  have hbpp : header_bpp wide_file = 24 := by
    unfold header_bpp
    rw [hd 28 (by omega), hd 29 (by omega)]
    decide
  have hw : header_width wide_file = 65536 := by
    unfold header_width
    rw [hd 18 (by omega), hd 19 (by omega), hd 20 (by omega), hd 21 (by omega)]
    decide
  have hh : header_height wide_file = 32768 := by
    unfold header_height
    rw [hd 22 (by omega), hd 23 (by omega), hd 24 (by omega), hd 25 (by omega)]
    decide
  have h0 : wide_file.getD 0 0 = 66 := by rw [hd 0 (by omega)]; decide
  have h1 : wide_file.getD 1 0 = 77 := by rw [hd 1 (by omega)]; decide
  refine ⟨h0, h1, hbpp, hw, hh, ?_, ?_⟩
  · rw [hw, hh, hlen]
    decide
  · intro u
    have e1 : ¬((66 : Byte) ≠ 66 ∨ (77 : Byte) ≠ 77) := by decide
    have e2 : ¬((24 : Int) ≠ 24) := by decide
    have e3 : wrap32 (65536 * 32768) < 0 := by decide
    rw [Read_long u wide_file (by rw [hlen]; omega), h0, h1, hbpp, hw, hh, if_neg e1, if_neg e2]
    unfold read_pixels
    simp only [if_pos e3]

/-- C5 (amended): for every input byte sequence `b` with signature "BM",
bits-per-pixel 24, header width `w ≥ 0` and height `h ≥ 0` with
`w * h ≤ 2^31 - 1`, and length at least `54 + (3w + p) * h`, `Image::Read`
yields a raster of width `w` and height `h` whose pixel `(x, y)` is
red = `b[o+2]/255`, green = `b[o+1]/255`, blue = `b[o]/255` with
`o = 54 + (h-1-y) * (3w + p) + 3x`; the result is the same for every input that
agrees with `b` on the header and on the pixel bytes, so the padding bytes
have no influence on it. -/
theorem C5_read_pixels (u : Uninit) (b : List Byte) (h0 : b.getD 0 0 = 66)
    (h1 : b.getD 1 0 = 77) (hbpp : header_bpp b = 24) (hw : 0 ≤ header_width b)
    (hh : 0 ≤ header_height b) (hp : header_width b * header_height b ≤ INT32_MAX)
    (hlen : 54 + (3 * header_width b + padding_amount (header_width b)) * header_height b ≤
      (b.length : Int)) :
    ∃ img, Image.Read u (some b) = .ok img ∧ img.width_ = header_width b ∧
      img.height_ = header_height b ∧ img.Valid ∧
      (∀ x y, 0 ≤ x → x < header_width b → 0 ≤ y → y < header_height b →
        img.GetColour x y =
          ⟨((b.getD ((pixel_offset (header_width b) (header_height b) x y).toNat + 2) 0).val : ℚ) / 255,
            ((b.getD ((pixel_offset (header_width b) (header_height b) x y).toNat + 1) 0).val : ℚ) / 255,
            ((b.getD (pixel_offset (header_width b) (header_height b) x y).toNat 0).val : ℚ) / 255⟩) ∧
      ∀ (u' : Uninit) (b' : List Byte), b.length ≤ b'.length →
        (∀ i, i < 54 → b'.getD i 0 = b.getD i 0) →
        (∀ x y, 0 ≤ x → x < header_width b → 0 ≤ y → y < header_height b → ∀ j, j < 3 →
          b'.getD ((pixel_offset (header_width b) (header_height b) x y).toNat + j) 0 =
            b.getD ((pixel_offset (header_width b) (header_height b) x y).toNat + j) 0) →
        Image.Read u' (some b') = .ok img := by
  obtain ⟨img, ho, hs, hpix⟩ := Read_file u b h0 h1 hbpp hw hh hp hlen
  have hmax : header_width b ≤ INT32_MAX ∧ header_height b ≤ INT32_MAX := by
    unfold header_width header_height int32_of INT32_MAX
    exact ⟨(wrap32_range _).2, (wrap32_range _).2⟩
  refine ⟨img, ho, hs.1, hs.2.1, Valid_of_SizeOK hs hmax.1 hmax.2 hp, ?_, ?_⟩
  · intro x y a1 a2 a3 a4
    rw [hpix x y a1 a2 a3 a4]
    rfl
  · intro u' b' hl' hhdr hpx
    have e18 := hhdr 18 (by omega)
    have e19 := hhdr 19 (by omega)
    have e20 := hhdr 20 (by omega)
    have e21 := hhdr 21 (by omega)
    have e22 := hhdr 22 (by omega)
    have e23 := hhdr 23 (by omega)
    have e24 := hhdr 24 (by omega)
    have e25 := hhdr 25 (by omega)
    have e28 := hhdr 28 (by omega)
    have e29 := hhdr 29 (by omega)
    have ew : header_width b' = header_width b := by
      unfold header_width; rw [e18, e19, e20, e21]
    have eh : header_height b' = header_height b := by
      unfold header_height; rw [e22, e23, e24, e25]
    have eb : header_bpp b' = header_bpp b := by
      unfold header_bpp; rw [e28, e29]
    obtain ⟨img', ho', hs', hpix'⟩ := Read_file u' b' (by rw [hhdr 0 (by omega)]; exact h0)
      (by rw [hhdr 1 (by omega)]; exact h1) (by rw [eb]; exact hbpp) (by rw [ew]; exact hw)
      (by rw [eh]; exact hh) (by rw [ew, eh]; exact hp) (by rw [ew, eh]; omega)
    rw [ew, eh] at hs' hpix'
    have : img' = img := by
      apply Image.ext_pixels hs' hs
      intro x y a1 a2 a3 a4
      rw [hpix' x y a1 a2 a3 a4, hpix x y a1 a2 a3 a4]
      unfold read_colour
      have q0 := hpx x y a1 a2 a3 a4 0 (by omega)
      rw [Nat.add_zero] at q0
      rw [q0, hpx x y a1 a2 a3 a4 1 (by omega), hpx x y a1 a2 a3 a4 2 (by omega)]
    rw [ho', this]

/-- Witness of C5 (amended) on the file of the 2×2 sample raster. -/
theorem C5_read_pixels_witness :
    sample_file.getD 0 0 = 66 ∧ sample_file.getD 1 0 = 77 ∧ header_bpp sample_file = 24 ∧
    0 ≤ header_width sample_file ∧ 0 ≤ header_height sample_file ∧
    header_width sample_file * header_height sample_file ≤ INT32_MAX ∧
    54 + (3 * header_width sample_file + padding_amount (header_width sample_file)) *
      header_height sample_file ≤ (sample_file.length : Int) ∧
    (∃ img, Image.Read sample_uninit (some sample_file) = .ok img ∧ img.width_ = header_width sample_file ∧
      img.height_ = header_height sample_file ∧ img.Valid ∧
      (∀ x y, 0 ≤ x → x < header_width sample_file → 0 ≤ y → y < header_height sample_file →
        img.GetColour x y =
          ⟨((sample_file.getD ((pixel_offset (header_width sample_file) (header_height sample_file) x y).toNat + 2) 0).val : ℚ) / 255,
            ((sample_file.getD ((pixel_offset (header_width sample_file) (header_height sample_file) x y).toNat + 1) 0).val : ℚ) / 255,
            ((sample_file.getD (pixel_offset (header_width sample_file) (header_height sample_file) x y).toNat 0).val : ℚ) / 255⟩) ∧
      ∀ (u' : Uninit) (b' : List Byte), sample_file.length ≤ b'.length →
        (∀ i, i < 54 → b'.getD i 0 = sample_file.getD i 0) →
        (∀ x y, 0 ≤ x → x < header_width sample_file → 0 ≤ y → y < header_height sample_file → ∀ j, j < 3 →
          b'.getD ((pixel_offset (header_width sample_file) (header_height sample_file) x y).toNat + j) 0 =
            sample_file.getD ((pixel_offset (header_width sample_file) (header_height sample_file) x y).toNat + j) 0) →
        Image.Read u' (some b') = .ok img) :=
  ⟨by decide, by decide, by decide, by decide, by decide, by decide, by decide,
    C5_read_pixels sample_uninit sample_file (by decide) (by decide) (by decide) (by decide)
      (by decide) (by decide) (by decide)⟩

/-- C6: for every valid raster `R` and all integers `w ≥ 0`, `h ≥ 0`,
`CropFilter(w, h).Apply(R)` has width `min(w, R.width)` and height
`min(h, R.height)` (width `R.width` whenever `w > R.width`, never larger than
the input), and its pixel `(x, y)` equals the pixel `(x, y)` of `R` for every
`x < min(w, R.width)`, `y < min(h, R.height)`. -/
theorem C6_crop (R : Image) (hv : R.Valid) (w h : Int) (hw : 0 ≤ w) (hh : 0 ≤ h) :
    ∃ out, CropFilter.Apply w h R = .ok out ∧ out.width_ = min w R.width_ ∧
      out.height_ = min h R.height_ ∧ (R.width_ < w → out.width_ = R.width_) ∧
      out.width_ ≤ R.width_ ∧ out.height_ ≤ R.height_ ∧ out.Valid ∧
      ∀ x y, 0 ≤ x → x < min w R.width_ → 0 ≤ y → y < min h R.height_ →
        out.GetColour x y = R.GetColour x y := by
  obtain ⟨out, ho, hs, hov, hp⟩ := CropFilter_Apply_ok R hv w h hw hh
  refine ⟨out, ho, hs.1, hs.2.1, ?_, ?_, ?_, hov, hp⟩
  · intro hlt
    rw [hs.1]; exact min_eq_right (le_of_lt hlt)
  · rw [hs.1]; exact min_le_right _ _
  · rw [hs.2.1]; exact min_le_right _ _

/-- Witness of C6: the 3×2 sample raster cropped to 5×1. -/
theorem C6_crop_witness :
    sample_3x2.Valid ∧ (0 : Int) ≤ 5 ∧ (0 : Int) ≤ 1 ∧
    (∃ out, CropFilter.Apply 5 1 sample_3x2 = .ok out ∧ out.width_ = min 5 sample_3x2.width_ ∧
      out.height_ = min 1 sample_3x2.height_ ∧ (sample_3x2.width_ < 5 → out.width_ = sample_3x2.width_) ∧
      out.width_ ≤ sample_3x2.width_ ∧ out.height_ ≤ sample_3x2.height_ ∧ out.Valid ∧
      ∀ x y, 0 ≤ x → x < min 5 sample_3x2.width_ → 0 ≤ y → y < min 1 sample_3x2.height_ →
        out.GetColour x y = sample_3x2.GetColour x y) :=
  ⟨by decide, by decide, by decide, C6_crop sample_3x2 (by decide) 5 1 (by decide) (by decide)⟩

/-- C7: for every valid raster `R`, `NegativeFilter` maps each channel `v` to
`1 - v`, and applying it twice returns `R`: same width, same height and the
same colour at every pixel. -/
theorem C7_negative_involution (R : Image) (hv : R.Valid) :
    ∃ out, NegativeFilter.Apply R = .ok out ∧ out.width_ = R.width_ ∧
      out.height_ = R.height_ ∧
      (∀ x y, 0 ≤ x → x < R.width_ → 0 ≤ y → y < R.height_ →
        (out.GetColour x y).red_ = 1 - (R.GetColour x y).red_ ∧
        (out.GetColour x y).green_ = 1 - (R.GetColour x y).green_ ∧
        (out.GetColour x y).blue_ = 1 - (R.GetColour x y).blue_) ∧
      NegativeFilter.Apply out = .ok R := by
  obtain ⟨out, ho, hs, hov, hp⟩ := NegativeFilter_Apply_ok R hv
  obtain ⟨out2, ho2, hs2, _, hp2⟩ := NegativeFilter_Apply_ok out hov
  rw [hs.1, hs.2.1] at hs2 hp2
  refine ⟨out, ho, hs.1, hs.2.1, ?_, ?_⟩
  · intro x y h1 h2 h3 h4
    rw [hp x y h1 h2 h3 h4]
    exact ⟨rfl, rfl, rfl⟩
  · have : out2 = R := by
      apply Image.ext_pixels hs2 (Valid.sizeOK hv)
      intro x y h1 h2 h3 h4
      rw [hp2 x y h1 h2 h3 h4, hp x y h1 h2 h3 h4]
      simp only [sub_sub_cancel]
    rw [ho2, this]

/-- Witness of C7 on the 3×2 sample raster. -/
theorem C7_negative_involution_witness :
    sample_3x2.Valid ∧
    (∃ out, NegativeFilter.Apply sample_3x2 = .ok out ∧ out.width_ = sample_3x2.width_ ∧
      out.height_ = sample_3x2.height_ ∧
      (∀ x y, 0 ≤ x → x < sample_3x2.width_ → 0 ≤ y → y < sample_3x2.height_ →
        (out.GetColour x y).red_ = 1 - (sample_3x2.GetColour x y).red_ ∧
        (out.GetColour x y).green_ = 1 - (sample_3x2.GetColour x y).green_ ∧
        (out.GetColour x y).blue_ = 1 - (sample_3x2.GetColour x y).blue_) ∧
      NegativeFilter.Apply out = .ok sample_3x2) :=
  ⟨by decide, C7_negative_involution sample_3x2 (by decide)⟩

/-- C8: for every valid raster `R`, `GrayscaleFilter` sets every pixel to
`(g, g, g)` with `g = 0.299 * red + 0.587 * green + 0.114 * blue` of the input
pixel, and it is idempotent: applied to its own output it returns that output. -/
theorem C8_grayscale_idempotent (R : Image) (hv : R.Valid) :
    ∃ out, GrayscaleFilter.Apply R = .ok out ∧ out.width_ = R.width_ ∧
      out.height_ = R.height_ ∧
      (∀ x y, 0 ≤ x → x < R.width_ → 0 ≤ y → y < R.height_ →
        (out.GetColour x y).red_ = 299 / 1000 * (R.GetColour x y).red_ + 587 / 1000 * (R.GetColour x y).green_ +
            114 / 1000 * (R.GetColour x y).blue_ ∧
        (out.GetColour x y).green_ = 299 / 1000 * (R.GetColour x y).red_ + 587 / 1000 * (R.GetColour x y).green_ +
            114 / 1000 * (R.GetColour x y).blue_ ∧
        (out.GetColour x y).blue_ = 299 / 1000 * (R.GetColour x y).red_ + 587 / 1000 * (R.GetColour x y).green_ +
            114 / 1000 * (R.GetColour x y).blue_) ∧
      GrayscaleFilter.Apply out = .ok out := by
  obtain ⟨out, ho, hs, hov, hp⟩ := GrayscaleFilter_Apply_ok R hv
  obtain ⟨out2, ho2, hs2, _, hp2⟩ := GrayscaleFilter_Apply_ok out hov
  rw [hs.1, hs.2.1] at hs2 hp2
  refine ⟨out, ho, hs.1, hs.2.1, ?_, ?_⟩
  · intro x y h1 h2 h3 h4
    rw [hp x y h1 h2 h3 h4]
    exact ⟨rfl, rfl, rfl⟩
  · have : out2 = out := by
      apply Image.ext_pixels hs2 hs
      intro x y h1 h2 h3 h4
      rw [hp2 x y h1 h2 h3 h4, hp x y h1 h2 h3 h4, gray_of_gray]
    rw [ho2, this]

/-- Witness of C8 on the 3×2 sample raster. -/
theorem C8_grayscale_idempotent_witness :
    sample_3x2.Valid ∧
    (∃ out, GrayscaleFilter.Apply sample_3x2 = .ok out ∧ out.width_ = sample_3x2.width_ ∧
      out.height_ = sample_3x2.height_ ∧
      (∀ x y, 0 ≤ x → x < sample_3x2.width_ → 0 ≤ y → y < sample_3x2.height_ →
        (out.GetColour x y).red_ = 299 / 1000 * (sample_3x2.GetColour x y).red_ + 587 / 1000 * (sample_3x2.GetColour x y).green_ +
            114 / 1000 * (sample_3x2.GetColour x y).blue_ ∧
        (out.GetColour x y).green_ = 299 / 1000 * (sample_3x2.GetColour x y).red_ + 587 / 1000 * (sample_3x2.GetColour x y).green_ +
            114 / 1000 * (sample_3x2.GetColour x y).blue_ ∧
        (out.GetColour x y).blue_ = 299 / 1000 * (sample_3x2.GetColour x y).red_ + 587 / 1000 * (sample_3x2.GetColour x y).green_ +
            114 / 1000 * (sample_3x2.GetColour x y).blue_) ∧
      GrayscaleFilter.Apply out = .ok out) :=
  ⟨by decide, C8_grayscale_idempotent sample_3x2 (by decide)⟩

/-- C9: for every valid raster `R`, `PixelationFilter(1).Apply(R)` ends (more
fuel than `R.width` and `R.height` suffices for its two strided loops) and
returns `R` itself: same width, same height and the same colour at every pixel. -/
theorem C9_pixelation_one_identity (R : Image) (hv : R.Valid) (fuel : Nat)
    (hfw : R.width_ < fuel) (hfh : R.height_ < fuel) :
    PixelationFilter.Apply 1 fuel R = some (.ok R) :=
  PixelationFilter_Apply_one R hv fuel hfw hfh

/-- Witness of C9 on the 3×2 sample raster. -/
theorem C9_pixelation_one_identity_witness :
    sample_3x2.Valid ∧ sample_3x2.width_ < (4 : Nat) ∧ sample_3x2.height_ < (4 : Nat) ∧
    PixelationFilter.Apply 1 4 sample_3x2 = some (.ok sample_3x2) :=
  ⟨by decide, by decide, by decide,
    C9_pixelation_one_identity sample_3x2 (by decide) 4 (by decide) (by decide)⟩

/-! ## Loops that add up -/

/-- A loop that adds `a k` to a number adds the sum of the `a k`. -/
theorem loopUp_add (a : Int → ℚ) (n : Nat) (i : Int) (r : ℚ) :
    loopUp (fun k r => r + a k) i n r =
      r + ((List.range n).map (fun (j : Nat) => a (i + (j : Int)))).sum := by
  refine loopUp_inv (fun k t => t = r + ((List.range k).map (fun (j : Nat) => a (i + (j : Int)))).sum)
    _ n i r (by simp) ?_
  intro k t _ h
  subst h
  simp only [List.range_succ, List.map_append, List.sum_append, List.map_cons, List.map_nil,
    List.sum_cons, List.sum_nil, add_zero, add_assoc]

/-- A loop that adds to the three channels of a colour adds the three sums. -/
theorem loopUp_colour (a b c : Int → ℚ) (n : Nat) (i : Int) (s : Colour) :
    loopUp (fun k (sum : Colour) =>
      ({ red_ := sum.red_ + a k, green_ := sum.green_ + b k, blue_ := sum.blue_ + c k } : Colour))
      i n s =
    ⟨s.red_ + ((List.range n).map (fun (j : Nat) => a (i + (j : Int)))).sum,
     s.green_ + ((List.range n).map (fun (j : Nat) => b (i + (j : Int)))).sum,
     s.blue_ + ((List.range n).map (fun (j : Nat) => c (i + (j : Int)))).sum⟩ := by
  refine loopUp_inv (fun k t => t =
    (⟨s.red_ + ((List.range k).map (fun (j : Nat) => a (i + (j : Int)))).sum,
     s.green_ + ((List.range k).map (fun (j : Nat) => b (i + (j : Int)))).sum,
     s.blue_ + ((List.range k).map (fun (j : Nat) => c (i + (j : Int)))).sum⟩ : Colour))
    _ n i s (by simp) ?_
  intro k t _ h
  subst h
  simp only [List.range_succ, List.map_append, List.sum_append, List.map_cons, List.map_nil,
    List.sum_cons, List.sum_nil, add_zero, add_assoc]

/-- The taps `-1, 0, 1` of a 3×3 kernel. -/
theorem range3_map (a : Int → ℚ) :
    (List.range 3).map (fun (j : Nat) => a (-1 + (j : Int))) = ([-1, 0, 1] : List Int).map a := by
  simp [List.range_succ]

/-! ## Sharpening -/

/-- The loops of `sharp_sum` add, in every channel, the nine products the
specification lists. -/
theorem sharp_sum_eq (R : Image) (x y : Int) :
    sharp_sum R x y = ⟨sharp_sum_spec R (fun c => c.red_) x y,
      sharp_sum_spec R (fun c => c.green_) x y, sharp_sum_spec R (fun c => c.blue_) x y⟩ := by
  have body : ∀ (kx ky : Int) (sum : Colour),
      (if x + kx ≥ 0 ∧ x + kx < R.GetWidth ∧ y + ky ≥ 0 ∧ y + ky < R.GetHeight then
        ({ red_ := sum.red_ + mat_at sharp_mat (ky + 1) (kx + 1) * (R.GetColour (x + kx) (y + ky)).red_,
           green_ := sum.green_ +
             mat_at sharp_mat (ky + 1) (kx + 1) * (R.GetColour (x + kx) (y + ky)).green_,
           blue_ := sum.blue_ +
             mat_at sharp_mat (ky + 1) (kx + 1) * (R.GetColour (x + kx) (y + ky)).blue_ } : Colour)
      else
        { red_ := sum.red_ + mat_at sharp_mat (ky + 1) (kx + 1) * (R.GetColour x y).red_,
          green_ := sum.green_ + mat_at sharp_mat (ky + 1) (kx + 1) * (R.GetColour x y).green_,
          blue_ := sum.blue_ + mat_at sharp_mat (ky + 1) (kx + 1) * (R.GetColour x y).blue_ }) =
      { red_ := sum.red_ + sharp_K (ky + 1) (kx + 1) *
          (R.GetColour (sharp_tap R x y kx ky).1 (sharp_tap R x y kx ky).2).red_,
        green_ := sum.green_ + sharp_K (ky + 1) (kx + 1) *
          (R.GetColour (sharp_tap R x y kx ky).1 (sharp_tap R x y kx ky).2).green_,
        blue_ := sum.blue_ + sharp_K (ky + 1) (kx + 1) *
          (R.GetColour (sharp_tap R x y kx ky).1 (sharp_tap R x y kx ky).2).blue_ } := by
    intro kx ky sum
    unfold sharp_tap sharp_K sharp_mat
    simp only [Image.GetWidth, Image.GetHeight, ge_iff_le]
    by_cases hin : 0 ≤ x + kx ∧ x + kx < R.width_ ∧ 0 ≤ y + ky ∧ y + ky < R.height_
    · rw [if_pos hin, if_pos hin]
    · rw [if_neg hin, if_neg hin]
  unfold sharp_sum sharp_sum_spec
  have e3 : ((1 : Int) + 1 - -1).toNat = 3 := by decide
  simp only [body, forUp, e3]
  simp only [loopUp_colour, zero_add]
  have r3 : List.range 3 = [0, 1, 2] := rfl
  simp only [r3, List.map_cons, List.map_nil, List.sum_cons, List.sum_nil]
  norm_num

/-- What `SharpeningFilter::Apply` returns. -/
theorem SharpeningFilter_Apply_ok (R : Image) (hv : R.Valid) :
    ∃ out, SharpeningFilter.Apply R = .ok out ∧ SizeOK out R.width_ R.height_ ∧ out.Valid ∧
      ∀ x y, 0 ≤ x → x < R.width_ → 0 ≤ y → y < R.height_ →
        out.GetColour x y = ⟨min 1 (max 0 (sharp_sum_spec R (fun c => c.red_) x y)),
          min 1 (max 0 (sharp_sum_spec R (fun c => c.green_) x y)),
          min 1 (max 0 (sharp_sum_spec R (fun c => c.blue_) x y))⟩ := by
  obtain ⟨v1, v2, v3, v4, v5, v6⟩ := hv
  have hf := fill_spec (fun x y => (⟨min 1 (max 0 (sharp_sum R x y).red_),
    min 1 (max 0 (sharp_sum R x y).green_), min 1 (max 0 (sharp_sum R x y).blue_)⟩ : Colour))
    (new_SizeOK v1 v2)
  refine ⟨_, ?_, hf.1, Valid_of_SizeOK hf.1 v3 v4 v5, ?_⟩
  · unfold SharpeningFilter.Apply
    simp only [Image.GetWidth, Image.GetHeight, new_ok v1 v2 v5]
  · intro x y h1 h2 h3 h4
    rw [hf.2 x y h1 h2 h3 h4]
    simp only [sharp_sum_eq]

/-! ## Consequences for the codec -/

/-- The three bytes of a pixel whose channels are equal are equal. -/
theorem pixel_bytes_gray (g : ℚ) (j : Nat) (hj : j < 3) :
    (pixel_bytes ⟨g, g, g⟩).getD j 0 = uchar (g * 255) := by
  unfold pixel_bytes
  interval_cases j <;> rfl

/-- The byte of a channel that is `0` or `1` decodes to the channel. -/
theorem uchar_binary (c : ℚ) (h : c = 0 ∨ c = 1) : ((uchar (c * 255)).val : ℚ) / 255 = c := by
  have hu : ((uchar (c * 255)).val : Int) = ⌊c * 255⌋ := by
    rcases h with h | h <;> subst h <;> exact uchar_unit (by norm_num) (by norm_num)
  have hq : ((uchar (c * 255)).val : ℚ) = ((⌊c * 255⌋ : Int) : ℚ) := by
    rw [← hu]; simp
  rw [hq]
  rcases h with h | h
  · rw [h, zero_mul, Int.floor_zero]; norm_num
  · have e : ⌊(1 : ℚ) * 255⌋ = 255 := by
      rw [one_mul, Int.floor_eq_iff]; norm_num
    rw [h, e]; norm_num

/-- Reading the export of a raster whose channels are `0` or `1` gives the raster. -/
theorem Read_Export_binary (R : Image) (hv : R.Valid) (hb : R.Binary) (u : Uninit) :
    Image.Read u (some (export_header R.width_ R.height_ ++
        (List.range R.height_.toNat).flatMap (fun r => export_row R (R.height_ - 1 - r)))) =
      .ok R := by
  obtain ⟨out, ho, hs, hp⟩ := Read_Export R hv u
  have hsz := Valid.sizeOK hv
  rw [ho]
  refine congrArg Except.ok (Image.ext_pixels hs hsz ?_)
  intro x y h1 h2 h3 h4
  obtain ⟨br, bg, bb⟩ := hb _ (GetColour_mem hsz x y h1 h2 h3 h4)
  rw [hp x y h1 h2 h3 h4]
  have e : ∀ c : Colour, c = ⟨c.red_, c.green_, c.blue_⟩ := fun c => rfl
  rw [e (R.GetColour x y)]
  simp only [pixel_bytes, List.getD_cons_succ, List.getD_cons_zero]
  rw [uchar_binary _ br, uchar_binary _ bg, uchar_binary _ bb]

/-! ## A pass that reads the image it writes -/

theorem Traced_init (g : Image → Int → Int → Colour) {T0 : Image} {w h : Int}
    (hs : SizeOK T0 w h) : Traced g T0 w h 0 0 T0 := by
  refine ⟨hs, fun _ _ _ _ _ _ _ => rfl, ?_⟩
  intro x y h1 _ h3 _ hb
  omega

theorem Traced_step (g : Image → Int → Int → Colour) {T0 t : Image} {w h cx cy : Int}
    (ht : Traced g T0 w h cx cy t) (hx0 : 0 ≤ cx) (hx : cx < w) (hy0 : 0 ≤ cy) (hy : cy < h) :
    Traced g T0 w h (cx + 1) cy (t.SetColour (g t cx cy) cx cy) := by
  obtain ⟨hs, hrest, hdone⟩ := ht
  refine ⟨SetColour_SizeOK hs _ _ _, ?_, ?_⟩
  · intro x' y' a b c d hn
    rw [GetColour_SetColour hs _ hx0 hx hy0 hy a b c d, if_neg (by omega)]
    exact hrest x' y' a b c d (by omega)
  · intro x y a b c d hb
    by_cases e : x = cx ∧ y = cy
    · obtain ⟨rfl, rfl⟩ := e
      refine ⟨t, hs, ?_, ?_, ?_⟩
      · intro x' y' a' b' c' d' hb'
        rw [GetColour_SetColour hs _ hx0 hx hy0 hy a' b' c' d', if_neg (by omega)]
      · intro x' y' a' b' c' d' hb'
        exact hrest x' y' a' b' c' d' hb'
      · rw [GetColour_SetColour hs _ hx0 hx hy0 hy a b c d, if_pos ⟨rfl, rfl⟩]
    · obtain ⟨img, i1, i2, i3, i4⟩ := hdone x y a b c d (by omega)
      refine ⟨img, i1, ?_, i3, ?_⟩
      · intro x' y' a' b' c' d' hb'
        rw [GetColour_SetColour hs _ hx0 hx hy0 hy a' b' c' d', if_neg (by omega)]
        exact i2 x' y' a' b' c' d' hb'
      · rw [GetColour_SetColour hs _ hx0 hx hy0 hy a b c d, if_neg e]
        exact i4

theorem Traced_row_end (g : Image → Int → Int → Colour) {T0 t : Image} {w h cy : Int}
    (ht : Traced g T0 w h w cy t) : Traced g T0 w h 0 (cy + 1) t := by
  obtain ⟨hs, hrest, hdone⟩ := ht
  refine ⟨hs, ?_, ?_⟩
  · intro x' y' a b c d hn
    exact hrest x' y' a b c d (by omega)
  · intro x y a b c d hb
    exact hdone x y a b c d (by omega)

/-- The nested loops of a pass that writes `g img x y` at `(x, y)`, where `img`
is the image the pass is writing: every pixel of the result was computed from
an image that agrees with the result on the positions written earlier and
with the start `T0` on the positions written later. -/
theorem inplace_spec (g : Image → Int → Int → Colour) {T0 : Image} {w h : Int}
    (hs : SizeOK T0 w h) :
    SizeOK (forUp 0 h (fun y img =>
        forUp 0 w (fun x img => img.SetColour (g img x y) x y) img) T0) w h ∧
    ∀ x y, 0 ≤ x → x < w → 0 ≤ y → y < h → ∃ img, SizeOK img w h ∧
      (∀ x' y', 0 ≤ x' → x' < w → 0 ≤ y' → y' < h → (y' < y ∨ (y' = y ∧ x' < x)) →
        img.GetColour x' y' = (forUp 0 h (fun y img =>
          forUp 0 w (fun x img => img.SetColour (g img x y) x y) img) T0).GetColour x' y') ∧
      (∀ x' y', 0 ≤ x' → x' < w → 0 ≤ y' → y' < h → ¬(y' < y ∨ (y' = y ∧ x' < x)) →
        img.GetColour x' y' = T0.GetColour x' y') ∧
      (forUp 0 h (fun y img =>
          forUp 0 w (fun x img => img.SetColour (g img x y) x y) img) T0).GetColour x y =
        g img x y := by
  have hw0 : 0 ≤ w := hs.2.2.1
  have hh0 : 0 ≤ h := hs.2.2.2.1
  have row : ∀ (y : Int) (t : Image), 0 ≤ y → y < h → Traced g T0 w h 0 y t →
      Traced g T0 w h 0 (y + 1) (forUp 0 w (fun x img => img.SetColour (g img x y) x y) t) := by
    intro y t hy0 hy ht
    apply Traced_row_end
    have key := loopUp_inv (fun (k : Nat) (t : Image) => Traced g T0 w h (0 + (k : Int)) y t)
      (fun x img => img.SetColour (g img x y) x y) (w - 0).toNat 0 t
      (by simpa using ht)
      (by
        intro k t hk hT
        have := Traced_step g hT (by omega) (by omega) hy0 hy
        have e : 0 + ((k + 1 : Nat) : Int) = 0 + (k : Int) + 1 := by push_cast; ring
        rw [e]; exact this)
    have e : 0 + (((w - 0).toNat : Nat) : Int) = w := by omega
    beta_reduce at key
    rw [e] at key
    exact key
  have key := loopUp_inv (fun (k : Nat) (t : Image) => Traced g T0 w h 0 (0 + (k : Int)) t)
    (fun y img => forUp 0 w (fun x img => img.SetColour (g img x y) x y) img) (h - 0).toNat 0 T0
    (by simpa using Traced_init g hs)
    (by
      intro k t hk hT
      have := row (0 + (k : Int)) t (by omega) (by omega) hT
      have e : 0 + ((k + 1 : Nat) : Int) = 0 + (k : Int) + 1 := by push_cast; ring
      rw [e]; exact this)
  have e : 0 + (((h - 0).toNat : Nat) : Int) = h := by omega
  beta_reduce at key
  rw [e] at key
  obtain ⟨k1, _, k3⟩ := key
  refine ⟨k1, ?_⟩
  intro x y a b c d
  exact k3 x y a b c d (by omega)

/-! ## The Gaussian kernel -/

/-- The conversion to `int` of a float inside the range of `int`. -/
theorem static_cast_int_floor {v : ℚ} (h0 : 0 ≤ v) (h1 : v < 2147483648) :
    static_cast_int v = ⌊v⌋ ∧ 0 ≤ ⌊v⌋ ∧ ⌊v⌋ ≤ 2147483647 := by
  have f0 : 0 ≤ ⌊v⌋ := Int.floor_nonneg.mpr h0
  have f1 : ⌊v⌋ < 2147483648 := by
    have : (⌊v⌋ : ℚ) ≤ v := Int.floor_le v
    have : (⌊v⌋ : ℚ) < ((2147483648 : Int) : ℚ) := by push_cast; linarith
    exact_mod_cast this
  unfold static_cast_int
  rw [trunc_eq_floor h0, if_pos ⟨by omega, by omega⟩]
  exact ⟨rfl, f0, by omega⟩

/-- The conversion to `int` of a float beyond the range of `int`. -/
theorem static_cast_int_big {v : ℚ} (h1 : 2147483648 ≤ v) : static_cast_int v = -2147483648 := by
  have h0 : 0 ≤ v := le_trans (by norm_num) h1
  have f1 : (2147483648 : Int) ≤ ⌊v⌋ := by
    rw [Int.le_floor]; push_cast; exact h1
  unfold static_cast_int
  rw [trunc_eq_floor h0, if_neg (by omega)]

/-- The bounds `-kernel_size / 2` and `kernel_size / 2` of the tap loops. -/
theorem half_eq {k : Int} (hk : 0 ≤ k) :
    Int.tdiv (-k) 2 = -(k / 2) ∧ Int.tdiv k 2 = k / 2 := by
  rw [Int.neg_tdiv, Int.tdiv_eq_ediv hk (by decide)]
  exact ⟨rfl, rfl⟩

/-- The number of iterations of a tap loop. -/
theorem taps_count {k : Int} (hk : 0 ≤ k) :
    (k / 2 + 1 - -(k / 2)).toNat = 2 * (k / 2).toNat + 1 := by
  have : 0 ≤ k / 2 := Int.ediv_nonneg hk (by decide)
  omega

/-- A tap loop that adds to the three channels under a condition. -/
theorem loopUp_colour_if (c : Int → Prop) [DecidablePred c] (wt : Int → ℚ) (col : Int → Colour)
    (n : Nat) (i : Int) (s : Colour) :
    loopUp (fun k (new : Colour) =>
      if c k then
        ({ red_ := new.red_ + wt k * (col k).red_,
           green_ := new.green_ + wt k * (col k).green_,
           blue_ := new.blue_ + wt k * (col k).blue_ } : Colour)
      else new) i n s =
    ⟨s.red_ + ((List.range n).map (fun (j : Nat) =>
        if c (i + (j : Int)) then wt (i + (j : Int)) * (col (i + (j : Int))).red_ else 0)).sum,
     s.green_ + ((List.range n).map (fun (j : Nat) =>
        if c (i + (j : Int)) then wt (i + (j : Int)) * (col (i + (j : Int))).green_ else 0)).sum,
     s.blue_ + ((List.range n).map (fun (j : Nat) =>
        if c (i + (j : Int)) then wt (i + (j : Int)) * (col (i + (j : Int))).blue_ else 0)).sum⟩ := by
  have hb : (fun k (new : Colour) =>
      if c k then
        ({ red_ := new.red_ + wt k * (col k).red_,
           green_ := new.green_ + wt k * (col k).green_,
           blue_ := new.blue_ + wt k * (col k).blue_ } : Colour)
      else new) =
      (fun k (new : Colour) =>
        ({ red_ := new.red_ + (if c k then wt k * (col k).red_ else 0),
           green_ := new.green_ + (if c k then wt k * (col k).green_ else 0),
           blue_ := new.blue_ + (if c k then wt k * (col k).blue_ else 0) } : Colour)) := by
    funext k new
    by_cases h : c k
    · simp only [if_pos h]
    · simp only [if_neg h, add_zero]
  rw [hb]
  exact loopUp_colour _ _ _ n i s

/-- The sum over the iterations of a tap loop is the sum over the taps. -/
theorem taps_sum (k : Int) (f : Int → ℚ) :
    ((List.range (2 * (k / 2).toNat + 1)).map (fun (j : Nat) => f (-(k / 2) + (j : Int)))).sum =
      ((kernel_taps k).map f).sum := by
  unfold kernel_taps
  rw [List.map_map]
  congr 1
  apply List.map_congr_left
  intro j _
  simp only [Function.comp]
  congr 1
  ring

/-- A tap added to a coordinate wraps only when it lands to the right of every image. -/
theorem wrap_tap {x t w : Int} (hx0 : 0 ≤ x) (hx : x < w) (hw : w ≤ INT32_MAX)
    (ht0 : -1073741824 ≤ t) (ht : t ≤ 1073741824) :
    ((wrap32 (x + t) ≥ 0 ∧ wrap32 (x + t) < w) ↔ (0 ≤ x + t ∧ x + t < w)) ∧
      ((0 ≤ x + t ∧ x + t < w) → wrap32 (x + t) = x + t) := by
  unfold INT32_MAX at hw
  by_cases h : x + t ≤ 2147483647
  · have e : wrap32 (x + t) = x + t := wrap32_of_range (by omega) h
    rw [e]
    exact ⟨Iff.rfl, fun _ => rfl⟩
  · have e : wrap32 (x + t) = x + t - 4294967296 := by
      unfold wrap32; omega
    rw [e]
    exact ⟨⟨fun a => by omega, fun a => by omega⟩, fun a => by omega⟩

/-- The `kx` loop of the horizontal pass adds, in every channel, the products
of the taps inside the image. -/
theorem blur_row_eq (kernel : List ℚ) {k : Int} (hk0 : 0 ≤ k) (hk : k ≤ 2147483647) (R : Image)
    (hw : R.width_ ≤ INT32_MAX) {x : Int} (y : Int) (hx0 : 0 ≤ x) (hx : x < R.width_) :
    blur_row kernel k R x y = ⟨blur_T kernel k R (fun c => c.red_) x y,
      blur_T kernel k R (fun c => c.green_) x y, blur_T kernel k R (fun c => c.blue_) x y⟩ := by
  have h1 : blur_row kernel k R x y =
      loopUp (fun kx (new : Colour) =>
        if wrap32 (x + kx) ≥ 0 ∧ wrap32 (x + kx) < R.width_ then
          ({ red_ := new.red_ + vec_at kernel (kx + k / 2) * (R.GetColour (wrap32 (x + kx)) y).red_,
             green_ := new.green_ +
               vec_at kernel (kx + k / 2) * (R.GetColour (wrap32 (x + kx)) y).green_,
             blue_ := new.blue_ +
               vec_at kernel (kx + k / 2) * (R.GetColour (wrap32 (x + kx)) y).blue_ } : Colour)
        else new) (-(k / 2)) (2 * (k / 2).toNat + 1) ⟨0, 0, 0⟩ := by
    unfold blur_row forUp
    rw [(half_eq hk0).1, (half_eq hk0).2, taps_count hk0]
    rfl
  rw [h1, loopUp_colour_if (fun kx => wrap32 (x + kx) ≥ 0 ∧ wrap32 (x + kx) < R.width_)
    (fun kx => vec_at kernel (kx + k / 2)) (fun kx => R.GetColour (wrap32 (x + kx)) y)]
  have hh : 0 ≤ k / 2 := Int.ediv_nonneg hk0 (by decide)
  have hh1 : k / 2 ≤ 1073741824 := by omega
  have conv : ∀ (v : Colour → ℚ), ((List.range (2 * (k / 2).toNat + 1)).map (fun (j : Nat) =>
      if wrap32 (x + (-(k / 2) + (j : Int))) ≥ 0 ∧ wrap32 (x + (-(k / 2) + (j : Int))) < R.width_
      then vec_at kernel (-(k / 2) + (j : Int) + k / 2) *
        v (R.GetColour (wrap32 (x + (-(k / 2) + (j : Int)))) y) else 0)).sum =
      blur_T kernel k R v x y := by
    intro v
    unfold blur_T
    rw [← taps_sum]
    congr 1
    apply List.map_congr_left
    intro j hj
    have hj' : j < 2 * (k / 2).toNat + 1 := List.mem_range.mp hj
    obtain ⟨w1, w2⟩ := wrap_tap (t := -(k / 2) + (j : Int)) hx0 hx hw (by omega) (by omega)
    by_cases hin : 0 ≤ x + (-(k / 2) + (j : Int)) ∧ x + (-(k / 2) + (j : Int)) < R.width_
    · rw [if_pos (w1.mpr hin), if_pos hin, w2 hin]
      rfl
    · rw [if_neg (fun a => hin (w1.mp a)), if_neg hin]
  simp only [zero_add]
  rw [conv (fun c => c.red_), conv (fun c => c.green_), conv (fun c => c.blue_)]

/-- The `ky` loop of the vertical pass adds, in every channel, the products of
the taps inside the image, those of the image `img` it reads. -/
theorem blur_column_eq (kernel : List ℚ) {k : Int} (hk0 : 0 ≤ k) (hk : k ≤ 2147483647)
    (R img : Image) (hh : R.height_ ≤ INT32_MAX) (x : Int) {y : Int} (hy0 : 0 ≤ y)
    (hy : y < R.height_) :
    blur_column kernel k R img x y =
      ⟨((kernel_taps k).map (fun ky => if 0 ≤ y + ky ∧ y + ky < R.height_ then
          vertical_weight kernel k ky * (img.GetColour x (y + ky)).red_ else 0)).sum,
       ((kernel_taps k).map (fun ky => if 0 ≤ y + ky ∧ y + ky < R.height_ then
          vertical_weight kernel k ky * (img.GetColour x (y + ky)).green_ else 0)).sum,
       ((kernel_taps k).map (fun ky => if 0 ≤ y + ky ∧ y + ky < R.height_ then
          vertical_weight kernel k ky * (img.GetColour x (y + ky)).blue_ else 0)).sum⟩ := by
  have h1 : blur_column kernel k R img x y =
      loopUp (fun ky (new : Colour) =>
        if wrap32 (y + ky) ≥ 0 ∧ wrap32 (y + ky) < R.height_ then
          ({ red_ := new.red_ +
               (if ky + k / 2 ≥ 0 ∧ ky + k / 2 < k then vec_at kernel (ky + k / 2) else 0) *
                 (img.GetColour x (wrap32 (y + ky))).red_,
             green_ := new.green_ +
               (if ky + k / 2 ≥ 0 ∧ ky + k / 2 < k then vec_at kernel (ky + k / 2) else 0) *
                 (img.GetColour x (wrap32 (y + ky))).green_,
             blue_ := new.blue_ +
               (if ky + k / 2 ≥ 0 ∧ ky + k / 2 < k then vec_at kernel (ky + k / 2) else 0) *
                 (img.GetColour x (wrap32 (y + ky))).blue_ } : Colour)
        else new) (-(k / 2)) (2 * (k / 2).toNat + 1) ⟨0, 0, 0⟩ := by
    unfold blur_column forUp
    rw [(half_eq hk0).1, (half_eq hk0).2, taps_count hk0]
    rfl
  rw [h1, loopUp_colour_if (fun ky => wrap32 (y + ky) ≥ 0 ∧ wrap32 (y + ky) < R.height_)
    (fun ky => if ky + k / 2 ≥ 0 ∧ ky + k / 2 < k then vec_at kernel (ky + k / 2) else 0)
    (fun ky => img.GetColour x (wrap32 (y + ky)))]
  have hh0 : 0 ≤ k / 2 := Int.ediv_nonneg hk0 (by decide)
  have hh1 : k / 2 ≤ 1073741824 := by omega
  have conv : ∀ (v : Colour → ℚ), ((List.range (2 * (k / 2).toNat + 1)).map (fun (j : Nat) =>
      if wrap32 (y + (-(k / 2) + (j : Int))) ≥ 0 ∧ wrap32 (y + (-(k / 2) + (j : Int))) < R.height_
      then (if -(k / 2) + (j : Int) + k / 2 ≥ 0 ∧ -(k / 2) + (j : Int) + k / 2 < k then
          vec_at kernel (-(k / 2) + (j : Int) + k / 2) else 0) *
        v (img.GetColour x (wrap32 (y + (-(k / 2) + (j : Int))))) else 0)).sum =
      ((kernel_taps k).map (fun ky => if 0 ≤ y + ky ∧ y + ky < R.height_ then
          vertical_weight kernel k ky * v (img.GetColour x (y + ky)) else 0)).sum := by
    intro v
    rw [← taps_sum]
    congr 1
    apply List.map_congr_left
    intro j hj
    have hj' : j < 2 * (k / 2).toNat + 1 := List.mem_range.mp hj
    obtain ⟨w1, w2⟩ := wrap_tap (t := -(k / 2) + (j : Int)) hy0 hy hh (by omega) (by omega)
    have wv : (if -(k / 2) + (j : Int) + k / 2 ≥ 0 ∧ -(k / 2) + (j : Int) + k / 2 < k then
          vec_at kernel (-(k / 2) + (j : Int) + k / 2) else 0) =
        vertical_weight kernel k (-(k / 2) + (j : Int)) := by
      unfold vertical_weight tap_weight
      by_cases hg : -(k / 2) + (j : Int) + k / 2 < k
      · rw [if_pos ⟨by omega, hg⟩, if_pos hg]
      · rw [if_neg (fun a => hg a.2), if_neg hg]
    by_cases hin : 0 ≤ y + (-(k / 2) + (j : Int)) ∧ y + (-(k / 2) + (j : Int)) < R.height_
    · rw [if_pos (w1.mpr hin), if_pos hin, w2 hin, wv]
    · rw [if_neg (fun a => hin (w1.mp a)), if_neg hin]
  simp only [zero_add]
  rw [conv (fun c => c.red_), conv (fun c => c.green_), conv (fun c => c.blue_)]

/-! ## The kernel and the two passes of the Gaussian blur -/

/-- What the loop that fills the kernel leaves: the values of the taps, and their sum. -/
theorem gaussian_fill_eq (exp : ℚ → ℚ) (sq sigma : ℚ) {k : Int} (hk0 : 0 ≤ k) :
    gaussian_fill exp sq sigma k = ((kernel_taps k).map (kernel_value exp sq sigma),
      ((kernel_taps k).map (kernel_value exp sq sigma)).sum) := by
  have h1 : gaussian_fill exp sq sigma k =
      loopUp (fun x (s : List ℚ × ℚ) =>
        (s.1 ++ [kernel_value exp sq sigma x], s.2 + kernel_value exp sq sigma x))
        (-(k / 2)) (2 * (k / 2).toNat + 1) ([], 0) := by
    unfold gaussian_fill forUp
    rw [(half_eq hk0).1, (half_eq hk0).2, taps_count hk0]
    rfl
  have key := loopUp_inv (fun (j : Nat) (s : List ℚ × ℚ) =>
      s = ((List.range j).map (fun (i : Nat) => kernel_value exp sq sigma (-(k / 2) + (i : Int))),
        ((List.range j).map (fun (i : Nat) =>
          kernel_value exp sq sigma (-(k / 2) + (i : Int)))).sum))
    (fun x (s : List ℚ × ℚ) =>
        (s.1 ++ [kernel_value exp sq sigma x], s.2 + kernel_value exp sq sigma x))
    (2 * (k / 2).toNat + 1) (-(k / 2)) ([], 0) (by simp)
    (by
      intro j t _ ht
      subst ht
      simp only [List.range_succ, List.map_append, List.sum_append, List.map_cons, List.map_nil,
        List.sum_cons, List.sum_nil, add_zero])
  beta_reduce at key
  rw [h1, key]
  have e : (List.range (2 * (k / 2).toNat + 1)).map
      (fun (i : Nat) => kernel_value exp sq sigma (-(k / 2) + (i : Int))) =
      (kernel_taps k).map (kernel_value exp sq sigma) := by
    unfold kernel_taps
    rw [List.map_map]
    apply List.map_congr_left
    intro j _
    simp only [Function.comp]
    congr 1
    ring
  rw [e]

/-- The number of taps. -/
theorem kernel_taps_length (k : Int) : (kernel_taps k).length = 2 * (k / 2).toNat + 1 := by
  unfold kernel_taps
  rw [List.length_map, List.length_range]

/-- The taps are the offsets from `-k/2` to `k/2`. -/
theorem mem_kernel_taps {k t : Int} (hk0 : 0 ≤ k) :
    t ∈ kernel_taps k ↔ -(k / 2) ≤ t ∧ t ≤ k / 2 := by
  have hh : 0 ≤ k / 2 := Int.ediv_nonneg hk0 (by decide)
  unfold kernel_taps
  rw [List.mem_map]
  constructor
  · rintro ⟨j, hj, rfl⟩
    have := List.mem_range.mp hj
    omega
  · intro ⟨a, b⟩
    refine ⟨(t + k / 2).toNat, List.mem_range.mpr (by omega), by omega⟩

/-- The weight of a tap in the normalised kernel: its value over the sum of the values. -/
theorem tap_weight_eq (exp : ℚ → ℚ) (sq sigma : ℚ) {k t : Int} (hk0 : 0 ≤ k)
    (ht : t ∈ kernel_taps k) :
    tap_weight (gaussian_kernel exp sq sigma k) k t =
      kernel_value exp sq sigma t / ((kernel_taps k).map (kernel_value exp sq sigma)).sum := by
  have hh : 0 ≤ k / 2 := Int.ediv_nonneg hk0 (by decide)
  obtain ⟨a, b⟩ := (mem_kernel_taps hk0).mp ht
  unfold tap_weight vec_at gaussian_kernel
  rw [gaussian_fill_eq exp sq sigma hk0, if_pos (by omega)]
  simp only [List.map_map]
  have hlt : (t + k / 2).toNat < (kernel_taps k).length := by
    rw [kernel_taps_length]; omega
  rw [List.getD_eq_getElem?_getD, List.getElem?_map, List.getElem?_eq_getElem hlt]
  simp only [Option.map_some', Option.getD_some, Function.comp]
  have e : (kernel_taps k)[(t + k / 2).toNat] = t := by
    unfold kernel_taps
    rw [List.getElem_map, List.getElem_range]
    omega
  rw [e]

/-- The values of the kernel are positive when those of `exp` are. -/
theorem kernel_value_pos (exp : ℚ → ℚ) (sq sigma : ℚ) (hexp : ∀ q, 0 < exp q) (hsq : 0 < sq)
    (hs : 0 < sigma) (x : Int) : 0 < kernel_value exp sq sigma x :=
  div_pos (hexp _) (mul_pos hsq hs)

/-- The sum of the values of the kernel is positive. -/
theorem kernel_sum_pos (exp : ℚ → ℚ) (sq sigma : ℚ) (hexp : ∀ q, 0 < exp q) (hsq : 0 < sq)
    (hs : 0 < sigma) (k : Int) : 0 < ((kernel_taps k).map (kernel_value exp sq sigma)).sum := by
  apply List.sum_pos
  · intro v hv
    obtain ⟨t, _, rfl⟩ := List.mem_map.mp hv
    exact kernel_value_pos exp sq sigma hexp hsq hs t
  · intro h
    have := congrArg List.length h
    rw [List.length_map, kernel_taps_length] at this
    simp at this

/-- What `GaussianBlurFilter::Apply` returns when the kernel size is `k`: the
horizontal pass leaves the image `T` of the specification, and every pixel of
the result is the vertical sum over an image `img` that holds the result at
the positions written earlier and `T` at the positions written later. -/
theorem GaussianBlurFilter_Apply_ok (exp : ℚ → ℚ) (sq sigma : ℚ) (R : Image) (hv : R.Valid)
    {k : Int} (hk : static_cast_int (6 * sigma + 1) = k) (hk0 : 0 ≤ k) (hk1 : k ≤ 2147483647) :
    ∃ T out, T = blur_horizontal (gaussian_kernel exp sq sigma k) k R
        ⟨R.width_, R.height_, List.replicate (R.width_ * R.height_).toNat default⟩ ∧
      GaussianBlurFilter.Apply exp sq sigma R = .ok out ∧
      SizeOK T R.width_ R.height_ ∧ SizeOK out R.width_ R.height_ ∧ out.Valid ∧
      (∀ x y, 0 ≤ x → x < R.width_ → 0 ≤ y → y < R.height_ →
        T.GetColour x y = ⟨blur_T (gaussian_kernel exp sq sigma k) k R (fun c => c.red_) x y,
          blur_T (gaussian_kernel exp sq sigma k) k R (fun c => c.green_) x y,
          blur_T (gaussian_kernel exp sq sigma k) k R (fun c => c.blue_) x y⟩) ∧
      (∀ x y, 0 ≤ x → x < R.width_ → 0 ≤ y → y < R.height_ →
        ∃ img, SizeOK img R.width_ R.height_ ∧
          (∀ x' y', 0 ≤ x' → x' < R.width_ → 0 ≤ y' → y' < R.height_ →
            (y' < y ∨ (y' = y ∧ x' < x)) → img.GetColour x' y' = out.GetColour x' y') ∧
          (∀ x' y', 0 ≤ x' → x' < R.width_ → 0 ≤ y' → y' < R.height_ →
            ¬(y' < y ∨ (y' = y ∧ x' < x)) → img.GetColour x' y' = T.GetColour x' y') ∧
          out.GetColour x y =
            ⟨((kernel_taps k).map (fun ky => if 0 ≤ y + ky ∧ y + ky < R.height_ then
                vertical_weight (gaussian_kernel exp sq sigma k) k ky *
                  (img.GetColour x (y + ky)).red_ else 0)).sum,
             ((kernel_taps k).map (fun ky => if 0 ≤ y + ky ∧ y + ky < R.height_ then
                vertical_weight (gaussian_kernel exp sq sigma k) k ky *
                  (img.GetColour x (y + ky)).green_ else 0)).sum,
             ((kernel_taps k).map (fun ky => if 0 ≤ y + ky ∧ y + ky < R.height_ then
                vertical_weight (gaussian_kernel exp sq sigma k) k ky *
                  (img.GetColour x (y + ky)).blue_ else 0)).sum⟩) := by
  obtain ⟨v1, v2, v3, v4, v5, v6⟩ := hv
  have hf := fill_spec (fun x y => blur_row (gaussian_kernel exp sq sigma k) k R x y)
    (new_SizeOK v1 v2)
  have hT : blur_horizontal (gaussian_kernel exp sq sigma k) k R
      ⟨R.width_, R.height_, List.replicate (R.width_ * R.height_).toNat default⟩ =
      forUp 0 R.height_ (fun y img => forUp 0 R.width_ (fun x img =>
        img.SetColour ((fun x y => blur_row (gaussian_kernel exp sq sigma k) k R x y) x y) x y) img)
        ⟨R.width_, R.height_, List.replicate (R.width_ * R.height_).toNat default⟩ := rfl
  rw [← hT] at hf
  have hi := inplace_spec (fun img x y => blur_column (gaussian_kernel exp sq sigma k) k R img x y)
    hf.1
  have hO : blur_vertical (gaussian_kernel exp sq sigma k) k R
      (blur_horizontal (gaussian_kernel exp sq sigma k) k R
        ⟨R.width_, R.height_, List.replicate (R.width_ * R.height_).toNat default⟩) =
      forUp 0 R.height_ (fun y img => forUp 0 R.width_ (fun x img =>
        img.SetColour ((fun img x y =>
          blur_column (gaussian_kernel exp sq sigma k) k R img x y) img x y) x y) img)
        (blur_horizontal (gaussian_kernel exp sq sigma k) k R
          ⟨R.width_, R.height_, List.replicate (R.width_ * R.height_).toNat default⟩) := rfl
  rw [← hO] at hi
  refine ⟨_, _, rfl, ?_, hf.1, hi.1, Valid_of_SizeOK hi.1 v3 v4 v5, ?_, ?_⟩
  · unfold GaussianBlurFilter.Apply
    simp only [Image.GetWidth, Image.GetHeight, new_ok v1 v2 v5, hk]
    rw [if_neg (not_lt.mpr hk0)]
  · intro x y h1 h2 h3 h4
    rw [hf.2 x y h1 h2 h3 h4]
    exact blur_row_eq _ hk0 hk1 R v3 y h1 h2
  · intro x y h1 h2 h3 h4
    obtain ⟨img, i1, i2, i3, i4⟩ := hi.2 x y h1 h2 h3 h4
    refine ⟨img, i1, i2, i3, ?_⟩
    rw [i4]
    exact blur_column_eq _ hk0 hk1 R img v4 x h3 h4

/-! ## Consequences for the Gaussian blur -/

/-- The weights of the normalised kernel are positive. -/
theorem tap_weight_pos (exp : ℚ → ℚ) (sq sigma : ℚ) (hexp : ∀ q, 0 < exp q) (hsq : 0 < sq)
    (hs : 0 < sigma) {k t : Int} (hk0 : 0 ≤ k) (ht : t ∈ kernel_taps k) :
    0 < tap_weight (gaussian_kernel exp sq sigma k) k t := by
  rw [tap_weight_eq exp sq sigma hk0 ht]
  exact div_pos (kernel_value_pos exp sq sigma hexp hsq hs t)
    (kernel_sum_pos exp sq sigma hexp hsq hs k)

/-- The weights of the normalised kernel add up to one. -/
theorem tap_weight_sum (exp : ℚ → ℚ) (sq sigma : ℚ) (hexp : ∀ q, 0 < exp q) (hsq : 0 < sq)
    (hs : 0 < sigma) {k : Int} (hk0 : 0 ≤ k) :
    ((kernel_taps k).map (tap_weight (gaussian_kernel exp sq sigma k) k)).sum = 1 := by
  have hS := kernel_sum_pos exp sq sigma hexp hsq hs k
  have e : (kernel_taps k).map (tap_weight (gaussian_kernel exp sq sigma k) k) =
      (kernel_taps k).map (fun t => kernel_value exp sq sigma t *
        (((kernel_taps k).map (kernel_value exp sq sigma)).sum)⁻¹) := by
    apply List.map_congr_left
    intro t ht
    rw [tap_weight_eq exp sq sigma hk0 ht, div_eq_mul_inv]
  rw [e, List.sum_map_mul_right]
  exact mul_inv_cancel₀ (ne_of_gt hS)

/-- The only tap of a kernel of size one. -/
theorem kernel_taps_one : kernel_taps 1 = [0] := by decide

/-! ## The blur of two small white rasters -/

theorem kernel_taps_three : kernel_taps 3 = [-1, 0, 1] := by decide

theorem kernel_taps_two : kernel_taps 2 = [-1, 0, 1] := by decide

theorem white_3x3_pixel (x y : Int) (hx0 : 0 ≤ x) (hx : x < 3) (hy0 : 0 ≤ y) (hy : y < 3) :
    white_3x3.GetColour x y = ⟨1, 1, 1⟩ := by
  interval_cases x <;> interval_cases y <;> decide!

theorem white_1x2_pixel (y : Int) (hy0 : 0 ≤ y) (hy : y < 2) :
    white_1x2.GetColour 0 y = ⟨1, 1, 1⟩ := by
  interval_cases y <;> decide!

/-- The centre of the blurred 3×3 white raster, for a kernel of size 3: with
`a` the weight of the tap `-1`, it is `1 - a * a` in every channel. -/
theorem blur_white_3x3 (exp : ℚ → ℚ) (sq : ℚ) (hexp : ∀ q, 0 < exp q) (hsq : 0 < sq) :
    ∃ out, GaussianBlurFilter.Apply exp sq (2 / 5) white_3x3 = .ok out ∧
      0 < tap_weight (gaussian_kernel exp sq (2 / 5) 3) 3 (-1) ∧
      out.GetColour 1 1 =
        ⟨1 - tap_weight (gaussian_kernel exp sq (2 / 5) 3) 3 (-1) *
            tap_weight (gaussian_kernel exp sq (2 / 5) 3) 3 (-1),
         1 - tap_weight (gaussian_kernel exp sq (2 / 5) 3) 3 (-1) *
            tap_weight (gaussian_kernel exp sq (2 / 5) 3) 3 (-1),
         1 - tap_weight (gaussian_kernel exp sq (2 / 5) 3) 3 (-1) *
            tap_weight (gaussian_kernel exp sq (2 / 5) 3) 3 (-1)⟩ := by
  have hk : static_cast_int (6 * (2 / 5) + 1) = 3 := by decide!
  have hs : (0 : ℚ) < 2 / 5 := by norm_num
  obtain ⟨T, out, _, ho, _, _, _, hT, hO⟩ :=
    GaussianBlurFilter_Apply_ok exp sq (2 / 5) white_3x3 (by decide) hk (by decide) (by decide)
  have hsum := tap_weight_sum exp sq (2 / 5) hexp hsq hs (k := 3) (by decide)
  have ha := tap_weight_pos exp sq (2 / 5) hexp hsq hs (k := 3) (t := -1) (by decide) (by decide)
  rw [kernel_taps_three] at hsum
  simp only [List.map_cons, List.map_nil, List.sum_cons, List.sum_nil, add_zero] at hsum
  have va : vertical_weight (gaussian_kernel exp sq (2 / 5) 3) 3 (-1) =
      tap_weight (gaussian_kernel exp sq (2 / 5) 3) 3 (-1) := by
    unfold vertical_weight; rw [if_pos (by decide)]
  have vb : vertical_weight (gaussian_kernel exp sq (2 / 5) 3) 3 0 =
      tap_weight (gaussian_kernel exp sq (2 / 5) 3) 3 0 := by
    unfold vertical_weight; rw [if_pos (by decide)]
  have vc : vertical_weight (gaussian_kernel exp sq (2 / 5) 3) 3 1 =
      tap_weight (gaussian_kernel exp sq (2 / 5) 3) 3 1 := by
    unfold vertical_weight; rw [if_pos (by decide)]
  have hw : white_3x3.width_ = 3 := rfl
  have hh : white_3x3.height_ = 3 := rfl
  rw [hw, hh] at hT hO
  -- the middle column of the image of the horizontal pass is white
  have hT1 : ∀ y, 0 ≤ y → y < 3 → T.GetColour 1 y = ⟨1, 1, 1⟩ := by
    intro y hy0 hy
    rw [hT 1 y (by decide) (by decide) hy0 hy]
    have e1 : (1 : Int) + -1 = 0 := rfl
    have e2 : (1 : Int) + 0 = 1 := rfl
    have e3 : (1 : Int) + 1 = 2 := rfl
    have c1 : (0 : Int) ≤ 0 ∧ (0 : Int) < 3 := by decide
    have c2 : (0 : Int) ≤ 1 ∧ (1 : Int) < 3 := by decide
    have c3 : (0 : Int) ≤ 2 ∧ (2 : Int) < 3 := by decide
    simp only [blur_T, kernel_taps_three, List.map_cons, List.map_nil, List.sum_cons,
      List.sum_nil, add_zero, hw, e1, e2, e3, if_pos c1, if_pos c2, if_pos c3,
      white_3x3_pixel 0 y (by decide) (by decide) hy0 hy,
      white_3x3_pixel 1 y (by decide) (by decide) hy0 hy,
      white_3x3_pixel 2 y (by decide) (by decide) hy0 hy, mul_one, hsum]
  -- the pixel above the centre, written first
  obtain ⟨img0, _, _, j3, j4⟩ := hO 1 0 (by decide) (by decide) (by decide) (by decide)
  have h10 : out.GetColour 1 0 =
      ⟨tap_weight (gaussian_kernel exp sq (2 / 5) 3) 3 0 +
          tap_weight (gaussian_kernel exp sq (2 / 5) 3) 3 1,
       tap_weight (gaussian_kernel exp sq (2 / 5) 3) 3 0 +
          tap_weight (gaussian_kernel exp sq (2 / 5) 3) 3 1,
       tap_weight (gaussian_kernel exp sq (2 / 5) 3) 3 0 +
          tap_weight (gaussian_kernel exp sq (2 / 5) 3) 3 1⟩ := by
    rw [j4]
    have e1 : (0 : Int) + -1 = -1 := rfl
    have e2 : (0 : Int) + 0 = 0 := rfl
    have e3 : (0 : Int) + 1 = 1 := rfl
    have c1 : ¬((0 : Int) ≤ -1 ∧ (-1 : Int) < 3) := by decide
    have c2 : (0 : Int) ≤ 0 ∧ (0 : Int) < 3 := by decide
    have c3 : (0 : Int) ≤ 1 ∧ (1 : Int) < 3 := by decide
    simp only [kernel_taps_three, List.map_cons, List.map_nil, List.sum_cons, List.sum_nil,
      add_zero, e1, e2, e3, if_neg c1, if_pos c2, if_pos c3, zero_add, vb, vc,
      j3 1 0 (by decide) (by decide) (by decide) (by decide) (by decide),
      j3 1 1 (by decide) (by decide) (by decide) (by decide) (by decide),
      hT1 0 (by decide) (by decide), hT1 1 (by decide) (by decide), mul_one]
  -- the centre reads the pixel above it after it was overwritten
  obtain ⟨img1, _, i2, i3, i4⟩ := hO 1 1 (by decide) (by decide) (by decide) (by decide)
  refine ⟨out, ho, ha, ?_⟩
  rw [i4]
  have e1 : (1 : Int) + -1 = 0 := rfl
  have e2 : (1 : Int) + 0 = 1 := rfl
  have e3 : (1 : Int) + 1 = 2 := rfl
  have c1 : (0 : Int) ≤ 0 ∧ (0 : Int) < 3 := by decide
  have c2 : (0 : Int) ≤ 1 ∧ (1 : Int) < 3 := by decide
  have c3 : (0 : Int) ≤ 2 ∧ (2 : Int) < 3 := by decide
  simp only [kernel_taps_three, List.map_cons, List.map_nil, List.sum_cons, List.sum_nil,
    add_zero, e1, e2, e3, if_pos c1, if_pos c2, if_pos c3, va, vb, vc,
    i2 1 0 (by decide) (by decide) (by decide) (by decide) (by decide), h10,
    i3 1 1 (by decide) (by decide) (by decide) (by decide) (by decide),
    i3 1 2 (by decide) (by decide) (by decide) (by decide) (by decide),
    hT1 1 (by decide) (by decide), hT1 2 (by decide) (by decide), mul_one]
  have hbc : tap_weight (gaussian_kernel exp sq (2 / 5) 3) 3 0 +
      tap_weight (gaussian_kernel exp sq (2 / 5) 3) 3 1 =
      1 - tap_weight (gaussian_kernel exp sq (2 / 5) 3) 3 (-1) := by linarith
  have e : tap_weight (gaussian_kernel exp sq (2 / 5) 3) 3 (-1) *
      (tap_weight (gaussian_kernel exp sq (2 / 5) 3) 3 0 +
        tap_weight (gaussian_kernel exp sq (2 / 5) 3) 3 1) +
      (tap_weight (gaussian_kernel exp sq (2 / 5) 3) 3 0 +
        tap_weight (gaussian_kernel exp sq (2 / 5) 3) 3 1) =
      1 - tap_weight (gaussian_kernel exp sq (2 / 5) 3) 3 (-1) *
        tap_weight (gaussian_kernel exp sq (2 / 5) 3) 3 (-1) := by
    rw [hbc]; ring
  rw [e]

/-- A `sigma` whose kernel size leaves the range of `int` ends in `std::length_error`. -/
theorem GaussianBlurFilter_Apply_big (exp : ℚ → ℚ) (sq sigma : ℚ) (R : Image) (hv : R.Valid)
    (hb : 2147483648 ≤ 6 * sigma + 1) :
    GaussianBlurFilter.Apply exp sq sigma R = .error .length_error := by
  obtain ⟨v1, v2, v3, v4, v5, v6⟩ := hv
  unfold GaussianBlurFilter.Apply
  simp only [Image.GetWidth, Image.GetHeight, new_ok v1 v2 v5, static_cast_int_big hb]
  rw [if_pos (by decide)]

/-! ## Loops whose stride is the block size -/

/-- The blocks cover the positions, and the last one starts inside them. -/
theorem blocks_spec {n len : Int} (hn : 1 ≤ n) (hl : 0 ≤ len) :
    0 ≤ blocks n len ∧ len ≤ n * blocks n len ∧ n * (blocks n len - 1) < len := by
  unfold blocks
  have h1 := Int.emod_add_ediv (len + n - 1) n
  have h2 := Int.emod_nonneg (len + n - 1) (by omega : n ≠ 0)
  have h3 := Int.emod_lt_of_pos (len + n - 1) (by omega : 0 < n)
  have h4 : 0 ≤ (len + n - 1) / n := Int.ediv_nonneg (by omega) (by omega)
  refine ⟨h4, by nlinarith, by nlinarith⟩

/-- A loop with stride `n` whose body always finishes runs the body at `0`,
`n`, `2 n`, ... as long as the counter does not leave the range of `int`,
given more fuel than iterations. -/
theorem forStep_stride {σ : Type} (hi n : Int) (hn : 1 ≤ n) (body : Int → σ → Option σ)
    (body' : Int → σ → σ) (m : Nat) : ∀ (fuel : Nat) (j : Int) (s : σ), 0 ≤ j →
      n * (j + m - 1) < hi ∨ m = 0 → hi ≤ n * (j + m) → n * (j + m) ≤ INT32_MAX → m < fuel →
      (∀ i t, j ≤ i → i < j + m → body (n * i) t = some (body' (n * i) t)) →
      forStep hi n body fuel (n * j) s = some (loopUp (fun i t => body' (n * i) t) j m s) := by
  unfold INT32_MAX
  induction m with
  | zero =>
    intro fuel j s _ _ hhi _ hf _
    obtain ⟨f, rfl⟩ : ∃ f, fuel = f + 1 := ⟨fuel - 1, by omega⟩
    simp only [forStep, loopUp]
    rw [if_neg (by simpa using hhi)]
  | succ m ih =>
    intro fuel j s hj hlast hhi hmax hf hb
    obtain ⟨f, rfl⟩ : ∃ f, fuel = f + 1 := ⟨fuel - 1, by omega⟩
    have hlast' : n * (j + m) < hi := by
      rcases hlast with h | h
      · have e : j + ((m + 1 : Nat) : Int) - 1 = j + m := by push_cast; ring
        rw [e] at h; exact h
      · omega
    have hjm : n * j ≤ n * (j + m) := by nlinarith
    have hnj : 0 ≤ n * j := by nlinarith
    have e1 : n * (j + ((m + 1 : Nat) : Int)) = n * (j + m) + n := by push_cast; ring
    rw [e1] at hhi hmax
    simp only [forStep, loopUp]
    rw [if_pos (by omega), hb j s (le_refl _) (by push_cast; omega)]
    simp only
    have e2 : n * j + n = n * (j + 1) := by ring
    rw [wrap32_of_range (by omega) (by omega), e2]
    have e3 : j + 1 + (m : Int) = j + m + 1 := by ring
    have e4 : n * (j + 1 + (m : Int)) = n * (j + m) + n := by ring
    apply ih f (j + 1) (body' (n * j) s) (by omega)
    · by_cases hm : m = 0
      · exact Or.inr hm
      · left
        have e5 : j + 1 + (m : Int) - 1 = j + m := by ring
        rw [e5]; exact hlast'
    · rw [e4]; exact hhi
    · rw [e4]; exact hmax
    · omega
    · intro i t a b
      exact hb i t (by omega) (by push_cast; omega)

/-- A loop whose counter comes back to a value it had, and whose body always
finishes, does not end: it runs out of every amount of fuel. -/
theorem forStep_cycle {σ : Type} (hi step : Int) (body : Int → σ → Option σ)
    (C : Int → Prop) (hC : ∀ i, C i → i < hi ∧ C (wrap32 (i + step)))
    (hb : ∀ i s, ∃ s1, body i s = some s1) :
    ∀ (fuel : Nat) (i : Int) (s : σ), C i → forStep hi step body fuel i s = none := by
  intro fuel
  induction fuel with
  | zero => intro i s _; rfl
  | succ f ih =>
    intro i s hi1
    obtain ⟨s1, h1⟩ := hb i s
    simp only [forStep]
    rw [if_pos (hC i hi1).1, h1]
    exact ih _ s1 (hC i hi1).2

/-! ## One block of the pixelation -/

/-- The block `block_fill` paints: the positions of the block at `(x, y)`
inside the image get `colour`, the others keep what they had. -/
theorem block_fill_spec (n : Int) (hn : 1 ≤ n) (R : Image) (c : Colour) (x y : Int) {img : Image}
    (hs : SizeOK img R.width_ R.height_) (hx0 : 0 ≤ x) (hy0 : 0 ≤ y)
    (hx : x + n ≤ 2147483648) (hy : y + n ≤ 2147483648) :
    SizeOK (block_fill n R c x y img) R.width_ R.height_ ∧
      ∀ x' y', 0 ≤ x' → x' < R.width_ → 0 ≤ y' → y' < R.height_ →
        (block_fill n R c x y img).GetColour x' y' =
          if x ≤ x' ∧ x' < x + n ∧ y ≤ y' ∧ y' < y + n then c else img.GetColour x' y' := by
  have row : ∀ (dy : Int) (t : Image), 0 ≤ dy → dy < n → SizeOK t R.width_ R.height_ →
      SizeOK (forUp 0 n (fun dx pixelated_image =>
        if wrap32 (x + dx) < R.GetWidth ∧ wrap32 (y + dy) < R.GetHeight then
          pixelated_image.SetColour c (wrap32 (x + dx)) (wrap32 (y + dy))
        else pixelated_image) t) R.width_ R.height_ ∧
      ∀ x' y', 0 ≤ x' → x' < R.width_ → 0 ≤ y' → y' < R.height_ →
        (forUp 0 n (fun dx pixelated_image =>
        if wrap32 (x + dx) < R.GetWidth ∧ wrap32 (y + dy) < R.GetHeight then
          pixelated_image.SetColour c (wrap32 (x + dx)) (wrap32 (y + dy))
        else pixelated_image) t).GetColour x' y' =
          if x ≤ x' ∧ x' < x + n ∧ y' = y + dy then c else t.GetColour x' y' := by
    intro dy t hd0 hd ht
    have ey : wrap32 (y + dy) = y + dy := wrap32_of_range (by omega) (by omega)
    have key := loopUp_inv (fun (k : Nat) (u : Image) => SizeOK u R.width_ R.height_ ∧
        ∀ x' y', 0 ≤ x' → x' < R.width_ → 0 ≤ y' → y' < R.height_ →
          u.GetColour x' y' =
            if x ≤ x' ∧ x' < x + (k : Int) ∧ y' = y + dy then c else t.GetColour x' y')
      (fun dx pixelated_image =>
        if wrap32 (x + dx) < R.GetWidth ∧ wrap32 (y + dy) < R.GetHeight then
          pixelated_image.SetColour c (wrap32 (x + dx)) (wrap32 (y + dy))
        else pixelated_image) (n - 0).toNat 0 t
      ⟨ht, by intro x' y' _ _ _ _; rw [if_neg]; omega⟩
      (by
        intro k u hk ⟨hu, hpix⟩
        have ex : wrap32 (x + (0 + (k : Int))) = x + k := by
          rw [Int.zero_add]; exact wrap32_of_range (by omega) (by omega)
        beta_reduce
        rw [ex, ey]
        simp only [Image.GetWidth, Image.GetHeight]
        by_cases hin : x + (k : Int) < R.width_ ∧ y + dy < R.height_
        · rw [if_pos hin]
          refine ⟨SetColour_SizeOK hu _ _ _, ?_⟩
          intro x' y' a b c' d
          rw [GetColour_SetColour hu _ (by omega) hin.1 (by omega) hin.2 a b c' d,
            hpix x' y' a b c' d]
          by_cases e : x' = x + (k : Int) ∧ y' = y + dy
          · rw [if_pos e, if_pos ⟨by omega, by push_cast; omega, e.2⟩]
          · rw [if_neg e]
            by_cases e2 : x ≤ x' ∧ x' < x + (k : Int) ∧ y' = y + dy
            · rw [if_pos e2, if_pos ⟨e2.1, by push_cast; omega, e2.2.2⟩]
            · rw [if_neg e2, if_neg]
              push_cast; omega
        · rw [if_neg hin]
          refine ⟨hu, ?_⟩
          intro x' y' a b c' d
          rw [hpix x' y' a b c' d]
          by_cases e2 : x ≤ x' ∧ x' < x + (k : Int) ∧ y' = y + dy
          · rw [if_pos e2, if_pos ⟨e2.1, by push_cast; omega, e2.2.2⟩]
          · rw [if_neg e2, if_neg]
            push_cast; omega)
    have e : (((n - 0).toNat : Nat) : Int) = n := by omega
    beta_reduce at key
    rw [e] at key
    exact key
  have key := loopUp_inv (fun (k : Nat) (u : Image) => SizeOK u R.width_ R.height_ ∧
      ∀ x' y', 0 ≤ x' → x' < R.width_ → 0 ≤ y' → y' < R.height_ →
        u.GetColour x' y' =
          if x ≤ x' ∧ x' < x + n ∧ y ≤ y' ∧ y' < y + (k : Int) then c else img.GetColour x' y')
    (fun dy pixelated_image => forUp 0 n (fun dx pixelated_image =>
        if wrap32 (x + dx) < R.GetWidth ∧ wrap32 (y + dy) < R.GetHeight then
          pixelated_image.SetColour c (wrap32 (x + dx)) (wrap32 (y + dy))
        else pixelated_image) pixelated_image) (n - 0).toNat 0 img
    ⟨hs, by intro x' y' _ _ _ _; rw [if_neg]; omega⟩
    (by
      intro k u hk ⟨hu, hpix⟩
      obtain ⟨r1, r2⟩ := row (0 + (k : Int)) u (by omega) (by omega) hu
      refine ⟨r1, ?_⟩
      intro x' y' a b c' d
      rw [r2 x' y' a b c' d, hpix x' y' a b c' d]
      by_cases e : x ≤ x' ∧ x' < x + n ∧ y' = y + (0 + (k : Int))
      · rw [if_pos e, if_pos ⟨e.1, e.2.1, by omega, by push_cast; omega⟩]
      · rw [if_neg e]
        by_cases e2 : x ≤ x' ∧ x' < x + n ∧ y ≤ y' ∧ y' < y + (k : Int)
        · rw [if_pos e2, if_pos ⟨e2.1, e2.2.1, e2.2.2.1, by push_cast; omega⟩]
        · rw [if_neg e2, if_neg]
          push_cast; omega)
  have e : (((n - 0).toNat : Nat) : Int) = n := by omega
  beta_reduce at key
  rw [e] at key
  exact key

/-- What `block_sum` adds up: the channels of the `cx × cy` pixels of the block
at `(x, y)` that lie inside the image, and their number. -/
theorem block_sum_spec (n : Int) (hn : 1 ≤ n) (R : Image) (hv : R.Valid) (x y : Int)
    (hx0 : 0 ≤ x) (hy0 : 0 ≤ y)
    (hx : x + n ≤ 2147483648) (hy : y + n ≤ 2147483648) (cx cy : Nat)
    (hcx : (cx : Int) = min n (R.width_ - x)) (hcy : (cy : Int) = min n (R.height_ - y)) :
    block_sum n R x y =
      ⟨((List.range cy).map (fun (i : Nat) => ((List.range cx).map (fun (j : Nat) =>
          (R.GetColour (x + (j : Int)) (y + (i : Int))).red_)).sum)).sum,
       ((List.range cy).map (fun (i : Nat) => ((List.range cx).map (fun (j : Nat) =>
          (R.GetColour (x + (j : Int)) (y + (i : Int))).green_)).sum)).sum,
       ((List.range cy).map (fun (i : Nat) => ((List.range cx).map (fun (j : Nat) =>
          (R.GetColour (x + (j : Int)) (y + (i : Int))).blue_)).sum)).sum,
       ((cx * cy : Nat) : Int)⟩ := by
  obtain ⟨v1, v2, v3, v4, v5, v6⟩ := hv
  unfold INT32_MAX at v3 v4 v5
  have hcxW : (cx : Int) ≤ R.width_ := by omega
  have hcyH : (cy : Int) ≤ R.height_ := by omega
  have row : ∀ (dy : Int) (acc : BlockSum), 0 ≤ dy → dy < n → 0 ≤ acc.pixel_count →
      (y + dy < R.height_ → acc.pixel_count + cx ≤ 2147483647) →
      forUp 0 n (fun dx (acc : BlockSum) =>
        if wrap32 (x + dx) < R.GetWidth ∧ wrap32 (y + dy) < R.GetHeight then
          ({ avg_red := acc.avg_red + (R.GetColour (wrap32 (x + dx)) (wrap32 (y + dy))).red_,
             avg_green := acc.avg_green + (R.GetColour (wrap32 (x + dx)) (wrap32 (y + dy))).green_,
             avg_blue := acc.avg_blue + (R.GetColour (wrap32 (x + dx)) (wrap32 (y + dy))).blue_,
             pixel_count := wrap32 (acc.pixel_count + 1) } : BlockSum)
        else acc) acc =
      if y + dy < R.height_ then
        ⟨acc.avg_red + ((List.range cx).map (fun (j : Nat) =>
            (R.GetColour (x + (j : Int)) (y + dy)).red_)).sum,
         acc.avg_green + ((List.range cx).map (fun (j : Nat) =>
            (R.GetColour (x + (j : Int)) (y + dy)).green_)).sum,
         acc.avg_blue + ((List.range cx).map (fun (j : Nat) =>
            (R.GetColour (x + (j : Int)) (y + dy)).blue_)).sum,
         acc.pixel_count + cx⟩
      else acc := by
    intro dy acc hd0 hd hc0 hc1
    have ey : wrap32 (y + dy) = y + dy := wrap32_of_range (by omega) (by omega)
    have key := loopUp_inv (fun (k : Nat) (u : BlockSum) => u =
        if y + dy < R.height_ then
          ⟨acc.avg_red + ((List.range (min k cx)).map (fun (j : Nat) =>
              (R.GetColour (x + (j : Int)) (y + dy)).red_)).sum,
           acc.avg_green + ((List.range (min k cx)).map (fun (j : Nat) =>
              (R.GetColour (x + (j : Int)) (y + dy)).green_)).sum,
           acc.avg_blue + ((List.range (min k cx)).map (fun (j : Nat) =>
              (R.GetColour (x + (j : Int)) (y + dy)).blue_)).sum,
           acc.pixel_count + ((min k cx : Nat) : Int)⟩
        else acc)
      (fun dx (acc : BlockSum) =>
        if wrap32 (x + dx) < R.GetWidth ∧ wrap32 (y + dy) < R.GetHeight then
          ({ avg_red := acc.avg_red + (R.GetColour (wrap32 (x + dx)) (wrap32 (y + dy))).red_,
             avg_green := acc.avg_green + (R.GetColour (wrap32 (x + dx)) (wrap32 (y + dy))).green_,
             avg_blue := acc.avg_blue + (R.GetColour (wrap32 (x + dx)) (wrap32 (y + dy))).blue_,
             pixel_count := wrap32 (acc.pixel_count + 1) } : BlockSum)
        else acc) (n - 0).toNat 0 acc
      (by
        beta_reduce
        split
        · simp
        · rfl)
      (by
        intro k u hk hu
        have ex : wrap32 (x + (0 + (k : Int))) = x + k := by
          rw [Int.zero_add]; exact wrap32_of_range (by omega) (by omega)
        beta_reduce
        rw [ex, ey]
        simp only [Image.GetWidth, Image.GetHeight]
        subst hu
        by_cases hyin : y + dy < R.height_
        · simp only [if_pos hyin]
          by_cases hxin : x + (k : Int) < R.width_
          · have m1 : min k cx = k := by omega
            have m2 : min (k + 1) cx = k + 1 := by omega
            rw [if_pos ⟨hxin, hyin⟩, m1, m2]
            have hc2 := hc1 hyin
            have ew : wrap32 (acc.pixel_count + ((k : Int) + 1)) = acc.pixel_count + ((k : Int) + 1) :=
              wrap32_of_range (by omega) (by omega)
            simp only [List.range_succ, List.map_append, List.sum_append, List.map_cons,
              List.map_nil, List.sum_cons, List.sum_nil, add_zero, add_assoc]
            push_cast
            rw [ew]
          · have m1 : min (k + 1) cx = min k cx := by omega
            rw [if_neg (fun h => hxin h.1), m1]
        · simp only [if_neg hyin]
          rw [if_neg (fun h => hyin h.2)])
    beta_reduce at key
    have e : min (n - 0).toNat cx = cx := by omega
    rw [e] at key
    exact key
  have key := loopUp_inv (fun (d : Nat) (u : BlockSum) => u =
      ⟨((List.range (min d cy)).map (fun (i : Nat) => ((List.range cx).map (fun (j : Nat) =>
          (R.GetColour (x + (j : Int)) (y + (i : Int))).red_)).sum)).sum,
       ((List.range (min d cy)).map (fun (i : Nat) => ((List.range cx).map (fun (j : Nat) =>
          (R.GetColour (x + (j : Int)) (y + (i : Int))).green_)).sum)).sum,
       ((List.range (min d cy)).map (fun (i : Nat) => ((List.range cx).map (fun (j : Nat) =>
          (R.GetColour (x + (j : Int)) (y + (i : Int))).blue_)).sum)).sum,
       ((cx * min d cy : Nat) : Int)⟩)
    (fun dy (acc : BlockSum) => forUp 0 n (fun dx (acc : BlockSum) =>
        if wrap32 (x + dx) < R.GetWidth ∧ wrap32 (y + dy) < R.GetHeight then
          ({ avg_red := acc.avg_red + (R.GetColour (wrap32 (x + dx)) (wrap32 (y + dy))).red_,
             avg_green := acc.avg_green + (R.GetColour (wrap32 (x + dx)) (wrap32 (y + dy))).green_,
             avg_blue := acc.avg_blue + (R.GetColour (wrap32 (x + dx)) (wrap32 (y + dy))).blue_,
             pixel_count := wrap32 (acc.pixel_count + 1) } : BlockSum)
        else acc) acc) (n - 0).toNat 0 ⟨0, 0, 0, 0⟩
    (by simp)
    (by
      intro d u hd hu
      subst hu
      have hyb : y + (0 + (d : Int)) < R.height_ →
          ((cx * min d cy : Nat) : Int) + cx ≤ 2147483647 := by
        intro hyin
        have m1 : min d cy = d := by omega
        rw [m1]
        have hd1 : (d : Int) + 1 ≤ cy := by omega
        have : (cx : Int) * ((d : Int) + 1) ≤ R.width_ * R.height_ := by
          calc (cx : Int) * ((d : Int) + 1) ≤ (cx : Int) * cy :=
                mul_le_mul_of_nonneg_left hd1 (by omega)
            _ ≤ R.width_ * R.height_ := mul_le_mul hcxW hcyH (by omega) v1
        push_cast
        nlinarith
      beta_reduce
      rw [row (0 + (d : Int)) _ (by omega) (by omega) (by positivity) hyb]
      by_cases hyin : y + (0 + (d : Int)) < R.height_
      · have m1 : min d cy = d := by omega
        have m2 : min (d + 1) cy = d + 1 := by omega
        rw [if_pos hyin, m1, m2]
        simp only [List.range_succ, List.map_append, List.sum_append, List.map_cons,
          List.map_nil, List.sum_cons, List.sum_nil, add_zero, Int.zero_add]
        push_cast
        simp only [mul_add, mul_one]
      · have m1 : min (d + 1) cy = min d cy := by omega
        rw [if_neg hyin, m1])
  beta_reduce at key
  have e : min (n - 0).toNat cy = cy := by omega
  rw [e] at key
  exact key

/-! ## The blocks of the pixelation -/

/-- The coordinates in an interval, picked from the coordinates below `L`. -/
theorem interval_filter (a b : Int) (ha : 0 ≤ a) (L : Nat) :
    ((List.range L).map (fun (i : Nat) => (i : Int))).filter (fun x' => decide (a ≤ x' ∧ x' < b)) =
      (List.range (min b L - a).toNat).map (fun (j : Nat) => a + (j : Int)) := by
  induction L with
  | zero =>
    have e : (min b ((0 : Nat) : Int) - a).toNat = 0 := by omega
    rw [e]; rfl
  | succ L ih =>
    rw [List.range_succ, List.map_append, List.filter_append, ih]
    by_cases h : a ≤ (L : Int) ∧ (L : Int) < b
    · have e1 : (min b ((L + 1 : Nat) : Int) - a).toNat = (min b (L : Int) - a).toNat + 1 := by
        omega
      have e2 : a + (((min b (L : Int) - a).toNat : Nat) : Int) = L := by omega
      rw [e1, List.range_succ, List.map_append]
      simp only [List.map_cons, List.map_nil, List.filter_cons, List.filter_nil, h, and_self,
        decide_True, if_true, e2]
    · have e1 : (min b ((L + 1 : Nat) : Int) - a).toNat = (min b (L : Int) - a).toNat := by
        omega
      rw [e1]
      simp only [List.map_cons, List.map_nil, List.filter_cons, List.filter_nil, h,
        decide_False, if_false, List.append_nil, Bool.false_eq_true]

/-- The coordinates with a given quotient by `n` form the block that starts at
`n` times the quotient. -/
theorem ediv_eq_iff_block {n q z : Int} (hn : 1 ≤ n) :
    z / n = q ↔ n * q ≤ z ∧ z < n * q + n := by
  have h1 := Int.emod_add_ediv z n
  have h2 := Int.emod_nonneg z (by omega : n ≠ 0)
  have h3 := Int.emod_lt_of_pos z (by omega : 0 < n)
  constructor
  · intro h
    subst h
    constructor <;> nlinarith
  · intro ⟨a, b⟩
    have l1 : q ≤ z / n := by
      by_contra hc
      have : z / n + 1 ≤ q := by omega
      nlinarith
    have l2 : z / n ≤ q := by
      by_contra hc
      have : q + 1 ≤ z / n := by omega
      nlinarith
    omega

/-- The cells of the block of `x`, counted from the start of the block. -/
theorem block_cells_eq {len n x : Int} (hn : 1 ≤ n) (c : Nat)
    (hc : (c : Int) = min n (len - n * (x / n))) (hx0 : 0 ≤ x) :
    block_cells len n x = (List.range c).map (fun (j : Nat) => n * (x / n) + (j : Int)) := by
  have hq : 0 ≤ x / n := Int.ediv_nonneg hx0 (by omega)
  have ha : 0 ≤ n * (x / n) := by positivity
  have hf : (fun (x' : Int) => decide (x' / n = x / n)) =
      (fun (x' : Int) => decide (n * (x / n) ≤ x' ∧ x' < n * (x / n) + n)) := by
    funext x'
    simp only [ediv_eq_iff_block hn]
  unfold block_cells
  rw [hf, interval_filter _ _ ha]
  have e : (min (n * (x / n) + n) ((len.toNat : Nat) : Int) - n * (x / n)).toNat = c := by
    omega
  rw [e]

/-! ## The pixelation filter -/

/-- With enough fuel, and block starts that stay in the range of `int`, the
loops of `PixelationFilter::Apply` end and leave `pixelated n R`. -/
theorem PixelationFilter_Apply_runs (n : Int) (hn : 1 ≤ n) (R : Image) (hv : R.Valid)
    (hbx : n * blocks n R.width_ ≤ INT32_MAX) (hby : n * blocks n R.height_ ≤ INT32_MAX)
    (fuel : Nat) (hfx : blocks n R.width_ < fuel) (hfy : blocks n R.height_ < fuel) :
    PixelationFilter.Apply n fuel R = some (.ok (pixelated n R)) := by
  obtain ⟨v1, v2, v3, v4, v5, v6⟩ := hv
  obtain ⟨bx0, bx1, bx2⟩ := blocks_spec hn v1
  obtain ⟨by0, by1, by2⟩ := blocks_spec hn v2
  have inner : ∀ (y : Int) (img : Image),
      forStep R.width_ n (fun x pixelated_image =>
        some (block_fill n R ⟨(block_sum n R x y).avg_red / ((block_sum n R x y).pixel_count : ℚ),
          (block_sum n R x y).avg_green / ((block_sum n R x y).pixel_count : ℚ),
          (block_sum n R x y).avg_blue / ((block_sum n R x y).pixel_count : ℚ)⟩ x y
          pixelated_image)) fuel 0 img =
      some (loopUp (fun i t => block_fill n R (block_colour n R (n * i) y) (n * i) y t)
        0 (blocks n R.width_).toNat img) := by
    intro y img
    have h := forStep_stride R.width_ n hn
      (fun x pixelated_image =>
        some (block_fill n R ⟨(block_sum n R x y).avg_red / ((block_sum n R x y).pixel_count : ℚ),
          (block_sum n R x y).avg_green / ((block_sum n R x y).pixel_count : ℚ),
          (block_sum n R x y).avg_blue / ((block_sum n R x y).pixel_count : ℚ)⟩ x y
          pixelated_image))
      (fun x t => block_fill n R (block_colour n R x y) x y t)
      (blocks n R.width_).toNat fuel 0 img (le_refl 0)
      (by
        by_cases h0 : (blocks n R.width_).toNat = 0
        · exact Or.inr h0
        · left
          have e : (0 : Int) + ((blocks n R.width_).toNat : Int) - 1 = blocks n R.width_ - 1 := by
            omega
          rw [e]; exact bx2)
      (by
        have e : (0 : Int) + ((blocks n R.width_).toNat : Int) = blocks n R.width_ := by omega
        rw [e]; exact bx1)
      (by
        have e : (0 : Int) + ((blocks n R.width_).toNat : Int) = blocks n R.width_ := by omega
        rw [e]; exact hbx)
      (by omega)
      (fun i t _ _ => rfl)
    rw [Int.mul_zero] at h
    exact h
  have outer : forStep R.height_ n (fun y pixelated_image =>
      forStep R.width_ n (fun x pixelated_image =>
        some (block_fill n R ⟨(block_sum n R x y).avg_red / ((block_sum n R x y).pixel_count : ℚ),
          (block_sum n R x y).avg_green / ((block_sum n R x y).pixel_count : ℚ),
          (block_sum n R x y).avg_blue / ((block_sum n R x y).pixel_count : ℚ)⟩ x y
          pixelated_image)) fuel 0 pixelated_image) fuel 0
        ⟨R.width_, R.height_, List.replicate (R.width_ * R.height_).toNat default⟩ =
      some (pixelated n R) := by
    have h := forStep_stride R.height_ n hn
      (fun y pixelated_image =>
        forStep R.width_ n (fun x pixelated_image =>
          some (block_fill n R ⟨(block_sum n R x y).avg_red / ((block_sum n R x y).pixel_count : ℚ),
            (block_sum n R x y).avg_green / ((block_sum n R x y).pixel_count : ℚ),
            (block_sum n R x y).avg_blue / ((block_sum n R x y).pixel_count : ℚ)⟩ x y
            pixelated_image)) fuel 0 pixelated_image)
      (fun y t => loopUp (fun i t => block_fill n R (block_colour n R (n * i) y) (n * i) y t)
        0 (blocks n R.width_).toNat t)
      (blocks n R.height_).toNat fuel 0
      ⟨R.width_, R.height_, List.replicate (R.width_ * R.height_).toNat default⟩ (le_refl 0)
      (by
        by_cases h0 : (blocks n R.height_).toNat = 0
        · exact Or.inr h0
        · left
          have e : (0 : Int) + ((blocks n R.height_).toNat : Int) - 1 = blocks n R.height_ - 1 := by
            omega
          rw [e]; exact by2)
      (by
        have e : (0 : Int) + ((blocks n R.height_).toNat : Int) = blocks n R.height_ := by omega
        rw [e]; exact by1)
      (by
        have e : (0 : Int) + ((blocks n R.height_).toNat : Int) = blocks n R.height_ := by omega
        rw [e]; exact hby)
      (by omega)
      (fun i t _ _ => inner (n * i) t)
    rw [Int.mul_zero] at h
    exact h
  unfold PixelationFilter.Apply
  simp only [Image.GetWidth, Image.GetHeight, new_ok v1 v2 v5, outer]

/-- The pixels of `pixelated n R`: each holds the colour computed for its block. -/
theorem pixelated_spec (n : Int) (hn : 1 ≤ n) (R : Image) (hv : R.Valid)
    (hbx : n * blocks n R.width_ ≤ INT32_MAX) (hby : n * blocks n R.height_ ≤ INT32_MAX) :
    SizeOK (pixelated n R) R.width_ R.height_ ∧
      ∀ x y, 0 ≤ x → x < R.width_ → 0 ≤ y → y < R.height_ →
        (pixelated n R).GetColour x y = block_colour n R (n * (x / n)) (n * (y / n)) := by
  obtain ⟨v1, v2, v3, v4, v5, v6⟩ := hv
  unfold INT32_MAX at hbx hby
  obtain ⟨bx0, bx1, bx2⟩ := blocks_spec hn v1
  obtain ⟨by0, by1, by2⟩ := blocks_spec hn v2
  have row : ∀ (j : Int) (t : Image), 0 ≤ j → j < blocks n R.height_ →
      SizeOK t R.width_ R.height_ →
      SizeOK (loopUp (fun i t =>
          block_fill n R (block_colour n R (n * i) (n * j)) (n * i) (n * j) t)
          0 (blocks n R.width_).toNat t) R.width_ R.height_ ∧
      ∀ x' y', 0 ≤ x' → x' < R.width_ → 0 ≤ y' → y' < R.height_ →
        (loopUp (fun i t =>
          block_fill n R (block_colour n R (n * i) (n * j)) (n * i) (n * j) t)
          0 (blocks n R.width_).toNat t).GetColour x' y' =
          if n * j ≤ y' ∧ y' < n * j + n then block_colour n R (n * (x' / n)) (n * j)
          else t.GetColour x' y' := by
    intro j t hj0 hj ht
    have hnj : 0 ≤ n * j := by positivity
    have hnj1 : n * j + n ≤ 2147483648 := by nlinarith
    have key := loopUp_inv (fun (k : Nat) (u : Image) => SizeOK u R.width_ R.height_ ∧
        ∀ x' y', 0 ≤ x' → x' < R.width_ → 0 ≤ y' → y' < R.height_ →
          u.GetColour x' y' =
            if n * j ≤ y' ∧ y' < n * j + n ∧ x' < n * (k : Int) then
              block_colour n R (n * (x' / n)) (n * j)
            else t.GetColour x' y')
      (fun i t => block_fill n R (block_colour n R (n * i) (n * j)) (n * i) (n * j) t)
      (blocks n R.width_).toNat 0 t
      ⟨ht, by
        intro x' y' a _ _ _
        rw [if_neg]
        intro h
        have := h.2.2
        simp at this
        omega⟩
      (by
        intro k u hk ⟨hu, hpix⟩
        have hk1 : (k : Int) + 1 ≤ blocks n R.width_ := by omega
        have hni : 0 ≤ n * (0 + (k : Int)) := by positivity
        have e1 : n * (((k + 1 : Nat) : Int)) = n * (0 + (k : Int)) + n := by push_cast; ring
        have e0 : n * (k : Int) = n * (0 + (k : Int)) := by ring_nf
        have hni1 : n * (0 + (k : Int)) + n ≤ 2147483648 := by nlinarith
        obtain ⟨f1, f2⟩ := block_fill_spec n hn R
          (block_colour n R (n * (0 + (k : Int))) (n * j)) (n * (0 + (k : Int))) (n * j) hu
          hni hnj hni1 hnj1
        refine ⟨f1, ?_⟩
        intro x' y' a b c d
        rw [f2 x' y' a b c d, hpix x' y' a b c d, e1, e0]
        by_cases hin : n * (0 + (k : Int)) ≤ x' ∧ x' < n * (0 + (k : Int)) + n ∧ n * j ≤ y' ∧
            y' < n * j + n
        · have hq : x' / n = 0 + (k : Int) := (ediv_eq_iff_block hn).mpr ⟨hin.1, hin.2.1⟩
          rw [if_pos hin, if_pos ⟨hin.2.2.1, hin.2.2.2, hin.2.1⟩, hq]
        · rw [if_neg hin]
          by_cases h2 : n * j ≤ y' ∧ y' < n * j + n ∧ x' < n * (0 + (k : Int))
          · rw [if_pos h2, if_pos ⟨h2.1, h2.2.1, by omega⟩]
          · rw [if_neg h2, if_neg]
            omega)
    beta_reduce at key
    refine ⟨key.1, ?_⟩
    intro x' y' a b c d
    rw [key.2 x' y' a b c d]
    have e : n * (((blocks n R.width_).toNat : Nat) : Int) = n * blocks n R.width_ := by
      congr 1; omega
    rw [e]
    by_cases h2 : n * j ≤ y' ∧ y' < n * j + n
    · rw [if_pos h2, if_pos ⟨h2.1, h2.2, by omega⟩]
    · rw [if_neg h2, if_neg (fun h => h2 ⟨h.1, h.2.1⟩)]
  have key := loopUp_inv (fun (m : Nat) (u : Image) => SizeOK u R.width_ R.height_ ∧
      ∀ x' y', 0 ≤ x' → x' < R.width_ → 0 ≤ y' → y' < R.height_ →
        u.GetColour x' y' =
          if y' < n * (m : Int) then block_colour n R (n * (x' / n)) (n * (y' / n))
          else (⟨R.width_, R.height_,
            List.replicate (R.width_ * R.height_).toNat default⟩ : Image).GetColour x' y')
    (fun j t =>
      loopUp (fun i t => block_fill n R (block_colour n R (n * i) (n * j)) (n * i) (n * j) t)
        0 (blocks n R.width_).toNat t)
    (blocks n R.height_).toNat 0
    ⟨R.width_, R.height_, List.replicate (R.width_ * R.height_).toNat default⟩
    ⟨new_SizeOK v1 v2, by
      intro x' y' _ _ c _
      rw [if_neg]
      simp
      omega⟩
    (by
      intro m u hm ⟨hu, hpix⟩
      obtain ⟨r1, r2⟩ := row (0 + (m : Int)) u (by omega) (by omega) hu
      refine ⟨r1, ?_⟩
      intro x' y' a b c d
      have e1 : n * (((m + 1 : Nat) : Int)) = n * (0 + (m : Int)) + n := by push_cast; ring
      have e0 : n * (m : Int) = n * (0 + (m : Int)) := by ring_nf
      have hnm : 0 ≤ n * (0 + (m : Int)) := by positivity
      rw [r2 x' y' a b c d, hpix x' y' a b c d, e1, e0]
      by_cases hin : n * (0 + (m : Int)) ≤ y' ∧ y' < n * (0 + (m : Int)) + n
      · have hq : y' / n = 0 + (m : Int) := (ediv_eq_iff_block hn).mpr hin
        rw [if_pos hin, if_pos hin.2, hq]
      · rw [if_neg hin]
        by_cases h2 : y' < n * (0 + (m : Int))
        · rw [if_pos h2, if_pos (by omega)]
        · rw [if_neg h2, if_neg (by omega)])
  beta_reduce at key
  refine ⟨key.1, ?_⟩
  intro x y a b c d
  have e : n * (((blocks n R.height_).toNat : Nat) : Int) = n * blocks n R.height_ := by
    congr 1; omega
  have k2 := key.2 x y a b c d
  rw [e, if_pos (by omega)] at k2
  exact k2

/-- The colour computed for the block of `(x, y)` is the mean of the raster over
the block. -/
theorem block_colour_eq (n : Int) (hn : 1 ≤ n) (R : Image) (hv : R.Valid)
    (hbx : n * blocks n R.width_ ≤ INT32_MAX) (hby : n * blocks n R.height_ ≤ INT32_MAX)
    (x y : Int) (hx0 : 0 ≤ x) (hx : x < R.width_) (hy0 : 0 ≤ y) (hy : y < R.height_) :
    block_colour n R (n * (x / n)) (n * (y / n)) =
      ⟨block_mean R n (fun c => c.red_) x y, block_mean R n (fun c => c.green_) x y,
        block_mean R n (fun c => c.blue_) x y⟩ := by
  have hv' := hv
  obtain ⟨v1, v2, v3, v4, v5, v6⟩ := hv
  unfold INT32_MAX at hbx hby
  obtain ⟨bx0, bx1, bx2⟩ := blocks_spec hn v1
  obtain ⟨by0, by1, by2⟩ := blocks_spec hn v2
  have qx := (ediv_eq_iff_block (n := n) (q := x / n) (z := x) hn).mp rfl
  have qy := (ediv_eq_iff_block (n := n) (q := y / n) (z := y) hn).mp rfl
  have hqx : 0 ≤ x / n := Int.ediv_nonneg hx0 (by omega)
  have hqy : 0 ≤ y / n := Int.ediv_nonneg hy0 (by omega)
  have hx0' : 0 ≤ n * (x / n) := by positivity
  have hy0' : 0 ≤ n * (y / n) := by positivity
  have hqx1 : x / n + 1 ≤ blocks n R.width_ := by
    by_contra hc
    have : blocks n R.width_ ≤ x / n := by omega
    nlinarith
  have hqy1 : y / n + 1 ≤ blocks n R.height_ := by
    by_contra hc
    have : blocks n R.height_ ≤ y / n := by omega
    nlinarith
  have hx1 : n * (x / n) + n ≤ 2147483648 := by nlinarith
  have hy1 : n * (y / n) + n ≤ 2147483648 := by nlinarith
  have hcx : (((min n (R.width_ - n * (x / n))).toNat : Nat) : Int) =
      min n (R.width_ - n * (x / n)) := by omega
  have hcy : (((min n (R.height_ - n * (y / n))).toNat : Nat) : Int) =
      min n (R.height_ - n * (y / n)) := by omega
  unfold block_colour block_mean block_size
  rw [block_sum_spec n hn R hv' (n * (x / n)) (n * (y / n)) hx0' hy0' hx1 hy1 _ _ hcx hcy,
    block_cells_eq hn _ hcx hx0, block_cells_eq hn _ hcy hy0]
  simp only [List.map_map, List.length_map, List.length_range, Int.cast_natCast]
  rfl

/-- The divisor computed for the block of `(x, y)` is the number of its pixels,
which is at least one and at most `n * n`. -/
theorem block_count_eq (n : Int) (hn : 1 ≤ n) (R : Image) (hv : R.Valid)
    (hbx : n * blocks n R.width_ ≤ INT32_MAX) (hby : n * blocks n R.height_ ≤ INT32_MAX)
    (x y : Int) (hx0 : 0 ≤ x) (hx : x < R.width_) (hy0 : 0 ≤ y) (hy : y < R.height_) :
    (block_sum n R (n * (x / n)) (n * (y / n))).pixel_count = (block_size R n x y : Int) ∧
      1 ≤ block_size R n x y ∧ (block_size R n x y : Int) ≤ n * n := by
  have hv' := hv
  obtain ⟨v1, v2, v3, v4, v5, v6⟩ := hv
  unfold INT32_MAX at hbx hby
  obtain ⟨bx0, bx1, bx2⟩ := blocks_spec hn v1
  obtain ⟨by0, by1, by2⟩ := blocks_spec hn v2
  have qx := (ediv_eq_iff_block (n := n) (q := x / n) (z := x) hn).mp rfl
  have qy := (ediv_eq_iff_block (n := n) (q := y / n) (z := y) hn).mp rfl
  have hqx : 0 ≤ x / n := Int.ediv_nonneg hx0 (by omega)
  have hqy : 0 ≤ y / n := Int.ediv_nonneg hy0 (by omega)
  have hx0' : 0 ≤ n * (x / n) := by positivity
  have hy0' : 0 ≤ n * (y / n) := by positivity
  have hqx1 : x / n + 1 ≤ blocks n R.width_ := by
    by_contra hc
    have : blocks n R.width_ ≤ x / n := by omega
    nlinarith
  have hqy1 : y / n + 1 ≤ blocks n R.height_ := by
    by_contra hc
    have : blocks n R.height_ ≤ y / n := by omega
    nlinarith
  have hx1 : n * (x / n) + n ≤ 2147483648 := by nlinarith
  have hy1 : n * (y / n) + n ≤ 2147483648 := by nlinarith
  have hcx : (((min n (R.width_ - n * (x / n))).toNat : Nat) : Int) =
      min n (R.width_ - n * (x / n)) := by omega
  have hcy : (((min n (R.height_ - n * (y / n))).toNat : Nat) : Int) =
      min n (R.height_ - n * (y / n)) := by omega
  have hcx1 : 1 ≤ (min n (R.width_ - n * (x / n))).toNat := by omega
  have hcy1 : 1 ≤ (min n (R.height_ - n * (y / n))).toNat := by omega
  have hcxn : (((min n (R.width_ - n * (x / n))).toNat : Nat) : Int) ≤ n := by omega
  have hcyn : (((min n (R.height_ - n * (y / n))).toNat : Nat) : Int) ≤ n := by omega
  unfold block_size
  rw [block_sum_spec n hn R hv' (n * (x / n)) (n * (y / n)) hx0' hy0' hx1 hy1 _ _ hcx hcy,
    block_cells_eq hn _ hcx hx0, block_cells_eq hn _ hcy hy0]
  simp only [List.length_map, List.length_range]
  refine ⟨trivial, Nat.one_le_iff_ne_zero.mpr (Nat.mul_ne_zero (by omega) (by omega)), ?_⟩
  push_cast
  exact mul_le_mul hcxn hcyn (by omega) (by omega)

/-- The kernel of size one is the single weight `1`. -/
theorem gaussian_kernel_one (exp : ℚ → ℚ) (sq sigma : ℚ) (hexp : ∀ q, 0 < exp q) (hsq : 0 < sq)
    (hs : 0 < sigma) : gaussian_kernel exp sq sigma 1 = [1] := by
  have hv := kernel_value_pos exp sq sigma hexp hsq hs 0
  unfold gaussian_kernel
  rw [gaussian_fill_eq exp sq sigma (by decide), kernel_taps_one]
  simp only [List.map_cons, List.map_nil, List.sum_cons, List.sum_nil, add_zero]
  rw [div_self (ne_of_gt hv)]

/-! ## Block sizes for which the pixelation does not end -/

/-- A loop whose first body does not finish does not finish. -/
theorem forStep_body_none {σ : Type} (hi step : Int) (body : Int → σ → Option σ) (fuel : Nat)
    (i : Int) (s : σ) (h1 : i < hi) (h2 : body i s = none) :
    forStep hi step body fuel i s = none := by
  cases fuel with
  | zero => rfl
  | succ f =>
    simp only [forStep]
    rw [if_pos h1, h2]

/-- On a raster with a pixel, the loops of `PixelationFilter::Apply` never end
when the counter of the `x` loop comes back to a value it had. -/
theorem PixelationFilter_Apply_cycle (n : Int) (R : Image) (hv : R.Valid)
    (hh : 0 < R.height_) (C : Int → Prop) (hC0 : C 0)
    (hC : ∀ i, C i → i < R.width_ ∧ C (wrap32 (i + n))) (fuel : Nat) :
    PixelationFilter.Apply n fuel R = none := by
  obtain ⟨v1, v2, v3, v4, v5, v6⟩ := hv
  have inner : ∀ (y : Int) (img : Image),
      forStep R.width_ n (fun x pixelated_image =>
        some (block_fill n R ⟨(block_sum n R x y).avg_red / ((block_sum n R x y).pixel_count : ℚ),
          (block_sum n R x y).avg_green / ((block_sum n R x y).pixel_count : ℚ),
          (block_sum n R x y).avg_blue / ((block_sum n R x y).pixel_count : ℚ)⟩ x y
          pixelated_image)) fuel 0 img = none := by
    intro y img
    exact forStep_cycle R.width_ n _ C hC (fun i s => ⟨_, rfl⟩) fuel 0 img hC0
  have outer : forStep R.height_ n (fun y pixelated_image =>
      forStep R.width_ n (fun x pixelated_image =>
        some (block_fill n R ⟨(block_sum n R x y).avg_red / ((block_sum n R x y).pixel_count : ℚ),
          (block_sum n R x y).avg_green / ((block_sum n R x y).pixel_count : ℚ),
          (block_sum n R x y).avg_blue / ((block_sum n R x y).pixel_count : ℚ)⟩ x y
          pixelated_image)) fuel 0 pixelated_image) fuel 0
        ⟨R.width_, R.height_, List.replicate (R.width_ * R.height_).toNat default⟩ = none :=
    forStep_body_none _ _ _ _ _ _ hh (inner 0 _)
  unfold PixelationFilter.Apply
  simp only [Image.GetWidth, Image.GetHeight, new_ok v1 v2 v5, outer]

/-- With block size 0 the filter does not end on a raster that has a pixel. -/
theorem PixelationFilter_Apply_zero (R : Image) (hv : R.Valid) (hw : 0 < R.width_)
    (hh : 0 < R.height_) (fuel : Nat) : PixelationFilter.Apply 0 fuel R = none :=
  PixelationFilter_Apply_cycle 0 R hv hh (fun i => i = 0) rfl
    (fun i hi => by subst hi; exact ⟨hw, by decide⟩) fuel

theorem wide_raster_valid : wide_raster.Valid := by
  unfold Image.Valid wide_raster INT32_MAX
  simp only [List.length_replicate]
  decide

/-- With block size `2^30` the filter does not end on the raster `2^30 + 1`
pixels wide: the counter of the `x` loop wraps around. -/
theorem PixelationFilter_Apply_wide (fuel : Nat) :
    PixelationFilter.Apply 1073741824 fuel wide_raster = none :=
  PixelationFilter_Apply_cycle 1073741824 wide_raster wide_raster_valid (by decide)
    (fun i => i = 0 ∨ i = 1073741824 ∨ i = -2147483648 ∨ i = -1073741824) (Or.inl rfl)
    (fun i hi => by
      rcases hi with h | h | h | h <;> subst h <;> decide) fuel

/-- The filter never ends with an error on a valid raster, whatever the block size. -/
theorem PixelationFilter_Apply_no_error (n : Int) (R : Image) (hv : R.Valid) (fuel : Nat)
    (r : Except Failure Image) (h : PixelationFilter.Apply n fuel R = some r) :
    ∃ out, r = .ok out := by
  obtain ⟨v1, v2, v3, v4, v5, v6⟩ := hv
  unfold PixelationFilter.Apply at h
  simp only [Image.GetWidth, Image.GetHeight, new_ok v1 v2 v5] at h
  split at h
  · cases h
  · cases h
    exact ⟨_, rfl⟩

/-- On the empty raster the filter returns the raster, whatever the block size. -/
theorem PixelationFilter_Apply_empty (n : Int) (fuel : Nat) (hf : 1 ≤ fuel) :
    PixelationFilter.Apply n fuel empty_raster = some (.ok empty_raster) := by
  obtain ⟨f, rfl⟩ : ∃ f, fuel = f + 1 := ⟨fuel - 1, by omega⟩
  rfl

/-! ## The claims on the filters and on the round trip -/

/-- C11 (the code at the failing input): for the 3×3 raster all of whose pixels
are `(1, 1, 1)` and `sigma = 2/5`, so that `k = 3` and `(1, 1)` is an interior
pixel, `GaussianBlurFilter::Apply` returns a raster whose pixel `(1, 1)` is
below 1 in every channel, whatever positive values `std::exp` and
`std::sqrt(2π)` have: the vertical pass reads the row above after it has
overwritten it. -/
theorem C11_uniform_interior_darkened (exp : ℚ → ℚ) (sq : ℚ) (hexp : ∀ q, 0 < exp q)
    (hsq : 0 < sq) :
    static_cast_int (6 * (2 / 5) + 1) = 3 ∧ white_3x3.Valid ∧
      (∀ c ∈ white_3x3.data_, c = (⟨1, 1, 1⟩ : Colour)) ∧
      ((3 : Int) / 2 ≤ 1 ∧ (1 : Int) < white_3x3.width_ - 3 / 2 ∧
        (1 : Int) < white_3x3.height_ - 3 / 2) ∧
      ∃ out, GaussianBlurFilter.Apply exp sq (2 / 5) white_3x3 = .ok out ∧
        (out.GetColour 1 1).red_ < 1 ∧ (out.GetColour 1 1).green_ < 1 ∧
        (out.GetColour 1 1).blue_ < 1 := by
  obtain ⟨out, ho, ha, hp⟩ := blur_white_3x3 exp sq hexp hsq
  have hlt : 1 - tap_weight (gaussian_kernel exp sq (2 / 5) 3) 3 (-1) *
      tap_weight (gaussian_kernel exp sq (2 / 5) 3) 3 (-1) < 1 := by
    have := mul_pos ha ha
    linarith
  refine ⟨by decide!, by decide, ?_, by decide, out, ho, ?_, ?_, ?_⟩
  · intro c hc
    simp only [white_3x3, List.mem_replicate] at hc
    exact hc.2
  · rw [hp]; exact hlt
  · rw [hp]; exact hlt
  · rw [hp]; exact hlt

/-- Witness of C11 with `unit_exp` for `std::exp` and `1` for `std::sqrt(2π)`. -/
theorem C11_uniform_interior_darkened_witness :
    (∀ q, 0 < unit_exp q) ∧ (0 : ℚ) < 1 ∧
    (static_cast_int (6 * (2 / 5) + 1) = 3 ∧ white_3x3.Valid ∧
      (∀ c ∈ white_3x3.data_, c = (⟨1, 1, 1⟩ : Colour)) ∧
      ((3 : Int) / 2 ≤ 1 ∧ (1 : Int) < white_3x3.width_ - 3 / 2 ∧
        (1 : Int) < white_3x3.height_ - 3 / 2) ∧
      ∃ out, GaussianBlurFilter.Apply unit_exp 1 (2 / 5) white_3x3 = .ok out ∧
        (out.GetColour 1 1).red_ < 1 ∧ (out.GetColour 1 1).green_ < 1 ∧
        (out.GetColour 1 1).blue_ < 1) :=
  ⟨fun _ => by unfold unit_exp; norm_num, by norm_num,
    C11_uniform_interior_darkened unit_exp 1 (fun _ => by unfold unit_exp; norm_num)
      (by norm_num)⟩

/-- C14: for every raster (a valid `Image`) with width and height at least 1
whose channels are each exactly 0 or exactly 1, `Image::Read` of the bytes
that `Image::Export` writes returns a raster equal to the original. -/
theorem C14_binary_roundtrip (R : Image) (hv : R.Valid) (_hw : 1 ≤ R.width_)
    (_hh : 1 ≤ R.height_) (hb : R.Binary) (u : Uninit) :
    ∃ bytes, R.Export true = .ok bytes ∧ Image.Read u (some bytes) = .ok R :=
  ⟨_, Export_eq R, Read_Export_binary R hv hb u⟩

/-- Witness of C14, the scenario of the claim: the 2×2 raster red, green, blue,
white, whose rows carry 2 padding bytes each, is read back as it was. -/
theorem C14_binary_roundtrip_witness :
    sample_2x2.Valid ∧ 1 ≤ sample_2x2.width_ ∧ 1 ≤ sample_2x2.height_ ∧ sample_2x2.Binary ∧
    sample_2x2 = ⟨2, 2, [⟨1, 0, 0⟩, ⟨0, 1, 0⟩, ⟨0, 0, 1⟩, ⟨1, 1, 1⟩]⟩ ∧
    padding_amount sample_2x2.width_ = 2 ∧
    (∃ bytes, sample_2x2.Export true = .ok bytes ∧ Image.Read sample_uninit (some bytes) = .ok sample_2x2) :=
  ⟨by decide, by decide, by decide, by decide!, rfl, by decide,
    C14_binary_roundtrip sample_2x2 (by decide) (by decide) (by decide) (by decide!)
      sample_uninit⟩

/-- C15: for the 3×3 raster whose centre is `(1, 1, 1)` and whose other eight
pixels are `(0, 0, 0)`, `SharpeningFilter::Apply` yields the centre
`(1, 1, 1)`, its sum before the clamp being 5; at each of the four orthogonal
neighbours `(1, 0)`, `(0, 1)`, `(2, 1)`, `(1, 2)` the sum before the clamp is
exactly `-1` in every channel and the output is `(0, 0, 0)`; the four corners
are `(0, 0, 0)`. -/
theorem C15_sharpen_isolated_pixel :
    sample_dot.GetColour 1 1 = ⟨1, 1, 1⟩ ∧
    (∀ c ∈ sample_dot.data_.eraseIdx 4, c = (⟨0, 0, 0⟩ : Colour)) ∧
    ∃ out, SharpeningFilter.Apply sample_dot = .ok out ∧
      out.width_ = 3 ∧ out.height_ = 3 ∧
      (sharp_sum sample_dot 1 1 = ⟨5, 5, 5⟩ ∧ out.GetColour 1 1 = ⟨1, 1, 1⟩) ∧
      (sharp_sum sample_dot 1 0 = ⟨-1, -1, -1⟩ ∧ out.GetColour 1 0 = ⟨0, 0, 0⟩) ∧
      (sharp_sum sample_dot 0 1 = ⟨-1, -1, -1⟩ ∧ out.GetColour 0 1 = ⟨0, 0, 0⟩) ∧
      (sharp_sum sample_dot 2 1 = ⟨-1, -1, -1⟩ ∧ out.GetColour 2 1 = ⟨0, 0, 0⟩) ∧
      (sharp_sum sample_dot 1 2 = ⟨-1, -1, -1⟩ ∧ out.GetColour 1 2 = ⟨0, 0, 0⟩) ∧
      out.GetColour 0 0 = ⟨0, 0, 0⟩ ∧ out.GetColour 2 0 = ⟨0, 0, 0⟩ ∧
      out.GetColour 0 2 = ⟨0, 0, 0⟩ ∧ out.GetColour 2 2 = ⟨0, 0, 0⟩ :=
  ⟨by decide!, by decide!, sample_dot, by decide!⟩

/-- C17 (counterexample): `GaussianBlurFilter(2^29)` applied to the valid 2×2
sample raster ends in `std::length_error` (the kernel size `6 sigma + 1`
leaves the range of `int`), and `PixelationFilter(2^30)` applied to the valid
raster of width `2^30 + 1` and height 1 does not end (the counter of the `x`
loop wraps around): neither returns a raster. -/
theorem C17_dimensions_counterexample :
    sample_2x2.Valid ∧ (0 : ℚ) < 536870912 ∧
    (∀ (exp : ℚ → ℚ) (sq : ℚ),
      GaussianBlurFilter.Apply exp sq 536870912 sample_2x2 = .error .length_error) ∧
    wide_raster.Valid ∧ (1 : Int) ≤ 1073741824 ∧
    (∀ fuel : Nat, PixelationFilter.Apply 1073741824 fuel wide_raster = none) :=
  ⟨by decide, by norm_num,
    fun exp sq => GaussianBlurFilter_Apply_big exp sq 536870912 sample_2x2 (by decide)
      (by norm_num),
    wide_raster_valid, by decide, PixelationFilter_Apply_wide⟩

/-- C17 (amended): for every valid raster `R` each of `GrayscaleFilter`,
`NegativeFilter`, `SharpeningFilter`, `EdgeDetectionFilter(t)`,
`GaussianBlurFilter(sigma)` with `sigma > 0` and `6 sigma + 1 < 2^31`, and
`PixelationFilter(n)` with `n ≥ 1` for which the first multiples of `n` at or
above the width and at or above the height are at most `2^31 - 1`, returns a
raster with exactly the width and the height of `R` and with data length
`width * height`. -/
theorem C17_filters_keep_dimensions (R : Image) (hv : R.Valid) (t : ℚ) (exp : ℚ → ℚ)
    (sq sigma : ℚ) (hs : 0 < sigma) (hb : 6 * sigma + 1 < 2147483648) (n : Int) (hn : 1 ≤ n)
    (hbx : n * blocks n R.width_ ≤ INT32_MAX) (hby : n * blocks n R.height_ ≤ INT32_MAX) :
    (∃ out, GrayscaleFilter.Apply R = .ok out ∧ SameDims out R) ∧
    (∃ out, NegativeFilter.Apply R = .ok out ∧ SameDims out R) ∧
    (∃ out, SharpeningFilter.Apply R = .ok out ∧ SameDims out R) ∧
    (∃ out, EdgeDetectionFilter.Apply t R = .ok out ∧ SameDims out R) ∧
    (∃ out, GaussianBlurFilter.Apply exp sq sigma R = .ok out ∧ SameDims out R) ∧
    (∃ out, SameDims out R ∧ ∀ fuel : Nat, blocks n R.width_ < fuel →
      blocks n R.height_ < fuel → PixelationFilter.Apply n fuel R = some (.ok out)) := by
  obtain ⟨o1, h1, s1, _⟩ := GrayscaleFilter_Apply_ok R hv
  obtain ⟨o2, h2, s2, _⟩ := NegativeFilter_Apply_ok R hv
  obtain ⟨o3, h3, s3, _⟩ := SharpeningFilter_Apply_ok R hv
  obtain ⟨o4, h4, s4, _⟩ := EdgeDetectionFilter_Apply_ok t R hv
  obtain ⟨hk, hk0, hk1⟩ := static_cast_int_floor (v := 6 * sigma + 1) (by linarith) hb
  obtain ⟨_, o5, _, h5, _, s5, _⟩ := GaussianBlurFilter_Apply_ok exp sq sigma R hv hk hk0 hk1
  obtain ⟨s6, _⟩ := pixelated_spec n hn R hv hbx hby
  exact ⟨⟨o1, h1, s1.1, s1.2.1, s1.2.2.2.2⟩, ⟨o2, h2, s2.1, s2.2.1, s2.2.2.2.2⟩,
    ⟨o3, h3, s3.1, s3.2.1, s3.2.2.2.2⟩, ⟨o4, h4, s4.1, s4.2.1, s4.2.2.2.2⟩,
    ⟨o5, h5, s5.1, s5.2.1, s5.2.2.2.2⟩,
    ⟨pixelated n R, ⟨s6.1, s6.2.1, s6.2.2.2.2⟩,
      fun fuel hfx hfy => PixelationFilter_Apply_runs n hn R hv hbx hby fuel hfx hfy⟩⟩

/-- Witness of C17 (amended) on the 3×2 sample raster with `t = 1/10`,
`sigma = 1/2` and `n = 2`. -/
theorem C17_filters_keep_dimensions_witness :
    sample_3x2.Valid ∧ (0 : ℚ) < 1 / 2 ∧ (6 : ℚ) * (1 / 2) + 1 < 2147483648 ∧ (1 : Int) ≤ 2 ∧
    2 * blocks 2 sample_3x2.width_ ≤ INT32_MAX ∧ 2 * blocks 2 sample_3x2.height_ ≤ INT32_MAX ∧
    ((∃ out, GrayscaleFilter.Apply sample_3x2 = .ok out ∧ SameDims out sample_3x2) ∧
    (∃ out, NegativeFilter.Apply sample_3x2 = .ok out ∧ SameDims out sample_3x2) ∧
    (∃ out, SharpeningFilter.Apply sample_3x2 = .ok out ∧ SameDims out sample_3x2) ∧
    (∃ out, EdgeDetectionFilter.Apply (1 / 10) sample_3x2 = .ok out ∧ SameDims out sample_3x2) ∧
    (∃ out, GaussianBlurFilter.Apply unit_exp 1 (1 / 2) sample_3x2 = .ok out ∧ SameDims out sample_3x2) ∧
    (∃ out, SameDims out sample_3x2 ∧ ∀ fuel : Nat, blocks 2 sample_3x2.width_ < fuel →
      blocks 2 sample_3x2.height_ < fuel → PixelationFilter.Apply 2 fuel sample_3x2 = some (.ok out))) :=
  ⟨by decide, by norm_num, by norm_num, by decide, by decide, by decide,
    C17_filters_keep_dimensions sample_3x2 (by decide) (1 / 10) unit_exp 1 (1 / 2) (by norm_num)
      (by norm_num) 2 (by decide) (by decide) (by decide)⟩

/-- C18 (counterexample): `PixelationFilter(0)` applied to the valid 2×2 sample
raster does not end, and applied to the empty raster it returns that raster:
in neither case is an error reported. -/
theorem C18_nonpositive_block_counterexample :
    sample_2x2.Valid ∧ (0 : Int) ≤ 0 ∧
    (∀ fuel : Nat, PixelationFilter.Apply 0 fuel sample_2x2 = none) ∧
    PixelationFilter.Apply 0 1 empty_raster = some (.ok empty_raster) :=
  ⟨by decide, by decide,
    PixelationFilter_Apply_zero sample_2x2 (by decide) (by decide) (by decide), by decide!⟩

/-- C18 (amended): for every block size `n ≤ 0` and every valid raster `R`,
`PixelationFilter(n)` is applied without any check of `n` and never ends with
a reported error: when it ends it returns a raster; with `n = 0` and a raster
of width and height at least 1 it does not end; and applied to the empty
raster it returns that raster. -/
theorem C18_nonpositive_block_unchecked (n : Int) (_hn : n ≤ 0) (R : Image) (hv : R.Valid) :
    (∀ (fuel : Nat) (r : Except Failure Image), PixelationFilter.Apply n fuel R = some r →
      ∃ out, r = .ok out) ∧
    (n = 0 → 1 ≤ R.width_ → 1 ≤ R.height_ →
      ∀ fuel : Nat, PixelationFilter.Apply n fuel R = none) ∧
    (∀ fuel : Nat, 1 ≤ fuel →
      PixelationFilter.Apply n fuel empty_raster = some (.ok empty_raster)) := by
  refine ⟨fun fuel r h => PixelationFilter_Apply_no_error n R hv fuel r h, ?_,
    fun fuel hf => PixelationFilter_Apply_empty n fuel hf⟩
  intro h0 hw hh fuel
  subst h0
  exact PixelationFilter_Apply_zero R hv (by omega) (by omega) fuel

/-- Witness of C18 (amended): block size 0 on the 2×2 sample raster. -/
theorem C18_nonpositive_block_unchecked_witness :
    (0 : Int) ≤ 0 ∧ sample_2x2.Valid ∧
    ((∀ (fuel : Nat) (r : Except Failure Image), PixelationFilter.Apply (0 : Int) fuel sample_2x2 = some r →
      ∃ out, r = .ok out) ∧
    ((0 : Int) = 0 → 1 ≤ sample_2x2.width_ → 1 ≤ sample_2x2.height_ →
      ∀ fuel : Nat, PixelationFilter.Apply (0 : Int) fuel sample_2x2 = none) ∧
    (∀ fuel : Nat, 1 ≤ fuel →
      PixelationFilter.Apply (0 : Int) fuel empty_raster = some (.ok empty_raster))) :=
  ⟨by decide, by decide, C18_nonpositive_block_unchecked 0 (by decide) sample_2x2 (by decide)⟩

/-- C19 (counterexample): for the valid raster of width `2^30 + 1` and height 1
and the block size `n = 2^30 ≥ 1`, `PixelationFilter(n)::Apply` does not end:
after the block that starts at `x = 2^30` the counter `x += n` wraps around to
`-2^31`, which is below the width again. -/
theorem C19_pixelation_wrap_counterexample :
    wide_raster.Valid ∧ wide_raster.width_ = 1073741825 ∧ wide_raster.height_ = 1 ∧
    (1 : Int) ≤ 1073741824 ∧ wrap32 (1073741824 + 1073741824) = -2147483648 ∧
    (∀ fuel : Nat, PixelationFilter.Apply 1073741824 fuel wide_raster = none) :=
  ⟨wide_raster_valid, rfl, rfl, by decide, by decide, PixelationFilter_Apply_wide⟩

/-- C19 (amended): for every valid raster `R` of width `W` and height `H` and
every block size `n ≥ 1` for which the first multiples of `n` at or above `W`
and at or above `H` are at most `2^31 - 1`, `PixelationFilter(n)::Apply` ends
(more fuel than blocks in a row and in a column is enough) and each pixel
`(x, y)` of its output is, per channel, the arithmetic mean of `R` over the
block `B(x, y)` of the pixels `(x', y')` with `⌊x'/n⌋ = ⌊x/n⌋`,
`⌊y'/n⌋ = ⌊y/n⌋`, `x' < W`, `y' < H`; the divisor the code uses is the number
of pixels of `B(x, y)`, at least 1 and at most `n * n`. -/
theorem C19_pixelation_block_mean (n : Int) (hn : 1 ≤ n) (R : Image) (hv : R.Valid)
    (hbx : n * blocks n R.width_ ≤ INT32_MAX) (hby : n * blocks n R.height_ ≤ INT32_MAX) :
    ∃ out, (∀ fuel : Nat, blocks n R.width_ < fuel → blocks n R.height_ < fuel →
        PixelationFilter.Apply n fuel R = some (.ok out)) ∧
      out.width_ = R.width_ ∧ out.height_ = R.height_ ∧
      ∀ x y, 0 ≤ x → x < R.width_ → 0 ≤ y → y < R.height_ →
        out.GetColour x y = ⟨block_mean R n (fun c => c.red_) x y,
          block_mean R n (fun c => c.green_) x y,
          block_mean R n (fun c => c.blue_) x y⟩ ∧
        (block_sum n R (n * (x / n)) (n * (y / n))).pixel_count =
          (block_size R n x y : Int) ∧
        1 ≤ block_size R n x y ∧ (block_size R n x y : Int) ≤ n * n := by
  obtain ⟨hs, hp⟩ := pixelated_spec n hn R hv hbx hby
  refine ⟨pixelated n R,
    fun fuel hfx hfy => PixelationFilter_Apply_runs n hn R hv hbx hby fuel hfx hfy,
    hs.1, hs.2.1, ?_⟩
  intro x y h1 h2 h3 h4
  rw [hp x y h1 h2 h3 h4, block_colour_eq n hn R hv hbx hby x y h1 h2 h3 h4]
  exact ⟨rfl, block_count_eq n hn R hv hbx hby x y h1 h2 h3 h4⟩

/-- Witness of C19 (amended): block size 2 on the 3×2 sample raster. -/
theorem C19_pixelation_block_mean_witness :
    (1 : Int) ≤ 2 ∧ sample_3x2.Valid ∧ 2 * blocks 2 sample_3x2.width_ ≤ INT32_MAX ∧
    2 * blocks 2 sample_3x2.height_ ≤ INT32_MAX ∧
    (∃ out, (∀ fuel : Nat, blocks 2 sample_3x2.width_ < fuel → blocks 2 sample_3x2.height_ < fuel →
        PixelationFilter.Apply 2 fuel sample_3x2 = some (.ok out)) ∧
      out.width_ = sample_3x2.width_ ∧ out.height_ = sample_3x2.height_ ∧
      ∀ x y, 0 ≤ x → x < sample_3x2.width_ → 0 ≤ y → y < sample_3x2.height_ →
        out.GetColour x y = ⟨block_mean sample_3x2 2 (fun c => c.red_) x y,
          block_mean sample_3x2 2 (fun c => c.green_) x y,
          block_mean sample_3x2 2 (fun c => c.blue_) x y⟩ ∧
        (block_sum 2 sample_3x2 (2 * (x / 2)) (2 * (y / 2))).pixel_count =
          (block_size sample_3x2 2 x y : Int) ∧
        1 ≤ block_size sample_3x2 2 x y ∧ (block_size sample_3x2 2 x y : Int) ≤ 2 * 2) :=
  ⟨by decide, by decide, by decide, by decide,
    C19_pixelation_block_mean 2 (by decide) sample_3x2 (by decide) (by decide) (by decide)⟩

/-! ## Channels in the unit interval -/

/-- Every stored colour of an image is the colour of a position inside it. -/
theorem mem_data_pixel {img : Image} {w h : Int} (hs : SizeOK img w h) {c : Colour}
    (hc : c ∈ img.data_) :
    ∃ x y, 0 ≤ x ∧ x < w ∧ 0 ≤ y ∧ y < h ∧ img.GetColour x y = c := by
  obtain ⟨h1, h2, h3, h4, h5⟩ := hs
  obtain ⟨i, hi, rfl⟩ := List.getElem_of_mem hc
  have hpos : (0 : Int) < w * h := by omega
  have hw : 0 < w := by
    rcases lt_or_eq_of_le h3 with a | a
    · exact a
    · rw [← a] at hpos; simp at hpos
  have e1 := Int.emod_add_ediv (i : Int) w
  have e2 := Int.emod_nonneg (i : Int) (ne_of_gt hw)
  have e3 := Int.emod_lt_of_pos (i : Int) hw
  have e4 : 0 ≤ (i : Int) / w := Int.ediv_nonneg (by omega) (by omega)
  have e5 : (i : Int) / w < h := by
    apply Int.ediv_lt_of_lt_mul hw
    rw [Int.mul_comm]; omega
  refine ⟨(i : Int) % w, (i : Int) / w, e2, e3, e4, e5, ?_⟩
  have e6 : (i : Int) / w * w + (i : Int) % w = i := by
    rw [Int.mul_comm]; omega
  unfold Image.GetColour
  simp only [h1, e6]
  rw [if_pos (by omega)]
  simp only [Int.toNat_ofNat]
  exact List.getD_eq_getElem _ _ hi

/-- An image whose pixels are in the unit interval. -/
theorem InUnit_of_pixels {img : Image} {w h : Int} (hs : SizeOK img w h)
    (hp : ∀ x y, 0 ≤ x → x < w → 0 ≤ y → y < h → (img.GetColour x y).InUnit) : img.InUnit := by
  intro c hc
  obtain ⟨x, y, a, b, c', d, rfl⟩ := mem_data_pixel hs hc
  exact hp x y a b c' d

/-- The pixels of an image in the unit interval. -/
theorem InUnit_pixel {img : Image} {w h : Int} (hs : SizeOK img w h) (hu : img.InUnit)
    (x y : Int) (hx0 : 0 ≤ x) (hx : x < w) (hy0 : 0 ≤ y) (hy : y < h) :
    (img.GetColour x y).InUnit :=
  hu _ (GetColour_mem hs x y hx0 hx hy0 hy)

/-- The values `Image::Export` casts, for an image in the unit interval. -/
theorem CastInRange_of_InUnit {img : Image} (hu : img.InUnit) : img.CastInRange := by
  intro c hc
  obtain ⟨⟨r0, r1⟩, ⟨g0, g1⟩, ⟨b0, b1⟩⟩ := hu c hc
  refine ⟨⟨by positivity, by linarith⟩, ⟨by positivity, by linarith⟩,
    ⟨by positivity, by linarith⟩⟩

/-- The gray value of a colour in the unit interval. -/
theorem gray_of_unit {c : Colour} (hc : c.InUnit) : 0 ≤ gray_of c ∧ gray_of c ≤ 1 := by
  obtain ⟨⟨r0, r1⟩, ⟨g0, g1⟩, ⟨b0, b1⟩⟩ := hc
  unfold gray_of
  constructor
  · positivity
  · linarith

theorem CropFilter_unit (R : Image) (hv : R.Valid) (hu : R.InUnit) (w h : Int) (hw : 0 ≤ w)
    (hh : 0 ≤ h) : ∃ out, CropFilter.Apply w h R = .ok out ∧ out.Valid ∧ out.InUnit := by
  obtain ⟨out, ho, hs, hov, hp⟩ := CropFilter_Apply_ok R hv w h hw hh
  refine ⟨out, ho, hov, InUnit_of_pixels hs ?_⟩
  intro x y a b c d
  rw [hp x y a b c d]
  exact InUnit_pixel (Valid.sizeOK hv) hu x y a (lt_of_lt_of_le b (min_le_right _ _)) c
    (lt_of_lt_of_le d (min_le_right _ _))

theorem GrayscaleFilter_unit (R : Image) (hv : R.Valid) (hu : R.InUnit) :
    ∃ out, GrayscaleFilter.Apply R = .ok out ∧ out.Valid ∧ out.InUnit := by
  obtain ⟨out, ho, hs, hov, hp⟩ := GrayscaleFilter_Apply_ok R hv
  refine ⟨out, ho, hov, InUnit_of_pixels hs ?_⟩
  intro x y a b c d
  rw [hp x y a b c d]
  have := gray_of_unit (InUnit_pixel (Valid.sizeOK hv) hu x y a b c d)
  exact ⟨this, this, this⟩

theorem NegativeFilter_unit (R : Image) (hv : R.Valid) (hu : R.InUnit) :
    ∃ out, NegativeFilter.Apply R = .ok out ∧ out.Valid ∧ out.InUnit := by
  obtain ⟨out, ho, hs, hov, hp⟩ := NegativeFilter_Apply_ok R hv
  refine ⟨out, ho, hov, InUnit_of_pixels hs ?_⟩
  intro x y a b c d
  rw [hp x y a b c d]
  obtain ⟨⟨r0, r1⟩, ⟨g0, g1⟩, ⟨b0, b1⟩⟩ := InUnit_pixel (Valid.sizeOK hv) hu x y a b c d
  exact ⟨⟨by simp only; linarith, by simp only; linarith⟩,
    ⟨by simp only; linarith, by simp only; linarith⟩,
    ⟨by simp only; linarith, by simp only; linarith⟩⟩

theorem SharpeningFilter_unit (R : Image) (hv : R.Valid) :
    ∃ out, SharpeningFilter.Apply R = .ok out ∧ out.Valid ∧ out.InUnit := by
  obtain ⟨out, ho, hs, hov, hp⟩ := SharpeningFilter_Apply_ok R hv
  refine ⟨out, ho, hov, InUnit_of_pixels hs ?_⟩
  intro x y a b c d
  rw [hp x y a b c d]
  exact ⟨⟨le_min (by norm_num) (le_max_left _ _), min_le_left _ _⟩,
    ⟨le_min (by norm_num) (le_max_left _ _), min_le_left _ _⟩,
    ⟨le_min (by norm_num) (le_max_left _ _), min_le_left _ _⟩⟩

theorem EdgeDetectionFilter_unit (t : ℚ) (R : Image) (hv : R.Valid) :
    ∃ out, EdgeDetectionFilter.Apply t R = .ok out ∧ out.Valid ∧ out.InUnit := by
  obtain ⟨out, ho, hs, hov, hp⟩ := EdgeDetectionFilter_Apply_ok t R hv
  refine ⟨out, ho, hov, InUnit_of_pixels hs ?_⟩
  intro x y a b c d
  rw [hp x y a b c d]
  unfold Colour.InUnit
  split <;> norm_num

/-! ## The blur keeps the channels in the unit interval -/

/-- A sum of products of weights below `w` with values in the unit interval
lies between 0 and the sum of `w`. -/
theorem weighted_sum_bound (l : List Int) (a w f : Int → ℚ) (cond : Int → Prop)
    [DecidablePred cond] (ha : ∀ t ∈ l, 0 ≤ a t ∧ a t ≤ w t)
    (hf : ∀ t ∈ l, cond t → 0 ≤ f t ∧ f t ≤ 1) :
    0 ≤ (l.map (fun t => if cond t then a t * f t else 0)).sum ∧
      (l.map (fun t => if cond t then a t * f t else 0)).sum ≤ (l.map w).sum := by
  constructor
  · apply List.sum_nonneg
    intro v hv
    obtain ⟨t, ht, rfl⟩ := List.mem_map.mp hv
    split
    · rename_i hc
      exact mul_nonneg (ha t ht).1 (hf t ht hc).1
    · exact le_refl 0
  · apply List.sum_le_sum
    intro t ht
    split
    · rename_i hc
      calc a t * f t ≤ a t * 1 := mul_le_mul_of_nonneg_left (hf t ht hc).2 (ha t ht).1
        _ = a t := mul_one _
        _ ≤ w t := (ha t ht).2
    · exact le_trans (ha t ht).1 (ha t ht).2

/-- The weight of the vertical pass lies between 0 and the weight of the kernel. -/
theorem vertical_weight_bound (exp : ℚ → ℚ) (sq sigma : ℚ) (hexp : ∀ q, 0 < exp q)
    (hsq : 0 < sq) (hs : 0 < sigma) {k t : Int} (hk0 : 0 ≤ k) (ht : t ∈ kernel_taps k) :
    0 ≤ vertical_weight (gaussian_kernel exp sq sigma k) k t ∧
      vertical_weight (gaussian_kernel exp sq sigma k) k t ≤
        tap_weight (gaussian_kernel exp sq sigma k) k t := by
  have hp := tap_weight_pos exp sq sigma hexp hsq hs hk0 ht
  unfold vertical_weight
  split
  · exact ⟨le_of_lt hp, le_refl _⟩
  · exact ⟨le_refl 0, le_of_lt hp⟩

/-- The blur of a raster in the unit interval is in the unit interval. -/
theorem GaussianBlurFilter_unit (exp : ℚ → ℚ) (sq sigma : ℚ) (hexp : ∀ q, 0 < exp q)
    (hsq : 0 < sq) (hs : 0 < sigma) (hb : 6 * sigma + 1 < 2147483648) (R : Image)
    (hv : R.Valid) (hu : R.InUnit) :
    ∃ out, GaussianBlurFilter.Apply exp sq sigma R = .ok out ∧ out.Valid ∧ out.InUnit := by
  obtain ⟨hk, hk0, hk1⟩ := static_cast_int_floor (v := 6 * sigma + 1) (by linarith) hb
  obtain ⟨T, out, _, ho, hTs, hos, hov, hT, hO⟩ :=
    GaussianBlurFilter_Apply_ok exp sq sigma R hv hk hk0 hk1
  have hsum := tap_weight_sum exp sq sigma hexp hsq hs hk0
  have hRs := Valid.sizeOK hv
  -- the image of the horizontal pass
  have hTu : ∀ x y, 0 ≤ x → x < R.width_ → 0 ≤ y → y < R.height_ → (T.GetColour x y).InUnit := by
    intro x y a b c d
    rw [hT x y a b c d]
    have one : ∀ (v : Colour → ℚ), (∀ c : Colour, c.InUnit → 0 ≤ v c ∧ v c ≤ 1) →
        0 ≤ blur_T (gaussian_kernel exp sq sigma ⌊6 * sigma + 1⌋) ⌊6 * sigma + 1⌋ R v x y ∧
        blur_T (gaussian_kernel exp sq sigma ⌊6 * sigma + 1⌋) ⌊6 * sigma + 1⌋ R v x y ≤ 1 := by
      intro v hvu
      have h := weighted_sum_bound (kernel_taps ⌊6 * sigma + 1⌋)
        (tap_weight (gaussian_kernel exp sq sigma ⌊6 * sigma + 1⌋) ⌊6 * sigma + 1⌋)
        (tap_weight (gaussian_kernel exp sq sigma ⌊6 * sigma + 1⌋) ⌊6 * sigma + 1⌋)
        (fun kx => v (R.GetColour (x + kx) y)) (fun kx => 0 ≤ x + kx ∧ x + kx < R.width_)
        (fun t ht => ⟨le_of_lt (tap_weight_pos exp sq sigma hexp hsq hs hk0 ht), le_refl _⟩)
        (fun t _ hc => hvu _ (InUnit_pixel hRs hu (x + t) y hc.1 hc.2 c d))
      rw [hsum] at h
      exact h
    exact ⟨one (fun c => c.red_) (fun c h => h.1), one (fun c => c.green_) (fun c h => h.2.1),
      one (fun c => c.blue_) (fun c h => h.2.2)⟩
  -- the rows of the output, from the top
  have hOu : ∀ (m : Nat) (y : Int), y = (m : Int) → y < R.height_ → ∀ x, 0 ≤ x → x < R.width_ →
      (out.GetColour x y).InUnit := by
    intro m
    induction m using Nat.strong_induction_on with
    | _ m ih =>
      intro y hy hyH x hx0 hx
      have hy0 : 0 ≤ y := by omega
      obtain ⟨img, _, i2, i3, i4⟩ := hO x y hx0 hx hy0 hyH
      have himg : ∀ y', 0 ≤ y' → y' < R.height_ → (img.GetColour x y').InUnit := by
        intro y' a b
        by_cases hbf : y' < y ∨ (y' = y ∧ x < x)
        · rw [i2 x y' hx0 hx a b hbf]
          have hlt : y' < y := by omega
          exact ih y'.toNat (by omega) y' (by omega) b x hx0 hx
        · rw [i3 x y' hx0 hx a b hbf]
          exact hTu x y' hx0 hx a b
      rw [i4]
      have one : ∀ (v : Colour → ℚ), (∀ c : Colour, c.InUnit → 0 ≤ v c ∧ v c ≤ 1) →
          0 ≤ ((kernel_taps ⌊6 * sigma + 1⌋).map (fun ky =>
            if 0 ≤ y + ky ∧ y + ky < R.height_ then
              vertical_weight (gaussian_kernel exp sq sigma ⌊6 * sigma + 1⌋) ⌊6 * sigma + 1⌋ ky *
                v (img.GetColour x (y + ky)) else 0)).sum ∧
          ((kernel_taps ⌊6 * sigma + 1⌋).map (fun ky =>
            if 0 ≤ y + ky ∧ y + ky < R.height_ then
              vertical_weight (gaussian_kernel exp sq sigma ⌊6 * sigma + 1⌋) ⌊6 * sigma + 1⌋ ky *
                v (img.GetColour x (y + ky)) else 0)).sum ≤ 1 := by
        intro v hvu
        have h := weighted_sum_bound (kernel_taps ⌊6 * sigma + 1⌋)
          (vertical_weight (gaussian_kernel exp sq sigma ⌊6 * sigma + 1⌋) ⌊6 * sigma + 1⌋)
          (tap_weight (gaussian_kernel exp sq sigma ⌊6 * sigma + 1⌋) ⌊6 * sigma + 1⌋)
          (fun ky => v (img.GetColour x (y + ky))) (fun ky => 0 ≤ y + ky ∧ y + ky < R.height_)
          (fun t ht => vertical_weight_bound exp sq sigma hexp hsq hs hk0 ht)
          (fun t _ hc => hvu _ (himg (y + t) hc.1 hc.2))
        rw [hsum] at h
        exact h
      exact ⟨one (fun c => c.red_) (fun c h => h.1), one (fun c => c.green_) (fun c h => h.2.1),
        one (fun c => c.blue_) (fun c h => h.2.2)⟩
  refine ⟨out, ho, hov, InUnit_of_pixels hos ?_⟩
  intro x y a b c d
  exact hOu y.toNat y (by omega) d x a b

/-! ## The pixelation keeps the range and is idempotent -/

/-- The cells of a block lie below `len` and in the block. -/
theorem mem_block_cells {len n x z : Int} (hz : z ∈ block_cells len n x) :
    0 ≤ z ∧ z < len ∧ z / n = x / n := by
  unfold block_cells at hz
  obtain ⟨h1, h2⟩ := List.mem_filter.mp hz
  obtain ⟨i, hi, rfl⟩ := List.mem_map.mp h1
  have := List.mem_range.mp hi
  refine ⟨by omega, by omega, ?_⟩
  simpa using h2

/-- A sum of values in the unit interval lies between 0 and the number of values. -/
theorem unit_sum_bound {α : Type} (l : List α) (f : α → ℚ) (hf : ∀ a ∈ l, 0 ≤ f a ∧ f a ≤ 1) :
    0 ≤ (l.map f).sum ∧ (l.map f).sum ≤ (l.length : ℚ) := by
  induction l with
  | nil => simp
  | cons a l ih =>
    have h1 := hf a (List.mem_cons_self a l)
    have h2 := ih (fun b hb => hf b (List.mem_cons_of_mem a hb))
    simp only [List.map_cons, List.sum_cons, List.length_cons]
    push_cast
    constructor <;> linarith [h1.1, h1.2, h2.1, h2.2]

/-- A sum of equal values is the value times their number. -/
theorem const_sum {α : Type} (l : List α) (f : α → ℚ) (c : ℚ) (hf : ∀ a ∈ l, f a = c) :
    (l.map f).sum = (l.length : ℚ) * c := by
  induction l with
  | nil => simp
  | cons a l ih =>
    have h1 := hf a (List.mem_cons_self a l)
    have h2 := ih (fun b hb => hf b (List.mem_cons_of_mem a hb))
    simp only [List.map_cons, List.sum_cons, List.length_cons, h1, h2]
    push_cast
    ring

/-- The mean over a block of a channel with values in the unit interval. -/
theorem block_mean_unit (n : Int) (R : Image) (hv : R.Valid) (hu : R.InUnit) (v : Colour → ℚ)
    (hvu : ∀ c : Colour, c.InUnit → 0 ≤ v c ∧ v c ≤ 1) (x y : Int)
    (h1 : 1 ≤ block_size R n x y) :
    0 ≤ block_mean R n v x y ∧ block_mean R n v x y ≤ 1 := by
  have hRs := Valid.sizeOK hv
  have inner : ∀ y' ∈ block_cells R.height_ n y,
      0 ≤ ((block_cells R.width_ n x).map (fun x' => v (R.GetColour x' y'))).sum ∧
      ((block_cells R.width_ n x).map (fun x' => v (R.GetColour x' y'))).sum ≤
        ((block_cells R.width_ n x).length : ℚ) := by
    intro y' hy'
    obtain ⟨a, b, _⟩ := mem_block_cells hy'
    apply unit_sum_bound
    intro x' hx'
    obtain ⟨c, d, _⟩ := mem_block_cells hx'
    exact hvu _ (InUnit_pixel hRs hu x' y' c d a b)
  have hlen : (0 : ℚ) ≤ ((block_cells R.width_ n x).length : ℚ) := by positivity
  have outer0 : 0 ≤ ((block_cells R.height_ n y).map (fun y' =>
      ((block_cells R.width_ n x).map (fun x' => v (R.GetColour x' y'))).sum)).sum := by
    apply List.sum_nonneg
    intro s hs
    obtain ⟨y', hy', rfl⟩ := List.mem_map.mp hs
    exact (inner y' hy').1
  have outer1 : ((block_cells R.height_ n y).map (fun y' =>
      ((block_cells R.width_ n x).map (fun x' => v (R.GetColour x' y'))).sum)).sum ≤
      ((block_cells R.height_ n y).length : ℚ) * ((block_cells R.width_ n x).length : ℚ) := by
    have h := List.sum_le_sum (l := block_cells R.height_ n y)
      (f := fun y' => ((block_cells R.width_ n x).map (fun x' => v (R.GetColour x' y'))).sum)
      (g := fun _ => ((block_cells R.width_ n x).length : ℚ)) (fun y' hy' => (inner y' hy').2)
    rw [const_sum _ _ _ (fun _ _ => rfl)] at h
    exact h
  have hpos : (0 : ℚ) < (block_size R n x y : ℚ) := by
    have : (1 : ℚ) ≤ (block_size R n x y : ℚ) := by exact_mod_cast h1
    linarith
  have hsz : (block_size R n x y : ℚ) =
      ((block_cells R.height_ n y).length : ℚ) * ((block_cells R.width_ n x).length : ℚ) := by
    unfold block_size; push_cast; ring
  unfold block_mean
  constructor
  · exact div_nonneg outer0 (le_of_lt hpos)
  · rw [div_le_one hpos, hsz]
    exact outer1

/-- The pixelation of a raster in the unit interval is in the unit interval. -/
theorem pixelated_unit (n : Int) (hn : 1 ≤ n) (R : Image) (hv : R.Valid) (hu : R.InUnit)
    (hbx : n * blocks n R.width_ ≤ INT32_MAX) (hby : n * blocks n R.height_ ≤ INT32_MAX) :
    (pixelated n R).Valid ∧ (pixelated n R).InUnit := by
  obtain ⟨hs, hp⟩ := pixelated_spec n hn R hv hbx hby
  refine ⟨Valid_of_SizeOK hs hv.2.2.1 hv.2.2.2.1 hv.2.2.2.2.1, InUnit_of_pixels hs ?_⟩
  intro x y a b c d
  rw [hp x y a b c d, block_colour_eq n hn R hv hbx hby x y a b c d]
  have h1 := (block_count_eq n hn R hv hbx hby x y a b c d).2.1
  exact ⟨block_mean_unit n R hv hu _ (fun c h => h.1) x y h1,
    block_mean_unit n R hv hu _ (fun c h => h.2.1) x y h1,
    block_mean_unit n R hv hu _ (fun c h => h.2.2) x y h1⟩

/-- The pixels of one block of `pixelated n R` hold one colour. -/
theorem pixelated_block_const (n : Int) (hn : 1 ≤ n) (R : Image) (hv : R.Valid)
    (hbx : n * blocks n R.width_ ≤ INT32_MAX) (hby : n * blocks n R.height_ ≤ INT32_MAX)
    (x y x' y' : Int) (hx0 : 0 ≤ x) (hx : x < R.width_) (hy0 : 0 ≤ y) (hy : y < R.height_)
    (hx0' : 0 ≤ x') (hx' : x' < R.width_) (hy0' : 0 ≤ y') (hy' : y' < R.height_)
    (ex : x' / n = x / n) (ey : y' / n = y / n) :
    (pixelated n R).GetColour x' y' = (pixelated n R).GetColour x y := by
  obtain ⟨_, hp⟩ := pixelated_spec n hn R hv hbx hby
  rw [hp x y hx0 hx hy0 hy, hp x' y' hx0' hx' hy0' hy', ex, ey]

/-- Pixelating what the pixelation left changes nothing. -/
theorem pixelated_idem (n : Int) (hn : 1 ≤ n) (R : Image) (hv : R.Valid)
    (hbx : n * blocks n R.width_ ≤ INT32_MAX) (hby : n * blocks n R.height_ ≤ INT32_MAX) :
    (pixelated n R).Valid ∧ pixelated n (pixelated n R) = pixelated n R := by
  obtain ⟨hs, hp⟩ := pixelated_spec n hn R hv hbx hby
  have hPv : (pixelated n R).Valid := Valid_of_SizeOK hs hv.2.2.1 hv.2.2.2.1 hv.2.2.2.2.1
  have ew : (pixelated n R).width_ = R.width_ := hs.1
  have eh : (pixelated n R).height_ = R.height_ := hs.2.1
  have hbx' : n * blocks n (pixelated n R).width_ ≤ INT32_MAX := by rw [ew]; exact hbx
  have hby' : n * blocks n (pixelated n R).height_ ≤ INT32_MAX := by rw [eh]; exact hby
  obtain ⟨hs2, hp2⟩ := pixelated_spec n hn (pixelated n R) hPv hbx' hby'
  rw [ew, eh] at hs2 hp2
  refine ⟨hPv, Image.ext_pixels hs2 hs ?_⟩
  intro x y a b c d
  have a' : x < (pixelated n R).width_ := by rw [ew]; exact b
  have c' : y < (pixelated n R).height_ := by rw [eh]; exact d
  rw [hp2 x y a b c d, block_colour_eq n hn (pixelated n R) hPv hbx' hby' x y a a' c c']
  have h1 := (block_count_eq n hn (pixelated n R) hPv hbx' hby' x y a a' c c').2.1
  have hpos : (block_size (pixelated n R) n x y : ℚ) ≠ 0 := by
    have : (1 : ℚ) ≤ (block_size (pixelated n R) n x y : ℚ) := by exact_mod_cast h1
    linarith
  have one : ∀ (v : Colour → ℚ),
      block_mean (pixelated n R) n v x y = v ((pixelated n R).GetColour x y) := by
    intro v
    have inner : ∀ y' ∈ block_cells (pixelated n R).height_ n y,
        ((block_cells (pixelated n R).width_ n x).map
          (fun x' => v ((pixelated n R).GetColour x' y'))).sum =
        ((block_cells (pixelated n R).width_ n x).length : ℚ) *
          v ((pixelated n R).GetColour x y) := by
      intro y' hy'
      obtain ⟨p1, p2, p3⟩ := mem_block_cells hy'
      apply const_sum
      intro x' hx'
      obtain ⟨q1, q2, q3⟩ := mem_block_cells hx'
      rw [pixelated_block_const n hn R hv hbx hby x y x' y' a b c d q1 (by rw [← ew]; exact q2)
        p1 (by rw [← eh]; exact p2) q3 p3]
    unfold block_mean
    rw [const_sum _ _ _ inner]
    have hsz : (block_size (pixelated n R) n x y : ℚ) =
        ((block_cells (pixelated n R).height_ n y).length : ℚ) *
          ((block_cells (pixelated n R).width_ n x).length : ℚ) := by
      unfold block_size; push_cast; ring
    rw [hsz] at hpos
    obtain ⟨hA, hB⟩ := mul_ne_zero_iff.mp hpos
    rw [hsz]
    field_simp
    ring
  rw [one, one, one]

/-! ## The taps and the weights of the kernel -/

/-- The kernel holds, tap by tap, the value of the tap over the sum of the values. -/
theorem gaussian_kernel_eq (exp : ℚ → ℚ) (sq sigma : ℚ) {k : Int} (hk0 : 0 ≤ k) :
    gaussian_kernel exp sq sigma k = (kernel_taps k).map (fun t =>
      kernel_value exp sq sigma t / ((kernel_taps k).map (kernel_value exp sq sigma)).sum) := by
  unfold gaussian_kernel
  rw [gaussian_fill_eq exp sq sigma hk0, List.map_map]
  rfl

/-- The number of entries of the kernel. -/
theorem gaussian_kernel_length (exp : ℚ → ℚ) (sq sigma : ℚ) {k : Int} (hk0 : 0 ≤ k) :
    (gaussian_kernel exp sq sigma k).length = 2 * (k / 2).toNat + 1 := by
  rw [gaussian_kernel_eq exp sq sigma hk0, List.length_map, kernel_taps_length]

/-- The number of taps is `k` for an odd `k` and `k + 1` for an even `k`. -/
theorem taps_parity {k : Int} (hk0 : 0 ≤ k) :
    ((2 * (k / 2).toNat + 1 : Nat) : Int) = if k % 2 = 1 then k else k + 1 := by
  split <;> omega

/-- The entries of the kernel add up to one. -/
theorem gaussian_kernel_sum (exp : ℚ → ℚ) (sq sigma : ℚ) (hexp : ∀ q, 0 < exp q) (hsq : 0 < sq)
    (hs : 0 < sigma) {k : Int} (hk0 : 0 ≤ k) : (gaussian_kernel exp sq sigma k).sum = 1 := by
  have h := tap_weight_sum exp sq sigma hexp hsq hs hk0
  have e : (kernel_taps k).map (tap_weight (gaussian_kernel exp sq sigma k) k) =
      gaussian_kernel exp sq sigma k := by
    conv_rhs => rw [gaussian_kernel_eq exp sq sigma hk0]
    apply List.map_congr_left
    intro t ht
    exact tap_weight_eq exp sq sigma hk0 ht
  rw [e] at h
  exact h

/-- The value of a tap is the value of the opposite tap. -/
theorem kernel_value_neg (exp : ℚ → ℚ) (sq sigma : ℚ) (x : Int) :
    kernel_value exp sq sigma (-x) = kernel_value exp sq sigma x := by
  unfold kernel_value
  rw [neg_mul_neg]

/-- The weight of a tap is the weight of the opposite tap. -/
theorem tap_weight_neg (exp : ℚ → ℚ) (sq sigma : ℚ) {k t : Int} (hk0 : 0 ≤ k)
    (ht : t ∈ kernel_taps k) :
    tap_weight (gaussian_kernel exp sq sigma k) k (-t) =
      tap_weight (gaussian_kernel exp sq sigma k) k t := by
  have ht' : -t ∈ kernel_taps k := by
    rw [mem_kernel_taps hk0] at ht ⊢
    omega
  rw [tap_weight_eq exp sq sigma hk0 ht, tap_weight_eq exp sq sigma hk0 ht', kernel_value_neg]

/-- The value of a tap whose square is an `int` is the Gaussian of the specification. -/
theorem kernel_value_small (exp : ℚ → ℚ) (sq sigma : ℚ) {x : Int} (h0 : -46340 ≤ x)
    (h1 : x ≤ 46340) :
    kernel_value exp sq sigma x = gauss_exp exp sigma x / (sq * sigma) := by
  have hsq : x * x ≤ 2147395600 := by nlinarith
  have hsq0 : 0 ≤ x * x := mul_self_nonneg x
  unfold kernel_value gauss_exp
  rw [wrap32_of_range (v := x * x) (by omega) (by omega),
    wrap32_of_range (v := -(x * x)) (by omega) (by omega)]
  congr 2
  push_cast
  ring

/-- The weights of a kernel whose taps have squares in `int`: the Gaussian of the
specification over the sum of the Gaussians. -/
theorem tap_weight_small (exp : ℚ → ℚ) (sq sigma : ℚ) (hsq : 0 < sq) (hs : 0 < sigma) {k t : Int}
    (hk0 : 0 ≤ k) (hk : k / 2 ≤ 46340) (ht : t ∈ kernel_taps k) :
    tap_weight (gaussian_kernel exp sq sigma k) k t =
      gauss_exp exp sigma t / ((kernel_taps k).map (gauss_exp exp sigma)).sum := by
  have hc : sq * sigma ≠ 0 := ne_of_gt (mul_pos hsq hs)
  have hmem := fun u (hu : u ∈ kernel_taps k) => (mem_kernel_taps hk0).mp hu
  have e : (kernel_taps k).map (kernel_value exp sq sigma) =
      (kernel_taps k).map (fun u => gauss_exp exp sigma u * (sq * sigma)⁻¹) := by
    apply List.map_congr_left
    intro u hu
    rw [kernel_value_small exp sq sigma (by have := hmem u hu; omega)
      (by have := hmem u hu; omega), div_eq_mul_inv]
  rw [tap_weight_eq exp sq sigma hk0 ht, e, List.sum_map_mul_right,
    kernel_value_small exp sq sigma (by have := hmem t ht; omega) (by have := hmem t ht; omega)]
  rw [div_div, mul_comm (sq * sigma), mul_assoc, inv_mul_cancel₀ hc, mul_one]

/-- The index the horizontal pass uses for a tap lies inside the kernel. -/
theorem kernel_index_range (exp : ℚ → ℚ) (sq sigma : ℚ) {k kx : Int} (hk0 : 0 ≤ k)
    (h0 : Int.tdiv (-k) 2 ≤ kx) (h1 : kx ≤ Int.tdiv k 2) :
    0 ≤ kx + Int.tdiv k 2 ∧
      kx + Int.tdiv k 2 < ((gaussian_kernel exp sq sigma k).length : Int) := by
  rw [(half_eq hk0).1] at h0
  rw [(half_eq hk0).2] at h1 ⊢
  rw [gaussian_kernel_length exp sq sigma hk0]
  have : 0 ≤ k / 2 := Int.ediv_nonneg hk0 (by decide)
  omega

/-- For `sigma = 15447` the kernel size is 92683, the square of the tap 46341
is not an `int`, and the weights are not the Gaussians of the specification
over their sum, whatever injective function with positive values `std::exp` is. -/
theorem tap_weight_wrapped (exp : ℚ → ℚ) (sq : ℚ) (hexp : ∀ q, 0 < exp q) (hsq : 0 < sq)
    (hinj : Function.Injective exp) :
    ¬ ∀ t ∈ kernel_taps 92683, tap_weight (gaussian_kernel exp sq 15447 92683) 92683 t =
      gauss_exp exp 15447 t / ((kernel_taps 92683).map (gauss_exp exp 15447)).sum := by
  intro h
  have hs : (0 : ℚ) < 15447 := by norm_num
  have hk0 : (0 : Int) ≤ 92683 := by decide
  have m0 : (0 : Int) ∈ kernel_taps 92683 := (mem_kernel_taps hk0).mpr (by decide)
  have m1 : (46341 : Int) ∈ kernel_taps 92683 := (mem_kernel_taps hk0).mpr (by decide)
  have hS := kernel_sum_pos exp sq 15447 hexp hsq hs 92683
  have hc : (0 : ℚ) < sq * 15447 := mul_pos hsq hs
  have hD : 0 < ((kernel_taps 92683).map (gauss_exp exp 15447)).sum := by
    apply List.sum_pos
    · intro v hv
      obtain ⟨t, _, rfl⟩ := List.mem_map.mp hv
      exact hexp _
    · intro hn
      have := congrArg List.length hn
      rw [List.length_map, kernel_taps_length] at this
      simp at this
  have a0 := h 0 m0
  have a1 := h 46341 m1
  rw [tap_weight_eq exp sq 15447 hk0 m0] at a0
  rw [tap_weight_eq exp sq 15447 hk0 m1] at a1
  have v0 : kernel_value exp sq 15447 0 = gauss_exp exp 15447 0 / (sq * 15447) :=
    kernel_value_small exp sq 15447 (by decide) (by decide)
  have w1 : wrap32 (-(wrap32 (46341 * 46341))) = 2147479015 := by decide
  have v1 : kernel_value exp sq 15447 46341 =
      exp ((2147479015 : ℚ) / (2 * 15447 * 15447)) / (sq * 15447) := by
    unfold kernel_value
    rw [w1]
    norm_num
  have g0 : 0 < gauss_exp exp 15447 0 := hexp _
  rw [v0] at a0
  rw [v1] at a1
  -- the two sums agree up to the constant factor
  have hcS : sq * 15447 * ((kernel_taps 92683).map (kernel_value exp sq 15447)).sum ≠ 0 :=
    ne_of_gt (mul_pos hc hS)
  rw [div_div] at a0 a1
  have b0 := (div_eq_div_iff hcS (ne_of_gt hD)).mp a0
  have b1 := (div_eq_div_iff hcS (ne_of_gt hD)).mp a1
  have hSD : ((kernel_taps 92683).map (gauss_exp exp 15447)).sum =
      sq * 15447 * ((kernel_taps 92683).map (kernel_value exp sq 15447)).sum :=
    mul_left_cancel₀ (ne_of_gt g0) b0
  have hpq : exp ((2147479015 : ℚ) / (2 * 15447 * 15447)) = gauss_exp exp 15447 46341 := by
    rw [← hSD] at b1
    exact mul_right_cancel₀ (ne_of_gt hD) b1
  have := hinj hpq
  norm_num at this

/-! ## A raster on which the `y` loop of the pixelation wraps around -/

/-- A loop whose counter comes back to a value it had does not end, whatever
its body does. -/
theorem forStep_cycle_any {σ : Type} (hi step : Int) (body : Int → σ → Option σ)
    (C : Int → Prop) (hC : ∀ i, C i → i < hi ∧ C (wrap32 (i + step))) :
    ∀ (fuel : Nat) (i : Int) (s : σ), C i → forStep hi step body fuel i s = none := by
  intro fuel
  induction fuel with
  | zero => intro i s _; rfl
  | succ f ih =>
    intro i s hi1
    simp only [forStep]
    rw [if_pos (hC i hi1).1]
    cases body i s with
    | none => rfl
    | some s1 => exact ih _ s1 (hC i hi1).2

theorem high_raster_valid : high_raster.Valid := by
  unfold Image.Valid high_raster INT32_MAX
  simp only [List.length_replicate]
  decide

/-- With block size `2^30` the filter does not end on the raster `2^30 + 1`
pixels high: the counter of the `y` loop wraps around. -/
theorem PixelationFilter_Apply_high (fuel : Nat) :
    PixelationFilter.Apply 1073741824 fuel high_raster = none := by
  obtain ⟨v1, v2, v3, v4, v5, v6⟩ := high_raster_valid
  have outer := forStep_cycle_any high_raster.height_ 1073741824
    (fun y pixelated_image =>
      forStep high_raster.width_ 1073741824 (fun x pixelated_image =>
        some (block_fill 1073741824 high_raster
          ⟨(block_sum 1073741824 high_raster x y).avg_red /
              ((block_sum 1073741824 high_raster x y).pixel_count : ℚ),
            (block_sum 1073741824 high_raster x y).avg_green /
              ((block_sum 1073741824 high_raster x y).pixel_count : ℚ),
            (block_sum 1073741824 high_raster x y).avg_blue /
              ((block_sum 1073741824 high_raster x y).pixel_count : ℚ)⟩ x y
          pixelated_image)) fuel 0 pixelated_image)
    (fun i => i = 0 ∨ i = 1073741824 ∨ i = -2147483648 ∨ i = -1073741824)
    (fun i hi => by rcases hi with h | h | h | h <;> subst h <;> decide) fuel 0
    ⟨high_raster.width_, high_raster.height_,
      List.replicate (high_raster.width_ * high_raster.height_).toNat default⟩ (Or.inl rfl)
  unfold PixelationFilter.Apply
  simp only [Image.GetWidth, Image.GetHeight, new_ok v1 v2 v5, outer]

theorem wide_raster_unit : wide_raster.InUnit := by
  intro c hc
  simp only [wide_raster, List.mem_replicate] at hc
  rw [hc.2]
  exact ⟨⟨le_refl _, zero_le_one⟩, ⟨le_refl _, zero_le_one⟩, ⟨le_refl _, zero_le_one⟩⟩

/-! ## Rasters in range -/

theorem InRange_of {img : Image} (hv : img.Valid) (hu : img.InUnit) : img.InRange :=
  ⟨hv, hu, CastInRange_of_InUnit hu⟩

/-- The colour `Image::Read` builds from three bytes is in the unit interval. -/
theorem read_colour_unit (b : List Byte) (o : Nat) : (read_colour b o).InUnit := by
  have h : ∀ v : Byte, 0 ≤ ((v.val : ℚ) / 255) ∧ ((v.val : ℚ) / 255) ≤ 1 := by
    intro v
    have h1 : (v.val : ℚ) ≤ 255 := by
      have : v.val ≤ 255 := by omega
      exact_mod_cast this
    constructor
    · positivity
    · rw [div_le_one (by norm_num)]; exact h1
  exact ⟨h _, h _, h _⟩

/-- The raster `Image::Read` decodes from a complete file is in range. -/
theorem Read_file_unit (u : Uninit) (b : List Byte) (h0 : b.getD 0 0 = 66) (h1 : b.getD 1 0 = 77)
    (hbpp : header_bpp b = 24) (hw : 0 ≤ header_width b) (hh : 0 ≤ header_height b)
    (hp : header_width b * header_height b ≤ INT32_MAX)
    (hlen : 54 + (3 * header_width b + padding_amount (header_width b)) * header_height b ≤
      (b.length : Int)) :
    ∃ img, Image.Read u (some b) = .ok img ∧ img.InRange := by
  obtain ⟨img, ho, hs, hpix⟩ := Read_file u b h0 h1 hbpp hw hh hp hlen
  have hmax : header_width b ≤ INT32_MAX ∧ header_height b ≤ INT32_MAX := by
    unfold header_width header_height int32_of INT32_MAX
    exact ⟨(wrap32_range _).2, (wrap32_range _).2⟩
  refine ⟨img, ho, InRange_of (Valid_of_SizeOK hs hmax.1 hmax.2 hp) (InUnit_of_pixels hs ?_)⟩
  intro x y a c d e
  rw [hpix x y a c d e]
  exact read_colour_unit _ _

/-- The entries of the kernel are the weights of the taps, offset by offset. -/
theorem gaussian_kernel_taps (exp : ℚ → ℚ) (sq sigma : ℚ) {k : Int} (hk0 : 0 ≤ k) :
    gaussian_kernel exp sq sigma k =
      (kernel_taps k).map (tap_weight (gaussian_kernel exp sq sigma k) k) := by
  conv_lhs => rw [gaussian_kernel_eq exp sq sigma hk0]
  apply List.map_congr_left
  intro t ht
  exact (tap_weight_eq exp sq sigma hk0 ht).symm

/-! ## The claims on the kernel, on the channel range and on idempotence -/

/-- C22 (counterexample): the 2×2 sample raster and the black raster of width
`2^30 + 1` and height 1 are valid and have all channels in `[0, 1]`, yet
`GaussianBlurFilter(2^29)` applied to the first ends in `std::length_error`
and `PixelationFilter(2^30)` applied to the second does not end: there is no
output whose channels could be in `[0, 1]`. -/
theorem C22_channel_range_counterexample :
    sample_2x2.Valid ∧ sample_2x2.InUnit ∧ (0 : ℚ) < 536870912 ∧
    (∀ (exp : ℚ → ℚ) (sq : ℚ), (∀ q, 0 < exp q) → 0 < sq →
      GaussianBlurFilter.Apply exp sq 536870912 sample_2x2 = .error .length_error) ∧
    wide_raster.Valid ∧ wide_raster.InUnit ∧ (1 : Int) ≤ 1073741824 ∧
    (∀ fuel : Nat, PixelationFilter.Apply 1073741824 fuel wide_raster = none) :=
  ⟨by decide, by decide!, by norm_num,
    fun exp sq _ _ => GaussianBlurFilter_Apply_big exp sq 536870912 sample_2x2 (by decide)
      (by norm_num),
    wide_raster_valid, wide_raster_unit, by decide, PixelationFilter_Apply_wide⟩

/-- C22 (amended): for every valid raster `R` whose channels all lie in
`[0, 1]`, each of `CropFilter(w, h)` with `w, h ≥ 0`, `GrayscaleFilter`,
`NegativeFilter`, `SharpeningFilter`, `EdgeDetectionFilter(t)`,
`GaussianBlurFilter(sigma)` with `sigma > 0` and `6 sigma + 1 < 2^31`, and
`PixelationFilter(n)` with `n ≥ 1` for which the first multiples of `n` at or
above the width and the height are at most `2^31 - 1`, returns a valid raster
whose channels again all lie in `[0, 1]`, so that every value `Image::Export`
casts to a byte lies in `[0, 255]`; and the raster `Image::Read` decodes from
a complete 24-bit file is such a raster. -/
theorem C22_filters_keep_channel_range (R : Image) (hv : R.Valid) (hu : R.InUnit) (w h : Int)
    (hw : 0 ≤ w) (hh : 0 ≤ h) (t : ℚ) (exp : ℚ → ℚ) (sq sigma : ℚ) (hexp : ∀ q, 0 < exp q)
    (hsq : 0 < sq) (hs : 0 < sigma) (hb : 6 * sigma + 1 < 2147483648) (n : Int) (hn : 1 ≤ n)
    (hbx : n * blocks n R.width_ ≤ INT32_MAX) (hby : n * blocks n R.height_ ≤ INT32_MAX) :
    (∃ out, CropFilter.Apply w h R = .ok out ∧ out.InRange) ∧
    (∃ out, GrayscaleFilter.Apply R = .ok out ∧ out.InRange) ∧
    (∃ out, NegativeFilter.Apply R = .ok out ∧ out.InRange) ∧
    (∃ out, SharpeningFilter.Apply R = .ok out ∧ out.InRange) ∧
    (∃ out, EdgeDetectionFilter.Apply t R = .ok out ∧ out.InRange) ∧
    (∃ out, GaussianBlurFilter.Apply exp sq sigma R = .ok out ∧ out.InRange) ∧
    (∃ out, out.InRange ∧ ∀ fuel : Nat, blocks n R.width_ < fuel →
      blocks n R.height_ < fuel → PixelationFilter.Apply n fuel R = some (.ok out)) ∧
    (∀ (u : Uninit) (b : List Byte), b.getD 0 0 = 66 → b.getD 1 0 = 77 →
      header_bpp b = 24 → 0 ≤ header_width b → 0 ≤ header_height b →
      header_width b * header_height b ≤ INT32_MAX →
      54 + (3 * header_width b + padding_amount (header_width b)) * header_height b ≤
        (b.length : Int) →
      ∃ img, Image.Read u (some b) = .ok img ∧ img.InRange) := by
  obtain ⟨o1, h1, v1, u1⟩ := CropFilter_unit R hv hu w h hw hh
  obtain ⟨o2, h2, v2, u2⟩ := GrayscaleFilter_unit R hv hu
  obtain ⟨o3, h3, v3, u3⟩ := NegativeFilter_unit R hv hu
  obtain ⟨o4, h4, v4, u4⟩ := SharpeningFilter_unit R hv
  obtain ⟨o5, h5, v5, u5⟩ := EdgeDetectionFilter_unit t R hv
  obtain ⟨o6, h6, v6, u6⟩ := GaussianBlurFilter_unit exp sq sigma hexp hsq hs hb R hv hu
  obtain ⟨v7, u7⟩ := pixelated_unit n hn R hv hu hbx hby
  exact ⟨⟨o1, h1, InRange_of v1 u1⟩, ⟨o2, h2, InRange_of v2 u2⟩, ⟨o3, h3, InRange_of v3 u3⟩,
    ⟨o4, h4, InRange_of v4 u4⟩, ⟨o5, h5, InRange_of v5 u5⟩, ⟨o6, h6, InRange_of v6 u6⟩,
    ⟨pixelated n R, InRange_of v7 u7,
      fun fuel hfx hfy => PixelationFilter_Apply_runs n hn R hv hbx hby fuel hfx hfy⟩,
    fun u b a0 a1 a2 a3 a4 a5 a6 => Read_file_unit u b a0 a1 a2 a3 a4 a5 a6⟩

/-- Witness of C22 (amended) on the 3×2 sample raster with a crop to 2×1,
`t = 1/10`, `sigma = 1/2` and `n = 2`. -/
theorem C22_filters_keep_channel_range_witness :
    sample_3x2.Valid ∧ sample_3x2.InUnit ∧ (0 : Int) ≤ 2 ∧ (0 : Int) ≤ 1 ∧
    (∀ q, 0 < unit_exp q) ∧ (0 : ℚ) < 1 ∧ (0 : ℚ) < 1 / 2 ∧
    (6 : ℚ) * (1 / 2) + 1 < 2147483648 ∧ (1 : Int) ≤ 2 ∧
    2 * blocks 2 sample_3x2.width_ ≤ INT32_MAX ∧ 2 * blocks 2 sample_3x2.height_ ≤ INT32_MAX ∧
    ((∃ out, CropFilter.Apply 2 1 sample_3x2 = .ok out ∧ out.InRange) ∧
    (∃ out, GrayscaleFilter.Apply sample_3x2 = .ok out ∧ out.InRange) ∧
    (∃ out, NegativeFilter.Apply sample_3x2 = .ok out ∧ out.InRange) ∧
    (∃ out, SharpeningFilter.Apply sample_3x2 = .ok out ∧ out.InRange) ∧
    (∃ out, EdgeDetectionFilter.Apply (1 / 10) sample_3x2 = .ok out ∧ out.InRange) ∧
    (∃ out, GaussianBlurFilter.Apply unit_exp 1 (1 / 2) sample_3x2 = .ok out ∧ out.InRange) ∧
    (∃ out, out.InRange ∧ ∀ fuel : Nat, blocks 2 sample_3x2.width_ < fuel →
      blocks 2 sample_3x2.height_ < fuel → PixelationFilter.Apply 2 fuel sample_3x2 = some (.ok out)) ∧
    (∀ (u : Uninit) (b : List Byte), b.getD 0 0 = 66 → b.getD 1 0 = 77 →
      header_bpp b = 24 → 0 ≤ header_width b → 0 ≤ header_height b →
      header_width b * header_height b ≤ INT32_MAX →
      54 + (3 * header_width b + padding_amount (header_width b)) * header_height b ≤
        (b.length : Int) →
      ∃ img, Image.Read u (some b) = .ok img ∧ img.InRange)) :=
  ⟨by decide, by decide!, by decide, by decide, fun _ => by unfold unit_exp; norm_num,
    by norm_num, by norm_num, by norm_num, by decide, by decide, by decide,
    C22_filters_keep_channel_range sample_3x2 (by decide) (by decide!) 2 1 (by decide)
      (by decide) (1 / 10) unit_exp 1 (1 / 2) (fun _ => by unfold unit_exp; norm_num)
      (by norm_num) (by norm_num) (by norm_num) 2 (by decide) (by decide) (by decide)⟩

/-- C23 (counterexample): for the valid raster of width 1 and height
`2^30 + 1` and the block size `n = 2^30 ≥ 1`, `PixelationFilter(n)::Apply`
does not end (the counter `y += n` goes from `2^30` to `2^31`, which wraps
around to `-2^31`), so there is no result to pixelate again or to compare. -/
theorem C23_idempotence_counterexample :
    high_raster.Valid ∧ high_raster.width_ = 1 ∧ high_raster.height_ = 1073741825 ∧
    (1 : Int) ≤ 1073741824 ∧ wrap32 (1073741824 + 1073741824) = -2147483648 ∧
    (∀ fuel : Nat, PixelationFilter.Apply 1073741824 fuel high_raster = none) :=
  ⟨high_raster_valid, rfl, rfl, by decide, by decide, PixelationFilter_Apply_high⟩

/-- C23 (amended): for every valid raster `R` and every `n ≥ 1` for which the
first multiples of `n` at or above the width and the height are at most
`2^31 - 1`, `PixelationFilter(n)::Apply(R)` is a raster `P` (more fuel than
blocks in a row and in a column is enough) and
`PixelationFilter(n)::Apply(P)` is `P` again; `P` has the dimensions of `R`
and every block of `P` is constant: two pixels with `⌊x'/n⌋ = ⌊x/n⌋` and
`⌊y'/n⌋ = ⌊y/n⌋` have the same colour. -/
theorem C23_pixelation_idempotent (n : Int) (hn : 1 ≤ n) (R : Image) (hv : R.Valid)
    (hbx : n * blocks n R.width_ ≤ INT32_MAX) (hby : n * blocks n R.height_ ≤ INT32_MAX) :
    ∃ P, (∀ fuel : Nat, blocks n R.width_ < fuel → blocks n R.height_ < fuel →
        PixelationFilter.Apply n fuel R = some (.ok P) ∧
        PixelationFilter.Apply n fuel P = some (.ok P)) ∧
      P.width_ = R.width_ ∧ P.height_ = R.height_ ∧
      ∀ x y x' y', 0 ≤ x → x < R.width_ → 0 ≤ y → y < R.height_ →
        0 ≤ x' → x' < R.width_ → 0 ≤ y' → y' < R.height_ →
        x' / n = x / n → y' / n = y / n → P.GetColour x' y' = P.GetColour x y := by
  obtain ⟨hs, _⟩ := pixelated_spec n hn R hv hbx hby
  obtain ⟨hPv, hid⟩ := pixelated_idem n hn R hv hbx hby
  have ew : (pixelated n R).width_ = R.width_ := hs.1
  have eh : (pixelated n R).height_ = R.height_ := hs.2.1
  refine ⟨pixelated n R, ?_, ew, eh, ?_⟩
  · intro fuel hfx hfy
    refine ⟨PixelationFilter_Apply_runs n hn R hv hbx hby fuel hfx hfy, ?_⟩
    have h2 := PixelationFilter_Apply_runs n hn (pixelated n R) hPv (by rw [ew]; exact hbx)
      (by rw [eh]; exact hby) fuel (by rw [ew]; exact hfx) (by rw [eh]; exact hfy)
    rw [hid] at h2
    exact h2
  · intro x y x' y' a b c d a' b' c' d' ex ey
    exact pixelated_block_const n hn R hv hbx hby x y x' y' a b c d a' b' c' d' ex ey

/-- Witness of C23 (amended): block size 2 on the 3×2 sample raster. -/
theorem C23_pixelation_idempotent_witness :
    (1 : Int) ≤ 2 ∧ sample_3x2.Valid ∧ 2 * blocks 2 sample_3x2.width_ ≤ INT32_MAX ∧
    2 * blocks 2 sample_3x2.height_ ≤ INT32_MAX ∧
    (∃ P, (∀ fuel : Nat, blocks 2 sample_3x2.width_ < fuel → blocks 2 sample_3x2.height_ < fuel →
        PixelationFilter.Apply 2 fuel sample_3x2 = some (.ok P) ∧
        PixelationFilter.Apply 2 fuel P = some (.ok P)) ∧
      P.width_ = sample_3x2.width_ ∧ P.height_ = sample_3x2.height_ ∧
      ∀ x y x' y', 0 ≤ x → x < sample_3x2.width_ → 0 ≤ y → y < sample_3x2.height_ →
        0 ≤ x' → x' < sample_3x2.width_ → 0 ≤ y' → y' < sample_3x2.height_ →
        x' / 2 = x / 2 → y' / 2 = y / 2 → P.GetColour x' y' = P.GetColour x y) :=
  ⟨by decide, by decide, by decide, by decide,
    C23_pixelation_idempotent 2 (by decide) sample_3x2 (by decide) (by decide) (by decide)⟩

/-! ## The Gaussian blur with the kernel size computed in float32 -/

/-- The conversion to `int` never gives a value above `INT_MAX`. -/
theorem static_cast_int_le (v : ℚ) : static_cast_int v ≤ 2147483647 := by
  unfold static_cast_int
  by_cases h : -2147483648 ≤ trunc v ∧ trunc v ≤ 2147483647
  · rw [if_pos h]; exact h.2
  · rw [if_neg h]; decide

/-- A conversion to `int` whose result is positive drops the fraction of a
positive float. -/
theorem static_cast_int_pos {v : ℚ} (h : 1 ≤ static_cast_int v) :
    static_cast_int v = ⌊v⌋ ∧ 1 ≤ v := by
  unfold static_cast_int at h ⊢
  by_cases hr : -2147483648 ≤ trunc v ∧ trunc v ≤ 2147483647
  · rw [if_pos hr] at h ⊢
    have h0 : 0 ≤ v := by
      by_contra hn
      have hneg : v.num < 0 := Rat.num_neg.mpr (not_le.mp hn)
      have : trunc v ≤ 0 := by
        unfold trunc
        have e : v.num = -(-v.num) := by ring
        rw [e, Int.neg_tdiv]
        have := Int.tdiv_nonneg (a := -v.num) (b := (v.den : Int)) (by omega)
          (Int.ofNat_nonneg _)
        omega
      omega
    rw [trunc_eq_floor h0] at h ⊢
    refine ⟨rfl, ?_⟩
    have : ((1 : Int) : ℚ) ≤ v := Int.le_floor.mp h
    simpa using this
  · rw [if_neg hr] at h
    omega

/-- What `GaussianBlurFilter::Apply` returns when the float32 kernel size is
`k ≥ 0` and the divisor `two * sigma_ * sigma_` is not `0.0f`: the horizontal
pass leaves the image `T` of the specification, and every pixel of the result
is the vertical sum over an image `img` that holds the result at the positions
written earlier and `T` at the positions written later. -/
theorem F32_GaussianBlurFilter_Apply_ok (exp : ℚ → ℚ) (sq sigma : ℚ) (R : Image) (hv : R.Valid)
    {k : Int} (hk : static_cast_int (f32 (f32 (6 * sigma) + 1)) = k) (hk0 : 0 ≤ k)
    (hd : f32 (f32 (2 * sigma) * sigma) ≠ 0) :
    ∃ T out, T = blur_horizontal (gaussian_kernel exp sq sigma k) k R
        ⟨R.width_, R.height_, List.replicate (R.width_ * R.height_).toNat default⟩ ∧
      F32.GaussianBlurFilter.Apply exp sq sigma R = some (.ok out) ∧
      SizeOK T R.width_ R.height_ ∧ SizeOK out R.width_ R.height_ ∧ out.Valid ∧
      (∀ x y, 0 ≤ x → x < R.width_ → 0 ≤ y → y < R.height_ →
        T.GetColour x y = ⟨blur_T (gaussian_kernel exp sq sigma k) k R (fun c => c.red_) x y,
          blur_T (gaussian_kernel exp sq sigma k) k R (fun c => c.green_) x y,
          blur_T (gaussian_kernel exp sq sigma k) k R (fun c => c.blue_) x y⟩) ∧
      (∀ x y, 0 ≤ x → x < R.width_ → 0 ≤ y → y < R.height_ →
        ∃ img, SizeOK img R.width_ R.height_ ∧
          (∀ x' y', 0 ≤ x' → x' < R.width_ → 0 ≤ y' → y' < R.height_ →
            (y' < y ∨ (y' = y ∧ x' < x)) → img.GetColour x' y' = out.GetColour x' y') ∧
          (∀ x' y', 0 ≤ x' → x' < R.width_ → 0 ≤ y' → y' < R.height_ →
            ¬(y' < y ∨ (y' = y ∧ x' < x)) → img.GetColour x' y' = T.GetColour x' y') ∧
          out.GetColour x y =
            ⟨((kernel_taps k).map (fun ky => if 0 ≤ y + ky ∧ y + ky < R.height_ then
                vertical_weight (gaussian_kernel exp sq sigma k) k ky *
                  (img.GetColour x (y + ky)).red_ else 0)).sum,
             ((kernel_taps k).map (fun ky => if 0 ≤ y + ky ∧ y + ky < R.height_ then
                vertical_weight (gaussian_kernel exp sq sigma k) k ky *
                  (img.GetColour x (y + ky)).green_ else 0)).sum,
             ((kernel_taps k).map (fun ky => if 0 ≤ y + ky ∧ y + ky < R.height_ then
                vertical_weight (gaussian_kernel exp sq sigma k) k ky *
                  (img.GetColour x (y + ky)).blue_ else 0)).sum⟩) := by
  have hk1 : k ≤ 2147483647 := by rw [← hk]; exact static_cast_int_le _
  obtain ⟨v1, v2, v3, v4, v5, v6⟩ := hv
  have hf := fill_spec (fun x y => blur_row (gaussian_kernel exp sq sigma k) k R x y)
    (new_SizeOK v1 v2)
  have hT : blur_horizontal (gaussian_kernel exp sq sigma k) k R
      ⟨R.width_, R.height_, List.replicate (R.width_ * R.height_).toNat default⟩ =
      forUp 0 R.height_ (fun y img => forUp 0 R.width_ (fun x img =>
        img.SetColour ((fun x y => blur_row (gaussian_kernel exp sq sigma k) k R x y) x y) x y) img)
        ⟨R.width_, R.height_, List.replicate (R.width_ * R.height_).toNat default⟩ := rfl
  rw [← hT] at hf
  have hi := inplace_spec (fun img x y => blur_column (gaussian_kernel exp sq sigma k) k R img x y)
    hf.1
  have hO : blur_vertical (gaussian_kernel exp sq sigma k) k R
      (blur_horizontal (gaussian_kernel exp sq sigma k) k R
        ⟨R.width_, R.height_, List.replicate (R.width_ * R.height_).toNat default⟩) =
      forUp 0 R.height_ (fun y img => forUp 0 R.width_ (fun x img =>
        img.SetColour ((fun img x y =>
          blur_column (gaussian_kernel exp sq sigma k) k R img x y) img x y) x y) img)
        (blur_horizontal (gaussian_kernel exp sq sigma k) k R
          ⟨R.width_, R.height_, List.replicate (R.width_ * R.height_).toNat default⟩) := rfl
  rw [← hO] at hi
  refine ⟨_, _, rfl, ?_, hf.1, hi.1, Valid_of_SizeOK hi.1 v3 v4 v5, ?_, ?_⟩
  · unfold F32.GaussianBlurFilter.Apply
    simp only [Image.GetWidth, Image.GetHeight, new_ok v1 v2 v5, hk]
    rw [if_neg (not_lt.mpr hk0), if_neg hd]
  · intro x y h1 h2 h3 h4
    rw [hf.2 x y h1 h2 h3 h4]
    exact blur_row_eq _ hk0 hk1 R v3 y h1 h2
  · intro x y h1 h2 h3 h4
    obtain ⟨img, i1, i2, i3, i4⟩ := hi.2 x y h1 h2 h3 h4
    refine ⟨img, i1, i2, i3, ?_⟩
    rw [i4]
    exact blur_column_eq _ hk0 hk1 R img v4 x h3 h4

/-- The first row of the output of the blur: its taps read the image of the
horizontal pass only. -/
theorem F32_blur_first_row_eq (exp : ℚ → ℚ) (sq sigma : ℚ) (R : Image) (hv : R.Valid)
    {k : Int} (hk : static_cast_int (f32 (f32 (6 * sigma) + 1)) = k) (hk0 : 0 ≤ k)
    (hd : f32 (f32 (2 * sigma) * sigma) ≠ 0) :
    ∃ out, F32.GaussianBlurFilter.Apply exp sq sigma R = some (.ok out) ∧
      SizeOK out R.width_ R.height_ ∧
      (∀ x y, 0 ≤ x → x < R.width_ → 0 ≤ y → y < R.height_ →
        (blur_horizontal (gaussian_kernel exp sq sigma k) k R
          ⟨R.width_, R.height_, List.replicate (R.width_ * R.height_).toNat default⟩).GetColour
            x y =
          ⟨blur_T (gaussian_kernel exp sq sigma k) k R (fun c => c.red_) x y,
           blur_T (gaussian_kernel exp sq sigma k) k R (fun c => c.green_) x y,
           blur_T (gaussian_kernel exp sq sigma k) k R (fun c => c.blue_) x y⟩) ∧
      ∀ x, 0 ≤ x → x < R.width_ → 0 < R.height_ →
        out.GetColour x 0 =
          ⟨blur_first_row (gaussian_kernel exp sq sigma k) k R (fun c => c.red_) x,
           blur_first_row (gaussian_kernel exp sq sigma k) k R (fun c => c.green_) x,
           blur_first_row (gaussian_kernel exp sq sigma k) k R (fun c => c.blue_) x⟩ := by
  obtain ⟨T, out, hTdef, ho, _, hso, _, hT, hO⟩ :=
    F32_GaussianBlurFilter_Apply_ok exp sq sigma R hv hk hk0 hd
  refine ⟨out, ho, hso, ?_, ?_⟩
  · rw [← hTdef]; exact hT
  intro x h1 h2 h3
  obtain ⟨img, _, _, i3, i4⟩ := hO x 0 h1 h2 (le_refl 0) h3
  have conv : ∀ (v : Colour → ℚ) (hvT : ∀ y, 0 ≤ y → y < R.height_ →
      v (T.GetColour x y) = blur_T (gaussian_kernel exp sq sigma k) k R v x y),
      ((kernel_taps k).map (fun ky => if 0 ≤ 0 + ky ∧ 0 + ky < R.height_ then
        vertical_weight (gaussian_kernel exp sq sigma k) k ky * v (img.GetColour x (0 + ky))
        else 0)).sum = blur_first_row (gaussian_kernel exp sq sigma k) k R v x := by
    intro v hvT
    unfold blur_first_row
    congr 1
    apply List.map_congr_left
    intro ky _
    rw [zero_add]
    by_cases hin : 0 ≤ ky ∧ ky < R.height_
    · rw [if_pos hin, if_pos hin, i3 x ky h1 h2 hin.1 hin.2 (by omega), hvT ky hin.1 hin.2]
    · rw [if_neg hin, if_neg hin]
  rw [i4]
  rw [conv (fun c => c.red_) (fun y a b => by rw [hT x y h1 h2 a b]),
    conv (fun c => c.green_) (fun y a b => by rw [hT x y h1 h2 a b]),
    conv (fun c => c.blue_) (fun y a b => by rw [hT x y h1 h2 a b])]

/-- The kernel depends on `exp` only through the values of the taps. -/
theorem gaussian_kernel_congr (exp exp' : ℚ → ℚ) (sq sigma : ℚ) {k : Int} (hk0 : 0 ≤ k)
    (h : ∀ t ∈ kernel_taps k, kernel_value exp sq sigma t = kernel_value exp' sq sigma t) :
    gaussian_kernel exp sq sigma k = gaussian_kernel exp' sq sigma k := by
  have hmap : (kernel_taps k).map (kernel_value exp sq sigma) =
      (kernel_taps k).map (kernel_value exp' sq sigma) := List.map_congr_left h
  rw [gaussian_kernel_eq exp sq sigma hk0, gaussian_kernel_eq exp' sq sigma hk0, hmap]
  apply List.map_congr_left
  intro t ht
  rw [h t ht]

/-- The blur depends on `exp` only through the kernel. -/
theorem F32_GaussianBlurFilter_Apply_congr (exp exp' : ℚ → ℚ) (sq sigma : ℚ) (R : Image)
    (h : gaussian_kernel exp sq sigma (static_cast_int (f32 (f32 (6 * sigma) + 1))) =
      gaussian_kernel exp' sq sigma (static_cast_int (f32 (f32 (6 * sigma) + 1)))) :
    F32.GaussianBlurFilter.Apply exp sq sigma R = F32.GaussianBlurFilter.Apply exp' sq sigma R := by
  unfold F32.GaussianBlurFilter.Apply
  simp only [h]

/-- The value of the tap 0 is `exp 0` over `sqrt(2π) sigma`. -/
theorem kernel_value_zero (exp : ℚ → ℚ) (sq sigma : ℚ) :
    kernel_value exp sq sigma 0 = exp 0 / (sq * sigma) := by
  unfold kernel_value
  have e : wrap32 (-(wrap32 (0 * 0))) = 0 := by decide
  rw [e]
  simp

/-- The value of the taps 1 and -1, whose square is 1. -/
theorem kernel_value_unit (exp : ℚ → ℚ) (sq sigma : ℚ) {t : Int} (ht : t = 1 ∨ t = -1) :
    kernel_value exp sq sigma t = exp (-1 / (2 * sigma * sigma)) / (sq * sigma) := by
  unfold kernel_value
  have e : wrap32 (-(wrap32 (t * t))) = -1 := by
    rcases ht with h | h <;> subst h <;> decide
  rw [e]
  simp

/-- A kernel of size one is the single weight 1 when `exp 0` is positive. -/
theorem gaussian_kernel_single (exp : ℚ → ℚ) (sq sigma : ℚ) (hexp : 0 < exp 0) (hsq : 0 < sq)
    (hs : 0 < sigma) : gaussian_kernel exp sq sigma 1 = [1] := by
  rw [gaussian_kernel_congr exp (fun _ => exp 0) sq sigma (by decide) (fun t ht => by
    have h0 : t = 0 := by
      rw [kernel_taps_one] at ht
      simpa using ht
    subst h0
    rw [kernel_value_zero, kernel_value_zero])]
  exact gaussian_kernel_one (fun _ => exp 0) sq sigma (fun _ => hexp) hsq hs

/-- A kernel of size two or three for an `exp` that is positive from `-100`
on is the kernel for an `exp` that is positive everywhere. -/
theorem gaussian_kernel_clamp (exp : ℚ → ℚ) (sq sigma : ℚ) {k : Int} (hk : k = 2 ∨ k = 3)
    (harg : -100 ≤ -1 / (2 * sigma * sigma)) :
    gaussian_kernel exp sq sigma k =
      gaussian_kernel (fun q => if -100 ≤ q then exp q else 1) sq sigma k := by
  have hk0 : 0 ≤ k := by omega
  apply gaussian_kernel_congr exp _ sq sigma hk0
  intro t ht
  have hm := (mem_kernel_taps hk0).mp ht
  have h2 : k / 2 = 1 := by omega
  rw [h2] at hm
  have ht3 : t = 0 ∨ t = 1 ∨ t = -1 := by omega
  rcases ht3 with h | h | h
  · subst h
    rw [kernel_value_zero, kernel_value_zero]
    simp only [show (-100 : ℚ) ≤ 0 from by norm_num, if_true]
  · rw [kernel_value_unit exp sq sigma (Or.inl h), kernel_value_unit _ sq sigma (Or.inl h)]
    simp only [harg, if_true]
  · rw [kernel_value_unit exp sq sigma (Or.inr h), kernel_value_unit _ sq sigma (Or.inr h)]
    simp only [harg, if_true]

/-- A blur whose kernel has one tap returns the raster it is given. -/
theorem F32_GaussianBlurFilter_Apply_one (exp : ℚ → ℚ) (sq sigma : ℚ) (hexp : 0 < exp 0)
    (hsq : 0 < sq) (hs : 0 < sigma) (hk : static_cast_int (f32 (f32 (6 * sigma) + 1)) = 1)
    (hd : f32 (f32 (2 * sigma) * sigma) ≠ 0) (R : Image) (hv : R.Valid) :
    F32.GaussianBlurFilter.Apply exp sq sigma R = some (.ok R) := by
  obtain ⟨T, out, _, ho, _, hso, _, hT, hO⟩ :=
    F32_GaussianBlurFilter_Apply_ok exp sq sigma R hv hk (by decide) hd
  have hw : tap_weight (gaussian_kernel exp sq sigma 1) 1 0 = 1 := by
    rw [gaussian_kernel_single exp sq sigma hexp hsq hs]
    decide!
  have hvw : vertical_weight (gaussian_kernel exp sq sigma 1) 1 0 = 1 := by
    unfold vertical_weight
    rw [if_pos (by decide), hw]
  rw [ho]
  refine congrArg some (congrArg Except.ok (Image.ext_pixels hso (Valid.sizeOK hv) ?_))
  intro x y h1 h2 h3 h4
  obtain ⟨img, _, _, i3, i4⟩ := hO x y h1 h2 h3 h4
  have e : ∀ c : Colour, c = ⟨c.red_, c.green_, c.blue_⟩ := fun c => rfl
  rw [i4, e (R.GetColour x y)]
  simp only [kernel_taps_one, List.map_cons, List.map_nil, List.sum_cons, List.sum_nil, add_zero,
    hvw, one_mul, h3, h4, and_self, if_true]
  rw [i3 x y h1 h2 h3 h4 (by omega), hT x y h1 h2 h3 h4]
  simp only [blur_T, kernel_taps_one, List.map_cons, List.map_nil, List.sum_cons, List.sum_nil,
    add_zero, hw, one_mul, h1, h2, and_self, if_true]

/-- The top pixel of the blurred 1×2 white raster, for a kernel of size 2: with
`b` and `c` the weights of the taps `0` and `1`, it is `b * b`, where the sum
of the specification is `b * b + c * b`; and `b < 1`. -/
theorem F32_blur_white_1x2 (exp : ℚ → ℚ) (sq sigma : ℚ) (hexp : ∀ q, -100 ≤ q → 0 < exp q)
    (hsq : 0 < sq) (hs : 0 < sigma) (harg : -100 ≤ -1 / (2 * sigma * sigma))
    (hk : static_cast_int (f32 (f32 (6 * sigma) + 1)) = 2)
    (hd : f32 (f32 (2 * sigma) * sigma) ≠ 0) :
    ∃ out, F32.GaussianBlurFilter.Apply exp sq sigma white_1x2 = some (.ok out) ∧
      0 < tap_weight (gaussian_kernel exp sq sigma 2) 2 0 ∧
      tap_weight (gaussian_kernel exp sq sigma 2) 2 0 < 1 ∧
      0 < tap_weight (gaussian_kernel exp sq sigma 2) 2 1 ∧
      (out.GetColour 0 0).red_ = tap_weight (gaussian_kernel exp sq sigma 2) 2 0 *
        tap_weight (gaussian_kernel exp sq sigma 2) 2 0 ∧
      blur_spec (gaussian_kernel exp sq sigma 2) 2 white_1x2 (fun c => c.red_) 0 0 =
        tap_weight (gaussian_kernel exp sq sigma 2) 2 0 *
          tap_weight (gaussian_kernel exp sq sigma 2) 2 0 +
        tap_weight (gaussian_kernel exp sq sigma 2) 2 1 *
          tap_weight (gaussian_kernel exp sq sigma 2) 2 0 := by
  obtain ⟨out, ho, _, _, hO⟩ :=
    F32_blur_first_row_eq exp sq sigma white_1x2 (by decide) hk (by decide) hd
  have hpos : ∀ q, 0 < (fun q => if -100 ≤ q then exp q else 1) q := by
    intro q
    by_cases hq : -100 ≤ q
    · simp only [hq, if_true]; exact hexp q hq
    · simp only [hq, if_false]; norm_num
  have hK := gaussian_kernel_clamp exp sq sigma (k := 2) (Or.inl rfl) harg
  have ha := tap_weight_pos _ sq sigma hpos hsq hs (k := 2) (t := -1) (by decide) (by decide)
  have hb := tap_weight_pos _ sq sigma hpos hsq hs (k := 2) (t := 0) (by decide) (by decide)
  have hc := tap_weight_pos _ sq sigma hpos hsq hs (k := 2) (t := 1) (by decide) (by decide)
  have hsum := tap_weight_sum _ sq sigma hpos hsq hs (k := 2) (by decide)
  rw [← hK] at ha hb hc hsum
  rw [kernel_taps_two] at hsum
  simp only [List.map_cons, List.map_nil, List.sum_cons, List.sum_nil, add_zero] at hsum
  have vb : vertical_weight (gaussian_kernel exp sq sigma 2) 2 0 =
      tap_weight (gaussian_kernel exp sq sigma 2) 2 0 := by
    unfold vertical_weight; rw [if_pos (by decide)]
  have vc : vertical_weight (gaussian_kernel exp sq sigma 2) 2 1 = 0 := by
    unfold vertical_weight; rw [if_neg (by decide)]
  have hw : white_1x2.width_ = 1 := rfl
  have hh : white_1x2.height_ = 2 := rfl
  have e1 : (0 : Int) + -1 = -1 := rfl
  have e2 : (0 : Int) + 0 = 0 := rfl
  have e3 : (0 : Int) + 1 = 1 := rfl
  have c1 : ¬((0 : Int) ≤ -1 ∧ (-1 : Int) < 1) := by decide
  have c2 : (0 : Int) ≤ 0 ∧ (0 : Int) < 1 := by decide
  have c3 : ¬((0 : Int) ≤ 1 ∧ (1 : Int) < 1) := by decide
  have d1 : ¬((0 : Int) ≤ -1 ∧ (-1 : Int) < 2) := by decide
  have d2 : (0 : Int) ≤ 0 ∧ (0 : Int) < 2 := by decide
  have d3 : (0 : Int) ≤ 1 ∧ (1 : Int) < 2 := by decide
  have hT : ∀ y, 0 ≤ y → y < 2 →
      blur_T (gaussian_kernel exp sq sigma 2) 2 white_1x2 (fun c => c.red_) 0 y =
        tap_weight (gaussian_kernel exp sq sigma 2) 2 0 := by
    intro y hy0 hy
    simp only [blur_T, kernel_taps_two, List.map_cons, List.map_nil, List.sum_cons,
      List.sum_nil, add_zero, hw, e1, e2, e3, if_neg c1, if_pos c2, if_neg c3, zero_add,
      white_1x2_pixel y hy0 hy, mul_one]
  refine ⟨out, ho, hb, by linarith, hc, ?_, ?_⟩
  · rw [hO 0 (by decide) (by decide) (by decide)]
    simp only [blur_first_row, kernel_taps_two, List.map_cons, List.map_nil, List.sum_cons,
      List.sum_nil, add_zero, hh, if_neg d1, if_pos d2, if_pos d3, zero_add, vb, vc, zero_mul,
      hT 0 (by decide) (by decide)]
  · simp only [blur_spec, kernel_taps_two, List.map_cons, List.map_nil, List.sum_cons,
      List.sum_nil, add_zero, hh, e1, e2, e3, if_neg d1, if_pos d2, if_pos d3, zero_add,
      hT 0 (by decide) (by decide), hT 1 (by decide) (by decide)]

/-- The black pixel of the blurred 2×1 raster with a red and a black pixel,
for a kernel of size 2: with `a` and `b` the weights of the taps `-1` and `0`,
its red channel is `b * a`, which is positive. -/
theorem F32_blur_red_black (exp : ℚ → ℚ) (sq sigma : ℚ) (hexp : ∀ q, -100 ≤ q → 0 < exp q)
    (hsq : 0 < sq) (hs : 0 < sigma) (harg : -100 ≤ -1 / (2 * sigma * sigma))
    (hk : static_cast_int (f32 (f32 (6 * sigma) + 1)) = 2)
    (hd : f32 (f32 (2 * sigma) * sigma) ≠ 0) :
    ∃ out, F32.GaussianBlurFilter.Apply exp sq sigma red_black = some (.ok out) ∧
      0 < tap_weight (gaussian_kernel exp sq sigma 2) 2 (-1) ∧
      0 < tap_weight (gaussian_kernel exp sq sigma 2) 2 0 ∧
      (out.GetColour 1 0).red_ = tap_weight (gaussian_kernel exp sq sigma 2) 2 0 *
        tap_weight (gaussian_kernel exp sq sigma 2) 2 (-1) := by
  obtain ⟨out, ho, _, _, hO⟩ :=
    F32_blur_first_row_eq exp sq sigma red_black (by decide) hk (by decide) hd
  have hpos : ∀ q, 0 < (fun q => if -100 ≤ q then exp q else 1) q := by
    intro q
    by_cases hq : -100 ≤ q
    · simp only [hq, if_true]; exact hexp q hq
    · simp only [hq, if_false]; norm_num
  have hK := gaussian_kernel_clamp exp sq sigma (k := 2) (Or.inl rfl) harg
  have ha := tap_weight_pos _ sq sigma hpos hsq hs (k := 2) (t := -1) (by decide) (by decide)
  have hb := tap_weight_pos _ sq sigma hpos hsq hs (k := 2) (t := 0) (by decide) (by decide)
  rw [← hK] at ha hb
  have vb : vertical_weight (gaussian_kernel exp sq sigma 2) 2 0 =
      tap_weight (gaussian_kernel exp sq sigma 2) 2 0 := by
    unfold vertical_weight; rw [if_pos (by decide)]
  have hw : red_black.width_ = 2 := rfl
  have hh : red_black.height_ = 1 := rfl
  have e1 : (1 : Int) + -1 = 0 := rfl
  have e2 : (1 : Int) + 0 = 1 := rfl
  have e3 : (1 : Int) + 1 = 2 := rfl
  have c1 : (0 : Int) ≤ 0 ∧ (0 : Int) < 2 := by decide
  have c2 : (0 : Int) ≤ 1 ∧ (1 : Int) < 2 := by decide
  have c3 : ¬((0 : Int) ≤ 2 ∧ (2 : Int) < 2) := by decide
  have d1 : ¬((0 : Int) ≤ -1 ∧ (-1 : Int) < 1) := by decide
  have d2 : (0 : Int) ≤ 0 ∧ (0 : Int) < 1 := by decide
  have d3 : ¬((0 : Int) ≤ 1 ∧ (1 : Int) < 1) := by decide
  have p0 : (red_black.GetColour 0 0).red_ = 1 := by decide!
  have p1 : (red_black.GetColour 1 0).red_ = 0 := by decide!
  have hT : blur_T (gaussian_kernel exp sq sigma 2) 2 red_black (fun c => c.red_) 1 0 =
      tap_weight (gaussian_kernel exp sq sigma 2) 2 (-1) := by
    simp only [blur_T, kernel_taps_two, List.map_cons, List.map_nil, List.sum_cons,
      List.sum_nil, add_zero, hw, e1, e2, e3, if_pos c1, if_pos c2, if_neg c3, p0, p1, mul_one,
      mul_zero]
  refine ⟨out, ho, ha, hb, ?_⟩
  rw [hO 1 (by decide) (by decide) (by decide)]
  simp only [blur_first_row, kernel_taps_two, List.map_cons, List.map_nil, List.sum_cons,
    List.sum_nil, add_zero, hh, if_neg d1, if_pos d2, if_neg d3, zero_add, vb, hT]

/-- A `sigma` whose float32 kernel size is negative ends in `std::length_error`. -/
theorem F32_GaussianBlurFilter_Apply_big (exp : ℚ → ℚ) (sq sigma : ℚ) (R : Image) (hv : R.Valid)
    (hk : static_cast_int (f32 (f32 (6 * sigma) + 1)) < 0) :
    F32.GaussianBlurFilter.Apply exp sq sigma R = some (.error .length_error) := by
  obtain ⟨v1, v2, v3, v4, v5, v6⟩ := hv
  unfold F32.GaussianBlurFilter.Apply
  simp only [Image.GetWidth, Image.GetHeight, new_ok v1 v2 v5]
  rw [if_pos hk]

/-- A `sigma` whose product `two * sigma_ * sigma_` underflows to `0.0f` gives
no raster of numbers when the raster has a pixel. -/
theorem F32_GaussianBlurFilter_Apply_underflow (exp : ℚ → ℚ) (sq sigma : ℚ) (R : Image)
    (hv : R.Valid) (hk0 : 0 ≤ static_cast_int (f32 (f32 (6 * sigma) + 1)))
    (hd : f32 (f32 (2 * sigma) * sigma) = 0) (hw : 0 < R.width_) (hh : 0 < R.height_) :
    F32.GaussianBlurFilter.Apply exp sq sigma R = none := by
  obtain ⟨v1, v2, v3, v4, v5, v6⟩ := hv
  unfold F32.GaussianBlurFilter.Apply
  simp only [Image.GetWidth, Image.GetHeight, new_ok v1 v2 v5]
  rw [if_neg (not_lt.mpr hk0), if_pos hd, if_pos ⟨hw, hh⟩]

/-! ## The filters in the float32 reading -/

/-- What `GrayscaleFilter::Apply` returns in float32. -/
theorem F32_GrayscaleFilter_Apply_ok (R : Image) (hv : R.Valid) :
    ∃ out, F32.GrayscaleFilter.Apply R = .ok out ∧ SizeOK out R.width_ R.height_ ∧ out.Valid ∧
      ∀ x y, 0 ≤ x → x < R.width_ → 0 ≤ y → y < R.height_ →
        out.GetColour x y = ⟨F32.gray_of (R.GetColour x y), F32.gray_of (R.GetColour x y),
          F32.gray_of (R.GetColour x y)⟩ := by
  obtain ⟨v1, v2, v3, v4, v5, v6⟩ := hv
  have hf := fill_spec (fun x y => (⟨F32.gray_of (R.GetColour x y),
    F32.gray_of (R.GetColour x y), F32.gray_of (R.GetColour x y)⟩ : Colour)) (new_SizeOK v1 v2)
  refine ⟨_, ?_, hf.1, Valid_of_SizeOK hf.1 v3 v4 v5, hf.2⟩
  unfold F32.GrayscaleFilter.Apply
  simp only [Image.GetWidth, Image.GetHeight, new_ok v1 v2 v5]

/-- What `EdgeDetectionFilter::Apply` returns in float32: the pixel is white
when the float32 sum over the float32 grayscale image exceeds the threshold,
and black otherwise. -/
theorem F32_EdgeDetectionFilter_Apply_ok (t : ℚ) (R : Image) (hv : R.Valid) :
    ∃ G out, F32.GrayscaleFilter.Apply R = .ok G ∧
      F32.EdgeDetectionFilter.Apply t R = .ok out ∧ SizeOK out R.width_ R.height_ ∧ out.Valid ∧
      ∀ x y, 0 ≤ x → x < R.width_ → 0 ≤ y → y < R.height_ →
        out.GetColour x y = if F32.edge_sum G x y > t then ⟨1, 1, 1⟩ else ⟨0, 0, 0⟩ := by
  obtain ⟨G, hG, hGs, _, _⟩ := F32_GrayscaleFilter_Apply_ok R hv
  obtain ⟨v1, v2, v3, v4, v5, v6⟩ := hv
  have hf := fill_spec (fun x y =>
    (if F32.edge_sum G x y > t then (⟨1, 1, 1⟩ : Colour) else ⟨0, 0, 0⟩)) (new_SizeOK v1 v2)
  refine ⟨G, _, hG, ?_, hf.1, Valid_of_SizeOK hf.1 v3 v4 v5, hf.2⟩
  unfold F32.EdgeDetectionFilter.Apply
  simp only [hG, Image.GetWidth, Image.GetHeight, hGs.1, hGs.2.1, new_ok v1 v2 v5]

/-- What `SharpeningFilter::Apply` returns in float32: the clamped float32
sums. -/
theorem F32_SharpeningFilter_Apply_ok (R : Image) (hv : R.Valid) :
    ∃ out, F32.SharpeningFilter.Apply R = .ok out ∧ SizeOK out R.width_ R.height_ ∧ out.Valid ∧
      ∀ x y, 0 ≤ x → x < R.width_ → 0 ≤ y → y < R.height_ →
        out.GetColour x y = ⟨min 1 (max 0 (F32.sharp_sum R x y).red_),
          min 1 (max 0 (F32.sharp_sum R x y).green_),
          min 1 (max 0 (F32.sharp_sum R x y).blue_)⟩ := by
  obtain ⟨v1, v2, v3, v4, v5, v6⟩ := hv
  have hf := fill_spec (fun x y => (⟨min 1 (max 0 (F32.sharp_sum R x y).red_),
    min 1 (max 0 (F32.sharp_sum R x y).green_),
    min 1 (max 0 (F32.sharp_sum R x y).blue_)⟩ : Colour)) (new_SizeOK v1 v2)
  refine ⟨_, ?_, hf.1, Valid_of_SizeOK hf.1 v3 v4 v5, hf.2⟩
  unfold F32.SharpeningFilter.Apply
  simp only [Image.GetWidth, Image.GetHeight, new_ok v1 v2 v5]

/-! ## The export of a raster whose pixels have three equal channels -/

/-- The file `Image::Export` writes for a raster `G` of the size of `R` whose
pixels have three equal channels: its length, and the three equal bytes of
every pixel triplet. -/
theorem Export_triplets (G R : Image) (hs : SizeOK G R.width_ R.height_) (g : Int → Int → ℚ)
    (hp : ∀ x y, 0 ≤ x → x < R.width_ → 0 ≤ y → y < R.height_ →
      G.GetColour x y = ⟨g x y, g x y, g x y⟩) :
    ∃ bytes, G.Export true = .ok bytes ∧
      bytes.length = 54 + R.height_.toNat * row_size R.width_ ∧
      ∀ r x : Nat, (r : Int) < R.height_ → (x : Int) < R.width_ →
        54 + r * row_size R.width_ + 3 * x + 2 < bytes.length ∧
        ∃ b : Byte, bytes[54 + r * row_size R.width_ + 3 * x]? = some b ∧
          bytes[54 + r * row_size R.width_ + 3 * x + 1]? = some b ∧
          bytes[54 + r * row_size R.width_ + 3 * x + 2]? = some b := by
  have e1 : G.width_ = R.width_ := hs.1
  have e2 : G.height_ = R.height_ := hs.2.1
  have hlen : (export_header G.width_ G.height_ ++
      (List.range G.height_.toNat).flatMap (fun r => export_row G (G.height_ - 1 - r))).length =
      54 + R.height_.toNat * row_size R.width_ := by
    rw [List.length_append, export_header_length, export_body_length, e1, e2]
  refine ⟨_, Export_eq G, hlen, ?_⟩
  intro r x hr hx
  have hrow : 3 * x + 2 < row_size R.width_ := by unfold row_size; omega
  have hmul : (r + 1) * row_size R.width_ ≤ R.height_.toNat * row_size R.width_ :=
    Nat.mul_le_mul_right _ (by omega)
  have hin : 54 + r * row_size R.width_ + 3 * x + 2 <
      (export_header G.width_ G.height_ ++
        (List.range G.height_.toNat).flatMap (fun r => export_row G (G.height_ - 1 - r))).length := by
    rw [hlen]
    have : (r + 1) * row_size R.width_ = r * row_size R.width_ + row_size R.width_ := by ring
    omega
  refine ⟨hin, uchar (g x (R.height_ - 1 - r) * 255), ?_⟩
  have key : ∀ j : Nat, j < 3 →
      (export_header G.width_ G.height_ ++
        (List.range G.height_.toNat).flatMap (fun r => export_row G (G.height_ - 1 - r)))[
          54 + r * row_size R.width_ + 3 * x + j]? =
        some (uchar (g x (R.height_ - 1 - r) * 255)) := by
    intro j hj
    have h := export_getD_pixel G r x j (by rw [e2]; omega) (by rw [e1]; omega) hj
    have hc : G.GetColour x (G.height_ - 1 - r) =
        ⟨g x (R.height_ - 1 - r), g x (R.height_ - 1 - r), g x (R.height_ - 1 - r)⟩ := by
      rw [e2]
      exact hp x (R.height_ - 1 - r) (by omega) (by omega) (by omega) (by omega)
    rw [show row_size G.width_ = row_size R.width_ from by rw [e1], hc,
      pixel_bytes_gray _ j hj] at h
    have hlt : 54 + r * row_size R.width_ + 3 * x + j <
        (export_header G.width_ G.height_ ++
          (List.range G.height_.toNat).flatMap
            (fun r => export_row G (G.height_ - 1 - r))).length := by omega
    rw [List.getElem?_eq_getElem hlt, ← List.getD_eq_getElem _ 0 hlt, h]
  exact ⟨key 0 (by decide), key 1 (by decide), key 2 (by decide)⟩

/-! ## The float32 sums of the 3×3 filters -/

/-- A loop that updates the three channels of a colour each on its own is the
three loops on the channels. -/
theorem loopUp_channels (f g h : Int → ℚ → ℚ) (n : Nat) :
    ∀ (i : Int) (s : Colour),
    loopUp (fun k (sum : Colour) =>
      ({ red_ := f k sum.red_, green_ := g k sum.green_, blue_ := h k sum.blue_ } : Colour))
      i n s =
    ⟨loopUp f i n s.red_, loopUp g i n s.green_, loopUp h i n s.blue_⟩ := by
  induction n with
  | zero => intro i s; rfl
  | succ n ih =>
    intro i s
    simp only [loopUp]
    rw [ih]

/-- The loops of `F32.edge_sum` accumulate the nine rounded products of the
float32 sum of the specification. -/
theorem F32_edge_sum_eq (R G : Image) (hG : SizeOK G R.width_ R.height_)
    (hpix : ∀ x y, 0 ≤ x → x < R.width_ → 0 ≤ y → y < R.height_ →
      (G.GetColour x y).red_ = F32.gray_at R (x, y))
    (x y : Int) (hx0 : 0 ≤ x) (hx : x < R.width_) (hy0 : 0 ≤ y) (hy : y < R.height_) :
    F32.edge_sum G x y = F32.edge_sum_spec R x y := by
  have tap : ∀ kx ky : Int,
      (G.GetColour
        (if (!decide (x + kx ≥ 0 ∧ x + kx < G.GetWidth ∧ y + ky ≥ 0 ∧ y + ky < G.GetHeight)) = true
          then x else x + kx)
        (if (!decide (x + kx ≥ 0 ∧ x + kx < G.GetWidth ∧ y + ky ≥ 0 ∧ y + ky < G.GetHeight)) = true
          then y else y + ky)).red_ = F32.gray_at R (edge_tap R x y kx ky) := by
    intro kx ky
    unfold edge_tap
    simp only [Image.GetWidth, Image.GetHeight, hG.1, hG.2.1, ge_iff_le]
    by_cases hin : 0 ≤ x + kx ∧ x + kx < R.width_ ∧ 0 ≤ y + ky ∧ y + ky < R.height_
    · simp only [hin, and_self, decide_True, Bool.not_true, Bool.false_eq_true, if_false, if_true]
      exact hpix _ _ hin.1 hin.2.1 hin.2.2.1 hin.2.2.2
    · simp only [hin, decide_False, Bool.not_false, if_true, if_false]
      exact hpix _ _ hx0 hx hy0 hy
  unfold F32.edge_sum F32.edge_sum_spec
  have e3 : ((1 : Int) + 1 - -1).toNat = 3 := by decide
  have a1 : (-1 : Int) + 1 = 0 := rfl
  have a2 : (0 : Int) + 1 = 1 := rfl
  simp only [forUp, e3, loopUp, tap, a1, a2]
  simp only [kernel_offsets, List.foldl, edge_K, edge_mat, a1, a2]

/-- Two nested loops over the offsets `-1, 0, 1` that accumulate rounded
products in the three channels accumulate, in every channel, over the nine
kernel offsets in the order of the loops. -/
theorem sharp_loops (q : Int → Int → Colour) (K : Int → Int → ℚ) :
    loopUp (fun ky (sum : Colour) => loopUp (fun kx (sum : Colour) =>
      ({ red_ := f32 (sum.red_ + f32 (K ky kx * (q kx ky).red_)),
         green_ := f32 (sum.green_ + f32 (K ky kx * (q kx ky).green_)),
         blue_ := f32 (sum.blue_ + f32 (K ky kx * (q kx ky).blue_)) } : Colour)) (-1) 3 sum)
      (-1) 3 ⟨0, 0, 0⟩ =
    ⟨kernel_offsets.foldl (fun s k => f32 (s + f32 (K k.2 k.1 * (q k.1 k.2).red_))) 0,
     kernel_offsets.foldl (fun s k => f32 (s + f32 (K k.2 k.1 * (q k.1 k.2).green_))) 0,
     kernel_offsets.foldl (fun s k => f32 (s + f32 (K k.2 k.1 * (q k.1 k.2).blue_))) 0⟩ := by
  have inner : ∀ (ky : Int) (sum : Colour), loopUp (fun kx (sum : Colour) =>
      ({ red_ := f32 (sum.red_ + f32 (K ky kx * (q kx ky).red_)),
         green_ := f32 (sum.green_ + f32 (K ky kx * (q kx ky).green_)),
         blue_ := f32 (sum.blue_ + f32 (K ky kx * (q kx ky).blue_)) } : Colour)) (-1) 3 sum =
      ⟨loopUp (fun kx r => f32 (r + f32 (K ky kx * (q kx ky).red_))) (-1) 3 sum.red_,
       loopUp (fun kx r => f32 (r + f32 (K ky kx * (q kx ky).green_))) (-1) 3 sum.green_,
       loopUp (fun kx r => f32 (r + f32 (K ky kx * (q kx ky).blue_))) (-1) 3 sum.blue_⟩ :=
    fun ky sum => loopUp_channels
      (fun kx r => f32 (r + f32 (K ky kx * (q kx ky).red_)))
      (fun kx r => f32 (r + f32 (K ky kx * (q kx ky).green_)))
      (fun kx r => f32 (r + f32 (K ky kx * (q kx ky).blue_))) 3 (-1) sum
  simp only [inner]
  refine (loopUp_channels
    (fun ky r => loopUp (fun kx r => f32 (r + f32 (K ky kx * (q kx ky).red_))) (-1) 3 r)
    (fun ky r => loopUp (fun kx r => f32 (r + f32 (K ky kx * (q kx ky).green_))) (-1) 3 r)
    (fun ky r => loopUp (fun kx r => f32 (r + f32 (K ky kx * (q kx ky).blue_))) (-1) 3 r)
    3 (-1) ⟨0, 0, 0⟩).trans ?_
  have a1 : (-1 : Int) + 1 = 0 := rfl
  have a2 : (0 : Int) + 1 = 1 := rfl
  simp only [loopUp, a1, a2, kernel_offsets, List.foldl]

/-- The loops of `F32.sharp_sum` accumulate, in every channel, the nine
rounded products of the float32 sum of the specification. -/
theorem F32_sharp_sum_eq (R : Image) (x y : Int) :
    F32.sharp_sum R x y = ⟨F32.sharp_sum_spec R (fun c => c.red_) x y,
      F32.sharp_sum_spec R (fun c => c.green_) x y,
      F32.sharp_sum_spec R (fun c => c.blue_) x y⟩ := by
  have body : ∀ (kx ky : Int) (sum : Colour),
      (if x + kx ≥ 0 ∧ x + kx < R.GetWidth ∧ y + ky ≥ 0 ∧ y + ky < R.GetHeight then
        ({ red_ := f32 (sum.red_ +
             f32 (mat_at sharp_mat (ky + 1) (kx + 1) * (R.GetColour (x + kx) (y + ky)).red_)),
           green_ := f32 (sum.green_ +
             f32 (mat_at sharp_mat (ky + 1) (kx + 1) * (R.GetColour (x + kx) (y + ky)).green_)),
           blue_ := f32 (sum.blue_ +
             f32 (mat_at sharp_mat (ky + 1) (kx + 1) * (R.GetColour (x + kx) (y + ky)).blue_)) }
             : Colour)
      else
        { red_ := f32 (sum.red_ +
            f32 (mat_at sharp_mat (ky + 1) (kx + 1) * (R.GetColour x y).red_)),
          green_ := f32 (sum.green_ +
            f32 (mat_at sharp_mat (ky + 1) (kx + 1) * (R.GetColour x y).green_)),
          blue_ := f32 (sum.blue_ +
            f32 (mat_at sharp_mat (ky + 1) (kx + 1) * (R.GetColour x y).blue_)) }) =
      { red_ := f32 (sum.red_ + f32 (sharp_K (ky + 1) (kx + 1) *
          (R.GetColour (sharp_tap R x y kx ky).1 (sharp_tap R x y kx ky).2).red_)),
        green_ := f32 (sum.green_ + f32 (sharp_K (ky + 1) (kx + 1) *
          (R.GetColour (sharp_tap R x y kx ky).1 (sharp_tap R x y kx ky).2).green_)),
        blue_ := f32 (sum.blue_ + f32 (sharp_K (ky + 1) (kx + 1) *
          (R.GetColour (sharp_tap R x y kx ky).1 (sharp_tap R x y kx ky).2).blue_)) } := by
    intro kx ky sum
    unfold sharp_tap sharp_K sharp_mat
    simp only [Image.GetWidth, Image.GetHeight, ge_iff_le]
    by_cases hin : 0 ≤ x + kx ∧ x + kx < R.width_ ∧ 0 ≤ y + ky ∧ y + ky < R.height_
    · rw [if_pos hin, if_pos hin]
    · rw [if_neg hin, if_neg hin]
  have e3 : ((1 : Int) + 1 - -1).toNat = 3 := by decide
  unfold F32.sharp_sum F32.sharp_sum_spec
  simp only [body, forUp, e3]
  exact sharp_loops (fun kx ky => R.GetColour (sharp_tap R x y kx ky).1 (sharp_tap R x y kx ky).2)
    (fun ky kx => sharp_K (ky + 1) (kx + 1))

/-! ## The claims that depend on the float32 arithmetic -/

/-- C10 (counterexample): for the raster of width 2 and height 1 with a red
and a black pixel and the threshold `t = 0.299f`, the float nearest to 0.299,
the sum `s` of the claim at `(0, 0)` is `0.299 > t`, so the claim makes the
pixel white, as the filter read in exact arithmetic does; in float32 the
grayscale value of the red pixel is `0.299f * 1` and the accumulated sum is
`0.299f`, which is not above `t`, and `EdgeDetectionFilter(t)::Apply` makes
the pixel black. -/
theorem C10_float_threshold_counterexample :
    red_black.Valid ∧ red_black.InUnit ∧ f32 (299 / 1000) = 10032775 / 33554432 ∧
    edge_sum_spec red_black 0 0 = 299 / 1000 ∧
    edge_sum_spec red_black 0 0 > 10032775 / 33554432 ∧
    EdgeDetectionFilter.Apply (10032775 / 33554432) red_black =
      .ok ⟨2, 1, [⟨1, 1, 1⟩, ⟨0, 0, 0⟩]⟩ ∧
    F32.GrayscaleFilter.Apply red_black =
      .ok ⟨2, 1, [⟨10032775 / 33554432, 10032775 / 33554432, 10032775 / 33554432⟩,
        ⟨0, 0, 0⟩]⟩ ∧
    F32.edge_sum ⟨2, 1, [⟨10032775 / 33554432, 10032775 / 33554432, 10032775 / 33554432⟩,
        ⟨0, 0, 0⟩]⟩ 0 0 = 10032775 / 33554432 ∧
    F32.edge_sum_spec red_black 0 0 = 10032775 / 33554432 ∧
    F32.EdgeDetectionFilter.Apply (10032775 / 33554432) red_black =
      .ok ⟨2, 1, [⟨0, 0, 0⟩, ⟨0, 0, 0⟩]⟩ :=
  ⟨by decide, by decide!, by decide!, by decide!, by decide!, by decide!, by decide!, by decide!,
    by decide!, by decide!⟩

/-- C10 (amended): for every valid raster `R` and every threshold `t`,
`EdgeDetectionFilter(t)::Apply(R)` returns a raster of the dimensions of `R`
each pixel of which is exactly `(1,1,1)` or exactly `(0,0,0)`, never another
colour.  With the channel arithmetic read as exact the pixel `(x, y)` is
`(1,1,1)` when `s > t` and `(0,0,0)` otherwise, where `s` is the sum over
`kx, ky ∈ {-1,0,1}` of `K[ky+1][kx+1] * g(tap(kx,ky))`,
`K = [[0,-1,0],[-1,4,-1],[0,-1,0]]`, `g` the grayscale value of `R` and
`tap(kx,ky)` the position `(x+kx, y+ky)` when inside the image, the centre
`(x, y)` otherwise.  In float32, for channels in `[0, 1]`, the pixel is
`(1,1,1)` when `s32 > t` and `(0,0,0)` otherwise, where `s32` is that sum with
the weights `0.299f`, `0.587f`, `0.114f` and with every product and every
partial sum, in the order of the loops, rounded to `float`. -/
theorem C10_edge_detection (R : Image) (hv : R.Valid) (t : ℚ) :
    (∃ out, EdgeDetectionFilter.Apply t R = .ok out ∧ out.width_ = R.width_ ∧
      out.height_ = R.height_ ∧
      ∀ x y, 0 ≤ x → x < R.width_ → 0 ≤ y → y < R.height_ →
        (edge_sum_spec R x y > t → out.GetColour x y = ⟨1, 1, 1⟩) ∧
        (¬ edge_sum_spec R x y > t → out.GetColour x y = ⟨0, 0, 0⟩) ∧
        (out.GetColour x y = ⟨1, 1, 1⟩ ∨ out.GetColour x y = ⟨0, 0, 0⟩)) ∧
    (∃ out, F32.EdgeDetectionFilter.Apply t R = .ok out ∧ out.width_ = R.width_ ∧
      out.height_ = R.height_ ∧
      ∀ x y, 0 ≤ x → x < R.width_ → 0 ≤ y → y < R.height_ →
        (out.GetColour x y = ⟨1, 1, 1⟩ ∨ out.GetColour x y = ⟨0, 0, 0⟩) ∧
        (R.InUnit →
          (F32.edge_sum_spec R x y > t → out.GetColour x y = ⟨1, 1, 1⟩) ∧
          (¬ F32.edge_sum_spec R x y > t → out.GetColour x y = ⟨0, 0, 0⟩))) := by
  constructor
  · obtain ⟨out, ho, hs, _, hp⟩ := EdgeDetectionFilter_Apply_ok t R hv
    refine ⟨out, ho, hs.1, hs.2.1, ?_⟩
    intro x y h1 h2 h3 h4
    rw [hp x y h1 h2 h3 h4]
    by_cases hgt : edge_sum_spec R x y > t
    · rw [if_pos hgt]
      exact ⟨fun _ => rfl, fun hn => absurd hgt hn, Or.inl rfl⟩
    · rw [if_neg hgt]
      exact ⟨fun hn => absurd hn hgt, fun _ => rfl, Or.inr rfl⟩
  · obtain ⟨G, out, hG, ho, hs, _, hp⟩ := F32_EdgeDetectionFilter_Apply_ok t R hv
    obtain ⟨G', hG', hGs, _, hGp⟩ := F32_GrayscaleFilter_Apply_ok R hv
    rw [hG] at hG'
    cases hG'
    refine ⟨out, ho, hs.1, hs.2.1, ?_⟩
    intro x y h1 h2 h3 h4
    have hred : ∀ x y, 0 ≤ x → x < R.width_ → 0 ≤ y → y < R.height_ →
        (G.GetColour x y).red_ = F32.gray_at R (x, y) := by
      intro x y a b c d
      rw [hGp x y a b c d]
      rfl
    rw [hp x y h1 h2 h3 h4, F32_edge_sum_eq R G hGs hred x y h1 h2 h3 h4]
    by_cases hgt : F32.edge_sum_spec R x y > t
    · rw [if_pos hgt]
      exact ⟨Or.inl rfl, fun _ => ⟨fun _ => rfl, fun hn => absurd hgt hn⟩⟩
    · rw [if_neg hgt]
      exact ⟨Or.inr rfl, fun _ => ⟨fun hn => absurd hn hgt, fun _ => rfl⟩⟩

/-- Witness of C10 (amended) on the 3×2 sample raster with threshold `1/10`. -/
theorem C10_edge_detection_witness :
    sample_3x2.Valid ∧
    ((∃ out, EdgeDetectionFilter.Apply (1 / 10) sample_3x2 = .ok out ∧
      out.width_ = sample_3x2.width_ ∧ out.height_ = sample_3x2.height_ ∧
      ∀ x y, 0 ≤ x → x < sample_3x2.width_ → 0 ≤ y → y < sample_3x2.height_ →
        (edge_sum_spec sample_3x2 x y > (1 / 10) → out.GetColour x y = ⟨1, 1, 1⟩) ∧
        (¬ edge_sum_spec sample_3x2 x y > (1 / 10) → out.GetColour x y = ⟨0, 0, 0⟩) ∧
        (out.GetColour x y = ⟨1, 1, 1⟩ ∨ out.GetColour x y = ⟨0, 0, 0⟩)) ∧
    (∃ out, F32.EdgeDetectionFilter.Apply (1 / 10) sample_3x2 = .ok out ∧
      out.width_ = sample_3x2.width_ ∧ out.height_ = sample_3x2.height_ ∧
      ∀ x y, 0 ≤ x → x < sample_3x2.width_ → 0 ≤ y → y < sample_3x2.height_ →
        (out.GetColour x y = ⟨1, 1, 1⟩ ∨ out.GetColour x y = ⟨0, 0, 0⟩) ∧
        (sample_3x2.InUnit →
          (F32.edge_sum_spec sample_3x2 x y > (1 / 10) → out.GetColour x y = ⟨1, 1, 1⟩) ∧
          (¬ F32.edge_sum_spec sample_3x2 x y > (1 / 10) →
            out.GetColour x y = ⟨0, 0, 0⟩)))) :=
  ⟨by decide, C10_edge_detection sample_3x2 (by decide) (1 / 10)⟩

/-- C16 (counterexample): for the raster of one pixel whose channels are
`(float)(1/255) = 8421505 / 2^31` every tap is the centre, the sum `s` of the
claim is the channel itself and `min(1, max(0, s)) = 8421505 / 2^31`; the
float32 accumulation of `SharpeningFilter::Apply` rounds `5 * v` and two of
the partial sums and gives `8421503 / 2^31`.  The byte `Image::Export` writes
for that channel is 0, where the value of the claim gives 1. -/
theorem C16_float_accumulation_counterexample :
    faint_pixel.Valid ∧ faint_pixel.InUnit ∧ f32 (1 / 255) = 8421505 / 2147483648 ∧
    sharp_sum_spec faint_pixel (fun c => c.red_) 0 0 = 8421505 / 2147483648 ∧
    min 1 (max 0 (sharp_sum_spec faint_pixel (fun c => c.red_) 0 0)) = 8421505 / 2147483648 ∧
    F32.sharp_sum_spec faint_pixel (fun c => c.red_) 0 0 = 8421503 / 2147483648 ∧
    F32.SharpeningFilter.Apply faint_pixel =
      .ok ⟨1, 1, [⟨8421503 / 2147483648, 8421503 / 2147483648, 8421503 / 2147483648⟩]⟩ ∧
    uchar (f32 (8421503 / 2147483648 * 255)) = 0 ∧
    uchar (f32 (8421505 / 2147483648 * 255)) = 1 :=
  ⟨by decide, by decide!, by decide!, by decide!, by decide!, by decide!, by decide!, by decide!,
    by decide!⟩

/-- C16 (amended): for every valid raster `R` and every pixel `(x, y)`,
`SharpeningFilter::Apply(R)` returns a raster of the dimensions of `R` every
channel of which lies in `[0, 1]`.  With the channel arithmetic read as exact
each channel at `(x, y)` is `min(1, max(0, s))`, where `s` is the sum over
`kx, ky ∈ {-1, 0, 1}` of `K[ky+1][kx+1] * v(tap(kx, ky))`,
`K = [[0,-1,0],[-1,5,-1],[0,-1,0]]`, `v` is that channel of `R` and
`tap(kx, ky)` is `(x+kx, y+ky)` inside the image and `(x, y)` otherwise.  In
float32, for channels in `[0, 1]`, each channel is `min(1, max(0, s32))`,
where `s32` is that sum with every product and every partial sum, in the
order of the loops, rounded to `float`. -/
theorem C16_sharpen_formula (R : Image) (hv : R.Valid) :
    (∃ out, SharpeningFilter.Apply R = .ok out ∧
      ∀ x y, 0 ≤ x → x < R.width_ → 0 ≤ y → y < R.height_ →
        (out.GetColour x y).red_ = min 1 (max 0 (sharp_sum_spec R (fun c => c.red_) x y)) ∧
        0 ≤ (out.GetColour x y).red_ ∧ (out.GetColour x y).red_ ≤ 1 ∧
        (out.GetColour x y).green_ = min 1 (max 0 (sharp_sum_spec R (fun c => c.green_) x y)) ∧
        0 ≤ (out.GetColour x y).green_ ∧ (out.GetColour x y).green_ ≤ 1 ∧
        (out.GetColour x y).blue_ = min 1 (max 0 (sharp_sum_spec R (fun c => c.blue_) x y)) ∧
        0 ≤ (out.GetColour x y).blue_ ∧ (out.GetColour x y).blue_ ≤ 1) ∧
    (∃ out, F32.SharpeningFilter.Apply R = .ok out ∧ out.width_ = R.width_ ∧
      out.height_ = R.height_ ∧
      ∀ x y, 0 ≤ x → x < R.width_ → 0 ≤ y → y < R.height_ →
        (0 ≤ (out.GetColour x y).red_ ∧ (out.GetColour x y).red_ ≤ 1) ∧
        (0 ≤ (out.GetColour x y).green_ ∧ (out.GetColour x y).green_ ≤ 1) ∧
        (0 ≤ (out.GetColour x y).blue_ ∧ (out.GetColour x y).blue_ ≤ 1) ∧
        (R.InUnit →
          (out.GetColour x y).red_ =
            min 1 (max 0 (F32.sharp_sum_spec R (fun c => c.red_) x y)) ∧
          (out.GetColour x y).green_ =
            min 1 (max 0 (F32.sharp_sum_spec R (fun c => c.green_) x y)) ∧
          (out.GetColour x y).blue_ =
            min 1 (max 0 (F32.sharp_sum_spec R (fun c => c.blue_) x y)))) := by
  constructor
  · obtain ⟨out, ho, _, _, hp⟩ := SharpeningFilter_Apply_ok R hv
    refine ⟨out, ho, ?_⟩
    intro x y h1 h2 h3 h4
    rw [hp x y h1 h2 h3 h4]
    refine ⟨rfl, le_min (by norm_num) (le_max_left _ _), min_le_left _ _,
      rfl, le_min (by norm_num) (le_max_left _ _), min_le_left _ _,
      rfl, le_min (by norm_num) (le_max_left _ _), min_le_left _ _⟩
  · obtain ⟨out, ho, hs, _, hp⟩ := F32_SharpeningFilter_Apply_ok R hv
    refine ⟨out, ho, hs.1, hs.2.1, ?_⟩
    intro x y h1 h2 h3 h4
    rw [hp x y h1 h2 h3 h4, F32_sharp_sum_eq]
    exact ⟨⟨le_min (by norm_num) (le_max_left _ _), min_le_left _ _⟩,
      ⟨le_min (by norm_num) (le_max_left _ _), min_le_left _ _⟩,
      ⟨le_min (by norm_num) (le_max_left _ _), min_le_left _ _⟩, fun _ => ⟨rfl, rfl, rfl⟩⟩

/-- Witness of C16 (amended) on the 3×2 sample raster. -/
theorem C16_sharpen_formula_witness :
    sample_3x2.Valid ∧
    ((∃ out, SharpeningFilter.Apply sample_3x2 = .ok out ∧
      ∀ x y, 0 ≤ x → x < sample_3x2.width_ → 0 ≤ y → y < sample_3x2.height_ →
        (out.GetColour x y).red_ =
          min 1 (max 0 (sharp_sum_spec sample_3x2 (fun c => c.red_) x y)) ∧
        0 ≤ (out.GetColour x y).red_ ∧ (out.GetColour x y).red_ ≤ 1 ∧
        (out.GetColour x y).green_ =
          min 1 (max 0 (sharp_sum_spec sample_3x2 (fun c => c.green_) x y)) ∧
        0 ≤ (out.GetColour x y).green_ ∧ (out.GetColour x y).green_ ≤ 1 ∧
        (out.GetColour x y).blue_ =
          min 1 (max 0 (sharp_sum_spec sample_3x2 (fun c => c.blue_) x y)) ∧
        0 ≤ (out.GetColour x y).blue_ ∧ (out.GetColour x y).blue_ ≤ 1) ∧
    (∃ out, F32.SharpeningFilter.Apply sample_3x2 = .ok out ∧
      out.width_ = sample_3x2.width_ ∧ out.height_ = sample_3x2.height_ ∧
      ∀ x y, 0 ≤ x → x < sample_3x2.width_ → 0 ≤ y → y < sample_3x2.height_ →
        (0 ≤ (out.GetColour x y).red_ ∧ (out.GetColour x y).red_ ≤ 1) ∧
        (0 ≤ (out.GetColour x y).green_ ∧ (out.GetColour x y).green_ ≤ 1) ∧
        (0 ≤ (out.GetColour x y).blue_ ∧ (out.GetColour x y).blue_ ≤ 1) ∧
        (sample_3x2.InUnit →
          (out.GetColour x y).red_ =
            min 1 (max 0 (F32.sharp_sum_spec sample_3x2 (fun c => c.red_) x y)) ∧
          (out.GetColour x y).green_ =
            min 1 (max 0 (F32.sharp_sum_spec sample_3x2 (fun c => c.green_) x y)) ∧
          (out.GetColour x y).blue_ =
            min 1 (max 0 (F32.sharp_sum_spec sample_3x2 (fun c => c.blue_) x y))))) :=
  ⟨by decide, C16_sharpen_formula sample_3x2 (by decide)⟩

/-- C13: for every valid raster `R` of width `w` and height `h`,
`GrayscaleFilter::Apply(R)` is produced and `Image::Export` writes for it a
file of exactly `54 + h * (3w + p)` bytes (`row_size w` is `3w + p`); for
every row `r < h` and column `x < w` the offsets
`54 + r * (3w + p) + 3x + 0, 1, 2` lie inside the file and the three bytes
written there are one and the same byte.  This holds for the gray value read
as exact and for the gray value computed in float32. -/
theorem C13_grayscale_export_triplets (R : Image) (hv : R.Valid) :
    (∃ G bytes, GrayscaleFilter.Apply R = .ok G ∧ G.Export true = .ok bytes ∧
      bytes.length = 54 + R.height_.toNat * row_size R.width_ ∧
      ∀ r x : Nat, (r : Int) < R.height_ → (x : Int) < R.width_ →
        54 + r * row_size R.width_ + 3 * x + 2 < bytes.length ∧
        ∃ b : Byte, bytes[54 + r * row_size R.width_ + 3 * x]? = some b ∧
          bytes[54 + r * row_size R.width_ + 3 * x + 1]? = some b ∧
          bytes[54 + r * row_size R.width_ + 3 * x + 2]? = some b) ∧
    (∃ G bytes, F32.GrayscaleFilter.Apply R = .ok G ∧ G.Export true = .ok bytes ∧
      bytes.length = 54 + R.height_.toNat * row_size R.width_ ∧
      ∀ r x : Nat, (r : Int) < R.height_ → (x : Int) < R.width_ →
        54 + r * row_size R.width_ + 3 * x + 2 < bytes.length ∧
        ∃ b : Byte, bytes[54 + r * row_size R.width_ + 3 * x]? = some b ∧
          bytes[54 + r * row_size R.width_ + 3 * x + 1]? = some b ∧
          bytes[54 + r * row_size R.width_ + 3 * x + 2]? = some b) := by
  obtain ⟨G, hG, hs, _, hp⟩ := GrayscaleFilter_Apply_ok R hv
  obtain ⟨G', hG', hs', _, hp'⟩ := F32_GrayscaleFilter_Apply_ok R hv
  obtain ⟨bytes, hE, hlen, ht⟩ := Export_triplets G R hs (fun x y => gray_of (R.GetColour x y)) hp
  obtain ⟨bytes', hE', hlen', ht'⟩ :=
    Export_triplets G' R hs' (fun x y => F32.gray_of (R.GetColour x y)) hp'
  exact ⟨⟨G, bytes, hG, hE, hlen, ht⟩, ⟨G', bytes', hG', hE', hlen', ht'⟩⟩

/-- Witness of C13 on the 2×2 sample raster. -/
theorem C13_grayscale_export_triplets_witness :
    sample_2x2.Valid ∧
    ((∃ G bytes, GrayscaleFilter.Apply sample_2x2 = .ok G ∧ G.Export true = .ok bytes ∧
      bytes.length = 54 + sample_2x2.height_.toNat * row_size sample_2x2.width_ ∧
      ∀ r x : Nat, (r : Int) < sample_2x2.height_ → (x : Int) < sample_2x2.width_ →
        54 + r * row_size sample_2x2.width_ + 3 * x + 2 < bytes.length ∧
        ∃ b : Byte, bytes[54 + r * row_size sample_2x2.width_ + 3 * x]? = some b ∧
          bytes[54 + r * row_size sample_2x2.width_ + 3 * x + 1]? = some b ∧
          bytes[54 + r * row_size sample_2x2.width_ + 3 * x + 2]? = some b) ∧
    (∃ G bytes, F32.GrayscaleFilter.Apply sample_2x2 = .ok G ∧ G.Export true = .ok bytes ∧
      bytes.length = 54 + sample_2x2.height_.toNat * row_size sample_2x2.width_ ∧
      ∀ r x : Nat, (r : Int) < sample_2x2.height_ → (x : Int) < sample_2x2.width_ →
        54 + r * row_size sample_2x2.width_ + 3 * x + 2 < bytes.length ∧
        ∃ b : Byte, bytes[54 + r * row_size sample_2x2.width_ + 3 * x]? = some b ∧
          bytes[54 + r * row_size sample_2x2.width_ + 3 * x + 1]? = some b ∧
          bytes[54 + r * row_size sample_2x2.width_ + 3 * x + 2]? = some b)) :=
  ⟨by decide, C13_grayscale_export_triplets sample_2x2 (by decide)⟩

/-- C12 (counterexample): for the white raster of width 1 and height 2 and
`sigma = 0.2f` the float32 kernel size is 2, the taps are `-1, 0, 1`, and the
red channel of the output pixel `(0, 0)` differs from the sum of the claim,
whatever values `std::exp` and `std::sqrt(2π)` have, provided they are
positive (those of `std::exp` from `-100` on, as for the `std::exp` of
`float`): the vertical pass gives the tap `1` the weight 0.  For
`sigma = 2^29` the kernel size
leaves the range of `int` and the filter ends in `std::length_error`; for
`sigma = 1e-30f` the divisor `two * sigma_ * sigma_` is `0.0f` and the output
is not a raster of numbers. -/
theorem C12_vertical_pass_counterexample :
    white_1x2.Valid ∧ f32 (1 / 5) = 13421773 / 67108864 ∧
    static_cast_int (f32 (f32 (6 * (13421773 / 67108864)) + 1)) = 2 ∧
    (∀ (exp : ℚ → ℚ) (sq : ℚ), (∀ q, -100 ≤ q → 0 < exp q) → 0 < sq →
      ∃ out, F32.GaussianBlurFilter.Apply exp sq (13421773 / 67108864) white_1x2 =
          some (.ok out) ∧
        (out.GetColour 0 0).red_ ≠
          blur_spec (gaussian_kernel exp sq (13421773 / 67108864) 2) 2 white_1x2
            (fun c => c.red_) 0 0) ∧
    static_cast_int (f32 (f32 (6 * 536870912) + 1)) = -2147483648 ∧
    (∀ (exp : ℚ → ℚ) (sq : ℚ),
      F32.GaussianBlurFilter.Apply exp sq 536870912 white_1x2 = some (.error .length_error)) ∧
    f32 (1 / 10 ^ 30) = 332307 / 332306998946228968225951765070086144 ∧
    f32 (f32 (2 * (332307 / 332306998946228968225951765070086144)) *
      (332307 / 332306998946228968225951765070086144)) = 0 ∧
    (∀ (exp : ℚ → ℚ) (sq : ℚ),
      F32.GaussianBlurFilter.Apply exp sq (332307 / 332306998946228968225951765070086144)
        white_1x2 = none) := by
  refine ⟨by decide, by decide!, by decide!, ?_, by decide!, ?_, by decide!, by decide!, ?_⟩
  · intro exp sq hexp hsq
    obtain ⟨out, ho, hb, _, hc, h1, h2⟩ :=
      F32_blur_white_1x2 exp sq (13421773 / 67108864) hexp hsq (by norm_num) (by norm_num)
        (by decide!) (by decide!)
    refine ⟨out, ho, ?_⟩
    rw [h1, h2]
    have := mul_pos hc hb
    intro h
    linarith
  · intro exp sq
    exact F32_GaussianBlurFilter_Apply_big exp sq 536870912 white_1x2 (by decide) (by decide!)
  · intro exp sq
    exact F32_GaussianBlurFilter_Apply_underflow exp sq _ white_1x2 (by decide) (by decide!)
      (by decide!) (by decide) (by decide)

/-- C12 (amended): for every `sigma > 0` and every valid raster `R` of width
`W` and height `H`, with `k` the kernel size the code computes, the
conversion to `int` of the float32 value of `6 sigma + 1`, when `k ≥ 0` (the
value is below `2^31`) and the float32 product `2 sigma sigma` is not `0`, and
with `w` the normalised kernel and the sums read as exact: the filter returns
a raster; the horizontal pass alone produces the image `T`, `T(x, y)` being
the sum over `kx` in `[-k/2, k/2]` with `0 ≤ x + kx < W` of
`w[kx] * R(x + kx, y)`; and the output at every pixel `(x, 0)` of the first
row is the sum over `ky` in `[-k/2, k/2]` with `0 ≤ ky < H` of
`w'[ky] * T(x, ky)`, where `w'[ky]` is `w[ky]` when `ky + k/2 < k` and `0`
otherwise (the tap `k/2` of an even `k`). -/
theorem C12_blur_passes (exp : ℚ → ℚ) (sq sigma : ℚ) (_hs : 0 < sigma) (k : Int)
    (hk : static_cast_int (f32 (f32 (6 * sigma) + 1)) = k) (hk0 : 0 ≤ k)
    (hd : f32 (f32 (2 * sigma) * sigma) ≠ 0) (R : Image) (hv : R.Valid) :
    ∃ T out, T = blur_horizontal (gaussian_kernel exp sq sigma k) k R
        ⟨R.width_, R.height_, List.replicate (R.width_ * R.height_).toNat default⟩ ∧
      F32.GaussianBlurFilter.Apply exp sq sigma R = some (.ok out) ∧
      (∀ x y, 0 ≤ x → x < R.width_ → 0 ≤ y → y < R.height_ →
        T.GetColour x y = ⟨blur_T (gaussian_kernel exp sq sigma k) k R (fun c => c.red_) x y,
          blur_T (gaussian_kernel exp sq sigma k) k R (fun c => c.green_) x y,
          blur_T (gaussian_kernel exp sq sigma k) k R (fun c => c.blue_) x y⟩) ∧
      (∀ x, 0 ≤ x → x < R.width_ → 0 < R.height_ →
        out.GetColour x 0 =
          ⟨blur_first_row (gaussian_kernel exp sq sigma k) k R (fun c => c.red_) x,
           blur_first_row (gaussian_kernel exp sq sigma k) k R (fun c => c.green_) x,
           blur_first_row (gaussian_kernel exp sq sigma k) k R (fun c => c.blue_) x⟩) := by
  obtain ⟨out, ho, _, hT, hrow⟩ := F32_blur_first_row_eq exp sq sigma R hv hk hk0 hd
  exact ⟨_, out, rfl, ho, hT, hrow⟩

/-- Witness of C12 (amended): `sigma = 0.2f`, kernel size 2, on the white
raster of width 1 and height 2. -/
theorem C12_blur_passes_witness :
    (0 : ℚ) < 13421773 / 67108864 ∧
    static_cast_int (f32 (f32 (6 * (13421773 / 67108864)) + 1)) = 2 ∧ (0 : Int) ≤ 2 ∧
    f32 (f32 (2 * (13421773 / 67108864)) * (13421773 / 67108864)) ≠ 0 ∧ white_1x2.Valid ∧
    (∃ T out, T = blur_horizontal (gaussian_kernel unit_exp 1 (13421773 / 67108864) 2) 2 white_1x2
        ⟨white_1x2.width_, white_1x2.height_,
          List.replicate (white_1x2.width_ * white_1x2.height_).toNat default⟩ ∧
      F32.GaussianBlurFilter.Apply unit_exp 1 (13421773 / 67108864) white_1x2 = some (.ok out) ∧
      (∀ x y, 0 ≤ x → x < white_1x2.width_ → 0 ≤ y → y < white_1x2.height_ →
        T.GetColour x y =
          ⟨blur_T (gaussian_kernel unit_exp 1 (13421773 / 67108864) 2) 2 white_1x2
              (fun c => c.red_) x y,
           blur_T (gaussian_kernel unit_exp 1 (13421773 / 67108864) 2) 2 white_1x2
              (fun c => c.green_) x y,
           blur_T (gaussian_kernel unit_exp 1 (13421773 / 67108864) 2) 2 white_1x2
              (fun c => c.blue_) x y⟩) ∧
      (∀ x, 0 ≤ x → x < white_1x2.width_ → 0 < white_1x2.height_ →
        out.GetColour x 0 =
          ⟨blur_first_row (gaussian_kernel unit_exp 1 (13421773 / 67108864) 2) 2 white_1x2
              (fun c => c.red_) x,
           blur_first_row (gaussian_kernel unit_exp 1 (13421773 / 67108864) 2) 2 white_1x2
              (fun c => c.green_) x,
           blur_first_row (gaussian_kernel unit_exp 1 (13421773 / 67108864) 2) 2 white_1x2
              (fun c => c.blue_) x⟩)) :=
  ⟨by norm_num, by decide!, by decide, by decide!, by decide,
    C12_blur_passes unit_exp 1 (13421773 / 67108864) (by norm_num) 2 (by decide!) (by decide)
      (by decide!) white_1x2 (by decide)⟩

/-- C20 (counterexample): `sigma = 0x3e2aaaaa = 5592405 / 2^25` is a float
with `0 < sigma < 1/6` and `⌊6 sigma + 1⌋ = 1`, yet the float32 sum
`6 sigma + 1` rounds to `2.0f`: the kernel size is 2, the kernel has three
taps, and in the blur of the raster of width 2 and height 1 with a red and a
black pixel the black pixel gets a positive red channel, whatever values
`std::exp` and `std::sqrt(2π)` have, provided they are positive (those of
`std::exp` from `-100` on, as for the `std::exp` of `float`).  And for the
float `sigma = 1e-30f` the product `two * sigma_ * sigma_` underflows to
`0.0f`, the weight is `exp(0/0)`, and the output is not a raster of numbers. -/
theorem C20_tiny_sigma_counterexample :
    f32 (5592405 / 33554432) = 5592405 / 33554432 ∧
    (0 : ℚ) < 5592405 / 33554432 ∧ (5592405 : ℚ) / 33554432 < 1 / 6 ∧
    ⌊(6 : ℚ) * (5592405 / 33554432) + 1⌋ = 1 ∧
    f32 (6 * (5592405 / 33554432)) = 16777215 / 16777216 ∧
    f32 (f32 (6 * (5592405 / 33554432)) + 1) = 2 ∧
    static_cast_int (f32 (f32 (6 * (5592405 / 33554432)) + 1)) = 2 ∧ red_black.Valid ∧
    (red_black.GetColour 1 0).red_ = 0 ∧
    (∀ (exp : ℚ → ℚ) (sq : ℚ), (∀ q, -100 ≤ q → 0 < exp q) → 0 < sq →
      ∃ out, F32.GaussianBlurFilter.Apply exp sq (5592405 / 33554432) red_black =
          some (.ok out) ∧ 0 < (out.GetColour 1 0).red_ ∧ out ≠ red_black) ∧
    f32 (1 / 10 ^ 30) = 332307 / 332306998946228968225951765070086144 ∧
    (0 : ℚ) < 332307 / 332306998946228968225951765070086144 ∧
    (332307 : ℚ) / 332306998946228968225951765070086144 < 1 / 6 ∧
    static_cast_int (f32 (f32 (6 * (332307 / 332306998946228968225951765070086144)) + 1)) = 1 ∧
    f32 (f32 (2 * (332307 / 332306998946228968225951765070086144)) *
      (332307 / 332306998946228968225951765070086144)) = 0 ∧
    (∀ (exp : ℚ → ℚ) (sq : ℚ),
      F32.GaussianBlurFilter.Apply exp sq (332307 / 332306998946228968225951765070086144)
        red_black = none) := by
  refine ⟨by decide!, by norm_num, by norm_num, ?_, by decide!, by decide!, by decide!,
    by decide, by decide!, ?_, by decide!, by norm_num, by norm_num, by decide!, by decide!, ?_⟩
  · rw [Int.floor_eq_iff]; norm_num
  · intro exp sq hexp hsq
    obtain ⟨out, ho, ha, hb, h1⟩ :=
      F32_blur_red_black exp sq (5592405 / 33554432) hexp hsq (by norm_num) (by norm_num)
        (by decide!) (by decide!)
    have hpos : 0 < (out.GetColour 1 0).red_ := by
      rw [h1]; exact mul_pos hb ha
    refine ⟨out, ho, hpos, ?_⟩
    intro h
    rw [h] at hpos
    have p1 : (red_black.GetColour 1 0).red_ = 0 := by decide!
    rw [p1] at hpos
    exact lt_irrefl _ hpos
  · intro exp sq
    exact F32_GaussianBlurFilter_Apply_underflow exp sq _ red_black (by decide) (by decide!)
      (by decide!) (by decide) (by decide)

/-- C20 (amended): for every `sigma > 0` for which the kernel size the code
computes, the conversion to `int` of the float32 value of `6 sigma + 1`, is 1
and the float32 product `2 sigma sigma` is not `0`, the kernel is the single
weight 1 (for every `std::exp` and `std::sqrt(2π)` with `exp(0) > 0` and
`sqrt(2π) > 0`), and `GaussianBlurFilter(sigma)::Apply(R)` is `R` for every
valid raster `R`. -/
theorem C20_tiny_sigma_identity (exp : ℚ → ℚ) (sq sigma : ℚ) (hexp : 0 < exp 0)
    (hsq : 0 < sq) (hs : 0 < sigma) (hk : static_cast_int (f32 (f32 (6 * sigma) + 1)) = 1)
    (hd : f32 (f32 (2 * sigma) * sigma) ≠ 0) (R : Image) (hv : R.Valid) :
    gaussian_kernel exp sq sigma 1 = [1] ∧
      F32.GaussianBlurFilter.Apply exp sq sigma R = some (.ok R) :=
  ⟨gaussian_kernel_single exp sq sigma hexp hsq hs,
    F32_GaussianBlurFilter_Apply_one exp sq sigma hexp hsq hs hk hd R hv⟩

/-- Witness of C20 (amended): `sigma = 0x3e2aaaa9`, the float just below the
one of the counterexample, on the 2×2 sample raster. -/
theorem C20_tiny_sigma_identity_witness :
    0 < unit_exp 0 ∧ (0 : ℚ) < 1 ∧ f32 (11184809 / 67108864) = 11184809 / 67108864 ∧
    (0 : ℚ) < 11184809 / 67108864 ∧
    static_cast_int (f32 (f32 (6 * (11184809 / 67108864)) + 1)) = 1 ∧
    f32 (f32 (2 * (11184809 / 67108864)) * (11184809 / 67108864)) ≠ 0 ∧ sample_2x2.Valid ∧
    (gaussian_kernel unit_exp 1 (11184809 / 67108864) 1 = [1] ∧
      F32.GaussianBlurFilter.Apply unit_exp 1 (11184809 / 67108864) sample_2x2 =
        some (.ok sample_2x2)) :=
  ⟨by unfold unit_exp; norm_num, by norm_num, by decide!, by norm_num, by decide!,
    by decide!, by decide,
    C20_tiny_sigma_identity unit_exp 1 (11184809 / 67108864)
      (by unfold unit_exp; norm_num) (by norm_num) (by norm_num) (by decide!)
      (by decide!) sample_2x2 (by decide)⟩

/-- C21 (counterexample): for the float `sigma = 0x3e2aaaaa = 5592405 / 2^25`
the `k = ⌊6 sigma + 1⌋` of the claim is 1, with one tap, but the float32 sum
`6 sigma + 1` rounds to `2.0f` and the kernel the code builds has three
entries.  For `sigma = 15447` the kernel size is `k = 92683` and the tap
`46341` belongs to the kernel; its square does not fit an `int` and wraps to
`-2147479015`, and the weights are not `exp(-x²/(2 sigma²))` over the sum of
those values, whatever injective function with positive values `std::exp` is.
For `sigma = 2^29` the conversion of `6 sigma + 1` to `int` gives `-2^31` and
the filter ends in `std::length_error` before it builds a kernel. -/
theorem C21_kernel_counterexample :
    f32 (5592405 / 33554432) = 5592405 / 33554432 ∧ (0 : ℚ) < 5592405 / 33554432 ∧
    ⌊(6 : ℚ) * (5592405 / 33554432) + 1⌋ = 1 ∧ (2 : Int) * (1 / 2) + 1 = 1 ∧
    static_cast_int (f32 (f32 (6 * (5592405 / 33554432)) + 1)) = 2 ∧
    (∀ (exp : ℚ → ℚ) (sq : ℚ), (gaussian_kernel exp sq (5592405 / 33554432) 2).length = 3) ∧
    static_cast_int (f32 (f32 (6 * 15447) + 1)) = 92683 ∧ (1 : Int) ≤ 92683 ∧
    (46341 : Int) ∈ kernel_taps 92683 ∧ wrap32 (46341 * 46341) = -2147479015 ∧
    (∀ (exp : ℚ → ℚ) (sq : ℚ), (∀ q, 0 < exp q) → 0 < sq → Function.Injective exp →
      ¬ ∀ t ∈ kernel_taps 92683, tap_weight (gaussian_kernel exp sq 15447 92683) 92683 t =
        gauss_exp exp 15447 t / ((kernel_taps 92683).map (gauss_exp exp 15447)).sum) ∧
    static_cast_int (f32 (f32 (6 * 536870912) + 1)) = -2147483648 ∧ white_3x3.Valid ∧
    (∀ (exp : ℚ → ℚ) (sq : ℚ),
      F32.GaussianBlurFilter.Apply exp sq 536870912 white_3x3 =
        some (.error .length_error)) := by
  refine ⟨by decide!, by norm_num, ?_, by decide, by decide!, ?_, by decide!, by decide,
    (mem_kernel_taps (by decide)).mpr (by decide), by decide,
    fun exp sq hexp hsq hinj => tap_weight_wrapped exp sq hexp hsq hinj,
    by decide!, by decide, ?_⟩
  · rw [Int.floor_eq_iff]; norm_num
  · intro exp sq
    rw [gaussian_kernel_length exp sq _ (by decide)]
    rfl
  · intro exp sq
    exact F32_GaussianBlurFilter_Apply_big exp sq 536870912 white_3x3 (by decide) (by decide!)

/-- C21 (amended): for every `sigma > 0` whose kernel size `k`, the conversion
to `int` of the float32 value of `6 sigma + 1` that the code computes, is at
least 1: `k` is the floor of that float32 value, and the kernel that
`GaussianBlurFilter::Apply` builds has exactly `2 (k/2) + 1` entries (`k` for
an odd `k`, `k + 1` for an even `k`), one for each offset `x` in
`[-k/2, k/2]`; read as exact arithmetic, every weight is positive,
`w[-x] = w[x]`, and the weights add up to exactly 1 (for every `std::exp` and
`std::sqrt(2π)` with positive values); when `k/2 ≤ 46340`, so that the square
of every tap fits an `int`, each weight is `exp(-x²/(2 sigma²))` over the sum
of those values over all taps; and every index `kx + k/2` the horizontal pass
uses lies inside the kernel vector. -/
theorem C21_kernel_weights (exp : ℚ → ℚ) (sq sigma : ℚ) (hexp : ∀ q, 0 < exp q) (hsq : 0 < sq)
    (hs : 0 < sigma) (k : Int) (hk : static_cast_int (f32 (f32 (6 * sigma) + 1)) = k)
    (hk1 : 1 ≤ k) :
    k = ⌊f32 (f32 (6 * sigma) + 1)⌋ ∧
    (((gaussian_kernel exp sq sigma k).length : Nat) : Int) = 2 * (k / 2) + 1 ∧
    (((gaussian_kernel exp sq sigma k).length : Nat) : Int) = (if k % 2 = 1 then k else k + 1) ∧
    (∀ x, x ∈ kernel_taps k ↔ -(k / 2) ≤ x ∧ x ≤ k / 2) ∧
    gaussian_kernel exp sq sigma k =
      (kernel_taps k).map (tap_weight (gaussian_kernel exp sq sigma k) k) ∧
    (∀ x, -(k / 2) ≤ x → x ≤ k / 2 →
      0 < tap_weight (gaussian_kernel exp sq sigma k) k x ∧
      tap_weight (gaussian_kernel exp sq sigma k) k (-x) =
        tap_weight (gaussian_kernel exp sq sigma k) k x) ∧
    (gaussian_kernel exp sq sigma k).sum = 1 ∧
    (k / 2 ≤ 46340 → ∀ x, -(k / 2) ≤ x → x ≤ k / 2 →
      tap_weight (gaussian_kernel exp sq sigma k) k x = gauss_exp exp sigma x /
        ((kernel_taps k).map (gauss_exp exp sigma)).sum) ∧
    (∀ kx, Int.tdiv (-k) 2 ≤ kx → kx ≤ Int.tdiv k 2 →
      0 ≤ kx + Int.tdiv k 2 ∧
      kx + Int.tdiv k 2 < (((gaussian_kernel exp sq sigma k).length : Nat) : Int)) := by
  have hk0 : 0 ≤ k := by omega
  have hfl : k = ⌊f32 (f32 (6 * sigma) + 1)⌋ := by
    rw [← hk]
    exact (static_cast_int_pos (by rw [hk]; exact hk1)).1
  have hh : 0 ≤ k / 2 := Int.ediv_nonneg hk0 (by decide)
  have hlen := gaussian_kernel_length exp sq sigma hk0
  refine ⟨hfl, ?_, ?_, fun x => mem_kernel_taps hk0, gaussian_kernel_taps exp sq sigma hk0,
    ?_, gaussian_kernel_sum exp sq sigma hexp hsq hs hk0, ?_, ?_⟩
  · rw [hlen]; push_cast; omega
  · rw [hlen]; exact taps_parity hk0
  · intro x h0 h1
    have hx := (mem_kernel_taps hk0).mpr ⟨h0, h1⟩
    exact ⟨tap_weight_pos exp sq sigma hexp hsq hs hk0 hx, tap_weight_neg exp sq sigma hk0 hx⟩
  · intro h46 x h0 h1
    exact tap_weight_small exp sq sigma hsq hs hk0 h46 ((mem_kernel_taps hk0).mpr ⟨h0, h1⟩)
  · intro kx h0 h1
    exact kernel_index_range exp sq sigma hk0 h0 h1

/-- Witness of C21 (amended): `sigma = 0x3e2aaaaa`, kernel size 2, three taps. -/
theorem C21_kernel_weights_witness :
    (∀ q, 0 < unit_exp q) ∧ (0 : ℚ) < 1 ∧ (0 : ℚ) < 5592405 / 33554432 ∧
    static_cast_int (f32 (f32 (6 * (5592405 / 33554432)) + 1)) = 2 ∧ (1 : Int) ≤ 2 ∧
    ((2 : Int) = ⌊f32 (f32 (6 * (5592405 / 33554432)) + 1)⌋ ∧
    (((gaussian_kernel unit_exp 1 (5592405 / 33554432) 2).length : Nat) : Int) = 2 * (2 / 2) + 1 ∧
    (((gaussian_kernel unit_exp 1 (5592405 / 33554432) 2).length : Nat) : Int) =
      (if (2 : Int) % 2 = 1 then 2 else 2 + 1) ∧
    (∀ x, x ∈ kernel_taps 2 ↔ -(2 / 2) ≤ x ∧ x ≤ 2 / 2) ∧
    gaussian_kernel unit_exp 1 (5592405 / 33554432) 2 =
      (kernel_taps 2).map (tap_weight (gaussian_kernel unit_exp 1 (5592405 / 33554432) 2) 2) ∧
    (∀ x, -(2 / 2) ≤ x → x ≤ 2 / 2 →
      0 < tap_weight (gaussian_kernel unit_exp 1 (5592405 / 33554432) 2) 2 x ∧
      tap_weight (gaussian_kernel unit_exp 1 (5592405 / 33554432) 2) 2 (-x) =
        tap_weight (gaussian_kernel unit_exp 1 (5592405 / 33554432) 2) 2 x) ∧
    (gaussian_kernel unit_exp 1 (5592405 / 33554432) 2).sum = 1 ∧
    ((2 : Int) / 2 ≤ 46340 → ∀ x, -(2 / 2) ≤ x → x ≤ 2 / 2 →
      tap_weight (gaussian_kernel unit_exp 1 (5592405 / 33554432) 2) 2 x =
        gauss_exp unit_exp (5592405 / 33554432) x /
          ((kernel_taps 2).map (gauss_exp unit_exp (5592405 / 33554432))).sum) ∧
    (∀ kx, Int.tdiv (-2) 2 ≤ kx → kx ≤ Int.tdiv 2 2 →
      0 ≤ kx + Int.tdiv 2 2 ∧
      kx + Int.tdiv 2 2 <
        (((gaussian_kernel unit_exp 1 (5592405 / 33554432) 2).length : Nat) : Int))) :=
  ⟨fun _ => by unfold unit_exp; norm_num, by norm_num, by norm_num, by decide!, by decide,
    C21_kernel_weights unit_exp 1 (5592405 / 33554432) (fun _ => by unfold unit_exp; norm_num)
      (by norm_num) (by norm_num) 2 (by decide!) (by decide)⟩

end ImageProcessor
